import Mathlib

/-! Verification development for the Demo networking stack.

Shallow embedding of three parts of the repository:

* the bit-stream codec of `Serialization/BitStream.h`,
* the connection state machine of `Netran/impl/NetranImpl.cpp`,
* the distributed object system of `Distributed/DistributedObjectSystem.h`.

Conventions of the embedding.  Machine integers are natural numbers kept in
range by an explicit `% 2 ^ w`; `size_t` quantities (buffer sizes, bit offsets)
are unbounded naturals.  A `Buffer` (`std::vector<Byte>`) is a list of naturals,
each below 256.  The host is little-endian (`IsBigEndian () = false`), so the
object representation of an integer is the list of its bytes, least significant
first.
-/

set_option autoImplicit false

namespace Demo

/-! ## Serialization/Types.h and the macros of BitStream.h -/

/-- The type `Buffer` of Types.h: `std::vector<Byte>`, a list of bytes. -/
abbrev Buffer := List Nat

/-- The class `String` of BitStream.h, by value: the `size ()` bytes of `data ()`
(the empty list for the null buffer). -/
abbrev Str := List Nat

/-- The macro `BYTES2BITS (x)` is `x << 3`. -/
def BYTES2BITS (x : Nat) : Nat := x <<< 3

/-- The macro `BITS2BYTES (x)` is `(x + 7) >> 3`. -/
def BITS2BYTES (x : Nat) : Nat := (x + 7) >>> 3

/-- The macro `BITS2BOUNDARY (x)` is `(x + 7) & ~7`: clearing the three low bits
of `x + 7`. -/
def BITS2BOUNDARY (x : Nat) : Nat := ((x + 7) >>> 3) <<< 3

/-- The function `IsBigEndian`: the modelled host is little-endian. -/
def IsBigEndian : Bool := false

/-- The four overloads of `ReverseByteOrder`, selected by the width in bits. -/
def ReverseByteOrder (w : Nat) (u : Nat) : Nat :=
  if w = 8 then u
  else if w = 16 then (u <<< 8 ||| u >>> 8) % 2 ^ 16
  else if w = 32 then
    ((u <<< 24) % 2 ^ 32 ||| ((u &&& 0x0000ff00) <<< 8) % 2 ^ 32
      ||| (u &&& 0x00ff0000) >>> 8 ||| u >>> 24) % 2 ^ 32
  else
    ((u <<< 56) % 2 ^ 64 ||| ((u &&& 0x000000000000ff00) <<< 40) % 2 ^ 64
      ||| ((u &&& 0x0000000000ff0000) <<< 24) % 2 ^ 64
      ||| ((u &&& 0x00000000ff000000) <<< 8) % 2 ^ 64
      ||| (u &&& 0x000000ff00000000) >>> 8 ||| (u &&& 0x0000ff0000000000) >>> 24
      ||| (u &&& 0x00ff000000000000) >>> 40 ||| u >>> 56) % 2 ^ 64

/-- The unsigned integer types `U8`, `U16`, `U32`, `U64` of Types.h. -/
inductive UType where
  | U8 | U16 | U32 | U64
  deriving DecidableEq, Repr

/-- Width in bits, `sizeof (U) * 8`. -/
def UType.bits : UType → Nat
  | .U8 => 8
  | .U16 => 16
  | .U32 => 32
  | .U64 => 64

/-- The constant `Integral<U>::N_PREFIX_BITS`. -/
def N_PREFIX_BITS : UType → Nat
  | .U8 => 3
  | .U16 => 4
  | .U32 => 5
  | .U64 => 6

/-- The lookup table `N` of `Integral<U8>::GetNumEffectiveBits`. -/
def effectiveBitsTable : List Nat := [0,1,2,2,3,3,3,3,4,4,4,4,4,4,4,4]

/-- `Integral<U8>::GetNumEffectiveBits`. -/
def GetNumEffectiveBits8 (u : Nat) : Nat :=
  if u >>> 4 ≠ 0 then 4 + effectiveBitsTable.getD (u >>> 4) 0
  else effectiveBitsTable.getD u 0

/-- `Integral<U16>::GetNumEffectiveBits`. -/
def GetNumEffectiveBits16 (u : Nat) : Nat :=
  if u >>> 8 ≠ 0 then 8 + GetNumEffectiveBits8 ((u >>> 8) % 2 ^ 8)
  else GetNumEffectiveBits8 (u % 2 ^ 8)

/-- `Integral<U32>::GetNumEffectiveBits`. -/
def GetNumEffectiveBits32 (u : Nat) : Nat :=
  if u >>> 16 ≠ 0 then 16 + GetNumEffectiveBits16 ((u >>> 16) % 2 ^ 16)
  else GetNumEffectiveBits16 (u % 2 ^ 16)

/-- `Integral<U64>::GetNumEffectiveBits`. -/
def GetNumEffectiveBits64 (u : Nat) : Nat :=
  if u >>> 32 ≠ 0 then 32 + GetNumEffectiveBits32 ((u >>> 32) % 2 ^ 32)
  else GetNumEffectiveBits32 (u % 2 ^ 32)

/-- `Integral<U>::GetNumEffectiveBits`, by type. -/
def GetNumEffectiveBits : UType → Nat → Nat
  | .U8 => GetNumEffectiveBits8
  | .U16 => GetNumEffectiveBits16
  | .U32 => GetNumEffectiveBits32
  | .U64 => GetNumEffectiveBits64

/-- Object representation of a `w`-bit unsigned integer on the little-endian
host: its `w / 8` bytes, least significant first (what `(Byte*)&u` points to). -/
def toBytes (w : Nat) (u : Nat) : List Nat :=
  (List.range (w / 8)).map (fun k => (u >>> (8 * k)) % 256)

/-- The integer whose object representation is the given byte list (least
significant byte first). -/
def ofBytes : List Nat → Nat
  | [] => 0
  | b :: bs => b % 256 + 256 * ofBytes bs

/-- `Combine (s, u)` for an unsigned type of `w` bits:
`mask = ~(s & 1) + 1; return (u ^ mask) - mask;`, all modulo `2 ^ w`. -/
def Combine (w : Nat) (s u : Nat) : Nat :=
  let mask := ((2 ^ w - 1 - (s &&& 1)) + 1) % 2 ^ w
  ((u ^^^ mask) + (2 ^ w - mask)) % 2 ^ w

/-- `Sign (u)` is `u >> (sizeof (U) * 8 - 1)`. -/
def Sign (w : Nat) (u : Nat) : Nat := u >>> (w - 1)

/-- `Absolute (u)` is `Combine (Sign (u), u)`. -/
def Absolute (w : Nat) (u : Nat) : Nat := Combine w (Sign w u) u

/-- Conversion of a signed `w`-bit integer to its unsigned type (`U u = i`). -/
def toUnsigned (w : Nat) (i : Int) : Nat := (i % 2 ^ w).toNat

/-- Conversion of a `w`-bit unsigned integer to the signed type of the same
width (two's complement, `I i = u`). -/
def toSigned (w : Nat) (u : Nat) : Int :=
  if u % 2 ^ w < 2 ^ (w - 1) then (u % 2 ^ w : Nat) else (u % 2 ^ w : Nat) - 2 ^ w

/-! ## BitStreamOutput -/

/-- `std::vector::resize`: truncate, or extend with zero bytes. -/
def resize (b : Buffer) (n : Nat) : Buffer :=
  b.take n ++ List.replicate (n - b.length) 0

/-- The class `BitStreamOutput`: the referenced output buffer and the number of
bits written. -/
structure BitStreamOutput where
  m_output : Buffer
  m_nbits : Nat
  deriving DecidableEq, Repr

/-- The constructor `BitStreamOutput (output)` on a fresh (empty) buffer. -/
def BitStreamOutput.init : BitStreamOutput := ⟨[], 0⟩

/-- `BitStreamOutput::GetBitOffset`. -/
def BitStreamOutput.GetBitOffset (s : BitStreamOutput) : Nat := s.m_nbits

/-- The `while (++writeIndex <= endIndex)` loop of `WriteBits`.  `count` is the
number of iterations left (`endIndex - writeIndex`), `writeIndex` the index
already incremented, `p` the read position in the source `buffer` whose end `e`
is `nb`, `data` the previous source byte. -/
def writeLoop (buffer : List Nat) (nb lsh rsh : Nat) :
    Nat → Nat → Nat → Nat → Buffer → Buffer
  | 0, _, _, _, out => out
  | count + 1, writeIndex, p, data, out =>
    let next := if p < nb then buffer.getD p 0 else 0
    let p1 := if p < nb then p + 1 else p
    writeLoop buffer nb lsh rsh count (writeIndex + 1) p1 next
      (out.set writeIndex (((data <<< lsh) ||| (next >>> rsh)) % 256))

/-- `BitStreamOutput::WriteBits (buffer, nbits)`: append the first `nbits` bits
held in `buffer`; the last byte used holds its bits in the low positions. -/
def WriteBits (s : BitStreamOutput) (buffer : List Nat) (nbits : Nat) : BitStreamOutput :=
  if nbits = 0 then s
  else
    let out := resize s.m_output (BITS2BYTES (s.m_nbits + nbits))
    let lastByteIndex := BITS2BYTES nbits - 1
    let buffer := buffer.set lastByteIndex
      ((buffer.getD lastByteIndex 0 <<< ((8 - nbits % 8) % 8)) % 256)
    let rsh := s.m_nbits % 8
    let lsh := 8 - rsh
    let data := buffer.getD 0 0
    let mask := (0xff <<< lsh) % 256
    let writeIndex := s.m_nbits >>> 3
    let endIndex := BITS2BYTES (s.m_nbits + nbits) - 1
    let out := out.set writeIndex ((out.getD writeIndex 0 &&& mask) ||| (data >>> rsh))
    let out := writeLoop buffer (BITS2BYTES nbits) lsh rsh (endIndex - writeIndex)
      (writeIndex + 1) 1 data out
    { m_output := out, m_nbits := s.m_nbits + nbits }

/-- `BitStreamOutput::WriteBit (bit)`. -/
def WriteBit (s : BitStreamOutput) (bit : Nat) : BitStreamOutput :=
  let out := if s.m_nbits % 8 = 0 then resize s.m_output (s.m_output.length + 1)
    else s.m_output
  let out := out.set (out.length - 1)
    ((out.getD (out.length - 1) 0 ||| ((bit &&& 0x01) <<< (8 - s.m_nbits % 8 - 1))) % 256)
  { m_output := out, m_nbits := s.m_nbits + 1 }

/-- `BitStreamOutput::WriteBytesAligned (buffer, nbytes)`. -/
def WriteBytesAligned (s : BitStreamOutput) (buffer : List Nat) (nbytes : Nat) :
    BitStreamOutput :=
  if nbytes = 0 then s
  else
    { m_output := s.m_output ++ buffer.take nbytes
      m_nbits := BITS2BOUNDARY s.m_nbits + BYTES2BITS nbytes }

/-- `BitStreamOutput::Write (bool)`. -/
def WriteBool (s : BitStreamOutput) (value : Bool) : BitStreamOutput :=
  WriteBit s (if value then 0x01 else 0x00)

/-- `Writer<U>::Write (stream, u, nbits)` for an unsigned type: fixed width. -/
def WriteUN (U : UType) (s : BitStreamOutput) (u : Nat) (nbits : Nat) : BitStreamOutput :=
  let nbits := if nbits > U.bits then U.bits else nbits
  let u := if IsBigEndian then ReverseByteOrder U.bits u else u
  WriteBits s (toBytes U.bits u) nbits

/-- `Writer<U>::Write (stream, u)` for an unsigned type: variable width.  The
local `U8 nbits` is the number of effective bits minus one (0 for `u = 0`). -/
def WriteU (U : UType) (s : BitStreamOutput) (u : Nat) : BitStreamOutput :=
  let nbits : Nat := if u = 0 then 0 else (GetNumEffectiveBits U u % 256 + 255) % 256
  let n := nbits + 1
  let s1 := WriteBits s [nbits] (N_PREFIX_BITS U)
  WriteUN U s1 u n

/-- `Writer<I>::Write (stream, i)` for the signed type of the width of `U`. -/
def WriteI (U : UType) (s : BitStreamOutput) (i : Int) : BitStreamOutput :=
  let u := toUnsigned U.bits i
  let s1 := WriteBit s (Sign U.bits u % 256)
  WriteU U s1 (Absolute U.bits u)

/-- `BitStreamOutput::Write (const String&)`. -/
def WriteString (s : BitStreamOutput) (str : Str) : BitStreamOutput :=
  let sz := str.length % 2 ^ 32
  let s1 := WriteU .U32 s sz
  WriteBytesAligned s1 str sz

/-- `BitStreamOutput::Write (const Buffer&)`. -/
def WriteBuffer (s : BitStreamOutput) (b : Buffer) : BitStreamOutput :=
  let sz := b.length % 2 ^ 32
  let s1 := WriteU .U32 s sz
  WriteBytesAligned s1 b sz

/-! ## BitStreamInput -/

/-- The class `BitStreamInput`: the input buffer and the (mutable) bit offset. -/
structure BitStreamInput where
  m_input : Buffer
  m_nbits : Nat
  deriving DecidableEq, Repr

/-- The constructor `BitStreamInput (input)`. -/
def BitStreamInput.init (input : Buffer) : BitStreamInput := ⟨input, 0⟩

/-- `BitStreamInput::GetBitOffset`. -/
def BitStreamInput.GetBitOffset (s : BitStreamInput) : Nat := s.m_nbits

/-- The `while (p < e)` loop of `ReadBits`.  `count` is `e - p`, `p` the write
position in the destination `buffer`, `readIndex` and `data` as in the source. -/
def readLoop (input : Buffer) (lsh rsh endIndex : Nat) :
    Nat → Nat → Nat → Nat → List Nat → List Nat
  | 0, _, _, _, buffer => buffer
  | count + 1, p, readIndex, data, buffer =>
    let readIndex := readIndex + 1
    let next := if readIndex ≤ endIndex then input.getD readIndex 0 else 0
    readLoop input lsh rsh endIndex count (p + 1) readIndex next
      (buffer.set p (((data <<< lsh) ||| (next >>> rsh)) % 256))

/-- `BitStreamInput::ReadBits (buffer, nbits)`: the result flag, the destination
memory after the call and the stream after the call. -/
def ReadBits (s : BitStreamInput) (buffer : List Nat) (nbits : Nat) :
    Bool × List Nat × BitStreamInput :=
  if nbits = 0 then (true, buffer, s)
  else if s.m_nbits + nbits > s.m_input.length * 8 then (false, buffer, s)
  else
    let lsh := s.m_nbits % 8
    let rsh := 8 - lsh
    let readIndex := s.m_nbits >>> 3
    let endIndex := BITS2BYTES (s.m_nbits + nbits) - 1
    let data := s.m_input.getD readIndex 0
    let buffer := readLoop s.m_input lsh rsh endIndex (BITS2BYTES nbits) 0 readIndex data buffer
    let lastByteIndex := BITS2BYTES nbits - 1
    let buffer := buffer.set lastByteIndex
      (buffer.getD lastByteIndex 0 >>> ((8 - nbits % 8) % 8))
    (true, buffer, { s with m_nbits := s.m_nbits + nbits })

/-- `BitStreamInput::ReadBit (bit)`. -/
def ReadBit (s : BitStreamInput) (bit : Nat) : Bool × Nat × BitStreamInput :=
  if s.m_nbits + 1 > s.m_input.length * 8 then (false, bit, s)
  else
    let readIndex := s.m_nbits >>> 3
    let bit := (s.m_input.getD readIndex 0 >>> (8 - s.m_nbits % 8 - 1)) &&& 0x01
    (true, bit, { s with m_nbits := s.m_nbits + 1 })

/-- `BitStreamInput::ReadBytesAligned (buffer, nbytes)`: the destination is
returned as the bytes copied into it. -/
def ReadBytesAligned (s : BitStreamInput) (buffer : List Nat) (nbytes : Nat) :
    Bool × List Nat × BitStreamInput :=
  if nbytes = 0 then (true, buffer, s)
  else
    let byteIndex := BITS2BYTES s.m_nbits
    if byteIndex + nbytes > s.m_input.length then (false, buffer, s)
    else
      (true, ((s.m_input.drop byteIndex).take nbytes) ++ buffer.drop nbytes,
        { s with m_nbits := BITS2BOUNDARY s.m_nbits + BYTES2BITS nbytes })

/-- `BitStreamInput::Read (bool&)`. -/
def ReadBool (s : BitStreamInput) : Bool × Bool × BitStreamInput :=
  let r := ReadBit s 0x00
  (r.1, decide (r.2.1 = 0x01), r.2.2)

/-- `Reader<U>::Read (stream, u, nbits)` for an unsigned type: `u` is the value
the destination holds before the call. -/
def ReadUN (U : UType) (s : BitStreamInput) (u : Nat) (nbits : Nat) :
    Bool × Nat × BitStreamInput :=
  let nbits := if nbits > U.bits then U.bits else nbits
  let r := ReadBits s (toBytes U.bits u) nbits
  if r.1 then
    let v := ofBytes r.2.1
    (true, if IsBigEndian then ReverseByteOrder U.bits v else v, r.2.2)
  else (false, ofBytes r.2.1, r.2.2)

/-- `Reader<U>::Read (stream, u)` for an unsigned type: variable width. -/
def ReadU (U : UType) (s : BitStreamInput) (u : Nat) : Bool × Nat × BitStreamInput :=
  let r := ReadBits s [0] (N_PREFIX_BITS U)
  if r.1 then ReadUN U r.2.2 u (r.2.1.getD 0 0 + 1)
  else (false, u, r.2.2)

/-- `Reader<I>::Read (stream, i)` for the signed type of the width of `U`: `i` is
the value the destination holds before the call. -/
def ReadI (U : UType) (s : BitStreamInput) (i : Int) : Bool × Int × BitStreamInput :=
  let r := ReadBit s 0
  if r.1 then
    let ru := ReadU U r.2.2 0
    if ru.1 then (true, toSigned U.bits (Combine U.bits r.2.1 ru.2.1), ru.2.2)
    else (false, i, ru.2.2)
  else (false, i, r.2.2)

/-- `String::BuildFrom (stream)`, the body of `BitStreamInput::Read (String&)`:
`str` is the value of the string before the call. -/
def ReadString (s : BitStreamInput) (str : Str) : Bool × Str × BitStreamInput :=
  let r := ReadU .U32 s 0
  if r.1 then
    let sl := r.2.1
    if sl = 0 then (true, [], r.2.2)
    else
      let rb := ReadBytesAligned r.2.2 (List.replicate sl 0) sl
      if rb.1 then (true, rb.2.1, rb.2.2) else (false, str, rb.2.2)
  else (false, str, r.2.2)

/-- `BitStreamInput::Read (Buffer&)`: `b` is the buffer before the call. -/
def ReadBuffer (s : BitStreamInput) (b : Buffer) : Bool × Buffer × BitStreamInput :=
  let r := ReadU .U32 s 0
  if r.1 then
    let sz := r.2.1
    let rb := ReadBytesAligned r.2.2 (resize b sz) sz
    (rb.1, rb.2.1, rb.2.2)
  else (false, b, r.2.2)

/-! ## Bit-level view of the streams (used by the proofs) -/

/-- Source byte `k` as the write loop sees it: zero past the end `nb`. -/
def srcByte (buffer : List Nat) (nb k : Nat) : Nat := if k < nb then buffer.getD k 0 else 0

/-- Input byte `idx` as the read loop sees it: zero past `endIndex`. -/
def inByte (input : Buffer) (endIndex idx : Nat) : Nat :=
  if idx ≤ endIndex then input.getD idx 0 else 0

/-- Bit `i` of a buffer, bits numbered from the most significant bit of byte 0. -/
def bitAt (buf : Buffer) (i : Nat) : Bool := (buf.getD (i / 8) 0).testBit (7 - i % 8)

/-- Number of bits of an `n`-bit field held by its source byte `k`. -/
def nbitsIn (n k : Nat) : Nat := min 8 (n - 8 * k)

/-- Bit `j` of the `n`-bit field held in `buffer` (whole bytes first, the last
byte holding its bits in the low positions), in stream order. -/
def srcBit (buffer : List Nat) (n j : Nat) : Bool :=
  decide (j < n) && (buffer.getD (j / 8) 0).testBit (nbitsIn n (j / 8) - 1 - j % 8)

/-- The source of `WriteBits` after its last byte has been shifted left. -/
def shiftedSrc (buffer : List Nat) (n : Nat) : List Nat :=
  buffer.set (BITS2BYTES n - 1) ((buffer.getD (BITS2BYTES n - 1) 0 <<< ((8 - n % 8) % 8)) % 256)

/-- Every element is a byte. -/
def IsBytes (b : List Nat) : Prop := ∀ x ∈ b, x < 256

/-- Byte `k` of the destination of `ReadBits` of `n` bits at bit offset `m`. -/
def readByte (input : Buffer) (m n k : Nat) : Nat :=
  let raw := (((inByte input (BITS2BYTES (m + n) - 1) (m / 8 + k)) <<< (m % 8)) |||
    (inByte input (BITS2BYTES (m + n) - 1) (m / 8 + k + 1) >>> (8 - m % 8))) % 256
  if k = BITS2BYTES n - 1 then raw >>> ((8 - n % 8) % 8) else raw

/-- The stream holds at bit offset `m` the `n`-bit field of `buffer`. -/
def HasBits (input : Buffer) (m : Nat) (buffer : List Nat) (n : Nat) : Prop :=
  m + n ≤ input.length * 8 ∧ ∀ j, j < n → bitAt input (m + j) = srcBit buffer n j

instance (b : List Nat) : Decidable (IsBytes b) :=
  inferInstanceAs (Decidable (∀ x ∈ b, x < 256))

/-- Invariant of a `BitStreamOutput` whose buffer was empty at construction: the
buffer has exactly the bytes the written bits need, and the unused low bits of
its last byte are zero. -/
def BitStreamOutput.WF (s : BitStreamOutput) : Prop :=
  s.m_output.length = BITS2BYTES s.m_nbits ∧ IsBytes s.m_output ∧
    s.m_output.getD (s.m_nbits / 8) 0 % 2 ^ (8 - s.m_nbits % 8) = 0

instance (s : BitStreamOutput) : Decidable s.WF :=
  inferInstanceAs (Decidable (_ ∧ _ ∧ _))

/-- The later state `t` keeps every bit written in the earlier state `s`. -/
def Extends (s t : BitStreamOutput) : Prop :=
  s.m_nbits ≤ t.m_nbits ∧ s.m_output.length ≤ t.m_output.length ∧
    ∀ i, i < s.m_nbits → bitAt t.m_output i = bitAt s.m_output i

/-- Destination memory after a successful `ReadBits` of the `n`-bit field of
`buffer`: the first `BITS2BYTES n` bytes come from the field. -/
def fieldBytes (buffer dest : List Nat) (n : Nat) : List Nat :=
  (List.range dest.length).map fun k =>
    if k < BITS2BYTES n then buffer.getD k 0 % 2 ^ nbitsIn n k else dest.getD k 0

/-- Bound on a count of effective bits: what the round trip needs of it. -/
def EffSpec (w : Nat) (f : Nat → Nat) : Prop :=
  ∀ v, v < 2 ^ w → f v ≤ w ∧ v < 2 ^ f v ∧ (v ≠ 0 → 1 ≤ f v)

/-- The prefix value written by the variable-width writer. -/
def prefixValue (U : UType) (u : Nat) : Nat :=
  if u = 0 then 0 else (GetNumEffectiveBits U u % 256 + 255) % 256

/-- The values of a signed integer type of `w` bits. -/
def InRange (w : Nat) (i : Int) : Prop := -(2 ^ (w - 1) : Int) ≤ i ∧ i < 2 ^ (w - 1)

instance (w : Nat) (i : Int) : Decidable (InRange w i) :=
  inferInstanceAs (Decidable (_ ∧ _))

/-! ## Netran/Netran.h and Netran/impl/NetranImpl.cpp -/

/-- The type `Address` of Netran.h: `std::string`. -/
abbrev Address := String

/-- Conversion of an `int` to `int16_t` (two's complement narrowing). -/
def toInt16 (x : Int) : Int := (x + 32768) % 65536 - 32768

/-- `eq (seq1, seq2)`. -/
def eq (seq1 seq2 : Nat) : Bool := decide (seq1 = seq2)

/-- `gt (seq1, seq2)`: `int16_t diff = seq1 - seq2; return diff > 0;`. -/
def gt (seq1 seq2 : Nat) : Bool := decide (toInt16 ((seq1 : Int) - (seq2 : Int)) > 0)

/-- `ge (seq1, seq2)`. -/
def ge (seq1 seq2 : Nat) : Bool := decide (toInt16 ((seq1 : Int) - (seq2 : Int)) ≥ 0)

/-- `lt (seq1, seq2)`. -/
def lt (seq1 seq2 : Nat) : Bool := decide (toInt16 ((seq1 : Int) - (seq2 : Int)) < 0)

/-- `le (seq1, seq2)`. -/
def le (seq1 seq2 : Nat) : Bool := decide (toInt16 ((seq1 : Int) - (seq2 : Int)) ≤ 0)

/-- The struct `Header`: four `uint16_t` fields. -/
structure Header where
  seqnum : Nat
  acknum : Nat
  pflags : Nat
  length : Nat
  deriving DecidableEq, Repr

/-- `sizeof (Header)`. -/
def sizeofHeader : Nat := 8

/-- Object representation of a `uint16_t` (the value is narrowed to 16 bits). -/
def u16Bytes (x : Nat) : List Nat := [x % 256, x / 256 % 256]

/-- The `uint16_t` stored at byte offset `off` of a buffer. -/
def readU16 (b : Buffer) (off : Nat) : Nat :=
  b.getD off 0 % 256 + 256 * (b.getD (off + 1) 0 % 256)

/-- The header a packet starts with: `reinterpret_cast<const Header*> (&packet[0])`. -/
def Header.read (packet : Buffer) : Header :=
  ⟨readU16 packet 0, readU16 packet 2, readU16 packet 4, readU16 packet 6⟩

/-- The eight bytes of a header. -/
def Header.bytes (h : Header) : List Nat :=
  u16Bytes h.seqnum ++ u16Bytes h.acknum ++ u16Bytes h.pflags ++ u16Bytes h.length

/-- The `float` stored in the first four bytes of a packet, `*(float*)header`,
carried as its 32-bit pattern. -/
def readF32 (packet : Buffer) : Nat := ofBytes (resize (packet.take 4) 4)

def FLAG_ALL : Nat := 0x00ff

def FLAG_RLB : Nat := 0x0001

def FLAG_ACK : Nat := 0x0002

def FLAG_SYN : Nat := 0x0004

def FLAG_RST : Nat := 0x0008

def FLAG_PIN : Nat := 0x0010

def FLAG_PON : Nat := 0x0020

def FLAG_BWP : Nat := 0x0040

def FLAG_BWR : Nat := 0x0080

/-- `RETX_INTERVAL`, in milliseconds. -/
def RETX_INTERVAL : ℚ := 500

/-- `RETX_COUNT`. -/
def RETX_COUNT : Nat := 120

/-- `PING_TIMEOUT`, in milliseconds. -/
def PING_TIMEOUT : ℚ := 1000

/-- `BANDWIDTH_ESTIMATION_TIMEOUT`, in milliseconds. -/
def BANDWIDTH_ESTIMATION_TIMEOUT : ℚ := 1000

def MAXNUM_PACKETS_PER_CYCLE : Nat := 256

def SIZE_BW_POLL : Nat := 512

/-- The enumeration `Connection::State`. -/
inductive State where
  | STATE_CLOSED | STATE_LISTEN | STATE_SYNRCVD | STATE_SYNSENT | STATE_ESTABED
  deriving DecidableEq, Repr

/-- The struct `Connection::RetransmissionInfo`; the `float` timeout is an exact
number of milliseconds. -/
structure RetransmissionInfo where
  timeout : ℚ
  count : Nat
  buffer : Buffer
  deriving DecidableEq, Repr

/-- What a connection does to the outside: datagrams handed to the socket and
listener callbacks, in the order of the calls.  `deliverable` is no call of the
program: it marks the point `packet is deliverable to the application layer` of
the reliable receive loop and records the sequence number of the packet taken
from the reassembly list. -/
inductive Event where
  | send (raddr : Address) (packet : Buffer)
  | deliverable (seqnum : Nat) (data : Buffer)
  | OnIncomingData (data : Buffer)
  | OnConnectComplete (connection : Bool)
  | OnConnectionBroken
  | OnCreateConnection (raddr : Address)
  | OnDeleteConnection (raddr : Address)
  deriving DecidableEq, Repr

/-- What the program reads from its surroundings during one call: the clock
`time ()`, and the results of the `float` computations on the timers, as 32-bit
patterns (`Timer::Now ()` for the ping and for the bandwidth poll,
`Timer::Now () - m_ping_timestamp` and
`SIZE_BW_POLL / m_timer_bw.GetElapsedMilliseconds () * 1000.0f`). -/
structure Env where
  time : Nat
  now : Nat
  nowPoll : Nat
  pingTime : Nat
  bandwidth : Nat
  deriving DecidableEq, Repr

/-- The class `Connection` without `m_children` (see `MasterConnection`).
Pointers are kept as flags (set or null); the timers are left out; `float`
timestamps are 32-bit patterns and `float` timeouts exact milliseconds. -/
structure Connection where
  m_master : Bool
  m_server : Bool
  m_client : Bool
  m_socket : Bool
  m_listener : Bool
  m_raddr : Address
  m_state : State
  m_unreliable_outgoing_sequence : Nat
  m_unreliable_incoming_sequence : Nat
  m_reliable_retransmission_queue : List (Nat × RetransmissionInfo)
  m_ping_time : Nat
  m_ping_timeout : ℚ
  m_ping_timestamp : Nat
  m_bandwidth : Nat
  m_bandwidth_timeout : ℚ
  m_bandwidth_timestamp : Nat
  m_reliable_outgoing_sequence : Nat
  m_reliable_lowest_acceptable_sequence : Nat
  m_reliable_latest_legal_ack : Nat
  m_reliable_duplicated_ack_count : Nat
  m_reliable_incoming_queue : List Buffer
  m_reliable_reassembly_list : List (Nat × Buffer)
  deriving DecidableEq, Repr

/-- A connection together with its `m_children` (`std::unordered_map<Address,
ptr>`, an association list).  Only a master connection ever has children: a
child is built by `new Connection (false)`, for which `Listen` and
`state_listen` return at once. -/
structure MasterConnection where
  conn : Connection
  m_children : List (Address × Connection)
  deriving DecidableEq, Repr

/-- The constructor `Connection::Connection (master)`. -/
def Connection.new (master : Bool) : Connection where
  m_master := master
  m_server := false
  m_client := false
  m_socket := false
  m_listener := false
  m_raddr := ""
  m_state := .STATE_CLOSED
  m_unreliable_outgoing_sequence := 0
  m_unreliable_incoming_sequence := 0
  m_reliable_retransmission_queue := []
  m_ping_time := 0
  m_ping_timeout := 0
  m_ping_timestamp := 0
  m_bandwidth := 0
  m_bandwidth_timeout := 0
  m_bandwidth_timestamp := 0
  m_reliable_outgoing_sequence := 0
  m_reliable_lowest_acceptable_sequence := 0
  m_reliable_latest_legal_ack := 0
  m_reliable_duplicated_ack_count := 0
  m_reliable_incoming_queue := []
  m_reliable_reassembly_list := []

/-- `std::map::emplace` under the comparator `Connection::Less` (`lt`): the map
is the list of its entries in iteration order; an entry whose key is equivalent
to the new key keeps its place and its value. -/
def mapEmplace {α : Type} (k : Nat) (v : α) : List (Nat × α) → List (Nat × α)
  | [] => [(k, v)]
  | (k1, v1) :: rest =>
    if lt k k1 then (k, v) :: (k1, v1) :: rest
    else if lt k1 k then (k1, v1) :: mapEmplace k v rest
    else (k1, v1) :: rest

/-- `erase (begin (), lower_bound (k))` under `Connection::Less`: drop the
leading entries whose key is less than `k`. -/
def eraseBelow {α : Type} (k : Nat) (m : List (Nat × α)) : List (Nat × α) :=
  m.dropWhile (fun e => lt e.1 k)

/-- The test `lower_bound (k) != begin ()`: the first entry is less than `k`. -/
def lowerBoundNotBegin {α : Type} (k : Nat) (m : List (Nat × α)) : Bool :=
  match m with
  | [] => false
  | e :: _ => lt e.1 k

/-- `Connection::reset (broken)`. -/
def Connection.reset (c : Connection) (broken : Bool) : Connection × List Event :=
  let events : List Event :=
    if broken then
      match c.m_state with
      | .STATE_ESTABED =>
        (if c.m_server then [Event.OnDeleteConnection c.m_raddr] else []) ++
          (if c.m_client then [Event.OnConnectionBroken] else [])
      | .STATE_SYNSENT => [Event.OnConnectComplete false]
      | _ => []
    else []
  (Connection.new c.m_master, events)

/-- The packet of `send_reset`. -/
def resetPacket : Buffer := Header.bytes ⟨0, 0, FLAG_RST, 0⟩

/-- The packet of `send_ack (raddr, acknum)`. -/
def ackPacket (acknum : Nat) : Buffer := Header.bytes ⟨0, acknum, FLAG_ACK, 0⟩

/-- The packet of `send_ping`, `send_pong` and `send_bw_rslt`: a `float` in the
first four bytes, then the flags and a zero length. -/
def floatPacket (value : Nat) (pflags : Nat) : Buffer :=
  toBytes 32 value ++ u16Bytes pflags ++ u16Bytes 0

/-- One of the two packets of `send_bw_poll`: `SIZE_BW_POLL` bytes. -/
def bwPollPacket (timestamp : Nat) (pflags : Nat) : Buffer :=
  toBytes 32 timestamp ++ u16Bytes pflags ++ u16Bytes (SIZE_BW_POLL - sizeofHeader)
    ++ List.replicate (SIZE_BW_POLL - sizeofHeader) 0

/-- `Connection::send_reset (raddr)`. -/
def send_reset (raddr : Address) : List Event := [Event.send raddr resetPacket]

/-- `Connection::send_ack (raddr, acknum)`. -/
def send_ack (raddr : Address) (acknum : Nat) : List Event := [Event.send raddr (ackPacket acknum)]

/-- `Connection::send_ping (raddr, timestamp)`. -/
def send_ping (raddr : Address) (timestamp : Nat) : List Event :=
  [Event.send raddr (floatPacket timestamp FLAG_PIN)]

/-- `Connection::send_pong (raddr, timestamp)`. -/
def send_pong (raddr : Address) (timestamp : Nat) : List Event :=
  [Event.send raddr (floatPacket timestamp FLAG_PON)]

/-- `Connection::send_bw_rslt (raddr, bandwidth)`. -/
def send_bw_rslt (raddr : Address) (bandwidth : Nat) : List Event :=
  [Event.send raddr (floatPacket bandwidth FLAG_BWR)]

/-- `Connection::send_bw_poll (raddr, timestamp)`. -/
def send_bw_poll (raddr : Address) (timestamp : Nat) : List Event :=
  [Event.send raddr (bwPollPacket timestamp (FLAG_BWP ||| 0x0000)),
   Event.send raddr (bwPollPacket timestamp (FLAG_BWP ||| 0x0100))]

/-- `Connection::Listen (server)`. -/
def Connection.Listen (c : Connection) : Connection :=
  if !c.m_master || c.m_state ≠ .STATE_CLOSED then c
  else { c with m_socket := true, m_server := true, m_state := .STATE_LISTEN }

/-- `Connection::Connect (raddr, client)`. -/
def Connection.Connect (c : Connection) (env : Env) (raddr : Address) :
    Connection × List Event :=
  if !c.m_master || c.m_state ≠ .STATE_CLOSED then (c, [])
  else
    let isn := env.time % 65536
    let packet := Header.bytes ⟨isn, 0, FLAG_RLB ||| FLAG_SYN, 0⟩
    ({ c with
        m_raddr := raddr
        m_socket := true
        m_client := true
        m_reliable_retransmission_queue :=
          mapEmplace isn ⟨RETX_INTERVAL, RETX_COUNT, packet⟩ c.m_reliable_retransmission_queue
        m_unreliable_outgoing_sequence := isn
        m_reliable_outgoing_sequence := (isn + 1) % 65536
        m_state := .STATE_SYNSENT },
      [Event.send raddr packet])

/-- `Connection::Close ()` on a connection whose `m_children` is empty (for a
connection with children see `MasterConnection.Close`). -/
def Connection.Close (c : Connection) : Connection × List Event :=
  if c.m_state = .STATE_CLOSED then (c, [])
  else if c.m_state = .STATE_LISTEN then c.reset false
  else
    let r := c.reset false
    (r.1, send_reset c.m_raddr ++ r.2)

/-- The loop of `Connection::Close ()` over `m_children`: the events of the
children's `Close ()`, in iteration order. -/
def closeChildren : List (Address × Connection) → List Event
  | [] => []
  | (_, child) :: rest => (child.Close).2 ++ closeChildren rest

/-- `Connection::Close ()` on a connection with children. -/
def MasterConnection.Close (m : MasterConnection) : MasterConnection × List Event :=
  if m.conn.m_state = .STATE_CLOSED then (m, [])
  else if m.conn.m_state = .STATE_LISTEN then
    let r := m.conn.reset false
    (⟨r.1, []⟩, closeChildren m.m_children ++ r.2)
  else
    let r := m.conn.reset false
    (⟨r.1, m.m_children⟩, send_reset m.conn.m_raddr ++ r.2)

/-- `Connection::Setup (listener)`. -/
def Connection.Setup (c : Connection) : Connection × List Event :=
  ({ c with m_listener := true, m_reliable_incoming_queue := [] },
    c.m_reliable_incoming_queue.map Event.OnIncomingData)

/-- `Connection::Send (data, reliable)`. -/
def Connection.Send (c : Connection) (data : Buffer) (reliable : Bool) :
    Connection × List Event :=
  if c.m_state ≠ .STATE_ESTABED then (c, [])
  else if reliable then
    let seqnum := c.m_reliable_outgoing_sequence
    let packet := Header.bytes ⟨seqnum, 0, FLAG_RLB, data.length⟩ ++ data
    ({ c with
        m_reliable_outgoing_sequence := (c.m_reliable_outgoing_sequence + 1) % 65536
        m_reliable_retransmission_queue :=
          mapEmplace seqnum ⟨RETX_INTERVAL, RETX_COUNT, packet⟩
            c.m_reliable_retransmission_queue },
      [Event.send c.m_raddr packet])
  else
    let seqnum := c.m_unreliable_outgoing_sequence
    let packet := Header.bytes ⟨seqnum, 0, 0, data.length⟩ ++ data
    ({ c with m_unreliable_outgoing_sequence := (c.m_unreliable_outgoing_sequence + 1) % 65536 },
      [Event.send c.m_raddr packet])

/-- `Connection::state_closed (raddr, packet)`. -/
def state_closed (c : Connection) (raddr : Address) (packet : Buffer) :
    Connection × List Event :=
  let header := Header.read packet
  if header.pflags &&& FLAG_RST = 0 then (c, send_reset raddr) else (c, [])

/-- `Connection::state_synsent (raddr, packet)`. -/
def state_synsent (c : Connection) (raddr : Address) (packet : Buffer) :
    Connection × List Event :=
  if !c.m_master || !c.m_client then (c, [])
  else
    let header := Header.read packet
    -- the `try` block: `none` when nothing is thrown, else the events before the throw
    let thrown : Option (List Event) :=
      if header.pflags &&& FLAG_RST ≠ 0 then some []
      else if c.m_raddr ≠ raddr then some (send_reset raddr)
      else if header.pflags &&& FLAG_ALL ≠ (FLAG_RLB ||| FLAG_SYN ||| FLAG_ACK) then
        some (send_reset raddr)
      else if !eq header.acknum c.m_reliable_outgoing_sequence then some (send_reset raddr)
      else none
    match thrown with
    | some events =>
      let r := c.reset false
      (r.1, events ++ [Event.OnConnectComplete false] ++ r.2)
    | none =>
      let lowest := (header.seqnum + 1) % 65536
      ({ c with
          m_reliable_latest_legal_ack := header.acknum
          m_reliable_retransmission_queue := c.m_reliable_retransmission_queue.drop 1
          m_unreliable_incoming_sequence := header.seqnum
          m_reliable_lowest_acceptable_sequence := lowest
          m_state := .STATE_ESTABED },
        send_ack raddr lowest ++ [Event.OnConnectComplete true])

/-- `Connection::state_synrcvd (raddr, packet)`. -/
def state_synrcvd (c : Connection) (raddr : Address) (packet : Buffer) :
    Connection × List Event :=
  let header := Header.read packet
  if header.pflags &&& FLAG_RST ≠ 0 then c.reset true
  else if header.pflags &&& FLAG_ALL ≠ FLAG_ACK then (c, [])
  else if header.acknum ≠ c.m_reliable_outgoing_sequence then
    let r := c.reset true
    (r.1, send_reset raddr ++ r.2)
  else
    ({ c with
        m_reliable_latest_legal_ack := header.acknum
        m_reliable_retransmission_queue := c.m_reliable_retransmission_queue.drop 1
        m_state := .STATE_ESTABED },
      [Event.OnCreateConnection c.m_raddr])

/-- The payload of a stored packet: `Buffer data (hdr->length); memcpy (&data[0],
&pkt[sizeof (Header)], data.size ())`. -/
def payloadOf (pkt : Buffer) : Buffer :=
  (pkt.drop sizeofHeader).take (Header.read pkt).length

/-- The loop of the reliable receive path over the reassembly list: starting
with `current`, hand over the entries whose keys are `current`, `current + 1`,
and so on, and stop at the first entry that is not the next one.  Returns the
events, the payloads appended to the incoming queue, the entries left and the
final `current`. -/
def deliverLoop (listener : Bool) :
    Nat → List (Nat × Buffer) → List Event × List Buffer × List (Nat × Buffer) × Nat
  | current, [] => ([], [], [], current)
  | current, (k, pkt) :: rest =>
    if k ≠ current then ([], [], (k, pkt) :: rest, current)
    else
      let data := payloadOf pkt
      let r := deliverLoop listener ((current + 1) % 65536) rest
      if listener then
        (Event.deliverable (Header.read pkt).seqnum data :: Event.OnIncomingData data :: r.1,
          r.2.1, r.2.2.1, r.2.2.2)
      else
        (Event.deliverable (Header.read pkt).seqnum data :: r.1, data :: r.2.1, r.2.2.1, r.2.2.2)

/-- `Connection::state_estabed (raddr, packet)`. -/
def state_estabed (c : Connection) (env : Env) (raddr : Address) (packet : Buffer) :
    Connection × List Event :=
  if c.m_master && c.m_raddr ≠ raddr then (c, send_reset raddr)
  else
    let header := Header.read packet
    if header.pflags &&& FLAG_RST ≠ 0 then c.reset true
    else if header.pflags &&& FLAG_PIN ≠ 0 then (c, send_pong raddr (readF32 packet))
    else if header.pflags &&& FLAG_PON ≠ 0 then
      if c.m_ping_timestamp = readF32 packet then ({ c with m_ping_time := env.pingTime }, [])
      else (c, [])
    else if header.pflags &&& FLAG_BWP ≠ 0 then
      if header.pflags &&& 0xff00 = 0x0000 then
        ({ c with m_bandwidth_timestamp := readF32 packet }, [])
      else if header.pflags &&& 0xff00 = 0x0100 then
        if c.m_bandwidth_timestamp = readF32 packet then (c, send_bw_rslt raddr env.bandwidth)
        else (c, [])
      else (c, [])
    else if header.pflags &&& FLAG_BWR ≠ 0 then ({ c with m_bandwidth := readF32 packet }, [])
    else if header.pflags &&& FLAG_ACK ≠ 0 then
      if header.length > 0 then (c, [])
      else if gt header.acknum c.m_reliable_outgoing_sequence then
        let r := c.reset true
        (r.1, send_reset raddr ++ r.2)
      else if eq header.acknum c.m_reliable_latest_legal_ack
          && !c.m_reliable_retransmission_queue.isEmpty then
        -- `++m_reliable_duplicated_ack_count >= 3`
        let count := (c.m_reliable_duplicated_ack_count + 1) % 65536
        if count ≥ 3 then
          ({ c with m_reliable_duplicated_ack_count := 0 },
            match c.m_reliable_retransmission_queue with
            | [] => []
            | e :: _ => [Event.send raddr e.2.buffer])
        else
          let legal := lowerBoundNotBegin header.acknum c.m_reliable_retransmission_queue
          ({ c with
              m_reliable_latest_legal_ack :=
                if legal then header.acknum else c.m_reliable_latest_legal_ack
              m_reliable_duplicated_ack_count := if legal then 0 else count
              m_reliable_retransmission_queue :=
                eraseBelow header.acknum c.m_reliable_retransmission_queue }, [])
      else
        let legal := lowerBoundNotBegin header.acknum c.m_reliable_retransmission_queue
        ({ c with
            m_reliable_latest_legal_ack :=
              if legal then header.acknum else c.m_reliable_latest_legal_ack
            m_reliable_duplicated_ack_count :=
              if legal then 0 else c.m_reliable_duplicated_ack_count
            m_reliable_retransmission_queue :=
              eraseBelow header.acknum c.m_reliable_retransmission_queue }, [])
    else if header.length = 0 then (c, [])
    else if header.pflags &&& FLAG_RLB ≠ 0 then
      if ge header.seqnum c.m_reliable_lowest_acceptable_sequence then
        let list := mapEmplace header.seqnum packet c.m_reliable_reassembly_list
        let r := deliverLoop c.m_listener c.m_reliable_lowest_acceptable_sequence list
        ({ c with
            m_reliable_incoming_queue := c.m_reliable_incoming_queue ++ r.2.1
            m_reliable_reassembly_list := r.2.2.1
            m_reliable_lowest_acceptable_sequence := r.2.2.2 },
          r.1 ++ send_ack raddr r.2.2.2)
      else (c, send_ack raddr c.m_reliable_lowest_acceptable_sequence)
    else
      if lt header.seqnum c.m_unreliable_incoming_sequence then (c, [])
      else
        ({ c with m_unreliable_incoming_sequence := (header.seqnum + 1) % 65536 },
          if c.m_listener then [Event.OnIncomingData (payloadOf packet)] else [])

/-- The call `(connection->*connection->m_fsm[state]) (raddr, packet)` on a
connection without children; `state_listen` returns at once on it. -/
def Connection.fsm (c : Connection) (env : Env) (raddr : Address) (packet : Buffer) :
    Connection × List Event :=
  match c.m_state with
  | .STATE_CLOSED => state_closed c raddr packet
  | .STATE_LISTEN => (c, [])
  | .STATE_SYNRCVD => state_synrcvd c raddr packet
  | .STATE_SYNSENT => state_synsent c raddr packet
  | .STATE_ESTABED => state_estabed c env raddr packet

/-- `m_children.find (raddr)`. -/
def findChild (raddr : Address) (children : List (Address × Connection)) : Option Connection :=
  (children.find? (fun e => e.1 == raddr)).map (fun e => e.2)

/-- Assignment through the iterator of a found child. -/
def setChild (raddr : Address) (child : Connection) :
    List (Address × Connection) → List (Address × Connection)
  | [] => []
  | (a, c) :: rest =>
    if a == raddr then (a, child) :: rest else (a, c) :: setChild raddr child rest

/-- `m_children.erase (it)` for the entry of `raddr`. -/
def eraseChild (raddr : Address) (children : List (Address × Connection)) :
    List (Address × Connection) :=
  children.filter (fun e => !(e.1 == raddr))

/-- `Connection::state_listen (raddr, packet)` on the master connection. -/
def state_listen (m : MasterConnection) (env : Env) (raddr : Address) (packet : Buffer) :
    MasterConnection × List Event :=
  if !m.conn.m_master then (m, [])
  else
    match findChild raddr m.m_children with
    | some connection =>
      let r := connection.fsm env raddr packet
      if r.1.m_state = .STATE_CLOSED then
        ({ m with m_children := eraseChild raddr m.m_children }, r.2)
      else ({ m with m_children := setChild raddr r.1 m.m_children }, r.2)
    | none =>
      let header := Header.read packet
      if header.pflags ≠ (FLAG_RLB ||| FLAG_SYN) then
        if header.pflags &&& FLAG_RST = 0 then (m, send_reset raddr) else (m, [])
      else
        let isn := env.time % 65536
        let pkt := Header.bytes ⟨isn, (header.seqnum + 1) % 65536,
          FLAG_RLB ||| FLAG_SYN ||| FLAG_ACK, 0⟩
        let connection : Connection :=
          { Connection.new false with
            m_server := m.conn.m_server
            m_socket := m.conn.m_socket
            m_raddr := raddr
            m_unreliable_incoming_sequence := header.seqnum
            m_reliable_lowest_acceptable_sequence := (header.seqnum + 1) % 65536
            m_reliable_retransmission_queue :=
              mapEmplace isn ⟨RETX_INTERVAL, RETX_COUNT, pkt⟩ []
            m_unreliable_outgoing_sequence := isn
            m_reliable_outgoing_sequence := (isn + 1) % 65536
            m_state := .STATE_SYNRCVD }
        ({ m with m_children := m.m_children ++ [(raddr, connection)] },
          [Event.send raddr pkt])

/-- The call `(this->*m_fsm[m_state]) (raddr, packet)` of `Tick` on the master
connection. -/
def MasterConnection.fsm (m : MasterConnection) (env : Env) (raddr : Address)
    (packet : Buffer) : MasterConnection × List Event :=
  match m.conn.m_state with
  | .STATE_LISTEN => state_listen m env raddr packet
  | _ =>
    let r := m.conn.fsm env raddr packet
    ({ m with conn := r.1 }, r.2)

/-- `Connection::Kick (raddr)`. -/
def MasterConnection.Kick (m : MasterConnection) (raddr : Address) :
    MasterConnection × List Event :=
  if !m.conn.m_master || m.conn.m_state ≠ .STATE_LISTEN then (m, [])
  else
    match findChild raddr m.m_children with
    | some connection =>
      ({ m with m_children := eraseChild raddr m.m_children }, (connection.Close).2)
    | none => (m, [])

/-- The loop of `Connection::check_timeout` over the retransmission queue: the
datagrams sent again, and the queue after the loop, or `none` when an entry had
no retry left (the function then resets the connection and returns). -/
def retransmitLoop (raddr : Address) (elapsed : ℚ) :
    List (Nat × RetransmissionInfo) → List Event × Option (List (Nat × RetransmissionInfo))
  | [] => ([], some [])
  | (k, info) :: rest =>
    if info.timeout ≤ elapsed then
      if info.count = 0 then ([], none)
      else
        let r := retransmitLoop raddr elapsed rest
        (Event.send raddr info.buffer :: r.1,
          r.2.map (fun q => (k, { info with timeout := RETX_INTERVAL, count := info.count - 1 }) :: q))
    else
      let r := retransmitLoop raddr elapsed rest
      (r.1, r.2.map (fun q => (k, { info with timeout := info.timeout - elapsed }) :: q))

/-- `Connection::check_timeout (elapsed)`. -/
def Connection.check_timeout (c : Connection) (env : Env) (elapsed : ℚ) :
    Connection × List Event :=
  let r := retransmitLoop c.m_raddr elapsed c.m_reliable_retransmission_queue
  match r.2 with
  | none =>
    let x := c.reset true
    (x.1, r.1 ++ x.2)
  | some queue =>
    let c1 := { c with m_reliable_retransmission_queue := queue }
    if c1.m_state = .STATE_ESTABED then
      let p : Connection × List Event :=
        if c1.m_ping_timeout ≤ elapsed then
          ({ c1 with m_ping_timestamp := env.now, m_ping_timeout := PING_TIMEOUT },
            send_ping c1.m_raddr env.now)
        else ({ c1 with m_ping_timeout := c1.m_ping_timeout - elapsed }, [])
      let b : Connection × List Event :=
        if p.1.m_bandwidth_timeout ≤ elapsed then
          ({ p.1 with m_bandwidth_timeout := BANDWIDTH_ESTIMATION_TIMEOUT },
            send_bw_poll p.1.m_raddr env.nowPoll)
        else ({ p.1 with m_bandwidth_timeout := p.1.m_bandwidth_timeout - elapsed }, [])
      (b.1, r.1 ++ p.2 ++ b.2)
    else (c1, r.1)

/-! ## Distributed/DistributedObjectSystem.h -/

/-- The type `ObjectID`: `U64`. -/
abbrev ObjectID := Nat

def MASTER_OBJECT : ObjectID := 0

def MESSAGE_INVALID_TYPE : Nat := 0

def MESSAGE_CREATE_OBJECT : Nat := 1

def MESSAGE_DELETE_OBJECT : Nat := 2

def MESSAGE_UPDATE_OBJECT : Nat := 3

def MESSAGE_INVOKE_METHOD : Nat := 4

/-- The interface `IDistributedObject`, as far as the object system uses it when
it writes: the virtual `Serialize (s)` on an output stream, with its result. -/
structure IDistributedObject where
  Serialize : BitStreamOutput → Bool × BitStreamOutput

/-- A call `m_connection->Send (buffer, reliable)` of the object system, with
the message type and the object id the buffer starts with. -/
structure Sent where
  msgType : Nat
  objID : ObjectID
  buffer : Buffer
  reliable : Bool
  deriving DecidableEq, Repr

/-- The class `DistributedObjectSystemConnection`: its `m_spawnedObjects`
(`std::unordered_set<ObjectID>`, a list without repetition). -/
structure DistributedObjectSystemConnection where
  m_spawnedObjects : List ObjectID
  deriving DecidableEq, Repr

/-- `std::unordered_set::insert`. -/
def setInsert (x : ObjectID) (s : List ObjectID) : List ObjectID :=
  if x ∈ s then s else s ++ [x]

/-- `std::unordered_set::erase`. -/
def setErase (x : ObjectID) (s : List ObjectID) : List ObjectID :=
  s.filter (fun y => y ≠ x)

/-- The start of every message: `SERIALIZE (s, msgType); SERIALIZE (s, objID);`
on a fresh output wrapper (default policies: `stream.Write`). -/
def messageStart (msgType : Nat) (objID : ObjectID) : BitStreamOutput :=
  WriteU .U64 (WriteU .U8 BitStreamOutput.init msgType) objID

/-- `DistributedObjectSystemConnection::CreateRemoteObject (objID, pobj)`: the
connection after the call, the result and the messages sent. -/
def DistributedObjectSystemConnection.CreateRemoteObject
    (c : DistributedObjectSystemConnection) (objID : ObjectID)
    (pobj : Option IDistributedObject) :
    DistributedObjectSystemConnection × Bool × List Sent :=
  if objID ∈ c.m_spawnedObjects then (c, true, [])
  else
    match pobj with
    | some obj =>
      let r := obj.Serialize (messageStart MESSAGE_CREATE_OBJECT objID)
      if !r.1 then (c, false, [])
      else
        (⟨setInsert objID c.m_spawnedObjects⟩, true,
          [⟨MESSAGE_CREATE_OBJECT, objID, r.2.m_output, true⟩])
    | none => (⟨setInsert objID c.m_spawnedObjects⟩, true, [])

/-- `DistributedObjectSystemConnection::DeleteRemoteObject (objID)`. -/
def DistributedObjectSystemConnection.DeleteRemoteObject
    (c : DistributedObjectSystemConnection) (objID : ObjectID) :
    DistributedObjectSystemConnection × Bool × List Sent :=
  if objID ∈ c.m_spawnedObjects then
    (⟨setErase objID c.m_spawnedObjects⟩, true,
      [⟨MESSAGE_DELETE_OBJECT, objID, (messageStart MESSAGE_DELETE_OBJECT objID).m_output, true⟩])
  else (c, false, [])

/-- `DistributedObjectSystemConnection::InvokeRemoteMethod (objID, signature, m,
args, reliable)`; `args` is `ArgumentsSerializer<M> (s, args) ()` on the output
stream. -/
def DistributedObjectSystemConnection.InvokeRemoteMethod
    (c : DistributedObjectSystemConnection) (objID : ObjectID) (signature : Str)
    (args : BitStreamOutput → Bool × BitStreamOutput) (reliable : Bool) :
    DistributedObjectSystemConnection × Bool × List Sent :=
  let r := args (WriteString (messageStart MESSAGE_INVOKE_METHOD objID) signature)
  if !r.1 then (c, false, [])
  else (c, true, [⟨MESSAGE_INVOKE_METHOD, objID, r.2.m_output, reliable⟩])

/-- The class `DistributedObjectSystemServer`: the bound objects of its base
class and its connections, both `std::unordered_map`s kept as association
lists. -/
structure DistributedObjectSystemServer where
  m_boundObjects : List (ObjectID × IDistributedObject)
  m_connections : List (Address × DistributedObjectSystemConnection)

/-- `DistributedObjectSystemBase::Translate (objID)`. -/
def DistributedObjectSystemServer.Translate (srv : DistributedObjectSystemServer)
    (objID : ObjectID) : Option IDistributedObject :=
  (srv.m_boundObjects.find? (fun e => e.1 == objID)).map (fun e => e.2)

/-- `m_connections.find (connID)`. -/
def findConnection (connID : Address)
    (conns : List (Address × DistributedObjectSystemConnection)) :
    Option DistributedObjectSystemConnection :=
  (conns.find? (fun e => e.1 == connID)).map (fun e => e.2)

/-- Assignment through the iterator returned by `m_connections.find`. -/
def setConnection (connID : Address) (c : DistributedObjectSystemConnection) :
    List (Address × DistributedObjectSystemConnection) →
      List (Address × DistributedObjectSystemConnection)
  | [] => []
  | (a, x) :: rest =>
    if a == connID then (a, c) :: rest else (a, x) :: setConnection connID c rest

/-- The loop `for (auto& connID : connIDs) { auto it = m_connections.find (connID);
it->second.op (...); }` of the three fan-out functions.  The result lists, per
call made, the address and what the call sent.  `none`: the loop dereferenced
`m_connections.end ()` (undefined behaviour). -/
def forConnIDs
    (op : DistributedObjectSystemConnection → DistributedObjectSystemConnection × Bool × List Sent) :
    List Address → List (Address × DistributedObjectSystemConnection) →
      Option (List (Address × DistributedObjectSystemConnection) × List (Address × List Sent))
  | [], conns => some (conns, [])
  | connID :: rest, conns =>
    match findConnection connID conns with
    | none => none
    | some c =>
      let r := op c
      match forConnIDs op rest (setConnection connID r.1 conns) with
      | none => none
      | some (conns1, calls) => some (conns1, (connID, r.2.2) :: calls)

/-- The loop `for (auto& connection : m_connections) if (connIDs.find
(connection.first) == connIDs.end ()) connection.second.op (...);` of the three
fan-out functions. -/
def forOthers
    (op : DistributedObjectSystemConnection → DistributedObjectSystemConnection × Bool × List Sent)
    (connIDs : List Address) :
    List (Address × DistributedObjectSystemConnection) →
      List (Address × DistributedObjectSystemConnection) × List (Address × List Sent)
  | [] => ([], [])
  | (a, c) :: rest =>
    let r := forOthers op connIDs rest
    if a ∈ connIDs then ((a, c) :: r.1, r.2)
    else ((a, (op c).1) :: r.1, (a, (op c).2.2) :: r.2)

/-- The body shared by the three fan-out functions: one loop or the other. -/
def fanOut
    (op : DistributedObjectSystemConnection → DistributedObjectSystemConnection × Bool × List Sent)
    (srv : DistributedObjectSystemServer) (connIDs : List Address) (except : Bool) :
    Option (DistributedObjectSystemServer × List (Address × List Sent)) :=
  if !except then
    (forConnIDs op connIDs srv.m_connections).map
      (fun r => ({ srv with m_connections := r.1 }, r.2))
  else
    let r := forOthers op connIDs srv.m_connections
    some ({ srv with m_connections := r.1 }, r.2)

/-- `DistributedObjectSystemServer::CreateRemoteObject (connIDs, except, objID)`. -/
def DistributedObjectSystemServer.CreateRemoteObject (srv : DistributedObjectSystemServer)
    (connIDs : List Address) (except : Bool) (objID : ObjectID) :
    Option (DistributedObjectSystemServer × List (Address × List Sent)) :=
  match srv.Translate objID with
  | some pobj => fanOut (fun c => c.CreateRemoteObject objID (some pobj)) srv connIDs except
  | none => some (srv, [])

/-- `DistributedObjectSystemServer::DeleteRemoteObject (connIDs, except, objID)`. -/
def DistributedObjectSystemServer.DeleteRemoteObject (srv : DistributedObjectSystemServer)
    (connIDs : List Address) (except : Bool) (objID : ObjectID) :
    Option (DistributedObjectSystemServer × List (Address × List Sent)) :=
  match srv.Translate objID with
  | some _ => fanOut (fun c => c.DeleteRemoteObject objID) srv connIDs except
  | none => some (srv, [])

/-- `DistributedObjectSystemServer::InvokeRemoteMethod (connIDs, except, objID,
signature, m, args, reliable)`. -/
def DistributedObjectSystemServer.InvokeRemoteMethod (srv : DistributedObjectSystemServer)
    (connIDs : List Address) (except : Bool) (objID : ObjectID) (signature : Str)
    (args : BitStreamOutput → Bool × BitStreamOutput) (reliable : Bool) :
    Option (DistributedObjectSystemServer × List (Address × List Sent)) :=
  fanOut (fun c => c.InvokeRemoteMethod objID signature args reliable) srv connIDs except

/-- A connection in `STATE_ESTABED` for the examples: a server child whose peer
is `"10.0.0.2:4000"`. -/
def exampleEstabed : Connection :=
  { Connection.new false with
    m_server := true
    m_socket := true
    m_raddr := "10.0.0.2:4000"
    m_state := .STATE_ESTABED
    m_reliable_outgoing_sequence := 7
    m_unreliable_outgoing_sequence := 3 }

/-! ## C8: the unreliable receive path -/

/-- A data packet without the `RLB` flag: none of the flags `RST`, `PIN`, `PON`,
`BWP`, `BWR`, `ACK`, `RLB` is set and the payload is not empty. -/
def IsUnreliableData (h : Header) : Prop :=
  h.pflags &&& FLAG_RST = 0 ∧ h.pflags &&& FLAG_PIN = 0 ∧ h.pflags &&& FLAG_PON = 0 ∧
    h.pflags &&& FLAG_BWP = 0 ∧ h.pflags &&& FLAG_BWR = 0 ∧ h.pflags &&& FLAG_ACK = 0 ∧
    h.pflags &&& FLAG_RLB = 0 ∧ h.length ≠ 0

instance (h : Header) : Decidable (IsUnreliableData h) :=
  inferInstanceAs (Decidable (_ ∧ _ ∧ _ ∧ _ ∧ _ ∧ _ ∧ _ ∧ _))

/-! ## C10: `Connection::Close` -/

/-- The sequence counters and queues of a closed connection are as the
constructor and `reset` leave them. -/
def ClosedClean (c : Connection) : Prop :=
  c.m_state = .STATE_CLOSED →
    c.m_reliable_retransmission_queue = [] ∧ c.m_reliable_reassembly_list = [] ∧
    c.m_unreliable_outgoing_sequence = 0 ∧ c.m_unreliable_incoming_sequence = 0 ∧
    c.m_reliable_outgoing_sequence = 0 ∧ c.m_reliable_lowest_acceptable_sequence = 0

instance (c : Connection) : Decidable (ClosedClean c) :=
  inferInstanceAs (Decidable (_ → _))

/-- An event that is a listener callback. -/
def Event.isCallback : Event → Bool
  | .send _ _ => false
  | .deliverable _ _ => false
  | _ => true

/-- A master in `STATE_LISTEN` one of whose children the application has closed
through `IConnection::Close ()` since the last `Tick`. -/
def exampleListenClosedChild : MasterConnection :=
  ⟨{ Connection.new true with m_server := true, m_socket := true, m_state := .STATE_LISTEN },
    [("10.0.0.2:4000", (exampleEstabed.Close).1)]⟩

/-- The `SYN` packet of `Connect`. -/
def synPacket (c : Nat) : Buffer := Header.bytes ⟨c, 0, FLAG_RLB ||| FLAG_SYN, 0⟩

/-- The `SYN|ACK` packet of `state_listen`. -/
def synAckPacket (s c : Nat) : Buffer :=
  Header.bytes ⟨s, (c + 1) % 65536, FLAG_RLB ||| FLAG_SYN ||| FLAG_ACK, 0⟩

/-- A server master in `STATE_LISTEN` without children. -/
def exampleListen : MasterConnection :=
  ⟨{ Connection.new true with m_server := true, m_socket := true, m_state := .STATE_LISTEN }, []⟩

/-! ## C4: reliable delivery is in order and exactly once -/

/-- Distance of the sequence number `k` ahead of `low`, modulo `2^16`. -/
def seqOffset (low k : Nat) : Nat := (k + 65536 - low % 65536) % 65536

/-- The reassembly list as `emplace` leaves it, relative to the lowest
acceptable sequence number `low`: the keys are 16-bit values at most `2^15 - 1`
ahead of `low`, in strictly increasing distance, and every entry is stored under
the sequence number of its own header. -/
def ReasmSorted (low : Nat) (list : List (Nat × Buffer)) : Prop :=
  (∀ e ∈ list, e.1 < 65536 ∧ (Header.read e.2).seqnum = e.1 ∧ seqOffset low e.1 ≤ 32767) ∧
    list.Pairwise (fun a b => seqOffset low a.1 < seqOffset low b.1)

/-- Invariant of the reliable receive state: the lowest acceptable sequence
number is a 16-bit value and every entry of the reassembly list is strictly
ahead of it (see `ReasmSorted`). -/
def ReliableInv (c : Connection) : Prop :=
  c.m_reliable_lowest_acceptable_sequence < 65536 ∧
    ReasmSorted c.m_reliable_lowest_acceptable_sequence c.m_reliable_reassembly_list ∧
    ∀ e ∈ c.m_reliable_reassembly_list,
      1 ≤ seqOffset c.m_reliable_lowest_acceptable_sequence e.1

/-- The sequence numbers of the reliable packets handed over, in order. -/
def reliableSeqs (events : List Event) : List Nat :=
  events.filterMap fun ev =>
    match ev with
    | .deliverable seqnum _ => some seqnum
    | _ => none

/-- The packets an established connection processes one after the other, for as
long as it stays in `STATE_ESTABED`. -/
def runEstabed (c : Connection) : List (Env × Address × Buffer) → Connection × List Event
  | [] => (c, [])
  | x :: rest =>
    if c.m_state = .STATE_ESTABED then
      let r := state_estabed c x.1 x.2.1 x.2.2
      let r2 := runEstabed r.1 rest
      (r2.1, r.2 ++ r2.2)
    else (c, [])

/-- What one packet does to the reliable receive state `c`, with result `r`: the
invariant is kept, the packets handed over are numbered consecutively from the
lowest acceptable number, and that number has advanced by their count if the
connection is still established. -/
def ReliableStep (c : Connection) (r : Connection × List Event) : Prop :=
  ReliableInv r.1 ∧
    ∃ n, reliableSeqs r.2
        = (List.range n).map (fun i => (c.m_reliable_lowest_acceptable_sequence + i) % 65536) ∧
      (r.1.m_state = .STATE_ESTABED →
        r.1.m_reliable_lowest_acceptable_sequence
          = (c.m_reliable_lowest_acceptable_sequence + n) % 65536)

instance (low : Nat) (list : List (Nat × Buffer)) : Decidable (ReasmSorted low list) :=
  inferInstanceAs (Decidable (_ ∧ _))

instance (c : Connection) : Decidable (ReliableInv c) :=
  inferInstanceAs (Decidable (_ ∧ _ ∧ _))

/-- A packet of the example peer: reliable, sequence number `seqnum`, payload
`data`. -/
def reliablePacket (seqnum : Nat) (data : Buffer) : Env × Address × Buffer :=
  (⟨0, 0, 0, 0, 0⟩, "10.0.0.2:4000", Header.bytes ⟨seqnum, 0, FLAG_RLB, data.length⟩ ++ data)

/-! ## C7: spawned-object tracking of a connection -/

/-- A call of `CreateRemoteObject` or `DeleteRemoteObject` on a connection. -/
inductive SpawnCall where
  | create (objID : ObjectID) (pobj : Option IDistributedObject)
  | delete (objID : ObjectID)

/-- The call is not a `CreateRemoteObject` with a null object. -/
def SpawnCall.hasObject : SpawnCall → Bool
  | .create _ none => false
  | _ => true

/-- One call on a connection. -/
def DistributedObjectSystemConnection.call (c : DistributedObjectSystemConnection) :
    SpawnCall → DistributedObjectSystemConnection × Bool × List Sent
  | .create objID pobj => c.CreateRemoteObject objID pobj
  | .delete objID => c.DeleteRemoteObject objID

/-- A sequence of calls on a connection: the connection after them and the
messages sent, in order. -/
def runCalls (c : DistributedObjectSystemConnection) :
    List SpawnCall → DistributedObjectSystemConnection × List Sent
  | [] => (c, [])
  | x :: rest =>
    let r := c.call x
    let r2 := runCalls r.1 rest
    (r2.1, r.2.2 ++ r2.2)

/-- After the messages `log`, a `CREATE_OBJECT` for `x` has been sent and no
`DELETE_OBJECT` for `x` after it. -/
def liveAfter (log : List Sent) (x : ObjectID) : Bool :=
  log.foldl (fun b m =>
    if m.objID = x then
      if m.msgType = MESSAGE_CREATE_OBJECT then true
      else if m.msgType = MESSAGE_DELETE_OBJECT then false
      else b
    else b) false

/-- The tracking invariant: the spawned set is the set of ids with a live
`CREATE_OBJECT`. -/
def Tracks (c : DistributedObjectSystemConnection) (log : List Sent) : Prop :=
  ∀ x, x ∈ c.m_spawnedObjects ↔ liveAfter log x = true

/-- An object whose `Serialize` writes one byte and succeeds. -/
def exampleObject : IDistributedObject := ⟨fun s => (true, WriteU .U8 s 42)⟩

/-! ## C6: the fan-out of the server -/

/-- The addresses of the connections of a server, in map order. -/
def connectionKeys (conns : List (Address × DistributedObjectSystemConnection)) : List Address :=
  conns.map (fun e => e.1)

/-- The connections after `op` ran once on each connection whose address
satisfies `target`. -/
def applyTo
    (op : DistributedObjectSystemConnection → DistributedObjectSystemConnection × Bool × List Sent)
    (target : Address → Bool) (conns : List (Address × DistributedObjectSystemConnection)) :
    List (Address × DistributedObjectSystemConnection) :=
  conns.map (fun e => if target e.1 then (e.1, (op e.2).1) else e)

/-- What `op` sends on the connection with address `a`. -/
def sentOn
    (op : DistributedObjectSystemConnection → DistributedObjectSystemConnection × Bool × List Sent)
    (conns : List (Address × DistributedObjectSystemConnection)) (a : Address) : List Sent :=
  match findConnection a conns with
  | some c => (op c).2.2
  | none => []

/-- The three fan-out functions of the server run `op` as the source's two loops
do: `run true` (except) applies `op` once to each connection whose address is
not in `connIDs`, in map order, and to no other; `run false` applies it once to
each connection whose address is in `connIDs`, in the order of `connIDs`, and to
no other, when every address of `connIDs` is connected.  Both return the server
with the connections so changed and the list of the calls made, each with what
it sent. -/
def FansOut
    (op : DistributedObjectSystemConnection → DistributedObjectSystemConnection × Bool × List Sent)
    (srv : DistributedObjectSystemServer) (connIDs : List Address)
    (run : Bool → Option (DistributedObjectSystemServer × List (Address × List Sent))) : Prop :=
  run true =
    some ({ srv with
            m_connections := applyTo op (fun a => decide (a ∉ connIDs)) srv.m_connections },
      (srv.m_connections.filter (fun e => decide (e.1 ∉ connIDs))).map
        (fun e => (e.1, (op e.2).2.2))) ∧
  ((∀ a ∈ connIDs, a ∈ connectionKeys srv.m_connections) →
    run false =
      some ({ srv with
              m_connections := applyTo op (fun a => decide (a ∈ connIDs)) srv.m_connections },
        connIDs.map (fun a => (a, sentOn op srv.m_connections a))))

/-- A server with one connection and no bound object. -/
def exampleServer : DistributedObjectSystemServer :=
  { m_boundObjects := [], m_connections := [("10.0.0.2:4000", ⟨[]⟩)] }

/-- A server with two connections and the object 5 bound. -/
def exampleServer2 : DistributedObjectSystemServer :=
  { m_boundObjects := [(5, exampleObject)],
    m_connections := [("10.0.0.2:4000", ⟨[]⟩), ("10.0.0.3:4000", ⟨[5]⟩)] }

/-! ## C11: the incoming queue and `Setup` -/

/-- The payloads of the reliable packets handed over, in order. -/
def deliveredData (events : List Event) : List Buffer :=
  events.filterMap fun ev =>
    match ev with
    | .deliverable _ data => some data
    | _ => none

/-- The payloads given to the listener by `OnIncomingData`, in order. -/
def incomingData (events : List Event) : List Buffer :=
  events.filterMap fun ev =>
    match ev with
    | .OnIncomingData data => some data
    | _ => none

/-- Every reliable payload that becomes deliverable is given to the listener by
the very next call: each `deliverable` event is directly followed by
`OnIncomingData` with the same payload. -/
def deliveredAtOnce : List Event → Bool
  | [] => true
  | ev :: rest =>
    (match ev with
      | .deliverable _ data => rest.head? == some (Event.OnIncomingData data)
      | _ => true) && deliveredAtOnce rest

/-- What one packet does to the incoming queue of `c`, with result `r`.  Without
a listener nothing is given to a listener, and if the connection stays
established it still has no listener and its queue has grown by the payloads
handed over, in order.  With a listener every payload handed over goes to the
listener at once, and if the connection stays established it keeps its listener
and its queue. -/
def MailboxStep (c : Connection) (r : Connection × List Event) : Prop :=
  (c.m_listener = false →
    incomingData r.2 = [] ∧
    (r.1.m_state = .STATE_ESTABED →
      r.1.m_listener = false ∧
      r.1.m_reliable_incoming_queue = c.m_reliable_incoming_queue ++ deliveredData r.2)) ∧
  (c.m_listener = true →
    deliveredAtOnce r.2 = true ∧
    (r.1.m_state = .STATE_ESTABED →
      r.1.m_listener = true ∧
      r.1.m_reliable_incoming_queue = c.m_reliable_incoming_queue))

/-! ## C12: the retransmission budget -/

/-- The entry's timeout has run out: `info.timeout <= elapsed`. -/
def expired (elapsed : ℚ) (e : Nat × RetransmissionInfo) : Bool :=
  decide (e.2.timeout ≤ elapsed)

/-- The entry's timeout has run out and it has no retry left. -/
def exhausted (elapsed : ℚ) (e : Nat × RetransmissionInfo) : Bool :=
  expired elapsed e && decide (e.2.count = 0)

/-- What `check_timeout` does to one entry that is not exhausted. -/
def ageEntry (elapsed : ℚ) (e : Nat × RetransmissionInfo) : Nat × RetransmissionInfo :=
  if e.2.timeout ≤ elapsed then
    (e.1, { e.2 with timeout := RETX_INTERVAL, count := e.2.count - 1 })
  else (e.1, { e.2 with timeout := e.2.timeout - elapsed })

/-- How often the datagram `buffer` was handed to the socket for `raddr`. -/
def resent (raddr : Address) (buffer : Buffer) (events : List Event) : Nat :=
  events.count (Event.send raddr buffer)

/-- The calls `check_timeout (elapsed)` of successive `Tick`s on one connection,
no packet arriving in between; `Tick` makes no call on a closed connection. -/
def runTimeouts (c : Connection) : List (Env × ℚ) → Connection × List Event
  | [] => (c, [])
  | x :: rest =>
    if c.m_state = .STATE_CLOSED then (c, [])
    else
      let r := c.check_timeout x.1 x.2
      let r2 := runTimeouts r.1 rest
      (r2.1, r.2 ++ r2.2)

/-- The retry budget of the entries `q0` after the events `log`, the queue now
being `q`: entry for entry the key and the packet are the same, and the retries
left plus the times the packet was sent again make up the retries it had. -/
def Budget (raddr : Address) (log : List Event)
    (q0 q : List (Nat × RetransmissionInfo)) : Prop :=
  List.Forall₂ (fun e0 e => e.1 = e0.1 ∧ e.2.buffer = e0.2.buffer ∧
    e.2.count + resent raddr e0.2.buffer log = e0.2.count) q0 q

/-- The ping and the bandwidth poll `check_timeout` sends after the loop over the
retransmission queue, on an established connection. -/
def probes (c : Connection) (env : Env) (elapsed : ℚ) : List Event :=
  if c.m_state = .STATE_ESTABED then
    (if c.m_ping_timeout ≤ elapsed then send_ping c.m_raddr env.now else []) ++
      (if c.m_bandwidth_timeout ≤ elapsed then send_bw_poll c.m_raddr env.nowPoll else [])
  else []

/-- Every packet of the queue carries the flag `RLB`. -/
def RlbFlagged (q : List (Nat × RetransmissionInfo)) : Prop :=
  ∀ e ∈ q, (Header.read e.2.buffer).pflags &&& FLAG_RLB ≠ 0

instance (q : List (Nat × RetransmissionInfo)) : Decidable (RlbFlagged q) :=
  inferInstanceAs (Decidable (∀ e ∈ q, _))

/-- What `reset (true)` tells the listeners, by the state of the connection. -/
def brokenNotification (c : Connection) : List Event :=
  match c.m_state with
  | .STATE_ESTABED =>
    (if c.m_server then [Event.OnDeleteConnection c.m_raddr] else []) ++
      (if c.m_client then [Event.OnConnectionBroken] else [])
  | .STATE_SYNSENT => [Event.OnConnectComplete false]
  | _ => []

/-- A child in `STATE_SYNRCVD` as `state_listen` makes it: its `SYN|ACK` waits in
the retransmission queue. -/
def exampleSynRcvd : Connection :=
  { Connection.new false with
    m_server := true
    m_socket := true
    m_raddr := "10.0.0.2:4000"
    m_unreliable_incoming_sequence := 100
    m_reliable_lowest_acceptable_sequence := 101
    m_reliable_retransmission_queue := [(7, ⟨RETX_INTERVAL, RETX_COUNT, synAckPacket 7 100⟩)]
    m_unreliable_outgoing_sequence := 7
    m_reliable_outgoing_sequence := 8
    m_state := .STATE_SYNRCVD }

/-! ## C13: a failed connect -/

/-- The packet makes `state_synsent` throw: it carries `RST`, or it does not come
from the connect target, or its low-byte flags are not exactly `RLB|SYN|ACK`, or
its `acknum` is not `m_reliable_outgoing_sequence`. -/
def SynSentAnomaly (c : Connection) (raddr : Address) (header : Header) : Prop :=
  header.pflags &&& FLAG_RST ≠ 0 ∨ c.m_raddr ≠ raddr ∨
    header.pflags &&& FLAG_ALL ≠ (FLAG_RLB ||| FLAG_SYN ||| FLAG_ACK) ∨
    header.acknum ≠ c.m_reliable_outgoing_sequence

instance (c : Connection) (raddr : Address) (header : Header) :
    Decidable (SynSentAnomaly c raddr header) :=
  inferInstanceAs (Decidable (_ ∨ _ ∨ _ ∨ _))

/-- A client master in `STATE_SYNSENT`: `Connect` to `"10.0.0.1:4000"` at clock
time 41. -/
def exampleSynSent : Connection :=
  ((Connection.new true).Connect ⟨41, 0, 0, 0, 0⟩ "10.0.0.1:4000").1

/-- The loop of `Connection::Tick ()` over `m_children`: `check_timeout` on every
child, a child found in `STATE_CLOSED` afterwards being erased.  `envs` gives
what each child reads from its surroundings. -/
def tickChildren (envs : Address → Env) (elapsed : ℚ) :
    List (Address × Connection) → List (Address × Connection) × List Event
  | [] => ([], [])
  | (a, child) :: rest =>
    let r := child.check_timeout (envs a) elapsed
    let r2 := tickChildren envs elapsed rest
    (if r.1.m_state = .STATE_CLOSED then r2.1 else (a, r.1) :: r2.1, r.2 ++ r2.2)

/-- One datagram in the loop `1. incoming packets` of `Connection::Tick ()`, with
the test at the head of `Tick`. -/
def MasterConnection.receive (m : MasterConnection) (env : Env) (raddr : Address)
    (packet : Buffer) : MasterConnection × List Event :=
  if !m.conn.m_master || m.conn.m_state = .STATE_CLOSED then (m, [])
  else if packet.length < sizeofHeader then (m, [])
  else if sizeofHeader + (Header.read packet).length ≠ packet.length then (m, [])
  else m.fsm env raddr packet

/-- The part `2. timeouts and retransmission` of `Connection::Tick ()`, with the
test at the head of `Tick`. -/
def MasterConnection.timeouts (m : MasterConnection) (envs : Address → Env) (elapsed : ℚ) :
    MasterConnection × List Event :=
  if !m.conn.m_master || m.conn.m_state = .STATE_CLOSED then (m, [])
  else if m.conn.m_state = .STATE_LISTEN then
    let r := tickChildren envs elapsed m.m_children
    ({ m with m_children := r.1 }, r.2)
  else
    let r := m.conn.check_timeout (envs m.conn.m_raddr) elapsed
    ({ m with conn := r.1 }, r.2)

/-! ## C14: `OnCreateConnection` and `OnDeleteConnection` are paired -/

/-- What happens to a server: `Tick` takes a datagram from the socket, `Tick`
runs the timeouts, the application calls `Kick` or closes the server. -/
inductive ServerCall where
  | receive (env : Env) (raddr : Address) (packet : Buffer)
  | timeouts (envs : Address → Env) (elapsed : ℚ)
  | Kick (raddr : Address)
  | Close

/-- One call on the master connection of a server. -/
def MasterConnection.call (m : MasterConnection) : ServerCall → MasterConnection × List Event
  | .receive env raddr packet => m.receive env raddr packet
  | .timeouts envs elapsed => m.timeouts envs elapsed
  | .Kick raddr => m.Kick raddr
  | .Close => m.Close

/-- A sequence of calls on the master connection of a server, with the events in
order. -/
def runServer (m : MasterConnection) : List ServerCall → MasterConnection × List Event
  | [] => (m, [])
  | x :: rest =>
    let r := m.call x
    let r2 := runServer r.1 rest
    (r2.1, r.2 ++ r2.2)

/-- Whether a connection of the peer `a` is known to the application after the
events, `o` telling whether one was known before: `OnCreateConnection` makes it
known, `OnDeleteConnection` takes it away. -/
def openAfter (a : Address) : Bool → List Event → Bool
  | o, [] => o
  | o, ev :: rest =>
    match ev with
    | .OnCreateConnection b => openAfter a (if b = a then true else o) rest
    | .OnDeleteConnection b => openAfter a (if b = a then false else o) rest
    | _ => openAfter a o rest

/-- Every `OnDeleteConnection` for the peer `a` in the events comes after an
`OnCreateConnection` for `a` with no other `OnDeleteConnection` for `a` in
between (`o`: an `OnCreateConnection` for `a` is pending at the start). -/
def pairedFrom (a : Address) : Bool → List Event → Bool
  | _, [] => true
  | o, ev :: rest =>
    match ev with
    | .OnCreateConnection b => pairedFrom a (if b = a then true else o) rest
    | .OnDeleteConnection b =>
      if b = a then o && pairedFrom a false rest else pairedFrom a o rest
    | _ => pairedFrom a o rest

/-- A child of a server as `state_listen` keeps it under the key `a`. -/
def ChildWF (a : Address) (child : Connection) : Prop :=
  child.m_raddr = a ∧ (child.m_state = .STATE_SYNRCVD ∨ child.m_state = .STATE_ESTABED)

/-- The master connection of a server: listening or closed, its children under
distinct keys. -/
def ServerWF (m : MasterConnection) : Prop :=
  m.conn.m_master = true ∧
    (m.conn.m_state = .STATE_LISTEN ∨ m.conn.m_state = .STATE_CLOSED) ∧
    (m.m_children.map (fun e => e.1)).Nodup ∧
    ∀ e ∈ m.m_children, ChildWF e.1 e.2

instance (a : Address) (child : Connection) : Decidable (ChildWF a child) :=
  inferInstanceAs (Decidable (_ ∧ _))

instance (m : MasterConnection) : Decidable (ServerWF m) :=
  inferInstanceAs (Decidable (_ ∧ _ ∧ _ ∧ _))

/-- The server is well formed and an `OnCreateConnection` is pending (`o`) for
every peer with an established child. -/
def ServerInv (m : MasterConnection) (o : Address → Bool) : Prop :=
  ServerWF m ∧ ∀ e ∈ m.m_children, e.2.m_state = .STATE_ESTABED → o e.1 = true

/-- What makes `state_estabed` reset the connection as broken: the packet
carries `RST`, or it is an `ACK` beyond what was sent. -/
def PassiveResetCause (c : Connection) (header : Header) : Prop :=
  header.pflags &&& FLAG_RST ≠ 0 ∨
    (header.pflags &&& FLAG_ACK ≠ 0 ∧ gt header.acknum c.m_reliable_outgoing_sequence = true)

/-- The calls of the example: a client connects from `"10.0.0.2:4000"`, completes
the handshake and then sends `RST`. -/
def exampleServerCalls : List ServerCall :=
  [ServerCall.receive ⟨7, 0, 0, 0, 0⟩ "10.0.0.2:4000" (synPacket 100),
   ServerCall.receive ⟨7, 0, 0, 0, 0⟩ "10.0.0.2:4000" (ackPacket 8),
   ServerCall.receive ⟨7, 0, 0, 0, 0⟩ "10.0.0.2:4000" resetPacket]

/-- An event that is `OnCreateConnection` or `OnDeleteConnection`. -/
def Event.isPairing : Event → Bool
  | .OnCreateConnection _ => true
  | .OnDeleteConnection _ => true
  | _ => false

/-- No `OnCreateConnection` and no `OnDeleteConnection` for the peer `a` among
the events. -/
def Quiet (a : Address) (events : List Event) : Prop :=
  Event.OnCreateConnection a ∉ events ∧ Event.OnDeleteConnection a ∉ events

/-- No `OnCreateConnection` and no `OnDeleteConnection` among the events. -/
def NoPairing (events : List Event) : Prop :=
  events.all (fun ev => !ev.isPairing) = true

/-- What a packet or a timeout does to a connection `c`, with result `r`: either
the state and the peer address are kept, with no `OnCreateConnection` and no
`OnDeleteConnection`, or the connection is reset as broken, with no such call
before the callbacks of `reset`. -/
def StepForm (c : Connection) (r : Connection × List Event) : Prop :=
  (r.1.m_state = c.m_state ∧ r.1.m_raddr = c.m_raddr ∧ NoPairing r.2) ∨
    ∃ pre, NoPairing pre ∧ r = ((c.reset true).1, pre ++ (c.reset true).2)

/-- What a packet or a timeout does to the child `child` kept under the key `a`,
with result `r`: the child is closed or still well formed, no call is made for
another peer, the calls for `a` are paired, and if the child ends established an
`OnCreateConnection` for `a` is pending. -/
def ChildTrans (a : Address) (child : Connection) (r : Connection × List Event) : Prop :=
  (r.1.m_state = .STATE_CLOSED ∨ ChildWF a r.1) ∧
  (∀ b, b ≠ a → Quiet b r.2) ∧
  (∀ o, (child.m_state = .STATE_ESTABED → o = true) →
    pairedFrom a o r.2 = true ∧ (r.1.m_state = .STATE_ESTABED → openAfter a o r.2 = true))

/-- `OnDeleteConnection` among the events of `r` has the cause `p`. -/
def DeleteOnly (p : Prop) (x : Address) (r : Connection × List Event) : Prop :=
  Event.OnDeleteConnection x ∈ r.2 → p

/-- The C string a `String` holds: the bytes of `data ()` before the first zero
byte. -/
def cstr (s : Str) : List Nat := s.takeWhile (fun b => b ≠ 0)

/-- `String::operator== (const String&)`: `m_buffer == rhs.m_buffer || strcmp
(data (), rhs.data ()) == 0`. -/
def strEq (a b : Str) : Bool := decide (cstr a = cstr b)

/-- A thunk of a method registry, `std::bind (StaticInvoke<M>, m, _1, _2)`: from
the invoke connection the method sees and the input stream, the result of the
call and the stream after it. -/
abbrev Thunk := Address → BitStreamInput → Bool × BitStreamInput

/-- `MethodsRegistry`: `std::unordered_map<String, Thunk>`, the static method
registry of one class. -/
abbrev MethodsRegistry := List (Str × Thunk)

/-- The receiving side of `IDistributedObject`: `m_connID` and the virtual
`Invoke`, given by the method registries of the object's class and of its super
classes (`RMI_DECLARE_INVOKABLE`), the object's own class first. -/
structure InvokableObject where
  m_connID : Address
  registries : List MethodsRegistry

/-- A call of a thunk: the class it was registered in (0 for the object's own
class, 1 for its super class, and so on), the signature it was registered under
and the invoke connection of the object at the call. -/
structure InvokeCall where
  depth : Nat
  signature : Str
  connID : Address
  deriving DecidableEq, Repr

/-- `Invoke (signature, s)` as `RMI_DECLARE_INVOKABLE` defines it, for the class
at distance `depth` from the object's class: the thunk found in
`static_method_registry ()`, else `Super::Invoke (signature, s)`; with no class
left, `IDistributedObject::Invoke`, which returns false. -/
def invokeFrom (connID : Address) (signature : Str) (s : BitStreamInput) :
    List MethodsRegistry → Nat → Bool × BitStreamInput × List InvokeCall
  | [], _ => (false, s, [])
  | registry :: supers, depth =>
    match registry.find? (fun e => strEq e.1 signature) with
    | some e => ((e.2 connID s).1, (e.2 connID s).2, [⟨depth, e.1, connID⟩])
    | none => invokeFrom connID signature s supers (depth + 1)

/-- The virtual call `pobj->Invoke (signature, s)`. -/
def InvokableObject.Invoke (o : InvokableObject) (signature : Str) (s : BitStreamInput) :
    Bool × BitStreamInput × List InvokeCall :=
  invokeFrom o.m_connID signature s o.registries 0

/-- `IDistributedObject::SetInvokeConnection (connID)`. -/
def InvokableObject.SetInvokeConnection (o : InvokableObject) (connID : Address) :
    InvokableObject :=
  { o with m_connID := connID }

/-- Assignment through the iterator returned by `m_boundObjects.find`. -/
def setBound (objID : ObjectID) (o : InvokableObject) :
    List (ObjectID × InvokableObject) → List (ObjectID × InvokableObject)
  | [] => []
  | (k, x) :: rest =>
    if k == objID then (k, o) :: rest else (k, x) :: setBound objID o rest

/-- `DistributedObjectSystemBase::ProcessInvokeMethod (connID, s)` on an input
stream: the result, the bound objects and the stream after the call, and the
thunks called. -/
def ProcessInvokeMethod (bound : List (ObjectID × InvokableObject)) (connID : Address)
    (s : BitStreamInput) :
    Bool × List (ObjectID × InvokableObject) × BitStreamInput × List InvokeCall :=
  let r := ReadU .U64 s MASTER_OBJECT
  if !r.1 then (false, bound, r.2.2, [])
  else
    match bound.find? (fun e => e.1 == r.2.1) with
    | some e =>
      let rs := ReadString r.2.2 []
      if !rs.1 then (false, bound, rs.2.2, [])
      else
        let o := e.2.SetInvokeConnection connID
        let ri := o.Invoke rs.2.1 rs.2.2
        (ri.1, setBound e.1 o bound, ri.2.1, ri.2.2)
    | none => (false, bound, r.2.2, [])

/-! ## C15: dispatch of an incoming invoke -/

/-- A thunk that reads one `U8` argument and returns whether it is 1. -/
def exampleThunk : Thunk := fun _ s => (decide ((ReadU .U8 s 0).2.1 = 1), (ReadU .U8 s 0).2.2)

/-- An object whose class registers `"A::f"` and whose super class registers
`"B::g"`, bound under the id 7. -/
def exampleBound : List (ObjectID × InvokableObject) :=
  [(7, ⟨"", [[([65, 58, 58, 102], exampleThunk)], [([66, 58, 58, 103], exampleThunk)]]⟩)]

/-- The rest of an `INVOKE_METHOD` message for the object 7: the id, the
signature `"B::g"` and the argument 1. -/
def exampleInvoke : BitStreamInput :=
  ⟨(WriteU .U8 (WriteString (WriteU .U64 BitStreamOutput.init 7) [66, 58, 58, 103]) 1).m_output, 0⟩

/-- `StaticGenerateObjectID ()`: `return ++s_id != MASTER_OBJECT ? s_id : ++s_id;`
on the static `U64` counter `s_id`.  Returns the result and the counter after
the call. -/
def StaticGenerateObjectID (s_id : Nat) : ObjectID × Nat :=
  let s1 := (s_id + 1) % 2 ^ 64
  if s1 ≠ MASTER_OBJECT then (s1, s1)
  else
    let s2 := (s1 + 1) % 2 ^ 64
    (s2, s2)

/-- The results of `n` successive calls of `StaticGenerateObjectID`, the counter
being `s_id` before the first. -/
def generateObjectIDs (s_id : Nat) : Nat → List ObjectID
  | 0 => []
  | n + 1 =>
    (StaticGenerateObjectID s_id).1 :: generateObjectIDs (StaticGenerateObjectID s_id).2 n

/-- `DistributedObjectSystemBase::UnbindObjectBase (objID)`:
`m_boundObjects.erase (objID)`. -/
def DistributedObjectSystemServer.UnbindObjectBase (srv : DistributedObjectSystemServer)
    (objID : ObjectID) : DistributedObjectSystemServer :=
  { srv with m_boundObjects := srv.m_boundObjects.filter (fun e => !(e.1 == objID)) }

/-- `DistributedObjectSystemServer::UnbindObject (objID)`: `DeleteRemoteObject
({}, true, objID); UnbindObjectBase (objID);`. -/
def DistributedObjectSystemServer.UnbindObject (srv : DistributedObjectSystemServer)
    (objID : ObjectID) : Option (DistributedObjectSystemServer × List (Address × List Sent)) :=
  match srv.DeleteRemoteObject [] true objID with
  | none => none
  | some r => some (r.1.UnbindObjectBase objID, r.2)

/-- The `DELETE_OBJECT` message for `objID`. -/
def deleteMessage (objID : ObjectID) : Sent :=
  ⟨MESSAGE_DELETE_OBJECT, objID, (messageStart MESSAGE_DELETE_OBJECT objID).m_output, true⟩

/-- The class `UniqueStringPolicy` of DP_UniqueString.cpp: its two caches,
`std::unordered_map`s kept as association lists in insertion order.  The keys of
`m_writeCache` are compared by `String::operator==` (and hashed over the same
bytes, those of the C string). -/
structure UniqueStringPolicy where
  m_readCache : List (Nat × Str)
  m_writeCache : List (Str × Nat)
  deriving DecidableEq, Repr

/-- `UniqueStringPolicy::Reset ()`. -/
def UniqueStringPolicy.Reset (_p : UniqueStringPolicy) : UniqueStringPolicy := ⟨[], []⟩

/-- `UniqueStringPolicy::Write (stream, s, tag)`. -/
def UniqueStringPolicy.Write (p : UniqueStringPolicy) (stream : BitStreamOutput) (s : Str) :
    UniqueStringPolicy × BitStreamOutput :=
  match p.m_writeCache.find? (fun e => strEq e.1 s) with
  | some e =>
    let stream := WriteBool stream true
    (p, WriteU .U32 stream (e.2 % 2 ^ 32))
  | none =>
    let stream := WriteBool stream false
    ({ p with m_writeCache := p.m_writeCache ++ [(s, stream.GetBitOffset)] },
      WriteString stream s)

/-- `m_readCache.emplace (offset, s)`: nothing happens when the key is there. -/
def readCacheEmplace (offset : Nat) (s : Str) (cache : List (Nat × Str)) : List (Nat × Str) :=
  if cache.any (fun e => e.1 == offset) then cache else cache ++ [(offset, s)]

/-- `UniqueStringPolicy::Read (stream, s, tag)`: the result, the string `s` after
the call, the policy and the stream. -/
def UniqueStringPolicy.Read (p : UniqueStringPolicy) (stream : BitStreamInput) (s : Str) :
    Bool × Str × UniqueStringPolicy × BitStreamInput :=
  let rc := ReadBool stream
  if rc.1 then
    if rc.2.1 then
      let ro := ReadU .U32 rc.2.2 0
      if ro.1 then
        match p.m_readCache.find? (fun e => e.1 == ro.2.1) with
        | some e => (true, e.2, p, ro.2.2)
        | none => (false, s, p, ro.2.2)
      else (false, s, p, ro.2.2)
    else
      let offset := rc.2.2.GetBitOffset
      let rs := ReadString rc.2.2 s
      if rs.1 then
        (true, rs.2.1, { p with m_readCache := readCacheEmplace offset rs.2.1 p.m_readCache },
          rs.2.2)
      else (false, rs.2.1, p, rs.2.2)
  else (false, s, p, rc.2.2)

/-- The strings `strs` written one after the other under the policy. -/
def writeUniqueAll (p : UniqueStringPolicy) (s : BitStreamOutput) :
    List Str → UniqueStringPolicy × BitStreamOutput
  | [] => (p, s)
  | x :: rest => writeUniqueAll (p.Write s x).1 (p.Write s x).2 rest

/-- The reads of `n` strings one after the other under the policy, each into an
empty `String`: the results with the strings read, the policy and the stream. -/
def readUniqueAll (p : UniqueStringPolicy) (s : BitStreamInput) :
    Nat → List (Bool × Str) × UniqueStringPolicy × BitStreamInput
  | 0 => ([], p, s)
  | n + 1 =>
    let r := p.Read s []
    let r2 := readUniqueAll r.2.2.1 r.2.2.2 n
    ((r.1, r.2.1) :: r2.1, r2.2)

/-! ## C19: round trip under the `unique` string policy -/

/-- A string the round trip is stated for: bytes, none of them zero, fewer than
`2^32` of them. -/
def TextString (x : Str) : Prop := IsBytes x ∧ 0 ∉ x ∧ x.length < 2 ^ 32

instance (x : Str) : Decidable (TextString x) :=
  inferInstanceAs (Decidable (_ ∧ _ ∧ _))

/-- The writer's cache at the place `n` of the stream: every recorded offset is
at most `n`, the offsets are distinct, and no cached string holds a zero byte. -/
def WriteInv (writeCache : List (Str × Nat)) (n : Nat) : Prop :=
  (∀ e ∈ writeCache, e.2 ≤ n ∧ 0 ∉ e.1) ∧ (writeCache.map (fun e => e.2)).Nodup

/-- What the reader's cache is to the writer's at the same place of the stream:
the same entries, offset first. -/
def CacheInv (writeCache : List (Str × Nat)) (readCache : List (Nat × Str)) : Prop :=
  readCache = writeCache.map (fun e => (e.2, e.1))

/-! ## Variant (Variant.h) -/

/-- The serialization interface `ISerializationType` as `Variant::Serialize`
sees it: an encoder over an output bit stream (`SerializationOutput`) or a
decoder over an input bit stream (`SerializationInput`). -/
inductive ISerializationType where
  | output (stream : BitStreamOutput)
  | input (stream : BitStreamInput)
  deriving DecidableEq

/-- `ISerialization::IsReading`. -/
def ISerializationType.IsReading : ISerializationType → Bool
  | .output _ => false
  | .input _ => true

/-- `::Serialize (s, index)` for a `U8` under the default policy:
`SerializationNodeOutput::Serialize` writes and returns true,
`SerializationNodeInput::Serialize` returns what `stream.Read (index)` returns. -/
def SerializeU8 (s : ISerializationType) (index : Nat) : Bool × Nat × ISerializationType :=
  match s with
  | .output stream => (true, index, .output (WriteU .U8 stream index))
  | .input stream =>
    let r := ReadU .U8 stream index
    (r.1, r.2.1, .input r.2.2)

/-- One type `T` of the type list of a Variant, over the values `V` that the
storage of the Variant can hold: the default constructor `T ()` and
`::Serialize (s, T&)`, which returns its result, the value after the call and
the stream after the call. -/
structure Alternative (V : Type) where
  construct : V
  Serialize : ISerializationType → V → Bool × V × ISerializationType

/-- `Variant< TypeList<Ts...> >`: the storage, seen as the value it holds, and
the index of the type held (`size_t`; the number of types when none is held). -/
structure Variant (V : Type) where
  m_storage : V
  m_index : Nat

/-- `TypeListApplyAt::operator()`: walks the type list and calls the functor
for the type at index `i`; past the end of the list it does nothing.  The
functor is a function on its own state. -/
def TypeListApplyAt {α β : Type} : List α → Nat → (α → β → β) → β → β
  | [], _, _, st => st
  | hd :: tl, i, f, st => if i = 0 then f hd st else TypeListApplyAt tl (i - 1) f st

/-- `Variant::Constructor::operator()`: `new ((T*)&v.m_storage) T ()`. -/
def Variant.Constructor {V : Type} (a : Alternative V) (v : Variant V) : Variant V :=
  { v with m_storage := a.construct }

/-- `Variant::Serializer::operator()`: `r = Serialize<T> ()`, which is true when
`::Serialize (s, *(T*)&v.m_storage)` is.  The state is the flag `r` (false at
first), the Variant and the stream. -/
def Variant.Serializer {V : Type} (a : Alternative V)
    (st : Bool × Variant V × ISerializationType) : Bool × Variant V × ISerializationType :=
  let q := a.Serialize st.2.2 st.2.1.m_storage
  (q.1, { st.2.1 with m_storage := q.2.1 }, q.2.2)

/-- `Variant::Serialize (s)` over the type list `alts`.  In read mode the
destructor of the held object runs first: it leaves nothing to observe in the
storage, which the constructor overwrites when the index read is in range. -/
def Variant.Serialize {V : Type} (alts : List (Alternative V)) (v : Variant V)
    (s : ISerializationType) : Bool × Variant V × ISerializationType :=
  let index := v.m_index % 256
  let r := SerializeU8 s index
  if !r.1 then (false, v, r.2.2)
  else
    let v := { v with m_index := r.2.1 }
    let v := if s.IsReading then TypeListApplyAt alts v.m_index Variant.Constructor v else v
    TypeListApplyAt alts v.m_index Variant.Serializer (false, v, r.2.2)

instance (s t : BitStreamOutput) : Decidable (Extends s t) := by
  unfold Extends
  exact inferInstance

/-- Values of the example type list `TypeList<String, I64, bool>`. -/
inductive ExampleValue where
  | string (s : Str)
  | i64 (i : Int)
  | bool (b : Bool)
  deriving DecidableEq

/-- The type `String` of the example type list, under the default policy. -/
def exampleString : Alternative ExampleValue where
  construct := .string []
  Serialize s v :=
    let str := match v with
      | .string x => x
      | _ => []
    match s with
    | .output stream => (true, v, .output (WriteString stream str))
    | .input stream =>
      let r := ReadString stream str
      (r.1, .string r.2.1, .input r.2.2)

/-- The type `I64` of the example type list, under the default policy. -/
def exampleI64 : Alternative ExampleValue where
  construct := .i64 0
  Serialize s v :=
    let i := match v with
      | .i64 x => x
      | _ => 0
    match s with
    | .output stream => (true, v, .output (WriteI .U64 stream i))
    | .input stream =>
      let r := ReadI .U64 stream i
      (r.1, .i64 r.2.1, .input r.2.2)

/-- The type `bool` of the example type list, under the default policy. -/
def exampleBool : Alternative ExampleValue where
  construct := .bool false
  Serialize s v :=
    let b := match v with
      | .bool x => x
      | _ => false
    match s with
    | .output stream => (true, v, .output (WriteBool stream b))
    | .input stream =>
      let r := ReadBool stream
      (r.1, .bool r.2.1, .input r.2.2)

/-- The example type list `TypeList<String, I64, bool>`. -/
def exampleTypes : List (Alternative ExampleValue) := [exampleString, exampleI64, exampleBool]

/-- Position in `u` of bit `j` of the `n`-bit field that `WriteBits` takes from
the object representation of `u`: the bytes go out least significant first, each
byte from its top written bit down. -/
def payloadBit (n j : Nat) : Nat := 8 * (j / 8) + (nbitsIn n (j / 8) - 1 - j % 8)

/-! ## Fixed-width signed integers (BitStream.h) -/

/-- The class `SignedIntegralConversion<I>`: its members `mx` and `mn`. -/
structure SignedIntegralConversion where
  mx : Int
  mn : Int
  deriving DecidableEq, Repr

/-- The constructor `SignedIntegralConversion<I> (nbits)` for the signed type of
the width of `U`: `mx ((I)(((U)1 << (nbits - 1)) - 1))`, `mn (-mx - 1)`, each
narrowed to `I`.  The shift is the mathematical one: C++ defines it for a count
below the width of the promoted operand, which covers `1 ≤ nbits ≤` width, and
for the 8- and 16-bit types the counts up to 30. -/
def SignedIntegralConversion.new (U : UType) (nbits : Nat) : SignedIntegralConversion :=
  let mx := toSigned U.bits (toUnsigned U.bits (((1 <<< (nbits - 1) : Nat) : Int) - 1))
  { mx := mx, mn := toSigned U.bits (toUnsigned U.bits (-mx - 1)) }

/-- `SignedIntegralConversion::SignedToUnsigned (i)`. -/
def SignedIntegralConversion.SignedToUnsigned (c : SignedIntegralConversion) (U : UType)
    (i : Int) : Nat :=
  let t := if i < c.mn then c.mn else if i > c.mx then c.mx else i
  toUnsigned U.bits (t - c.mn)

/-- `SignedIntegralConversion::UnsignedToSigned (u)`. -/
def SignedIntegralConversion.UnsignedToSigned (c : SignedIntegralConversion) (U : UType)
    (u : Nat) : Int :=
  let i := toSigned U.bits ((toUnsigned U.bits c.mn + u) % 2 ^ U.bits)
  if i < c.mn then c.mn else if i > c.mx then c.mx else i

/-- `Writer<I>::Write (stream, i, nbits)` for the signed type of the width of
`U`: fixed width. -/
def WriteIN (U : UType) (s : BitStreamOutput) (i : Int) (nbits : Nat) : BitStreamOutput :=
  let u := (SignedIntegralConversion.new U nbits).SignedToUnsigned U i
  WriteUN U s u nbits

/-- `Reader<I>::Read (stream, i, nbits)` for the signed type of the width of
`U`: `i` is the value the destination holds before the call. -/
def ReadIN (U : UType) (s : BitStreamInput) (i : Int) (nbits : Nat) :
    Bool × Int × BitStreamInput :=
  let r := ReadUN U s 0 nbits
  if r.1 then (true, (SignedIntegralConversion.new U nbits).UnsignedToSigned U r.2.1, r.2.2)
  else (false, i, r.2.2)

/-- The value `x` clipped to the range of `nbits`-bit signed integers. -/
def clip (nbits : Nat) (x : Int) : Int :=
  max (-(2 ^ (nbits - 1) : Int)) (min (2 ^ (nbits - 1) - 1) x)

/-! ## C28, C29, C30: reliable packets and their acknowledgements -/

/-- The datagrams among the events, in the order they were handed to the socket. -/
def datagrams (events : List Event) : List (Address × Buffer) :=
  events.filterMap fun ev =>
    match ev with
    | .send raddr packet => some (raddr, packet)
    | _ => none

/-- A packet that reaches the `ACK` handling of `state_estabed`: the flag `ACK`
is set and none of `RST`, `PIN`, `PON`, `BWP`, `BWR`. -/
def IsAck (h : Header) : Prop :=
  h.pflags &&& FLAG_RST = 0 ∧ h.pflags &&& FLAG_PIN = 0 ∧ h.pflags &&& FLAG_PON = 0 ∧
    h.pflags &&& FLAG_BWP = 0 ∧ h.pflags &&& FLAG_BWR = 0 ∧ h.pflags &&& FLAG_ACK ≠ 0

instance (h : Header) : Decidable (IsAck h) :=
  inferInstanceAs (Decidable (_ ∧ _ ∧ _ ∧ _ ∧ _ ∧ _))

/-- A reliable data packet: the flag `RLB` is set and none of `RST`, `PIN`,
`PON`, `BWP`, `BWR`, `ACK`. -/
def IsReliableData (h : Header) : Prop :=
  h.pflags &&& FLAG_RST = 0 ∧ h.pflags &&& FLAG_PIN = 0 ∧ h.pflags &&& FLAG_PON = 0 ∧
    h.pflags &&& FLAG_BWP = 0 ∧ h.pflags &&& FLAG_BWR = 0 ∧ h.pflags &&& FLAG_ACK = 0 ∧
    h.pflags &&& FLAG_RLB ≠ 0

instance (h : Header) : Decidable (IsReliableData h) :=
  inferInstanceAs (Decidable (_ ∧ _ ∧ _ ∧ _ ∧ _ ∧ _ ∧ _))

/-- The condition of the fast retransmit in `state_estabed`:
`eq (acknum, m_reliable_latest_legal_ack) && !queue.empty () &&
++m_reliable_duplicated_ack_count >= 3`. -/
def FastRetransmit (c : Connection) (h : Header) : Prop :=
  eq h.acknum c.m_reliable_latest_legal_ack = true ∧
    c.m_reliable_retransmission_queue ≠ [] ∧
    (c.m_reliable_duplicated_ack_count + 1) % 65536 ≥ 3

instance (c : Connection) (h : Header) : Decidable (FastRetransmit c h) :=
  inferInstanceAs (Decidable (_ ∧ _ ∧ _))

/-- The retransmission queue as `emplace` leaves it, relative to a sequence
number `base`: the keys are 16-bit values at most `2^15 - 1` ahead of `base`, in
strictly increasing distance. -/
def RetxSorted (base : Nat) (q : List (Nat × RetransmissionInfo)) : Prop :=
  (∀ e ∈ q, e.1 < 65536 ∧ seqOffset base e.1 ≤ 32767) ∧
    q.Pairwise (fun a b => seqOffset base a.1 < seqOffset base b.1)

instance (base : Nat) (q : List (Nat × RetransmissionInfo)) : Decidable (RetxSorted base q) :=
  inferInstanceAs (Decidable (_ ∧ _))

/-- An established connection that has sent seven reliable packets, the last
three of them not yet acknowledged. -/
def exampleSender : Connection :=
  { exampleEstabed with
    m_reliable_latest_legal_ack := 4
    m_reliable_retransmission_queue :=
      [(4, ⟨500, 120, Header.bytes ⟨4, 0, FLAG_RLB, 1⟩ ++ [65]⟩),
        (5, ⟨200, 119, Header.bytes ⟨5, 0, FLAG_RLB, 1⟩ ++ [66]⟩),
        (6, ⟨500, 120, Header.bytes ⟨6, 0, FLAG_RLB, 1⟩ ++ [67]⟩)] }

/-! ## The default policy of a container of scalars (Serialization.h) -/

/-- `c.resize (sz)` on a container whose value-initialised element is `zero`. -/
def containerResize {T : Type} (zero : T) (c : List T) (sz : Nat) : List T :=
  c.take sz ++ List.replicate (sz - c.length) zero

/-- The loop `for (U32 i = 0; i < sz; ++i) if (!policy.Read (stream, c[i], tag))
return false;` of `DataPolicyDefault< C<T, Xs...> >::Read`, from index `i` with
`n = sz - i` rounds to go; `read` is `DataPolicyDefault<T>::Read`.  The container
has `sz` elements, so `c[i]` is there. -/
def readElements {T : Type} (read : BitStreamInput → T → Bool × T × BitStreamInput)
    (stream : BitStreamInput) (c : List T) (i : Nat) : Nat → Bool × List T × BitStreamInput
  | 0 => (true, c, stream)
  | n + 1 =>
    match c.get? i with
    | none => (false, c, stream)
    | some x =>
      let r := read stream x
      if !r.1 then (false, c.set i r.2.1, r.2.2)
      else readElements read r.2.2 (c.set i r.2.1) (i + 1) n

/-- `DataPolicyDefault< C<T, Xs...> >::Read (stream, c, tag)` for a container of
scalars: the result, the container after the call and the stream. -/
def containerRead {T : Type} (read : BitStreamInput → T → Bool × T × BitStreamInput)
    (zero : T) (stream : BitStreamInput) (c : List T) : Bool × List T × BitStreamInput :=
  let r := ReadU .U32 stream 0
  if r.1 then readElements read r.2.2 (containerResize zero c r.2.1) 0 r.2.1
  else (true, c, r.2.2)

/-- `DataPolicyDefault< C<T, Xs...> >::Write (stream, c, tag)`; `write` is
`DataPolicyDefault<T>::Write`. -/
def containerWrite {T : Type} (write : BitStreamOutput → T → BitStreamOutput)
    (stream : BitStreamOutput) (c : List T) : BitStreamOutput :=
  let sz := c.length % 2 ^ 32
  (c.take sz).foldl write (WriteU .U32 stream sz)

/-! ## The argument serializer of a remote method (DistributedObjectSystem.h) -/

/-- `::Serialize (s, T&)` for one parameter type `T`, over the values `V` the
parameters take: the result, the value after the call and the stream. -/
abbrev ArgSerialize (V : Type) := ISerializationType → V → Bool × V × ISerializationType

/-- `ArgumentsSerializerHelper<M, N>::Apply (s, args)`:
`::Serialize (s, std::get<N - 1> (args)) && ArgumentsSerializerHelper<M, N -
1>::Apply (s, args)`, and true for `N = 0`.  `types` are the parameter types in
declared order and `args` the tuple.  Returns the result, the tuple and the
stream after the call, and the positions serialized, in the order of the calls.
The tuple has `N` members at least, so `std::get<N - 1>` is there. -/
def ArgumentsSerializerHelper {V : Type} (types : List (ArgSerialize V)) :
    Nat → ISerializationType → List V → Bool × List V × ISerializationType × List Nat
  | 0, s, args => (true, args, s, [])
  | N + 1, s, args =>
    match types.get? N, args.get? N with
    | some t, some a =>
      let r := t s a
      if r.1 then
        let q := ArgumentsSerializerHelper types N r.2.2 (args.set N r.2.1)
        (q.1, q.2.1, q.2.2.1, N :: q.2.2.2)
      else (false, args.set N r.2.1, r.2.2, [N])
    | _, _ => (false, args, s, [])

/-- `ArgumentsSerializer<M> (s, args) ()`: the helper at `N = std::tuple_size`. -/
def ArgumentsSerializer {V : Type} (types : List (ArgSerialize V)) (s : ISerializationType)
    (args : List V) : Bool × List V × ISerializationType × List Nat :=
  ArgumentsSerializerHelper types types.length s args

/-- `StaticInvoke<M> (m, o, s)`: the tuple `args` is value-initialized
(`construct`), filled by the argument serializer, and the method is called with
`std::get<0> (args)`, ..., `std::get<n - 1> (args)`.  Returns the result, the
stream and the tuple the method was called with, if it was called. -/
def StaticInvoke {V : Type} (types : List (ArgSerialize V)) (construct : List V)
    (m : List V → Bool) (s : ISerializationType) :
    Bool × ISerializationType × Option (List V) :=
  let r := ArgumentsSerializer types s construct
  if r.1 then (m r.2.1, r.2.2.1, some r.2.1) else (false, r.2.2.1, none)

/-- The arguments serialized one at a time at the positions `order`, in that
order, stopping at the first that fails. -/
def serializeAt {V : Type} (types : List (ArgSerialize V)) :
    List Nat → ISerializationType → List V → Bool × List V × ISerializationType × List Nat
  | [], s, args => (true, args, s, [])
  | k :: order, s, args =>
    match types.get? k, args.get? k with
    | some t, some a =>
      let r := t s a
      if r.1 then
        let q := serializeAt types order r.2.2 (args.set k r.2.1)
        (q.1, q.2.1, q.2.2.1, k :: q.2.2.2)
      else (false, args.set k r.2.1, r.2.2, [k])
    | _, _ => (false, args, s, [])

/-- The parameter type `U8` under the default policy. -/
def exampleU8 : ArgSerialize Nat := fun s v =>
  match s with
  | .output stream => (true, v, .output (WriteU .U8 stream v))
  | .input stream =>
    let r := ReadU .U8 stream v
    (r.1, r.2.1, .input r.2.2)

/-- The object that `exampleBound` binds under the id 7. -/
def exampleObject7 : InvokableObject :=
  ⟨"", [[([65, 58, 58, 102], exampleThunk)], [([66, 58, 58, 103], exampleThunk)]]⟩

/-! ## MetaStruct (MetaStruct.h) -/

/-- One scalar type `T` of the type list `Ts` of a `Struct`, over the values `V`
a scalar takes: the default constructor `T ()` and the default policy of `T`
(`DataPolicyDefault<T>::Write`, which returns nothing, and `Read`). -/
structure ScalarType (V : Type) where
  construct : V
  write : BitStreamOutput → V → BitStreamOutput
  read : BitStreamInput → V → Bool × V × BitStreamInput

mutual
/-- `Field::ValueType` holding a value, a `Variant` over the scalar types `Ts`
(indices `0` to `k - 1`), `RecursiveWrapper<Struct>` (index `k`, its `Struct`
given by its three members) and `std::deque< RecursiveWrapper<ValueType> >`
(index `k + 1`). -/
inductive ValueType (V : Type) where
  | scalar (m_index : Nat) (x : V)
  | struct (m_name : Str) (m_mappings : List (Str × Nat)) (m_fields : Fields V)
  | array (items : ArrayType V)
/-- `ValueType::ArrayType`, `std::deque< RecursiveWrapper<ValueType> >`. -/
inductive ArrayType (V : Type) where
  | nil
  | cons (v : ValueType V) (rest : ArrayType V)
/-- `std::deque<FieldType>`: each `Field` is its `m_name` and its `m_value`, a
null pointer (`noValue`) or a `ValueType` (`withValue`). -/
inductive Fields (V : Type) where
  | nil
  | noValue (m_name : Str) (rest : Fields V)
  | withValue (m_name : Str) (v : ValueType V) (rest : Fields V)
end

/-- The class `Struct`. -/
structure Struct (V : Type) where
  m_name : Str
  m_mappings : List (Str × Nat)
  m_fields : Fields V

/-- `size ()` of an array. -/
def ArrayType.length {V : Type} : ArrayType V → Nat
  | .nil => 0
  | .cons _ rest => rest.length + 1

/-- `size ()` of a deque of fields. -/
def Fields.length {V : Type} : Fields V → Nat
  | .nil => 0
  | .noValue _ rest => rest.length + 1
  | .withValue _ _ rest => rest.length + 1

/-- The names of the fields, in order. -/
def Fields.names {V : Type} : Fields V → List Str
  | .nil => []
  | .noValue name rest => name :: rest.names
  | .withValue name _ rest => name :: rest.names

/-- The field at index `i`: its name and its value, if it has one. -/
def Fields.get? {V : Type} : Fields V → Nat → Option (Str × Option (ValueType V))
  | .nil, _ => none
  | .noValue name _, 0 => some (name, none)
  | .withValue name v _, 0 => some (name, some v)
  | .noValue _ rest, i + 1 => rest.get? i
  | .withValue _ _ rest, i + 1 => rest.get? i

mutual
/-- `ValueType::Serialize (s)`, which is `Variant::Serialize`, in write mode, on
the policy `unique` and the output stream: the tag as a `U8`, then the
alternative held; for a `Struct` `Struct::Serialize`, for an array the size as a
`U32` and the elements. -/
def ValueType.write {V : Type} (scalars : List (ScalarType V)) :
    ValueType V → UniqueStringPolicy → BitStreamOutput →
      Bool × UniqueStringPolicy × BitStreamOutput
  | .scalar index x, p, s =>
    match scalars.get? (index % 256) with
    | some t => (true, p, t.write (WriteU .U8 s (index % 256)) x)
    | none => (false, p, WriteU .U8 s (index % 256))
  | .struct name _ fields, p, s =>
    let r := p.Write (WriteU .U8 s (scalars.length % 256)) name
    Fields.write scalars fields r.1 (WriteU .U32 r.2 (fields.length % 2 ^ 32))
  | .array items, p, s =>
    ArrayType.write scalars items p
      (WriteU .U32 (WriteU .U8 s ((scalars.length + 1) % 256)) (items.length % 2 ^ 32))
/-- The loop over the elements of an array in write mode. -/
def ArrayType.write {V : Type} (scalars : List (ScalarType V)) :
    ArrayType V → UniqueStringPolicy → BitStreamOutput →
      Bool × UniqueStringPolicy × BitStreamOutput
  | .nil, p, s => (true, p, s)
  | .cons v rest, p, s =>
    let r := ValueType.write scalars v p s
    if !r.1 then r else ArrayType.write scalars rest r.2.1 r.2.2
/-- The loop over the fields in write mode, each by `Field::Serialize`: the
name under `unique`, `hasValue`, and the value if there is one. -/
def Fields.write {V : Type} (scalars : List (ScalarType V)) :
    Fields V → UniqueStringPolicy → BitStreamOutput →
      Bool × UniqueStringPolicy × BitStreamOutput
  | .nil, p, s => (true, p, s)
  | .noValue name rest, p, s =>
    let r := p.Write s name
    Fields.write scalars rest r.1 (WriteBool r.2 false)
  | .withValue name v rest, p, s =>
    let r := p.Write s name
    let q := ValueType.write scalars v r.1 (WriteBool r.2 true)
    if !q.1 then q else Fields.write scalars rest q.2.1 q.2.2
end

/-- `Struct::Serialize (s)` in write mode: the name under `unique`, then the
fields (`SERIALIZE (s, m_fields)`: the size as a `U32` and each field). -/
def Struct.write {V : Type} (scalars : List (ScalarType V)) (st : Struct V)
    (p : UniqueStringPolicy) (s : BitStreamOutput) :
    Bool × UniqueStringPolicy × BitStreamOutput :=
  let r := p.Write s st.m_name
  Fields.write scalars st.m_fields r.1 (WriteU .U32 r.2 (st.m_fields.length % 2 ^ 32))

/-- `m_mappings[name] = i`. -/
def mapAssign (name : Str) (i : Nat) : List (Str × Nat) → List (Str × Nat)
  | [] => [(name, i)]
  | e :: rest => if strEq e.1 name then (e.1, i) :: rest else e :: mapAssign name i rest

/-- The loop `for (i = 0; i < sz; ++i) m_mappings[m_fields[i].GetName ()] = i`
of `Struct::Serialize` in read mode, from index `i` on. -/
def rebuildMappings : List Str → Nat → List (Str × Nat) → List (Str × Nat)
  | [], _, m => m
  | name :: rest, i, m => rebuildMappings rest (i + 1) (mapAssign name i m)

mutual
/-- `ValueType::Serialize (s)` in read mode on a default-constructed
`ValueType`, with `fuel` bounding the number of objects read: none when it
returns false (or the fuel is used up), else the value held afterwards, the
policy `unique` and the stream.  The tag is read into `(U8)m_index`, the
alternative is default-constructed and read. -/
def ValueType.read {V : Type} (scalars : List (ScalarType V)) :
    Nat → UniqueStringPolicy → BitStreamInput →
      Option (ValueType V × UniqueStringPolicy × BitStreamInput)
  | 0, _, _ => none
  | fuel + 1, p, s =>
    let r := ReadU .U8 s ((scalars.length + 2) % 256)
    if !r.1 then none
    else if r.2.1 < scalars.length then
      match scalars.get? r.2.1 with
      | some t =>
        let q := t.read r.2.2 t.construct
        if q.1 then some (.scalar r.2.1 q.2.1, p, q.2.2) else none
      | none => none
    else if r.2.1 = scalars.length then
      let rn := p.Read r.2.2 []
      if !rn.1 then none
      else
        let rs := ReadU .U32 rn.2.2.2 0
        if !rs.1 then none
        else
          match Fields.read scalars fuel rs.2.1 rn.2.2.1 rs.2.2 with
          | some q =>
            some (.struct rn.2.1 (rebuildMappings q.1.names 0 []) q.1, q.2.1, q.2.2)
          | none => none
    else if r.2.1 = scalars.length + 1 then
      let rs := ReadU .U32 r.2.2 0
      if !rs.1 then none
      else
        match ArrayType.read scalars fuel rs.2.1 p rs.2.2 with
        | some q => some (.array q.1, q.2.1, q.2.2)
        | none => none
    else none
/-- The loop over the `n` elements of a resized array in read mode. -/
def ArrayType.read {V : Type} (scalars : List (ScalarType V)) :
    Nat → Nat → UniqueStringPolicy → BitStreamInput →
      Option (ArrayType V × UniqueStringPolicy × BitStreamInput)
  | 0, _, _, _ => none
  | _ + 1, 0, p, s => some (.nil, p, s)
  | fuel + 1, n + 1, p, s =>
    match ValueType.read scalars fuel p s with
    | some r =>
      match ArrayType.read scalars fuel n r.2.1 r.2.2 with
      | some q => some (.cons r.1 q.1, q.2.1, q.2.2)
      | none => none
    | none => none
/-- The loop over the `n` fields of a resized deque in read mode, each a
default-constructed `Field` read by `Field::Serialize`. -/
def Fields.read {V : Type} (scalars : List (ScalarType V)) :
    Nat → Nat → UniqueStringPolicy → BitStreamInput →
      Option (Fields V × UniqueStringPolicy × BitStreamInput)
  | 0, _, _, _ => none
  | _ + 1, 0, p, s => some (.nil, p, s)
  | fuel + 1, n + 1, p, s =>
    let rn := p.Read s []
    if !rn.1 then none
    else
      let rb := ReadBool rn.2.2.2
      if !rb.1 then none
      else if rb.2.1 then
        match ValueType.read scalars fuel rn.2.2.1 rb.2.2 with
        | some r =>
          match Fields.read scalars fuel n r.2.1 r.2.2 with
          | some q => some (.withValue rn.2.1 r.1 q.1, q.2.1, q.2.2)
          | none => none
        | none => none
      else
        match Fields.read scalars fuel n rn.2.2.1 rb.2.2 with
        | some q => some (.noValue rn.2.1 q.1, q.2.1, q.2.2)
        | none => none
end

/-- `Struct::Serialize (s)` in read mode on a default-constructed `Struct`. -/
def Struct.read {V : Type} (scalars : List (ScalarType V)) (fuel : Nat)
    (p : UniqueStringPolicy) (s : BitStreamInput) :
    Option (Struct V × UniqueStringPolicy × BitStreamInput) :=
  let rn := p.Read s []
  if !rn.1 then none
  else
    let rs := ReadU .U32 rn.2.2.2 0
    if !rs.1 then none
    else
      match Fields.read scalars fuel rs.2.1 rn.2.2.1 rs.2.2 with
      | some q => some (⟨rn.2.1, rebuildMappings q.1.names 0 [], q.1⟩, q.2.1, q.2.2)
      | none => none

/-- `Struct::HasField (name)`. -/
def Struct.HasField {V : Type} (st : Struct V) (name : Str) : Bool :=
  (st.m_mappings.find? (fun e => strEq e.1 name)).isSome

/-- `Struct::GetField (name)`: the field found, its name and its value; none
for `throw -1`. -/
def Struct.GetField {V : Type} (st : Struct V) (name : Str) :
    Option (Str × Option (ValueType V)) :=
  match st.m_mappings.find? (fun e => strEq e.1 name) with
  | some e => st.m_fields.get? e.2
  | none => none

/-- The scalar type `U32` under the default policy. -/
def scalarU32 : ScalarType Nat := ⟨0, WriteU .U32, ReadU .U32⟩

/-- A `Struct` `"M"` with the fields `"id"` (the scalar 1000), `"no"` (no value)
and `"ts"` (an array of the `Struct` `"T"` with one field `"id"` and of the
scalar 7). -/
def exampleStruct : Struct Nat :=
  ⟨[77], [([105, 100], 0), ([110, 111], 1), ([116, 115], 2)],
    .withValue [105, 100] (.scalar 0 1000)
      (.noValue [110, 111]
        (.withValue [116, 115]
          (.array (.cons (.struct [84] [([105, 100], 0)] (.noValue [105, 100] .nil))
            (.cons (.scalar 0 7) .nil)))
          .nil))⟩

mutual
/-- The number of objects a `ValueType` is made of: the fuel that reading it
takes. -/
def ValueType.size {V : Type} : ValueType V → Nat
  | .scalar _ _ => 1
  | .struct _ _ fields => fields.size + 1
  | .array items => items.size + 1
/-- The number of objects an array is made of. -/
def ArrayType.size {V : Type} : ArrayType V → Nat
  | .nil => 1
  | .cons v rest => v.size + rest.size + 1
/-- The number of objects a deque of fields is made of. -/
def Fields.size {V : Type} : Fields V → Nat
  | .nil => 1
  | .noValue _ rest => rest.size + 1
  | .withValue _ v rest => v.size + rest.size + 1
end

/-- What the round trip of a `Struct` needs of a scalar value `x` of the type
`t`: the default policy of `t` appends to the stream and reads `x` back, into a
default-constructed `T`, from any buffer that holds what was written. -/
def ScalarOK {V : Type} (t : ScalarType V) (x : V) : Prop :=
  ∀ s : BitStreamOutput, s.WF →
    (t.write s x).WF ∧ Extends s (t.write s x) ∧
    ∀ b : BitStreamOutput, IsBytes b.m_output → Extends (t.write s x) b →
      t.read ⟨b.m_output, s.m_nbits⟩ t.construct
        = (true, x, ⟨b.m_output, (t.write s x).m_nbits⟩)

mutual
/-- A `ValueType` as `SetValue` and `AddField` build it, for the round trip: a
scalar is of one of the scalar types and round trips by itself; the names of a
nested `Struct` and of its fields hold no zero byte, its name-to-index map is
the one `AddField` keeps, and no array or deque has `2^32` elements or more. -/
def ValueType.WF {V : Type} (scalars : List (ScalarType V)) : ValueType V → Prop
  | .scalar index x => ∃ t, scalars.get? index = some t ∧ ScalarOK t x
  | .struct name mappings fields =>
    TextString name ∧ fields.length < 2 ^ 32 ∧
      mappings = rebuildMappings fields.names 0 [] ∧ Fields.WF scalars fields
  | .array items => items.length < 2 ^ 32 ∧ ArrayType.WF scalars items
/-- Every element of the array is well formed. -/
def ArrayType.WF {V : Type} (scalars : List (ScalarType V)) : ArrayType V → Prop
  | .nil => True
  | .cons v rest => ValueType.WF scalars v ∧ ArrayType.WF scalars rest
/-- Every field has a name without a zero byte and a well-formed value, if it
has one. -/
def Fields.WF {V : Type} (scalars : List (ScalarType V)) : Fields V → Prop
  | .nil => True
  | .noValue name rest => TextString name ∧ Fields.WF scalars rest
  | .withValue name v rest =>
    TextString name ∧ ValueType.WF scalars v ∧ Fields.WF scalars rest
end

/-- A `Struct` as `SetName`, `AddField` and `SetValue` build it, for the round
trip: see `ValueType.WF`; `AddField` keeps the names of the fields distinct as
`String`s compare. -/
def Struct.WF {V : Type} (scalars : List (ScalarType V)) (st : Struct V) : Prop :=
  TextString st.m_name ∧ st.m_fields.length < 2 ^ 32 ∧
    st.m_mappings = rebuildMappings st.m_fields.names 0 [] ∧ Fields.WF scalars st.m_fields ∧
    st.m_fields.names.Pairwise (fun a b => strEq a b = false)

/-- The write `w` of the value `a`, started at the policy `pw` and the stream
`s`, succeeds and appends to the stream, and the reader `rd`, started at the
place of `s` in any buffer that holds what was written (within `2^32` bits) with
a policy whose cache mirrors that of `pw`, returns `a` and ends where the
writer ended, its cache mirroring the writer's again. -/
def RoundTrip {α : Type} (pw : UniqueStringPolicy) (s : BitStreamOutput)
    (w : Bool × UniqueStringPolicy × BitStreamOutput)
    (rd : UniqueStringPolicy → BitStreamInput → Option (α × UniqueStringPolicy × BitStreamInput))
    (a : α) : Prop :=
  w.1 = true ∧ w.2.2.WF ∧ Extends s w.2.2 ∧ WriteInv w.2.1.m_writeCache w.2.2.m_nbits ∧
    ∀ (pr : UniqueStringPolicy) (b : BitStreamOutput),
      CacheInv pw.m_writeCache pr.m_readCache → IsBytes b.m_output → Extends w.2.2 b →
      w.2.2.m_nbits ≤ 2 ^ 32 →
      ∃ pr1, rd pr ⟨b.m_output, s.m_nbits⟩ = some (a, pr1, ⟨b.m_output, w.2.2.m_nbits⟩) ∧
        CacheInv w.2.1.m_writeCache pr1.m_readCache


/-- The field `Field (name)` appended at the back (`emplace_back (name)`). -/
def Fields.emplace_back {V : Type} : Fields V → Str → Fields V
  | .nil, name => .noValue name .nil
  | .noValue n rest, name => .noValue n (rest.emplace_back name)
  | .withValue n v rest, name => .withValue n v (rest.emplace_back name)

/-- `Struct::SetName (name)`. -/
def Struct.SetName {V : Type} (st : Struct V) (name : Str) : Struct V :=
  ⟨name, st.m_mappings, st.m_fields⟩

/-- `Struct::AddField (name)`: the `Struct` after the call.  A name found in
`m_mappings` adds nothing. -/
def Struct.AddField {V : Type} (st : Struct V) (name : Str) : Struct V :=
  match st.m_mappings.find? (fun e => strEq e.1 name) with
  | some _ => st
  | none =>
    ⟨st.m_name, mapAssign name ((st.m_fields.emplace_back name).length - 1) st.m_mappings,
      st.m_fields.emplace_back name⟩

/-- The names with their indices from `i` on. -/
def indexed : List Str → Nat → List (Str × Nat)
  | [], _ => []
  | name :: rest, i => (name, i) :: indexed rest (i + 1)

/-- A `Struct` named `"a\0b"` with one field named `"a\0c"`, which has no
value. -/
def zeroByteStruct : Struct Nat :=
  ⟨[97, 0, 98], [([97, 0, 99], 0)], .noValue [97, 0, 99] .nil⟩

/-- The spec's `d` for C34: the value of `(a - b) mod 2^16` read as a signed
16-bit two's-complement integer. -/
def signedDiff16 (a b : Nat) : Int :=
  if (a + 65536 - b % 65536) % 65536 < 32768 then ((a + 65536 - b % 65536) % 65536 : Nat)
  else (((a + 65536 - b % 65536) % 65536 : Nat) : Int) - 65536

/-! ## C31, C32, C33: the sender's window -/

/-- What happens to one connection record: the application calls `Connect`,
`Listen`, `Setup`, `Send` or `Close`, `Tick` hands a datagram to the state
function, or `Tick` runs `check_timeout`. -/
inductive ConnectionCall where
  | Connect (env : Env) (raddr : Address)
  | Listen
  | Setup
  | Send (data : Buffer) (reliable : Bool)
  | Close
  | receive (env : Env) (raddr : Address) (packet : Buffer)
  | check_timeout (env : Env) (elapsed : ℚ)

/-- One call on a connection record. -/
def Connection.call (c : Connection) : ConnectionCall → Connection × List Event
  | .Connect env raddr => c.Connect env raddr
  | .Listen => (c.Listen, [])
  | .Setup => c.Setup
  | .Send data reliable => c.Send data reliable
  | .Close => c.Close
  | .receive env raddr packet => c.fsm env raddr packet
  | .check_timeout env elapsed => c.check_timeout env elapsed

/-- A sequence of calls on a connection record, with the events in order. -/
def runConnection (c : Connection) : List ConnectionCall → Connection × List Event
  | [] => (c, [])
  | x :: rest =>
    let r := c.call x
    let r2 := runConnection r.1 rest
    (r2.1, r.2 ++ r2.2)

/-- The call is a reliable `Send`. -/
def ConnectionCall.isReliableSend : ConnectionCall → Bool
  | .Send _ true => true
  | _ => false

/-- Every reliable `Send` of the calls finds fewer than `2^15 - 1` packets in the
retransmission queue: the keys of the queue stay within the `2^15` window in
which the comparator `Less` orders them. -/
def withinWindow : Connection → List ConnectionCall → Bool
  | _, [] => true
  | c, x :: rest =>
    (!x.isReliableSend || decide (c.m_reliable_retransmission_queue.length < 32767)) &&
      withinWindow (c.call x).1 rest

/-- The keys of the retransmission queue, in iteration order. -/
def retxKeys (q : List (Nat × RetransmissionInfo)) : List Nat := q.map (fun e => e.1)

/-- The `n` sequence numbers `first`, `first + 1`, ... modulo `2^16`. -/
def seqRange (first n : Nat) : List Nat := (List.range n).map (fun i => (first + i) % 65536)

/-- The oldest sequence number not yet acknowledged: `m_reliable_outgoing_sequence`
minus the number of packets in the retransmission queue, modulo `2^16`. -/
def oldestUnacked (c : Connection) : Nat :=
  (c.m_reliable_outgoing_sequence + 65536 - c.m_reliable_retransmission_queue.length % 65536)
    % 65536

/-- The sender side of a connection record: the keys of the retransmission
queue are the sequence numbers from `oldestUnacked` up to
`m_reliable_outgoing_sequence - 1`, at most `2^15 - 1` of them; there is none
in `STATE_CLOSED` and `STATE_LISTEN`, at most the `SYN` during the handshake, and
in `STATE_ESTABED` `m_reliable_latest_legal_ack` is the oldest of them. -/
def SenderInv (c : Connection) : Prop :=
  c.m_reliable_outgoing_sequence < 65536 ∧
  c.m_reliable_retransmission_queue.length ≤ 32767 ∧
  retxKeys c.m_reliable_retransmission_queue
    = seqRange (oldestUnacked c) c.m_reliable_retransmission_queue.length ∧
  (c.m_state = .STATE_CLOSED ∨ c.m_state = .STATE_LISTEN →
    c.m_reliable_retransmission_queue = []) ∧
  (c.m_state = .STATE_SYNSENT ∨ c.m_state = .STATE_SYNRCVD →
    c.m_reliable_retransmission_queue.length ≤ 1) ∧
  (c.m_state = .STATE_ESTABED → c.m_reliable_latest_legal_ack = oldestUnacked c)

instance (c : Connection) : Decidable (SenderInv c) :=
  inferInstanceAs (Decidable (_ ∧ _ ∧ _ ∧ _ ∧ _ ∧ _))

/-- What a packet does to the sender side of an established connection `c`, with
result `r`: the connection is reset, or the state and the outgoing sequence
number are kept and either the queue and the latest legal `ACK` are kept too, or
the packet is an `ACK` not beyond what was sent and the entries below it go. -/
def AckStep (c : Connection) (header : Header) (r : Connection × List Event) : Prop :=
  r.1 = Connection.new c.m_master ∨
  (r.1.m_state = c.m_state ∧
    r.1.m_reliable_outgoing_sequence = c.m_reliable_outgoing_sequence ∧
    ((r.1.m_reliable_retransmission_queue = c.m_reliable_retransmission_queue ∧
        r.1.m_reliable_latest_legal_ack = c.m_reliable_latest_legal_ack) ∨
      (gt header.acknum c.m_reliable_outgoing_sequence = false ∧
        r.1.m_reliable_retransmission_queue
          = eraseBelow header.acknum c.m_reliable_retransmission_queue ∧
        r.1.m_reliable_latest_legal_ack
          = if lowerBoundNotBegin header.acknum c.m_reliable_retransmission_queue
            then header.acknum else c.m_reliable_latest_legal_ack)))

/-- A client that has connected to `"10.0.0.9:7"` at the time 41 and waits for
the `SYN|ACK`. -/
def exampleClient : Connection :=
  ((Connection.new true).Connect ⟨41, 0, 0, 0, 0⟩ "10.0.0.9:7").1

/-- The calls of the example: the `SYN|ACK` of the server arrives, the
application sends two reliable packets, the server acknowledges the first. -/
def exampleClientCalls : List ConnectionCall :=
  [.receive ⟨0, 0, 0, 0, 0⟩ "10.0.0.9:7" (synAckPacket 900 41),
    .Send [1] true, .Send [2] true,
    .receive ⟨0, 0, 0, 0, 0⟩ "10.0.0.9:7" (ackPacket 43)]

/-! ## The indices at which the reader accesses `m_input` -/

/-- The indices `readIndex` at which the `while (p < e)` loop of `ReadBits` reads
`m_input[readIndex]`: `++readIndex <= endIndex ? m_input[readIndex] : 0`. -/
def readLoopReads (endIndex : Nat) : Nat → Nat → List Nat
  | 0, _ => []
  | count + 1, readIndex =>
    (if readIndex + 1 ≤ endIndex then [readIndex + 1] else [])
      ++ readLoopReads endIndex count (readIndex + 1)

/-- The indices at which `ReadBits (buffer, nbits)` reads `m_input`, in order:
`Byte data = m_input[readIndex]` and the reads of the loop. -/
def ReadBits_reads (s : BitStreamInput) (nbits : Nat) : List Nat :=
  if nbits = 0 then []
  else if s.m_nbits + nbits > s.m_input.length * 8 then []
  else
    (s.m_nbits >>> 3) ::
      readLoopReads (BITS2BYTES (s.m_nbits + nbits) - 1) (BITS2BYTES nbits) (s.m_nbits >>> 3)

/-- The index at which `ReadBit (bit)` reads `m_input`. -/
def ReadBit_reads (s : BitStreamInput) : List Nat :=
  if s.m_nbits + 1 > s.m_input.length * 8 then [] else [s.m_nbits >>> 3]

/-- The indices that `memcpy (buffer, &m_input[byteIndex], nbytes)` of
`ReadBytesAligned (buffer, nbytes)` reads. -/
def ReadBytesAligned_reads (s : BitStreamInput) (nbytes : Nat) : List Nat :=
  if nbytes = 0 then []
  else if BITS2BYTES s.m_nbits + nbytes > s.m_input.length then []
  else (List.range nbytes).map (fun k => BITS2BYTES s.m_nbits + k)

/-- The indices read by `Reader<U>::Read (stream, u, nbits)`, and by
`Reader<I>::Read (stream, i, nbits)`, which calls it. -/
def ReadUN_reads (U : UType) (s : BitStreamInput) (nbits : Nat) : List Nat :=
  ReadBits_reads s (if nbits > U.bits then U.bits else nbits)

/-- The indices read by `Reader<U>::Read (stream, u)`. -/
def ReadU_reads (U : UType) (s : BitStreamInput) : List Nat :=
  let r := ReadBits s [0] (N_PREFIX_BITS U)
  ReadBits_reads s (N_PREFIX_BITS U)
    ++ (if r.1 then ReadUN_reads U r.2.2 (r.2.1.getD 0 0 + 1) else [])

/-- The indices read by `Reader<I>::Read (stream, i)`. -/
def ReadI_reads (U : UType) (s : BitStreamInput) : List Nat :=
  let r := ReadBit s 0
  ReadBit_reads s ++ (if r.1 then ReadU_reads U r.2.2 else [])

/-- The indices read by `String::BuildFrom (stream)`. -/
def ReadString_reads (s : BitStreamInput) : List Nat :=
  let r := ReadU .U32 s 0
  ReadU_reads .U32 s
    ++ (if r.1 then (if r.2.1 = 0 then [] else ReadBytesAligned_reads r.2.2 r.2.1) else [])

/-- The indices read by `BitStreamInput::Read (Buffer&)`. -/
def ReadBuffer_reads (s : BitStreamInput) : List Nat :=
  let r := ReadU .U32 s 0
  ReadU_reads .U32 s ++ (if r.1 then ReadBytesAligned_reads r.2.2 r.2.1 else [])

/-! ## `Struct::Serialize` in read mode on a `Struct` that is in use -/

/-- `elements.resize (sz)` on the deque of fields: the first `sz` fields as they
are, then default-constructed ones (`Field ("")`, no value). -/
def Fields.resize {V : Type} : Fields V → Nat → Fields V
  | _, 0 => .nil
  | .nil, n + 1 => .noValue [] (Fields.resize .nil n)
  | .noValue name rest, n + 1 => .noValue name (Fields.resize rest n)
  | .withValue name v rest, n + 1 => .withValue name v (Fields.resize rest n)

/-- A field with the name `name` and the value `v` (a null pointer for none) in
front of `rest`. -/
def Fields.push {V : Type} (name : Str) (v : Option (ValueType V)) (rest : Fields V) :
    Fields V :=
  match v with
  | none => .noValue name rest
  | some x => .withValue name x rest

/-- `Field::Serialize (s)` in read mode on a field that holds the name `name` and
the value `v`, followed by the loop over the fields `rest` behind it
(`Fields.readInto`, passed as `loop`): the name is read under `unique` into
`m_name`, then `hasValue`; the value is read into a new `ValueType` when
`hasValue` is read as true, and `m_value` is left as it is otherwise. -/
def fieldReadInto {V : Type} (scalars : List (ScalarType V)) (fuel : Nat) (name : Str)
    (v : Option (ValueType V))
    (loop : UniqueStringPolicy → BitStreamInput →
      Option (Fields V × UniqueStringPolicy × BitStreamInput))
    (p : UniqueStringPolicy) (s : BitStreamInput) :
    Option (Fields V × UniqueStringPolicy × BitStreamInput) :=
  let rn := p.Read s name
  if !rn.1 then none
  else
    let rb := ReadBool rn.2.2.2
    if !rb.1 then none
    else if rb.2.1 then
      match ValueType.read scalars fuel rn.2.2.1 rb.2.2 with
      | some r =>
        match loop r.2.1 r.2.2 with
        | some q => some (.withValue rn.2.1 r.1 q.1, q.2.1, q.2.2)
        | none => none
      | none => none
    else
      match loop rn.2.2.1 rb.2.2 with
      | some q => some (Fields.push rn.2.1 v q.1, q.2.1, q.2.2)
      | none => none

/-- The loop `for (i = 0; i < elements.size (); ++i) if (!elements[i].Serialize
(s)) return false;` of the container `Serialize` in read mode, over the fields as
they are after `resize`; `fuel` bounds the number of objects read, and none
stands for `return false`. -/
def Fields.readInto {V : Type} (scalars : List (ScalarType V)) :
    Nat → Fields V → UniqueStringPolicy → BitStreamInput →
      Option (Fields V × UniqueStringPolicy × BitStreamInput)
  | 0, _, _, _ => none
  | _ + 1, .nil, p, s => some (.nil, p, s)
  | fuel + 1, .noValue name rest, p, s =>
    fieldReadInto scalars fuel name none (Fields.readInto scalars fuel rest) p s
  | fuel + 1, .withValue name v rest, p, s =>
    fieldReadInto scalars fuel name (some v) (Fields.readInto scalars fuel rest) p s

/-- `Struct::Serialize (s)` in read mode on the `Struct` `st`, in whatever state
it is: the name is read under `unique` into `m_name`; the size of `m_fields` is
read into a `U32` that holds the current size, the deque is resized and every
field read; then `m_mappings[m_fields[i].GetName ()] = i` for every field, into
the map as it is.  None stands for `return false`. -/
def Struct.readInto {V : Type} (scalars : List (ScalarType V)) (fuel : Nat) (st : Struct V)
    (p : UniqueStringPolicy) (s : BitStreamInput) :
    Option (Struct V × UniqueStringPolicy × BitStreamInput) :=
  let rn := p.Read s st.m_name
  if !rn.1 then none
  else
    let rs := ReadU .U32 rn.2.2.2 (st.m_fields.length % 2 ^ 32)
    if !rs.1 then none
    else
      match Fields.readInto scalars fuel (Fields.resize st.m_fields rs.2.1) rn.2.2.1 rs.2.2 with
      | some q => some (⟨rn.2.1, rebuildMappings q.1.names 0 st.m_mappings, q.1⟩, q.2.1, q.2.2)
      | none => none

/-- A `Struct` `"S"` built with `SetName` and `AddField`: the fields `"a"` and
`"b"`, without values. -/
def usedStruct : Struct Nat :=
  (((⟨[], [], .nil⟩ : Struct Nat).SetName [83]).AddField [97]).AddField [98]

/-- A `Struct` `"T"` with the one field `"c"`, without a value. -/
def sourceStruct : Struct Nat :=
  ((⟨[], [], .nil⟩ : Struct Nat).SetName [84]).AddField [99]

/-! ## Pathfinding (Pathfinding.h) -/

/-- The struct `Location`; `operator==` compares `x` and `y`. -/
structure Location where
  x : Nat
  y : Nat
  deriving DecidableEq, Repr

/-- `Location::operator<`. -/
def Location.lt (a b : Location) : Bool :=
  decide (a.x < b.x) || (if a.x = b.x then decide (a.y < b.y) else false)

/-- The array `DIRS`; `(size_t)-1` is `2^64 - 1`. -/
def DIRS : List Location := [⟨1, 0⟩, ⟨0, 2 ^ 64 - 1⟩, ⟨2 ^ 64 - 1, 0⟩, ⟨0, 1⟩]

/-- The class `SquareGrid<N>`: the template parameter and `m_grid`, the rows
`m_grid[y]` of weights `m_grid[y][x]`. -/
structure SquareGrid where
  N : Nat
  m_grid : List (List Nat)
  deriving DecidableEq, Repr

/-- `SquareGrid::valid (p)`. -/
def SquareGrid.valid (g : SquareGrid) (p : Location) : Bool :=
  decide (p.x < g.N) && decide (p.y < g.N)

/-- `SquareGrid::Reset ()`: every weight becomes 1. -/
def SquareGrid.Reset (g : SquareGrid) : SquareGrid :=
  ⟨g.N, List.replicate g.N (List.replicate g.N 1)⟩

/-- The constructor `SquareGrid ()`. -/
def SquareGrid.new (N : Nat) : SquareGrid := (⟨N, []⟩ : SquareGrid).Reset

/-- `SquareGrid::SetWeight (p, weight)`; `weight` is a `uint8_t`. -/
def SquareGrid.SetWeight (g : SquareGrid) (p : Location) (weight : Nat) : SquareGrid :=
  if g.valid p && decide (weight > 0) then
    { g with m_grid := g.m_grid.set p.y ((g.m_grid.getD p.y []).set p.x weight) }
  else g

/-- `SquareGrid::SetWeights (weights)`, the entries of the map in iteration
order. -/
def SquareGrid.SetWeights (g : SquareGrid) (weights : List (Location × Nat)) : SquareGrid :=
  weights.foldl (fun g each => g.SetWeight each.1 each.2) g

/-- `SquareGrid::GetWeight (p)`. -/
def SquareGrid.GetWeight (g : SquareGrid) (p : Location) : Nat :=
  if g.valid p then (g.m_grid.getD p.y []).getD p.x 0 else 0

/-- `SquareGrid::neighbors (p)`; the sums are `size_t` sums. -/
def SquareGrid.neighbors (g : SquareGrid) (p : Location) : List Location :=
  let results :=
    (DIRS.map (fun d => (⟨(p.x + d.x) % 2 ^ 64, (p.y + d.y) % 2 ^ 64⟩ : Location))).filter
      g.valid
  if (p.x + p.y) % 2 ^ 64 % 2 = 0 then results.reverse else results

/-- `SquareGrid::heuristic (a, b)`. -/
def heuristic (a b : Location) : Nat :=
  ((if a.x > b.x then a.x - b.x else b.x - a.x)
    + (if a.y > b.y then a.y - b.y else b.y - a.y)) % 2 ^ 64

/-- `m.find (k)` on a `std::unordered_map` with `Location` keys, kept as an
association list: the value found. -/
def umFind {β : Type} (k : Location) (m : List (Location × β)) : Option β :=
  (m.find? (fun e => e.1 == k)).map (fun e => e.2)

/-- `m[k] = v` on a `std::unordered_map` with `Location` keys. -/
def umSet {β : Type} (k : Location) (v : β) : List (Location × β) → List (Location × β)
  | [] => [(k, v)]
  | e :: rest => if e.1 == k then (k, v) :: rest else e :: umSet k v rest

/-- `Element`, `std::pair<size_t, Location>`. -/
abbrev Element := Nat × Location

/-- `operator<` of `std::pair` on `Element`s. -/
def Element.lt (a b : Element) : Bool :=
  decide (a.1 < b.1) || (!decide (b.1 < a.1) && a.2.lt b.2)

/-- The least of `e` and the elements of `rest` under `Element.lt`. -/
def leastElement (e : Element) (rest : List Element) : Element :=
  rest.foldl (fun m x => if Element.lt x m then x else m) e

/-- `frontier.top ()` of the `std::priority_queue` under `std::greater<Element>`,
the queue kept as the list of its elements: the least element. -/
def frontierTop : List Element → Option Element
  | [] => none
  | e :: rest => some (leastElement e rest)

/-- The local variables of the search loop of `ComputePath`. -/
structure SearchState where
  frontier : List Element
  came_from : List (Location × Location)
  cost_so_far : List (Location × Nat)
  deriving DecidableEq, Repr

/-- The body of `for (const auto& next : neighbors (current))`.  The reads
`cost_so_far[current]` and `cost_so_far[next]` find their keys: zero stands for
the value `operator[]` would insert. -/
def relax (g : SquareGrid) (goal current : Location) (st : SearchState) (next : Location) :
    SearchState :=
  let new_cost := (((umFind current st.cost_so_far).getD 0) + g.GetWeight next) % 2 ^ 64
  if (umFind next st.cost_so_far).isNone
      || decide (new_cost < (umFind next st.cost_so_far).getD 0) then
    let priority := (new_cost + heuristic next goal) % 2 ^ 64
    { cost_so_far := umSet next new_cost st.cost_so_far
      frontier := (priority, next) :: st.frontier
      came_from := umSet next current st.came_from }
  else st

/-- The loop `while (!frontier.empty ())` of `ComputePath`, with `fuel` bounding
the number of rounds: none when the fuel runs out. -/
def searchLoop (g : SquareGrid) (goal : Location) : Nat → SearchState → Option SearchState
  | 0, _ => none
  | fuel + 1, st =>
    match frontierTop st.frontier with
    | none => some st
    | some top =>
      let current := top.2
      let st1 := { st with frontier := st.frontier.erase top }
      if current = goal then some st1
      else searchLoop g goal fuel ((g.neighbors current).foldl (relax g goal current) st1)

/-- The loop `while (current != start) { current = came_from[current];
path.push_front (current); }` of `ComputePath`, with `fuel` bounding the number
of rounds; `Location ()` stands for the value `operator[]` would insert. -/
def tracePath (start : Location) (came_from : List (Location × Location)) :
    Nat → Location → List Location → Option (List Location)
  | 0, _, _ => none
  | fuel + 1, current, path =>
    if current = start then some path
    else
      let current := (umFind current came_from).getD ⟨0, 0⟩
      tracePath start came_from fuel current (current :: path)

/-- `SquareGrid::ComputePath (start, goal)`, with `fuel` bounding the rounds of
each of its two loops: none when the fuel runs out. -/
def SquareGrid.ComputePath (g : SquareGrid) (fuel : Nat) (start goal : Location) :
    Option (List Location) :=
  if !g.valid start || !g.valid goal then some []
  else
    match searchLoop g goal fuel ⟨[(0, start)], [(start, start)], [(start, 0)]⟩ with
    | none => none
    | some st => tracePath start st.came_from fuel goal [goal]

/-- A `SquareGrid<3>` with a wall of weight 9 in the middle column, open at the
bottom. -/
def exampleGrid : SquareGrid :=
  (SquareGrid.new 3).SetWeights [(⟨1, 0⟩, 9), (⟨1, 1⟩, 9)]

/-- The grid as `Reset`, `SetWeight` and `SetWeights` keep it: `N` rows of `N`
weights, each at least 1 and a `uint8_t`. -/
def GridOK (g : SquareGrid) : Prop :=
  g.m_grid.length = g.N ∧ ∀ row ∈ g.m_grid, row.length = g.N ∧ ∀ w ∈ row, 1 ≤ w ∧ w ≤ 255

instance (g : SquareGrid) : Decidable (GridOK g) :=
  inferInstanceAs (Decidable (_ ∧ _))

/-- The location `b` is a 4-neighbour of `a`: one step along one axis. -/
def IsNeighbor4 (a b : Location) : Prop :=
  (a.x = b.x ∧ (a.y + 1 = b.y ∨ b.y + 1 = a.y)) ∨ (a.y = b.y ∧ (a.x + 1 = b.x ∨ b.x + 1 = a.x))

instance (a b : Location) : Decidable (IsNeighbor4 a b) :=
  inferInstanceAs (Decidable (_ ∨ _))

/-- A sequence of locations of the grid that begins with `start`, ends with
`goal`, and in which each location is a 4-neighbour of its predecessor. -/
def IsPath (g : SquareGrid) (start goal : Location) (path : List Location) : Prop :=
  path.head? = some start ∧ path.getLast? = some goal ∧ (∀ p ∈ path, g.valid p = true) ∧
    path.Chain' IsNeighbor4

instance (g : SquareGrid) (start goal : Location) (path : List Location) :
    Decidable (IsPath g start goal path) :=
  inferInstanceAs (Decidable (_ ∧ _ ∧ _ ∧ _))

/-- The cost of a path: the sum of `GetWeight` over its locations but the
first. -/
def pathCost (g : SquareGrid) (path : List Location) : Nat :=
  (path.tail.map g.GetWeight).sum

/-- The neighbours of `x`, whose cost is `c`, have costs no more than `c` plus
their weight: `x` has been taken from the frontier with that cost. -/
def Expanded (g : SquareGrid) (st : SearchState) (x : Location) (c : Nat) : Prop :=
  ∀ y ∈ g.neighbors x, ∃ cy, umFind y st.cost_so_far = some cy ∧ cy ≤ c + g.GetWeight y

/-- What the search loop keeps of its maps and its frontier: the start costs 0;
the keys of `cost_so_far` are distinct locations of the grid, and the costs are
bounded by the number of keys; every other location with a cost came from a
neighbour whose cost plus the weight is no more; every element of the frontier
is a location with a cost, its priority no less than the cost. -/
structure SearchInv (g : SquareGrid) (start goal : Location) (st : SearchState) : Prop where
  start_cost : umFind start st.cost_so_far = some 0
  keys_nodup : (st.cost_so_far.map (fun e => e.1)).Nodup
  keys_valid : ∀ x c, umFind x st.cost_so_far = some c → g.valid x = true
  bound : ∀ x c, umFind x st.cost_so_far = some c → c + 255 ≤ 255 * st.cost_so_far.length
  chain : ∀ x c, umFind x st.cost_so_far = some c → x ≠ start →
    ∃ p cp, umFind x st.came_from = some p ∧ umFind p st.cost_so_far = some cp ∧
      cp + g.GetWeight x ≤ c ∧ g.valid p = true ∧ IsNeighbor4 p x
  entries : ∀ e ∈ st.frontier, ∃ c, umFind e.2 st.cost_so_far = some c ∧ c ≤ e.1

/-- Every location with a cost, `cur` apart, is in the frontier with a priority
of no more than cost plus heuristic, or has been expanded with that cost. -/
def OpenOrExpanded (g : SquareGrid) (goal : Location) (st : SearchState)
    (cur : Option Location) : Prop :=
  ∀ x c, umFind x st.cost_so_far = some c → some x ≠ cur →
    (∃ pr, pr ≤ c + heuristic x goal ∧ (pr, x) ∈ st.frontier) ∨ Expanded g st x c

/-- The state of the search while the neighbours of `cur` are gone through, `D`
holding of those done. -/
def LoopInv (g : SquareGrid) (start goal cur : Location) (D : Location → Prop)
    (st : SearchState) : Prop :=
  SearchInv g start goal st ∧ OpenOrExpanded g goal st (some cur) ∧
    ∃ c, umFind cur st.cost_so_far = some c ∧
      ∀ y, D y → ∃ cy, umFind y st.cost_so_far = some cy ∧ cy ≤ c + g.GetWeight y

/-- The measure that every round of the search loop lowers. -/
def searchMeasure (g : SquareGrid) (st : SearchState) : Nat :=
  st.frontier.length + (g.N * g.N - st.cost_so_far.length) * (255 * (g.N * g.N) + 1)
    + (st.cost_so_far.map (fun e => e.2)).sum

/-- Rounds enough for both loops of `ComputePath` on a grid of size `N`. -/
def fuelBound (N : Nat) : Nat := N * N * (255 * (N * N) + 1) + 2

/-- The locations of the grid. -/
def cells (N : Nat) : List Location :=
  (List.range N).flatMap (fun x => (List.range N).map (fun y => (⟨x, y⟩ : Location)))

/-- The connection `exampleEstabed` after the application has attached its
listener with `Setup`. -/
def exampleEstabedListener : Connection := (exampleEstabed.Setup).1

/-- A packet of the example peer: unreliable, sequence number `seqnum`, payload
`data`. -/
def unreliablePacket (seqnum : Nat) (data : Buffer) : Env × Address × Buffer :=
  (⟨0, 0, 0, 0, 0⟩, "10.0.0.2:4000", Header.bytes ⟨seqnum, 0, 0, data.length⟩ ++ data)

/-- The client `exampleClient` after the `SYN|ACK` of the server has arrived: the
handshake is complete. -/
def exampleConnected : Connection :=
  (exampleClient.fsm ⟨0, 0, 0, 0, 0⟩ "10.0.0.9:7" (synAckPacket 900 41)).1

/-- The application calls `Send ([1], true)` `n` times. -/
def reliableSends (n : Nat) : List ConnectionCall :=
  List.replicate n (ConnectionCall.Send [1] true)

/-- The entries that `n` calls of `Send ([1], true)` put in the retransmission
queue from the sequence number `first` on, in the order of the calls. -/
@[irreducible]
def sentQueue (first n : Nat) : List (Nat × RetransmissionInfo) :=
  (List.range n).map (fun i =>
    ((first + i) % 65536,
      (⟨RETX_INTERVAL, RETX_COUNT,
        Header.bytes ⟨(first + i) % 65536, 0, FLAG_RLB, 1⟩ ++ [1]⟩ : RetransmissionInfo)))

/-- An established connection that has sent 32769 reliable packets, numbered 0
to 32768, none of which is acknowledged: the entries of its retransmission queue
in the order of their sequence numbers. -/
def exampleFullWindow : Connection :=
  { exampleEstabed with
    m_reliable_latest_legal_ack := 0
    m_reliable_outgoing_sequence := 32769
    m_reliable_retransmission_queue := sentQueue 0 32769 }

/-- The packet that the reassembly map holds under the sequence number `k`
(`find (k)`), if any. -/
def storedPacket (k : Nat) (list : List (Nat × Buffer)) : Option Buffer :=
  (list.find? (fun e => e.1 == k)).map (fun e => e.2)

/-- After the words of the specification, `drain contiguous prefix starting at
lowest_acceptable`: the payloads of the packets that the reassembly map holds
under the sequence numbers `current`, `current + 1`, ... modulo `2^16`, up to
the first number under which it holds none; at most `n` of them. -/
def contiguousPayloads (list : List (Nat × Buffer)) : Nat → Nat → List Buffer
  | 0, _ => []
  | n + 1, current =>
    match storedPacket current list with
    | none => []
    | some pkt => payloadOf pkt :: contiguousPayloads list n ((current + 1) % 65536)

/-- The reliable packets that carry the payloads `datas` under the sequence
numbers `seqnum`, `seqnum + 1`, ... modulo `2^16`, in that order. -/
def inOrderPackets (env : Env) (raddr : Address) :
    Nat → List Buffer → List (Env × Address × Buffer)
  | _, [] => []
  | seqnum, data :: rest =>
    (env, raddr, Header.bytes ⟨seqnum, 0, FLAG_RLB, data.length⟩ ++ data)
      :: inOrderPackets env raddr ((seqnum + 1) % 65536) rest

/-- The connection `exampleEstabed` after the reliable packet 1 has arrived
ahead of the packet 0: the reassembly map holds it. -/
def exampleHolding : Connection := (runEstabed exampleEstabed [reliablePacket 1 [11]]).1

/-- What a packet does to the unreliable receive counter of a connection `c`,
with result `r`: the connection is reset, or it keeps its state and its
addresses and either keeps the counter or the packet is unreliable data and the
counter becomes its `seqnum + 1`. -/
def CounterStep (c : Connection) (packet : Buffer) (r : Connection × List Event) : Prop :=
  r.1 = Connection.new c.m_master ∨
  (r.1.m_state = c.m_state ∧ r.1.m_master = c.m_master ∧ r.1.m_raddr = c.m_raddr ∧
    (r.1.m_unreliable_incoming_sequence = c.m_unreliable_incoming_sequence ∨
      (IsUnreliableData (Header.read packet) ∧
        r.1.m_unreliable_incoming_sequence = ((Header.read packet).seqnum + 1) % 65536)))

/-! # Theorems -/

theorem writeLoop_length (buffer : List Nat) (nb lsh rsh : Nat) :
    ∀ (count wi p d : Nat) (out : Buffer),
      (writeLoop buffer nb lsh rsh count wi p d out).length = out.length := by
  intro count
  induction count with
  | zero => intro wi p d out; rfl
  | succ c ih =>
    intro wi p d out
    simp only [writeLoop]
    rw [ih]
    simp

theorem writeLoop_getD (buffer : List Nat) (nb lsh rsh : Nat) :
    ∀ (count wi v d : Nat) (out : Buffer) (i : Nat),
      (writeLoop buffer nb lsh rsh count wi (min v nb) d out).getD i 0 =
        if wi ≤ i ∧ i < wi + count ∧ i < out.length then
          (((if i = wi then d else srcByte buffer nb (v + (i - wi) - 1)) <<< lsh) |||
            (srcByte buffer nb (v + (i - wi)) >>> rsh)) % 256
        else out.getD i 0 := by
  intro count
  induction count with
  | zero =>
    intro wi v d out i
    have h : ¬ (wi ≤ i ∧ i < wi + 0 ∧ i < out.length) := by omega
    rw [if_neg h]
    rfl
  | succ c ih =>
    intro wi v d out i
    simp only [writeLoop]
    have hnext : (if min v nb < nb then buffer.getD (min v nb) 0 else 0) = srcByte buffer nb v := by
      unfold srcByte
      by_cases h : v < nb
      · have : min v nb = v := by omega
        simp [h, this]
      · have : ¬ (min v nb < nb) := by omega
        simp [h, this]
    have hp : (if min v nb < nb then min v nb + 1 else min v nb) = min (v + 1) nb := by
      by_cases h : v < nb
      · have : min v nb < nb := by omega
        simp [this]; omega
      · have : ¬ (min v nb < nb) := by omega
        simp [this]; omega
    rw [hnext, hp, ih]
    simp only [List.length_set]
    by_cases h1 : i = wi
    · subst h1
      by_cases h2 : i < out.length
      · simp [h2, List.getD_eq_getElem?_getD, List.getElem?_set]
      · have h8 : out.length ≤ i := by omega
        simp [h2, List.getD_eq_getElem?_getD, List.getElem?_set, List.getElem?_eq_none h8]
    · by_cases h3 : wi + 1 ≤ i ∧ i < wi + 1 + c ∧ i < out.length
      · have h4 : wi ≤ i ∧ i < wi + (c + 1) ∧ i < out.length := by omega
        have h5 : ¬ (i = wi + 1) → v + 1 + (i - (wi + 1)) - 1 = v + (i - wi) - 1 := by omega
        have h6 : v + 1 + (i - (wi + 1)) = v + (i - wi) := by omega
        rw [if_pos h3, if_pos h4, h6]
        by_cases h7 : i = wi + 1
        · subst h7
          simp
        · simp [h7, h1, h5 h7]
      · have h4 : ¬ (wi ≤ i ∧ i < wi + (c + 1) ∧ i < out.length) := by omega
        rw [if_neg h3, if_neg h4]
        simp [List.getD_eq_getElem?_getD, List.getElem?_set, Ne.symm h1]

theorem readLoop_length (input : Buffer) (lsh rsh endIndex : Nat) :
    ∀ (count p ri d : Nat) (buffer : List Nat),
      (readLoop input lsh rsh endIndex count p ri d buffer).length = buffer.length := by
  intro count
  induction count with
  | zero => intro p ri d buffer; rfl
  | succ c ih =>
    intro p ri d buffer
    simp only [readLoop]
    rw [ih]
    simp

theorem readLoop_getD (input : Buffer) (lsh rsh endIndex : Nat) :
    ∀ (count p ri d : Nat) (buffer : List Nat) (k : Nat),
      (readLoop input lsh rsh endIndex count p ri d buffer).getD k 0 =
        if p ≤ k ∧ k < p + count ∧ k < buffer.length then
          (((if k = p then d else inByte input endIndex (ri + (k - p))) <<< lsh) |||
            (inByte input endIndex (ri + (k - p) + 1) >>> rsh)) % 256
        else buffer.getD k 0 := by
  intro count
  induction count with
  | zero =>
    intro p ri d buffer k
    have h : ¬ (p ≤ k ∧ k < p + 0 ∧ k < buffer.length) := by omega
    rw [if_neg h]
    rfl
  | succ c ih =>
    intro p ri d buffer k
    simp only [readLoop]
    have hnext : (if ri + 1 ≤ endIndex then input.getD (ri + 1) 0 else 0)
        = inByte input endIndex (ri + 1) := rfl
    rw [hnext, ih]
    simp only [List.length_set]
    by_cases h1 : k = p
    · subst h1
      by_cases h2 : k < buffer.length
      · simp [h2, List.getD_eq_getElem?_getD, List.getElem?_set]
      · have h8 : buffer.length ≤ k := by omega
        simp [h2, List.getD_eq_getElem?_getD, List.getElem?_set, List.getElem?_eq_none h8]
    · by_cases h3 : p + 1 ≤ k ∧ k < p + 1 + c ∧ k < buffer.length
      · have h4 : p ≤ k ∧ k < p + (c + 1) ∧ k < buffer.length := by omega
        have h6 : ri + 1 + (k - (p + 1)) = ri + (k - p) := by omega
        rw [if_pos h3, if_pos h4, h6]
        by_cases h7 : k = p + 1
        · subst h7
          simp
        · simp [h7, h1]
      · have h4 : ¬ (p ≤ k ∧ k < p + (c + 1) ∧ k < buffer.length) := by omega
        rw [if_neg h3, if_neg h4]
        simp [List.getD_eq_getElem?_getD, List.getElem?_set, Ne.symm h1]

theorem resize_length (b : Buffer) (n : Nat) : (resize b n).length = n := by
  simp [resize]; omega

theorem resize_getD (b : Buffer) (n i : Nat) :
    (resize b n).getD i 0 = if i < n then b.getD i 0 else 0 := by
  unfold resize
  by_cases h : i < n
  · by_cases h2 : i < b.length
    · rw [List.getD_append _ _ _ _ (by simp; omega)]
      simp [h, List.getD_eq_getElem?_getD, List.getElem?_take, h]
    · rw [List.getD_append_right _ _ _ _ (by simp; omega)]
      have : b.length ≤ i := by omega
      simp only [h, List.getD_eq_getElem?_getD, List.getElem?_eq_none this,
        List.getElem?_replicate, if_true]
      split <;> rfl
  · rw [if_neg h, List.getD_eq_default]
    simp; omega

theorem BITS2BYTES_eq (x : Nat) : BITS2BYTES x = (x + 7) / 8 := by
  simp [BITS2BYTES, Nat.shiftRight_eq_div_pow]

theorem BITS2BOUNDARY_eq (x : Nat) : BITS2BOUNDARY x = (x + 7) / 8 * 8 := by
  simp [BITS2BOUNDARY, Nat.shiftRight_eq_div_pow, Nat.shiftLeft_eq]

theorem BYTES2BITS_eq (x : Nat) : BYTES2BITS x = 8 * x := by
  simp [BYTES2BITS, Nat.shiftLeft_eq]; omega

theorem testBit_byte_high {b t : Nat} (hb : b < 256) (ht : 8 ≤ t) : b.testBit t = false := by
  apply Nat.testBit_lt_two_pow
  calc b < 2 ^ 8 := hb
    _ ≤ 2 ^ t := Nat.pow_le_pow_right (by norm_num) ht

theorem testBit_combine (a b k t : Nat) (hb : b < 256) (hk : k ≤ 8) :
    (((a <<< k) ||| (b >>> (8 - k))) % 256).testBit t =
      if t < k then b.testBit (t + (8 - k)) else (decide (t < 8) && a.testBit (t - k)) := by
  rw [show (256 : Nat) = 2 ^ 8 by norm_num, Nat.testBit_mod_two_pow, Nat.testBit_or,
    Nat.testBit_shiftLeft, Nat.testBit_shiftRight]
  by_cases h1 : t < k
  · have : t < 8 := by omega
    simp [h1, this, Nat.add_comm]
  · by_cases h2 : t < 8
    · have h3 : b.testBit (8 - k + t) = false := testBit_byte_high hb (by omega)
      simp [h1, h2, h3]
      omega
    · simp [h1, h2]

theorem getD_lt_of_isBytes {b : List Nat} (h : IsBytes b) (i : Nat) : b.getD i 0 < 256 := by
  rw [List.getD_eq_getElem?_getD]
  by_cases hi : i < b.length
  · rw [List.getElem?_eq_getElem hi]
    exact h _ (List.getElem_mem hi)
  · rw [List.getElem?_eq_none (by omega)]
    simp

theorem srcByte_shifted_lt (buffer : List Nat) (n k : Nat)
    (hsrc : ∀ k, buffer.getD k 0 < 256) :
    srcByte (shiftedSrc buffer n) (BITS2BYTES n) k < 256 := by
  unfold srcByte shiftedSrc
  split
  · rw [List.getD_eq_getElem?_getD, List.getElem?_set]
    split
    · split
      · simp; omega
      · simp
    · rw [← List.getD_eq_getElem?_getD]; exact hsrc k
  · norm_num

/-- The bits of the shifted source bytes are the field's bits in stream order. -/
theorem srcByte_shifted_testBit (buffer : List Nat) (n k t : Nat) (hn : 0 < n)
    (hlen : BITS2BYTES n ≤ buffer.length) (ht : t < 8) :
    (srcByte (shiftedSrc buffer n) (BITS2BYTES n) k).testBit t
      = srcBit buffer n (8 * k + 7 - t) := by
  have hj1 : (8 * k + 7 - t) / 8 = k := by omega
  have hj2 : (8 * k + 7 - t) % 8 = 7 - t := by omega
  unfold srcByte shiftedSrc srcBit nbitsIn
  rw [hj1, hj2, BITS2BYTES_eq]
  rw [BITS2BYTES_eq] at hlen
  by_cases h1 : k < (n + 7) / 8
  · rw [if_pos h1, List.getD_eq_getElem?_getD, List.getElem?_set]
    by_cases h2 : (n + 7) / 8 - 1 = k
    · have h3 : (n + 7) / 8 - 1 < buffer.length := by omega
      rw [if_pos h2, if_pos h3]
      simp only [Option.getD_some]
      rw [show (256 : Nat) = 2 ^ 8 by norm_num, Nat.testBit_mod_two_pow, Nat.testBit_shiftLeft]
      subst h2
      by_cases h4 : (8 - n % 8) % 8 ≤ t
      · have h5 : 8 * ((n + 7) / 8 - 1) + 7 - t < n := by omega
        have h6 : min 8 (n - 8 * ((n + 7) / 8 - 1)) - 1 - (7 - t) = t - (8 - n % 8) % 8 := by omega
        simp [ht, h4, h5, h6]
      · have h5 : ¬ (8 * ((n + 7) / 8 - 1) + 7 - t < n) := by omega
        simp [h4, h5]
    · rw [if_neg h2, ← List.getD_eq_getElem?_getD]
      have h5 : 8 * k + 7 - t < n := by omega
      have h6 : min 8 (n - 8 * k) - 1 - (7 - t) = t := by omega
      simp [h5, h6]
  · have h5 : ¬ (8 * k + 7 - t < n) := by omega
    simp [h1, h5]

theorem WriteBits_nbits (s : BitStreamOutput) (buffer : List Nat) (n : Nat) :
    (WriteBits s buffer n).m_nbits = s.m_nbits + n := by
  unfold WriteBits
  split
  · simp [*]
  · rfl

theorem WriteBits_length (s : BitStreamOutput) (buffer : List Nat) (n : Nat) (hn : 0 < n) :
    (WriteBits s buffer n).m_output.length = BITS2BYTES (s.m_nbits + n) := by
  unfold WriteBits
  rw [if_neg (by omega)]
  simp only [writeLoop_length, List.length_set, resize_length]

/-- Bytes of the output of `WriteBits`. -/
theorem WriteBits_getD (s : BitStreamOutput) (buffer : List Nat) (n : Nat) (hn : 0 < n)
    (q : Nat) :
    (WriteBits s buffer n).m_output.getD q 0 =
      if q < s.m_nbits / 8 then s.m_output.getD q 0
      else if q = s.m_nbits / 8 then
        (s.m_output.getD q 0 &&& ((0xff <<< (8 - s.m_nbits % 8)) % 256))
          ||| (srcByte (shiftedSrc buffer n) (BITS2BYTES n) 0 >>> (s.m_nbits % 8))
      else if q < BITS2BYTES (s.m_nbits + n) then
        ((srcByte (shiftedSrc buffer n) (BITS2BYTES n) (q - s.m_nbits / 8 - 1)
            <<< (8 - s.m_nbits % 8))
          ||| (srcByte (shiftedSrc buffer n) (BITS2BYTES n) (q - s.m_nbits / 8)
            >>> (s.m_nbits % 8))) % 256
      else 0 := by
  have hnb : 1 ≤ BITS2BYTES n := by rw [BITS2BYTES_eq]; omega
  have hw : s.m_nbits >>> 3 = s.m_nbits / 8 := by simp [Nat.shiftRight_eq_div_pow]
  have he : s.m_nbits / 8 < BITS2BYTES (s.m_nbits + n) := by rw [BITS2BYTES_eq]; omega
  have hd : (shiftedSrc buffer n).getD 0 0 = srcByte (shiftedSrc buffer n) (BITS2BYTES n) 0 := by
    unfold srcByte; rw [if_pos (by omega)]
  unfold WriteBits
  rw [if_neg (by omega)]
  simp only []
  rw [show shiftedSrc buffer n = buffer.set (BITS2BYTES n - 1)
    ((buffer.getD (BITS2BYTES n - 1) 0 <<< ((8 - n % 8) % 8)) % 256) from rfl] at hd ⊢
  generalize buffer.set (BITS2BYTES n - 1)
    ((buffer.getD (BITS2BYTES n - 1) 0 <<< ((8 - n % 8) % 8)) % 256) = sb at hd ⊢
  rw [hw, hd]
  have h1 : (1 : Nat) = min 1 (BITS2BYTES n) := by omega
  rw [show writeLoop sb (BITS2BYTES n) (8 - s.m_nbits % 8) (s.m_nbits % 8)
      (BITS2BYTES (s.m_nbits + n) - 1 - s.m_nbits / 8) (s.m_nbits / 8 + 1) 1 =
    writeLoop sb (BITS2BYTES n) (8 - s.m_nbits % 8) (s.m_nbits % 8)
      (BITS2BYTES (s.m_nbits + n) - 1 - s.m_nbits / 8) (s.m_nbits / 8 + 1)
      (min 1 (BITS2BYTES n)) from by rw [← h1]]
  rw [writeLoop_getD]
  simp only [List.length_set, resize_length]
  by_cases c1 : q < s.m_nbits / 8
  · rw [if_neg (by omega), if_pos c1, List.getD_eq_getElem?_getD, List.getElem?_set,
      if_neg (by omega), ← List.getD_eq_getElem?_getD, resize_getD, if_pos (by omega)]
  · rw [if_neg c1]
    by_cases c2 : q = s.m_nbits / 8
    · rw [if_neg (by omega), if_pos c2, List.getD_eq_getElem?_getD, List.getElem?_set,
        if_pos c2.symm, if_pos (by rw [resize_length]; omega)]
      simp only [Option.getD_some]
      rw [resize_getD, if_pos he, c2]
    · rw [if_neg c2]
      by_cases c3 : q < BITS2BYTES (s.m_nbits + n)
      · rw [if_pos (by omega), if_pos c3]
        have e1 : 1 + (q - (s.m_nbits / 8 + 1)) = q - s.m_nbits / 8 := by omega
        rw [e1]
        by_cases c4 : q = s.m_nbits / 8 + 1
        · rw [if_pos c4]
          have e2 : q - s.m_nbits / 8 - 1 = 0 := by omega
          rw [e2]
        · rw [if_neg c4]
      · rw [if_neg (by omega), if_neg c3, List.getD_eq_default]
        simp only [List.length_set, resize_length]
        omega

theorem testBit_mask (r t : Nat) :
    ((0xff <<< (8 - r)) % 256).testBit t = (decide (t < 8) && decide (8 - r ≤ t)) := by
  rw [show (256 : Nat) = 2 ^ 8 by norm_num, Nat.testBit_mod_two_pow, Nat.testBit_shiftLeft,
    show (0xff : Nat) = 2 ^ 8 - 1 by norm_num, Nat.testBit_two_pow_sub_one]
  by_cases h1 : t < 8
  · by_cases h2 : 8 - r ≤ t
    · have : t - (8 - r) < 8 := by omega
      simp [h1, h2, this]
    · simp [h1, h2]
  · simp [h1]

/-- Bits of the output of `WriteBits`: the earlier bits are kept, the field's bits
follow, and nothing but zero bits comes after them. -/
theorem WriteBits_bitAt (s : BitStreamOutput) (buffer : List Nat) (n : Nat) (hn : 0 < n)
    (hsrc : ∀ k, buffer.getD k 0 < 256) (hlen : BITS2BYTES n ≤ buffer.length) (i : Nat) :
    bitAt (WriteBits s buffer n).m_output i =
      if i < s.m_nbits then bitAt s.m_output i else srcBit buffer n (i - s.m_nbits) := by
  have ht : 7 - i % 8 < 8 := by omega
  unfold bitAt
  rw [WriteBits_getD s buffer n hn]
  by_cases c1 : i / 8 < s.m_nbits / 8
  · rw [if_pos c1, if_pos (by omega)]
  · rw [if_neg c1]
    by_cases c2 : i / 8 = s.m_nbits / 8
    · rw [if_pos c2, Nat.testBit_or, Nat.testBit_and, testBit_mask,
        Nat.testBit_shiftRight, c2]
      by_cases c3 : i < s.m_nbits
      · have h1 : 8 - s.m_nbits % 8 ≤ 7 - i % 8 := by omega
        have h2 : (srcByte (shiftedSrc buffer n) (BITS2BYTES n) 0).testBit
            (s.m_nbits % 8 + (7 - i % 8)) = false :=
          testBit_byte_high (srcByte_shifted_lt buffer n 0 hsrc) (by omega)
        simp [c3, h1, h2, ht]
      · have h1 : ¬ (8 - s.m_nbits % 8 ≤ 7 - i % 8) := by omega
        rw [srcByte_shifted_testBit buffer n 0 _ hn hlen (by omega)]
        have h3 : 8 * 0 + 7 - (s.m_nbits % 8 + (7 - i % 8)) = i - s.m_nbits := by omega
        simp [c3, h1, h3]
    · rw [if_neg c2, if_neg (show ¬ i < s.m_nbits by omega)]
      by_cases c3 : i / 8 < BITS2BYTES (s.m_nbits + n)
      · rw [if_pos c3]
        have h0 := testBit_combine (srcByte (shiftedSrc buffer n) (BITS2BYTES n)
            (i / 8 - s.m_nbits / 8 - 1)) (srcByte (shiftedSrc buffer n) (BITS2BYTES n)
            (i / 8 - s.m_nbits / 8)) (8 - s.m_nbits % 8) (7 - i % 8)
            (srcByte_shifted_lt buffer n _ hsrc) (by omega)
        have h8 : 8 - (8 - s.m_nbits % 8) = s.m_nbits % 8 := by omega
        rw [h8] at h0
        rw [h0]
        by_cases c4 : 7 - i % 8 < 8 - s.m_nbits % 8
        · rw [if_pos c4, srcByte_shifted_testBit buffer n _ _ hn hlen (by omega)]
          congr 1
          omega
        · rw [if_neg c4, srcByte_shifted_testBit buffer n _ _ hn hlen (by omega)]
          simp only [ht, decide_True, Bool.true_and]
          congr 1
          omega
      · rw [if_neg c3]
        rw [BITS2BYTES_eq] at c3
        unfold srcBit
        have : ¬ (i - s.m_nbits < n) := by omega
        simp [this]

theorem ReadBits_fst (s : BitStreamInput) (dest : List Nat) (n : Nat)
    (h : s.m_nbits + n ≤ s.m_input.length * 8) : (ReadBits s dest n).1 = true := by
  unfold ReadBits
  split
  · rfl
  · rw [if_neg (by omega)]

theorem ReadBits_stream (s : BitStreamInput) (dest : List Nat) (n : Nat)
    (h : s.m_nbits + n ≤ s.m_input.length * 8) :
    (ReadBits s dest n).2.2 = ⟨s.m_input, s.m_nbits + n⟩ := by
  unfold ReadBits
  split
  · simp [*]
  · rw [if_neg (by omega)]

theorem ReadBits_length (s : BitStreamInput) (dest : List Nat) (n : Nat) :
    (ReadBits s dest n).2.1.length = dest.length := by
  unfold ReadBits
  split
  · rfl
  · split
    · rfl
    · simp only [List.length_set, readLoop_length]

theorem ReadBits_getD (s : BitStreamInput) (dest : List Nat) (n : Nat) (hn : 0 < n)
    (h : s.m_nbits + n ≤ s.m_input.length * 8) (k : Nat) :
    (ReadBits s dest n).2.1.getD k 0 =
      if k < BITS2BYTES n ∧ k < dest.length then readByte s.m_input s.m_nbits n k
      else dest.getD k 0 := by
  have hnb : 1 ≤ BITS2BYTES n := by rw [BITS2BYTES_eq]; omega
  have hw : s.m_nbits >>> 3 = s.m_nbits / 8 := by simp [Nat.shiftRight_eq_div_pow]
  have he : s.m_nbits / 8 ≤ BITS2BYTES (s.m_nbits + n) - 1 := by rw [BITS2BYTES_eq]; omega
  have hd : s.m_input.getD (s.m_nbits / 8) 0
      = inByte s.m_input (BITS2BYTES (s.m_nbits + n) - 1) (s.m_nbits / 8) := by
    unfold inByte; rw [if_pos he]
  unfold ReadBits
  rw [if_neg (by omega), if_neg (by omega)]
  simp only []
  rw [hw, hd]
  rw [List.getD_eq_getElem?_getD, List.getElem?_set]
  simp only [readLoop_length]
  unfold readByte
  simp only []
  have key : ∀ k, k < BITS2BYTES n → k < dest.length →
      (readLoop s.m_input (s.m_nbits % 8) (8 - s.m_nbits % 8) (BITS2BYTES (s.m_nbits + n) - 1)
        (BITS2BYTES n) 0 (s.m_nbits / 8)
        (inByte s.m_input (BITS2BYTES (s.m_nbits + n) - 1) (s.m_nbits / 8)) dest).getD k 0
      = (((inByte s.m_input (BITS2BYTES (s.m_nbits + n) - 1) (s.m_nbits / 8 + k))
            <<< (s.m_nbits % 8)) |||
          (inByte s.m_input (BITS2BYTES (s.m_nbits + n) - 1) (s.m_nbits / 8 + k + 1)
            >>> (8 - s.m_nbits % 8))) % 256 := by
    intro k hk1 hk2
    rw [readLoop_getD, if_pos (by omega)]
    by_cases c3 : k = 0
    · subst c3; simp
    · simp [c3]
  by_cases c1 : BITS2BYTES n - 1 = k
  · subst c1
    rw [if_pos rfl]
    by_cases c2 : BITS2BYTES n - 1 < dest.length
    · rw [if_pos c2, if_pos (show BITS2BYTES n - 1 < BITS2BYTES n ∧ _ from ⟨by omega, c2⟩),
        if_pos rfl]
      simp only [Option.getD_some]
      rw [key _ (by omega) c2]
    · rw [if_neg c2, if_neg (show ¬ (BITS2BYTES n - 1 < BITS2BYTES n ∧ _) from fun h => c2 h.2)]
      simp only [Option.getD_none]
      rw [List.getD_eq_default]
      omega
  · rw [if_neg c1, ← List.getD_eq_getElem?_getD]
    by_cases c2 : k < BITS2BYTES n ∧ k < dest.length
    · rw [if_pos c2, if_neg (fun h => c1 h.symm)]
      exact key k c2.1 c2.2
    · rw [if_neg c2, readLoop_getD, if_neg (by omega)]

theorem inByte_lt {input : Buffer} (hb : IsBytes input) (e idx : Nat) :
    inByte input e idx < 256 := by
  unfold inByte
  split
  · exact getD_lt_of_isBytes hb idx
  · norm_num

/-- The bits of a destination byte of `ReadBits` are the stream's bits. -/
theorem readByte_testBit (input : Buffer) (hb : IsBytes input) (m n k t : Nat) (hn : 0 < n)
    (hk : k < BITS2BYTES n) :
    (readByte input m n k).testBit t =
      (decide (t < nbitsIn n k) && bitAt input (m + 8 * k + nbitsIn n k - 1 - t)) := by
  rw [BITS2BYTES_eq] at hk
  unfold readByte nbitsIn bitAt
  simp only []
  have hcomb := fun t' => testBit_combine
    (inByte input (BITS2BYTES (m + n) - 1) (m / 8 + k))
    (inByte input (BITS2BYTES (m + n) - 1) (m / 8 + k + 1)) (m % 8) t'
    (inByte_lt hb _ _) (by omega)
  have ha : inByte input (BITS2BYTES (m + n) - 1) (m / 8 + k) = input.getD (m / 8 + k) 0 := by
    unfold inByte; rw [BITS2BYTES_eq, if_pos (by omega)]
  simp only [BITS2BYTES_eq] at *
  by_cases c1 : k = (n + 7) / 8 - 1
  · rw [if_pos c1, Nat.testBit_shiftRight, hcomb]
    by_cases c2 : (8 - n % 8) % 8 + t < m % 8
    · have hbn : inByte input ((m + n + 7) / 8 - 1) (m / 8 + k + 1)
          = input.getD (m / 8 + k + 1) 0 := by
        unfold inByte; rw [if_pos (by omega)]
      rw [if_pos c2, hbn]
      have h1 : t < min 8 (n - 8 * k) := by omega
      have h2 : (m + 8 * k + min 8 (n - 8 * k) - 1 - t) / 8 = m / 8 + k + 1 := by omega
      have h3 : 7 - (m + 8 * k + min 8 (n - 8 * k) - 1 - t) % 8
          = (8 - n % 8) % 8 + t + (8 - m % 8) := by omega
      simp [h1, h2, h3]
    · rw [if_neg c2, ha]
      by_cases c3 : t < min 8 (n - 8 * k)
      · have h1 : (8 - n % 8) % 8 + t < 8 := by omega
        have h2 : (m + 8 * k + min 8 (n - 8 * k) - 1 - t) / 8 = m / 8 + k := by omega
        have h3 : 7 - (m + 8 * k + min 8 (n - 8 * k) - 1 - t) % 8
            = (8 - n % 8) % 8 + t - m % 8 := by omega
        simp [c3, h1, h2, h3]
      · have h1 : ¬ ((8 - n % 8) % 8 + t < 8) := by omega
        simp [c3, h1]
  · rw [if_neg c1, hcomb]
    have hL : min 8 (n - 8 * k) = 8 := by omega
    rw [hL]
    by_cases c2 : t < m % 8
    · have hbn : inByte input ((m + n + 7) / 8 - 1) (m / 8 + k + 1)
          = input.getD (m / 8 + k + 1) 0 := by
        unfold inByte; rw [if_pos (by omega)]
      rw [if_pos c2, hbn]
      have h1 : t < 8 := by omega
      have h2 : (m + 8 * k + 7 - t) / 8 = m / 8 + k + 1 := by omega
      have h3 : 7 - (m + 8 * k + 7 - t) % 8 = t + (8 - m % 8) := by omega
      simp [h1, h2, h3]
    · rw [if_neg c2, ha]
      by_cases c3 : t < 8
      · have h2 : (m + 8 * k + 7 - t) / 8 = m / 8 + k := by omega
        have h3 : 7 - (m + 8 * k + 7 - t) % 8 = t - m % 8 := by omega
        simp [c3, h2, h3]
      · simp [c3]

/-- Reading back a field: each destination byte is the source byte, cut to the
number of bits it holds. -/
theorem readByte_of_hasBits (input : Buffer) (hb : IsBytes input) (m n k : Nat)
    (buffer : List Nat) (hn : 0 < n) (hk : k < BITS2BYTES n)
    (h : HasBits input m buffer n) :
    readByte input m n k = buffer.getD k 0 % 2 ^ nbitsIn n k := by
  apply Nat.eq_of_testBit_eq
  intro t
  rw [readByte_testBit input hb m n k t hn hk, Nat.testBit_mod_two_pow]
  by_cases c : t < nbitsIn n k
  · have hL : nbitsIn n k = min 8 (n - 8 * k) := rfl
    rw [BITS2BYTES_eq] at hk
    have e1 : m + 8 * k + nbitsIn n k - 1 - t = m + (8 * k + nbitsIn n k - 1 - t) := by omega
    rw [e1, h.2 _ (by omega)]
    unfold srcBit
    have e2 : (8 * k + nbitsIn n k - 1 - t) / 8 = k := by omega
    have e3 : nbitsIn n k - 1 - (8 * k + nbitsIn n k - 1 - t) % 8 = t := by omega
    have e4 : 8 * k + nbitsIn n k - 1 - t < n := by omega
    rw [e2, e3]
    simp [c, e4]
  · simp [c]

theorem Extends.refl (s : BitStreamOutput) : Extends s s :=
  ⟨le_refl _, le_refl _, fun _ _ => rfl⟩

theorem Extends.trans {a b c : BitStreamOutput} (h1 : Extends a b) (h2 : Extends b c) :
    Extends a c :=
  ⟨le_trans h1.1 h2.1, le_trans h1.2.1 h2.2.1,
    fun i hi => (h2.2.2 i (lt_of_lt_of_le hi h1.1)).trans (h1.2.2 i hi)⟩

theorem HasBits.mono {s t : BitStreamOutput} {m n : Nat} {buffer : List Nat}
    (h : HasBits s.m_output m buffer n) (hmn : m + n ≤ s.m_nbits) (he : Extends s t) :
    HasBits t.m_output m buffer n := by
  refine ⟨le_trans h.1 (Nat.mul_le_mul_right 8 he.2.1), fun j hj => ?_⟩
  rw [he.2.2 _ (by omega)]
  exact h.2 j hj

theorem isBytes_of_getD {l : List Nat} (h : ∀ i, i < l.length → l.getD i 0 < 256) :
    IsBytes l := by
  intro x hx
  obtain ⟨i, hi, rfl⟩ := List.getElem_of_mem hx
  have := h i hi
  rwa [List.getD_eq_getElem?_getD, List.getElem?_eq_getElem hi] at this

theorem mod_two_pow_eq_zero_of_testBit (x k : Nat) (h : ∀ t, t < k → x.testBit t = false) :
    x % 2 ^ k = 0 := by
  apply Nat.eq_of_testBit_eq
  intro t
  rw [Nat.testBit_mod_two_pow, Nat.zero_testBit]
  by_cases c : t < k
  · simp [c, h t c]
  · simp [c]

theorem testBit_of_mod_two_pow_eq_zero (x k t : Nat) (h : x % 2 ^ k = 0) (ht : t < k) :
    x.testBit t = false := by
  have := Nat.testBit_mod_two_pow x k t
  rw [h, Nat.zero_testBit] at this
  simpa [ht] using this.symm

/-- In a well-formed output, no bit is set at or after the write position. -/
theorem WF.bitAt_trailing {s : BitStreamOutput} (h : s.WF) (i : Nat) (hi : s.m_nbits ≤ i) :
    bitAt s.m_output i = false := by
  obtain ⟨h1, _, h3⟩ := h
  rw [BITS2BYTES_eq] at h1
  unfold bitAt
  by_cases c : i / 8 = s.m_nbits / 8
  · rw [c]
    exact testBit_of_mod_two_pow_eq_zero _ _ _ h3 (by omega)
  · rw [List.getD_eq_default _ _ (by omega)]
    exact Nat.zero_testBit _

/-- A state is well formed when its buffer has the right length, holds bytes, and
has no bit set from the write position on. -/
theorem WF.of_bits {s : BitStreamOutput} (h1 : s.m_output.length = BITS2BYTES s.m_nbits)
    (h2 : IsBytes s.m_output) (h3 : ∀ i, s.m_nbits ≤ i → bitAt s.m_output i = false) :
    s.WF := by
  refine ⟨h1, h2, mod_two_pow_eq_zero_of_testBit _ _ fun t ht => ?_⟩
  have := h3 (8 * (s.m_nbits / 8) + (7 - t)) (by omega)
  unfold bitAt at this
  have e1 : (8 * (s.m_nbits / 8) + (7 - t)) / 8 = s.m_nbits / 8 := by omega
  have e2 : 7 - (8 * (s.m_nbits / 8) + (7 - t)) % 8 = t := by omega
  rwa [e1, e2] at this

theorem srcBit_of_le (buffer : List Nat) (n j : Nat) (h : n ≤ j) : srcBit buffer n j = false := by
  unfold srcBit
  have : ¬ j < n := by omega
  simp [this]

theorem WriteBits_isBytes (s : BitStreamOutput) (buffer : List Nat) (n : Nat)
    (hsrc : ∀ k, buffer.getD k 0 < 256) (hb : IsBytes s.m_output) :
    IsBytes (WriteBits s buffer n).m_output := by
  by_cases hn : n = 0
  · unfold WriteBits; rw [if_pos hn]; exact hb
  · apply isBytes_of_getD
    intro i _
    rw [WriteBits_getD s buffer n (by omega)]
    split
    · exact getD_lt_of_isBytes hb i
    · split
      · apply Nat.or_lt_two_pow (n := 8)
        · exact lt_of_le_of_lt Nat.and_le_left (getD_lt_of_isBytes hb i)
        · exact lt_of_le_of_lt (by rw [Nat.shiftRight_eq_div_pow]; exact Nat.div_le_self _ _)
            (srcByte_shifted_lt buffer n 0 hsrc)
      · split
        · exact Nat.mod_lt _ (by norm_num)
        · norm_num

theorem WriteBits_WF (s : BitStreamOutput) (buffer : List Nat) (n : Nat)
    (hsrc : ∀ k, buffer.getD k 0 < 256) (hlen : BITS2BYTES n ≤ buffer.length) (h : s.WF) :
    (WriteBits s buffer n).WF := by
  by_cases hn : n = 0
  · unfold WriteBits; rw [if_pos hn]; exact h
  · apply WF.of_bits
    · rw [WriteBits_length s buffer n (by omega), WriteBits_nbits]
    · exact WriteBits_isBytes s buffer n hsrc h.2.1
    · intro i hi
      rw [WriteBits_nbits] at hi
      rw [WriteBits_bitAt s buffer n (by omega) hsrc hlen, if_neg (by omega)]
      exact srcBit_of_le _ _ _ (by omega)

theorem WriteBits_extends (s : BitStreamOutput) (buffer : List Nat) (n : Nat)
    (hsrc : ∀ k, buffer.getD k 0 < 256) (hlen : BITS2BYTES n ≤ buffer.length) (h : s.WF) :
    Extends s (WriteBits s buffer n) := by
  by_cases hn : n = 0
  · unfold WriteBits; rw [if_pos hn]; exact Extends.refl s
  · refine ⟨by rw [WriteBits_nbits]; omega, ?_, fun i hi => ?_⟩
    · rw [WriteBits_length s buffer n (by omega), h.1, BITS2BYTES_eq, BITS2BYTES_eq]; omega
    · rw [WriteBits_bitAt s buffer n (by omega) hsrc hlen, if_pos hi]

theorem WriteBits_hasBits (s : BitStreamOutput) (buffer : List Nat) (n : Nat) (hn : 0 < n)
    (hsrc : ∀ k, buffer.getD k 0 < 256) (hlen : BITS2BYTES n ≤ buffer.length) :
    HasBits (WriteBits s buffer n).m_output s.m_nbits buffer n := by
  refine ⟨?_, fun j hj => ?_⟩
  · rw [WriteBits_length s buffer n hn, BITS2BYTES_eq]; omega
  · rw [WriteBits_bitAt s buffer n hn hsrc hlen, if_neg (by omega)]
    congr 1
    omega

theorem list_ext_getD {l1 l2 : List Nat} (hl : l1.length = l2.length)
    (h : ∀ k, l1.getD k 0 = l2.getD k 0) : l1 = l2 := by
  apply List.ext_getElem hl
  intro k h1 h2
  have := h k
  rwa [List.getD_eq_getElem?_getD, List.getD_eq_getElem?_getD, List.getElem?_eq_getElem h1,
    List.getElem?_eq_getElem h2] at this

theorem fieldBytes_getD (buffer dest : List Nat) (n k : Nat) :
    (fieldBytes buffer dest n).getD k 0 =
      if k < BITS2BYTES n ∧ k < dest.length then buffer.getD k 0 % 2 ^ nbitsIn n k
      else dest.getD k 0 := by
  unfold fieldBytes
  by_cases hk : k < dest.length
  · rw [List.getD_eq_getElem?_getD, List.getElem?_map, List.getElem?_range hk]
    simp [hk]
  · rw [List.getD_eq_default _ _ (by simp; omega), if_neg (fun h => hk h.2),
      List.getD_eq_default _ _ (by omega)]

/-- Reading a field the stream holds returns it. -/
theorem ReadBits_of_hasBits (input : Buffer) (hb : IsBytes input) (m n : Nat)
    (buffer dest : List Nat) (hn : 0 < n) (h : HasBits input m buffer n) :
    ReadBits ⟨input, m⟩ dest n = (true, fieldBytes buffer dest n, ⟨input, m + n⟩) := by
  have h1 := ReadBits_fst ⟨input, m⟩ dest n h.1
  have h2 := ReadBits_stream ⟨input, m⟩ dest n h.1
  have h3 : (ReadBits ⟨input, m⟩ dest n).2.1 = fieldBytes buffer dest n := by
    apply list_ext_getD
    · rw [ReadBits_length]; simp [fieldBytes]
    · intro k
      rw [ReadBits_getD _ _ _ hn h.1, fieldBytes_getD]
      by_cases c : k < BITS2BYTES n ∧ k < dest.length
      · rw [if_pos c, if_pos c]
        exact readByte_of_hasBits input hb m n k buffer hn c.1 h
      · rw [if_neg c, if_neg c]
  rw [← h1, ← h2, ← h3]

theorem toBytes_length (w u : Nat) : (toBytes w u).length = w / 8 := by
  simp [toBytes]

theorem toBytes_getD (w u k : Nat) :
    (toBytes w u).getD k 0 = if k < w / 8 then (u >>> (8 * k)) % 256 else 0 := by
  unfold toBytes
  by_cases hk : k < w / 8
  · rw [List.getD_eq_getElem?_getD, List.getElem?_map, List.getElem?_range hk]
    simp [hk]
  · rw [List.getD_eq_default _ _ (by simp; omega)]
    simp [hk]

theorem toBytes_getD_lt (w u k : Nat) : (toBytes w u).getD k 0 < 256 := by
  rw [toBytes_getD]
  split
  · exact Nat.mod_lt _ (by norm_num)
  · norm_num

/-- Reading back the `n` low bits of a value below `2 ^ n` into zeroed memory
gives the object representation of the value. -/
theorem fieldBytes_toBytes (w u n : Nat) (hu : u < 2 ^ n) :
    fieldBytes (toBytes w u) (toBytes w 0) n = toBytes w u := by
  apply list_ext_getD
  · simp [fieldBytes, toBytes_length]
  · intro k
    rw [fieldBytes_getD, toBytes_length, toBytes_getD, toBytes_getD]
    rw [BITS2BYTES_eq]
    by_cases c : k < (n + 7) / 8 ∧ k < w / 8
    · rw [if_pos c, if_pos c.2]
      unfold nbitsIn
      by_cases c2 : 8 ≤ n - 8 * k
      · rw [min_eq_left c2]
        exact Nat.mod_mod _ _
      · rw [min_eq_right (by omega)]
        have h1 : u >>> (8 * k) < 2 ^ (n - 8 * k) := by
          rw [Nat.shiftRight_eq_div_pow, Nat.div_lt_iff_lt_mul (by positivity), ← pow_add]
          rwa [show n - 8 * k + 8 * k = n by omega]
        have h2 : u >>> (8 * k) < 256 :=
          lt_of_lt_of_le h1 (by
            calc 2 ^ (n - 8 * k) ≤ 2 ^ 8 := Nat.pow_le_pow_right (by norm_num) (by omega)
              _ = 256 := by norm_num)
        rw [Nat.mod_eq_of_lt h2, Nat.mod_eq_of_lt h1]
    · rw [if_neg c]
      by_cases c3 : k < w / 8
      · rw [if_pos c3]
        have h1 : u >>> (8 * k) = 0 := by
          rw [Nat.shiftRight_eq_div_pow]
          apply Nat.div_eq_of_lt
          calc u < 2 ^ n := hu
            _ ≤ 2 ^ (8 * k) := Nat.pow_le_pow_right (by norm_num) (by omega)
        simp [h1]
      · rw [if_neg c3, if_neg c3]

theorem ofBytes_toBytes (U : UType) (u : Nat) (hu : u < 2 ^ U.bits) :
    ofBytes (toBytes U.bits u) = u := by
  cases U <;>
    simp [UType.bits, toBytes, List.range_succ, ofBytes, Nat.shiftRight_eq_div_pow] at hu ⊢ <;>
    omega

theorem effSpec_table : EffSpec 4 (fun v => effectiveBitsTable.getD v 0) := by
  intro v hv
  have hv : v < 16 := by simpa using hv
  interval_cases v <;> simp [effectiveBitsTable]

theorem effSpec_halve (h : Nat) (f : Nat → Nat) (hf : EffSpec h f) :
    EffSpec (h + h) (fun u => if u >>> h ≠ 0 then h + f ((u >>> h) % 2 ^ h) else f (u % 2 ^ h)) := by
  intro u hu
  simp only []
  rw [Nat.shiftRight_eq_div_pow]
  have hpos : 0 < 2 ^ h := by positivity
  by_cases c : u / 2 ^ h ≠ 0
  · rw [if_pos c]
    have h1 : u / 2 ^ h < 2 ^ h := by
      rw [Nat.div_lt_iff_lt_mul hpos, ← pow_add]; exact hu
    rw [Nat.mod_eq_of_lt h1]
    obtain ⟨a, b, _⟩ := hf _ h1
    refine ⟨by omega, ?_, fun _ => by omega⟩
    rw [pow_add, Nat.mul_comm]
    exact (Nat.div_lt_iff_lt_mul hpos).mp b
  · rw [if_neg c]
    have h0 : u / 2 ^ h = 0 := by simpa using c
    have h1 : u < 2 ^ h := (Nat.div_eq_zero_iff hpos).mp h0
    rw [Nat.mod_eq_of_lt h1]
    obtain ⟨a, b, d⟩ := hf _ h1
    exact ⟨by omega, b, d⟩

theorem effSpec_8 : EffSpec 8 GetNumEffectiveBits8 := by
  intro u hu
  have key := effSpec_halve 4 _ effSpec_table u hu
  simp only [] at key
  have e : GetNumEffectiveBits8 u =
      if u >>> 4 ≠ 0 then 4 + effectiveBitsTable.getD ((u >>> 4) % 2 ^ 4) 0
      else effectiveBitsTable.getD (u % 2 ^ 4) 0 := by
    unfold GetNumEffectiveBits8
    have h1 : u >>> 4 < 2 ^ 4 := by
      rw [Nat.shiftRight_eq_div_pow]; norm_num at hu ⊢; omega
    by_cases c : u >>> 4 ≠ 0
    · rw [if_pos c, if_pos c, Nat.mod_eq_of_lt h1]
    · rw [if_neg c, if_neg c]
      have : u < 2 ^ 4 := by
        rw [Nat.shiftRight_eq_div_pow] at c; norm_num at c hu ⊢; omega
      rw [Nat.mod_eq_of_lt this]
  rw [e]
  exact key

theorem effSpec_16 : EffSpec 16 GetNumEffectiveBits16 := effSpec_halve 8 _ effSpec_8

theorem effSpec_32 : EffSpec 32 GetNumEffectiveBits32 := effSpec_halve 16 _ effSpec_16

theorem effSpec_64 : EffSpec 64 GetNumEffectiveBits64 := effSpec_halve 32 _ effSpec_32

theorem effSpec (U : UType) : EffSpec U.bits (GetNumEffectiveBits U) := by
  cases U
  · exact effSpec_8
  · exact effSpec_16
  · exact effSpec_32
  · exact effSpec_64

theorem bits_pos (U : UType) : 8 ≤ U.bits ∧ U.bits % 8 = 0 ∧ U.bits ≤ 64 := by
  cases U <;> simp [UType.bits]

theorem prefix_spec (U : UType) :
    0 < N_PREFIX_BITS U ∧ N_PREFIX_BITS U ≤ 8 ∧ U.bits = 2 ^ N_PREFIX_BITS U := by
  cases U <;> simp [UType.bits, N_PREFIX_BITS]

/-- What a fixed-width write of `n` bits (`1 ≤ n ≤` width) does to the stream. -/
theorem WriteUN_spec (U : UType) (s : BitStreamOutput) (u n : Nat) (hs : s.WF)
    (hn : 0 < n) (hnw : n ≤ U.bits) :
    (WriteUN U s u n).WF ∧ Extends s (WriteUN U s u n) ∧
      (WriteUN U s u n).m_nbits = s.m_nbits + n ∧
      HasBits (WriteUN U s u n).m_output s.m_nbits (toBytes U.bits u) n := by
  have hb := bits_pos U
  have hlen : BITS2BYTES n ≤ (toBytes U.bits u).length := by
    rw [toBytes_length, BITS2BYTES_eq]; omega
  have e : WriteUN U s u n = WriteBits s (toBytes U.bits u) n := by
    unfold WriteUN
    simp only [IsBigEndian]
    rw [if_neg (show ¬ n > U.bits by omega)]
    rfl
  rw [e]
  exact ⟨WriteBits_WF s _ n (toBytes_getD_lt _ _) hlen hs,
    WriteBits_extends s _ n (toBytes_getD_lt _ _) hlen hs,
    WriteBits_nbits s _ n,
    WriteBits_hasBits s _ n hn (toBytes_getD_lt _ _) hlen⟩

/-- Reading `n` bits that hold a value below `2 ^ n` into a zeroed variable. -/
theorem ReadUN_of_hasBits (U : UType) (input : Buffer) (hb : IsBytes input) (m u n : Nat)
    (hn : 0 < n) (hnw : n ≤ U.bits) (hu : u < 2 ^ n)
    (h : HasBits input m (toBytes U.bits u) n) :
    ReadUN U ⟨input, m⟩ 0 n = (true, u, ⟨input, m + n⟩) := by
  have huw : u < 2 ^ U.bits := lt_of_lt_of_le hu (Nat.pow_le_pow_right (by norm_num) hnw)
  unfold ReadUN
  simp only [IsBigEndian]
  rw [if_neg (show ¬ n > U.bits by omega), ReadBits_of_hasBits input hb m n _ _ hn h,
    fieldBytes_toBytes _ _ _ hu, ofBytes_toBytes U u huw]
  rfl

theorem prefixValue_spec (U : UType) (u : Nat) (hu : u < 2 ^ U.bits) :
    prefixValue U u < 2 ^ N_PREFIX_BITS U ∧ prefixValue U u + 1 ≤ U.bits ∧
      u < 2 ^ (prefixValue U u + 1) := by
  have hb := bits_pos U
  have hp := prefix_spec U
  unfold prefixValue
  by_cases c : u = 0
  · subst c
    rw [if_pos rfl]
    refine ⟨by positivity, by omega, by norm_num⟩
  · rw [if_neg c]
    obtain ⟨h1, h2, h3⟩ := effSpec U u hu
    have h4 := h3 c
    have e : (GetNumEffectiveBits U u % 256 + 255) % 256 = GetNumEffectiveBits U u - 1 := by
      omega
    rw [e, ← hp.2.2]
    refine ⟨by omega, by omega, ?_⟩
    rwa [show GetNumEffectiveBits U u - 1 + 1 = GetNumEffectiveBits U u by omega]

theorem WriteU_eq (U : UType) (s : BitStreamOutput) (u : Nat) :
    WriteU U s u =
      WriteUN U (WriteBits s [prefixValue U u] (N_PREFIX_BITS U)) u (prefixValue U u + 1) := rfl

/-- What the variable-width unsigned write does to the stream. -/
theorem WriteU_spec (U : UType) (s : BitStreamOutput) (u : Nat) (hs : s.WF)
    (hu : u < 2 ^ U.bits) :
    (WriteU U s u).WF ∧ Extends s (WriteU U s u) ∧
      (WriteU U s u).m_nbits = s.m_nbits + N_PREFIX_BITS U + (prefixValue U u + 1) ∧
      HasBits (WriteU U s u).m_output s.m_nbits [prefixValue U u] (N_PREFIX_BITS U) ∧
      HasBits (WriteU U s u).m_output (s.m_nbits + N_PREFIX_BITS U) (toBytes U.bits u)
        (prefixValue U u + 1) := by
  have hp := prefix_spec U
  have hv := prefixValue_spec U u hu
  have hsrc : ∀ k, [prefixValue U u].getD k 0 < 256 := by
    intro k
    have : prefixValue U u < 256 :=
      lt_of_lt_of_le hv.1 (by
        calc 2 ^ N_PREFIX_BITS U ≤ 2 ^ 8 := Nat.pow_le_pow_right (by norm_num) hp.2.1
          _ = 256 := by norm_num)
    cases k with
    | zero => simpa using this
    | succ k => simp
  have hlen : BITS2BYTES (N_PREFIX_BITS U) ≤ [prefixValue U u].length := by
    rw [BITS2BYTES_eq]; simp; omega
  have w1 := WriteBits_WF s _ (N_PREFIX_BITS U) hsrc hlen hs
  have x1 := WriteBits_extends s _ (N_PREFIX_BITS U) hsrc hlen hs
  have b1 := WriteBits_hasBits s _ (N_PREFIX_BITS U) hp.1 hsrc hlen
  have n1 := WriteBits_nbits s [prefixValue U u] (N_PREFIX_BITS U)
  obtain ⟨w2, x2, n2, b2⟩ := WriteUN_spec U _ u (prefixValue U u + 1) w1 (by omega) hv.2.1
  rw [WriteU_eq]
  refine ⟨w2, x1.trans x2, by rw [n2, n1], b1.mono (by rw [n1]) x2, ?_⟩
  rw [n1] at b2
  exact b2

/-- Reading a variable-width unsigned value the stream holds at offset `m`. -/
theorem ReadU_of_hasBits (U : UType) (input : Buffer) (hb : IsBytes input) (m u : Nat)
    (hu : u < 2 ^ U.bits)
    (h1 : HasBits input m [prefixValue U u] (N_PREFIX_BITS U))
    (h2 : HasBits input (m + N_PREFIX_BITS U) (toBytes U.bits u) (prefixValue U u + 1)) :
    ReadU U ⟨input, m⟩ 0 =
      (true, u, ⟨input, m + N_PREFIX_BITS U + (prefixValue U u + 1)⟩) := by
  have hp := prefix_spec U
  have hv := prefixValue_spec U u hu
  unfold ReadU
  rw [ReadBits_of_hasBits input hb m _ _ _ hp.1 h1]
  have e : (fieldBytes [prefixValue U u] [0] (N_PREFIX_BITS U)).getD 0 0 = prefixValue U u := by
    rw [fieldBytes_getD, if_pos ⟨by rw [BITS2BYTES_eq]; omega, by simp⟩]
    unfold nbitsIn
    rw [min_eq_right (by omega)]
    simpa using Nat.mod_eq_of_lt hv.1
  simp only [if_true, e]
  exact ReadUN_of_hasBits U input hb _ u _ (by omega) hv.2.1 hv.2.2 h2

/-- C1 (unsigned variable-width round trip).  For each of the unsigned types U8,
U16, U32, U64, every value `u` of the type and every writer state reached from an
empty buffer (any bit offset, aligned or not), reading an unsigned value into a
zero-initialised variable at the writer's old offset of the buffer produced by
`Write (u)` returns true, yields `u`, and leaves the reader at the bit offset the
writer reached. -/
theorem C1_unsigned_round_trip (U : UType) (s : BitStreamOutput) (u : Nat)
    (hs : s.WF) (hu : u < 2 ^ U.bits) :
    ReadU U ⟨(WriteU U s u).m_output, s.m_nbits⟩ 0
      = (true, u, ⟨(WriteU U s u).m_output, (WriteU U s u).m_nbits⟩) := by
  obtain ⟨w, _, n, b1, b2⟩ := WriteU_spec U s u hs hu
  rw [n]
  exact ReadU_of_hasBits U _ w.2.1 _ u hu b1 b2

theorem C1_unsigned_round_trip_witness :
    (WriteBool BitStreamOutput.init true).WF ∧ (0x1234 : Nat) < 2 ^ UType.U16.bits ∧
      ReadU .U16 ⟨(WriteU .U16 (WriteBool BitStreamOutput.init true) 0x1234).m_output,
          (WriteBool BitStreamOutput.init true).m_nbits⟩ 0
        = (true, 0x1234, ⟨(WriteU .U16 (WriteBool BitStreamOutput.init true) 0x1234).m_output,
            (WriteU .U16 (WriteBool BitStreamOutput.init true) 0x1234).m_nbits⟩) :=
  ⟨by decide, by decide,
    C1_unsigned_round_trip .U16 (WriteBool BitStreamOutput.init true) 0x1234
      (by decide) (by decide)⟩

theorem WriteBit_nbits (s : BitStreamOutput) (bit : Nat) : (WriteBit s bit).m_nbits = s.m_nbits + 1 :=
  rfl

theorem WriteBit_length (s : BitStreamOutput) (bit : Nat) (hs : s.WF) :
    (WriteBit s bit).m_output.length = BITS2BYTES (s.m_nbits + 1) := by
  have h1 := hs.1
  rw [BITS2BYTES_eq] at h1 ⊢
  unfold WriteBit
  simp only [List.length_set]
  split
  · rw [resize_length]; omega
  · omega

theorem WriteBit_getD (s : BitStreamOutput) (bit : Nat) (hs : s.WF) (q : Nat) :
    (WriteBit s bit).m_output.getD q 0 =
      if q = s.m_nbits / 8 then
        (s.m_output.getD q 0 ||| ((bit &&& 0x01) <<< (8 - s.m_nbits % 8 - 1))) % 256
      else s.m_output.getD q 0 := by
  have h1 := hs.1
  rw [BITS2BYTES_eq] at h1
  unfold WriteBit
  simp only []
  by_cases c : s.m_nbits % 8 = 0
  · simp only [if_pos c, resize_length]
    have e : s.m_output.length + 1 - 1 = s.m_nbits / 8 := by omega
    rw [e, List.getD_eq_getElem?_getD, List.getElem?_set, resize_length]
    by_cases c2 : q = s.m_nbits / 8
    · rw [if_pos c2.symm, if_pos (by omega), if_pos c2, resize_getD, if_pos (by omega), c2]
      rfl
    · rw [if_neg (fun h => c2 h.symm), if_neg c2, ← List.getD_eq_getElem?_getD, resize_getD]
      split
      · rfl
      · rw [List.getD_eq_default _ _ (by omega)]
  · simp only [if_neg c]
    have e : s.m_output.length - 1 = s.m_nbits / 8 := by omega
    rw [e, List.getD_eq_getElem?_getD, List.getElem?_set]
    by_cases c2 : q = s.m_nbits / 8
    · rw [if_pos c2.symm, if_pos (by omega), if_pos c2, c2]
      rfl
    · rw [if_neg (fun h => c2 h.symm), if_neg c2, ← List.getD_eq_getElem?_getD]

/-- Bits of the output of `WriteBit`: the new bit at the write position, the
other bits unchanged. -/
theorem WriteBit_bitAt (s : BitStreamOutput) (bit : Nat) (hs : s.WF) (i : Nat) :
    bitAt (WriteBit s bit).m_output i =
      if i = s.m_nbits then decide (bit % 2 = 1) else bitAt s.m_output i := by
  have ht := fun i hi => WF.bitAt_trailing hs i hi
  unfold bitAt at ht ⊢
  rw [WriteBit_getD s bit hs]
  by_cases c : i / 8 = s.m_nbits / 8
  · rw [if_pos c, show (256 : Nat) = 2 ^ 8 by norm_num, Nat.testBit_mod_two_pow, Nat.testBit_or,
      Nat.testBit_shiftLeft, Nat.and_one_is_mod]
    have h7 : 7 - i % 8 < 8 := by omega
    by_cases c2 : i = s.m_nbits
    · have h0 := ht i (le_of_eq c2.symm)
      have e : 7 - i % 8 - (8 - s.m_nbits % 8 - 1) = 0 := by omega
      have e2 : 7 - i % 8 ≥ 8 - s.m_nbits % 8 - 1 := by omega
      rw [if_pos c2, h0, e, Nat.testBit_zero]
      simp [h7, e2]
    · rw [if_neg c2]
      by_cases c3 : 7 - i % 8 ≥ 8 - s.m_nbits % 8 - 1
      · have e : (bit % 2).testBit (7 - i % 8 - (8 - s.m_nbits % 8 - 1)) = false := by
          apply Nat.testBit_lt_two_pow
          calc bit % 2 < 2 ^ 1 := Nat.mod_lt _ (by norm_num)
            _ ≤ 2 ^ (7 - i % 8 - (8 - s.m_nbits % 8 - 1)) :=
              Nat.pow_le_pow_right (by norm_num) (by omega)
        simp [h7, e]
      · simp [h7, c3]
  · rw [if_neg c, if_neg (by intro h; apply c; rw [h])]

theorem WriteBit_WF (s : BitStreamOutput) (bit : Nat) (hs : s.WF) : (WriteBit s bit).WF := by
  apply WF.of_bits
  · rw [WriteBit_length s bit hs]; rfl
  · apply isBytes_of_getD
    intro i _
    rw [WriteBit_getD s bit hs]
    split
    · exact Nat.mod_lt _ (by norm_num)
    · exact getD_lt_of_isBytes hs.2.1 i
  · intro i hi
    rw [WriteBit_nbits] at hi
    rw [WriteBit_bitAt s bit hs, if_neg (by omega)]
    exact WF.bitAt_trailing hs i (by omega)

theorem WriteBit_extends (s : BitStreamOutput) (bit : Nat) (hs : s.WF) :
    Extends s (WriteBit s bit) := by
  refine ⟨by rw [WriteBit_nbits]; omega, ?_, fun i hi => ?_⟩
  · rw [WriteBit_length s bit hs, hs.1, BITS2BYTES_eq, BITS2BYTES_eq]; omega
  · rw [WriteBit_bitAt s bit hs, if_neg (by omega)]

/-- `ReadBit` returns the stream's bit at the read position. -/
theorem ReadBit_spec (input : Buffer) (m b0 : Nat) (h : m + 1 ≤ input.length * 8) :
    ReadBit ⟨input, m⟩ b0 = (true, (bitAt input m).toNat, ⟨input, m + 1⟩) := by
  unfold ReadBit bitAt
  simp only []
  rw [if_neg (by omega)]
  have e : 8 - m % 8 - 1 = 7 - m % 8 := by omega
  rw [e, Nat.toNat_testBit, Nat.and_one_is_mod, Nat.shiftRight_eq_div_pow]
  simp [Nat.shiftRight_eq_div_pow]

theorem xor_all_ones (w u : Nat) (hu : u < 2 ^ w) : u ^^^ (2 ^ w - 1) = 2 ^ w - 1 - u := by
  apply Nat.eq_of_testBit_eq
  intro i
  rw [Nat.testBit_xor, Nat.testBit_two_pow_sub_one, show 2 ^ w - 1 - u = 2 ^ w - (u + 1) by omega,
    Nat.testBit_two_pow_sub_succ hu]
  by_cases c : i < w
  · simp [c]
  · have : u.testBit i = false := by
      apply Nat.testBit_lt_two_pow
      exact lt_of_lt_of_le hu (Nat.pow_le_pow_right (by norm_num) (by omega))
    simp [c, this]

theorem Combine_zero (w u : Nat) (hu : u < 2 ^ w) : Combine w 0 u = u := by
  unfold Combine
  have hp : 0 < 2 ^ w := by positivity
  have e : (2 ^ w - 1 - (0 &&& 1) + 1) % 2 ^ w = 0 := by
    rw [Nat.zero_and, Nat.sub_zero, Nat.sub_add_cancel hp, Nat.mod_self]
  simp only [e, Nat.xor_zero, Nat.sub_zero, Nat.add_mod_right]
  exact Nat.mod_eq_of_lt hu

theorem Combine_one (w u : Nat) (hw : 0 < w) (hu : u < 2 ^ w) :
    Combine w 1 u = (2 ^ w - u) % 2 ^ w := by
  unfold Combine
  have hp : 1 < 2 ^ w := Nat.one_lt_two_pow (by omega)
  have e : (2 ^ w - 1 - (1 &&& 1) + 1) % 2 ^ w = 2 ^ w - 1 := by
    rw [show (1 &&& 1 : Nat) = 1 by decide, show 2 ^ w - 1 - 1 + 1 = 2 ^ w - 1 by omega]
    exact Nat.mod_eq_of_lt (by omega)
  simp only [e]
  rw [xor_all_ones w u hu]
  congr 1
  omega

/-- Sign, absolute value and recombination of a signed value. -/
theorem signed_arith (U : UType) (i : Int) (hi : InRange U.bits i) :
    toUnsigned U.bits i < 2 ^ U.bits ∧
    Sign U.bits (toUnsigned U.bits i) % 256 = (if i < 0 then 1 else 0) ∧
    Absolute U.bits (toUnsigned U.bits i) = i.natAbs ∧
    i.natAbs < 2 ^ U.bits ∧
    toSigned U.bits (Combine U.bits (if i < 0 then 1 else 0) i.natAbs) = i := by
  have hw : 0 < U.bits := by cases U <;> simp [UType.bits]
  have h1 : toUnsigned U.bits i < 2 ^ U.bits := by
    unfold InRange at hi
    unfold toUnsigned
    cases U <;> simp only [UType.bits] at hi ⊢ <;> omega
  have h2 : Sign U.bits (toUnsigned U.bits i) = (if i < 0 then 1 else 0) := by
    unfold InRange at hi
    unfold Sign toUnsigned
    rw [Nat.shiftRight_eq_div_pow]
    cases U <;> simp only [UType.bits] at hi ⊢ <;> split <;> omega
  have h3 : i.natAbs < 2 ^ U.bits := by
    unfold InRange at hi
    cases U <;> simp only [UType.bits] at hi ⊢ <;> omega
  refine ⟨h1, ?_, ?_, h3, ?_⟩
  · rw [h2]; split <;> rfl
  · unfold Absolute
    rw [h2]
    by_cases c : i < 0
    · rw [if_pos c, Combine_one _ _ hw h1]
      unfold InRange at hi
      unfold toUnsigned
      cases U <;> simp only [UType.bits] at hi ⊢ <;> omega
    · rw [if_neg c, Combine_zero _ _ h1]
      unfold InRange at hi
      unfold toUnsigned
      cases U <;> simp only [UType.bits] at hi ⊢ <;> omega
  · by_cases c : i < 0
    · rw [if_pos c, Combine_one _ _ hw h3]
      unfold InRange at hi
      unfold toSigned
      cases U <;> simp only [UType.bits] at hi ⊢ <;> split <;> omega
    · rw [if_neg c, Combine_zero _ _ h3]
      unfold InRange at hi
      unfold toSigned
      cases U <;> simp only [UType.bits] at hi ⊢ <;> split <;> omega

theorem WF.le_length {s : BitStreamOutput} (hs : s.WF) : s.m_nbits ≤ s.m_output.length * 8 := by
  have := hs.1
  rw [BITS2BYTES_eq] at this
  omega

/-- C2 (signed variable-width round trip).  For each signed type I8, I16, I32,
I64 (given by the unsigned type of the same width) and every value `i` of the
type, the minimum included: `Write (i)` is one sign bit (1 for negative) followed
by the unsigned variable-width encoding of the absolute value; reading a signed
value at the writer's old offset returns true, yields `i` and ends at the
writer's offset; and the value is recombined as `Combine (sign, magnitude)`. -/
theorem C2_signed_round_trip (U : UType) (s : BitStreamOutput) (i i0 : Int)
    (hs : s.WF) (hi : InRange U.bits i) :
    WriteI U s i = WriteU U (WriteBit s (if i < 0 then 1 else 0)) i.natAbs ∧
    bitAt (WriteI U s i).m_output s.m_nbits = decide (i < 0) ∧
    ReadI U ⟨(WriteI U s i).m_output, s.m_nbits⟩ i0
      = (true, i, ⟨(WriteI U s i).m_output, (WriteI U s i).m_nbits⟩) ∧
    toSigned U.bits (Combine U.bits (if i < 0 then 1 else 0) i.natAbs) = i := by
  obtain ⟨_, a2, a3, a4, a5⟩ := signed_arith U i hi
  have e : WriteI U s i = WriteU U (WriteBit s (if i < 0 then 1 else 0)) i.natAbs := by
    unfold WriteI
    simp only []
    rw [a2, a3]
  have w1 := WriteBit_WF s (if i < 0 then 1 else 0) hs
  obtain ⟨w2, x2, n2, b1, b2⟩ := WriteU_spec U _ i.natAbs w1 a4
  have hbit : bitAt (WriteI U s i).m_output s.m_nbits = decide (i < 0) := by
    rw [e, x2.2.2 _ (by rw [WriteBit_nbits]; omega), WriteBit_bitAt s _ hs, if_pos rfl]
    by_cases c : i < 0
    · simp [c]
    · simp [c]
  refine ⟨e, hbit, ?_, a5⟩
  have hlen : s.m_nbits + 1 ≤ (WriteI U s i).m_output.length * 8 := by
    have := WF.le_length w2
    rw [e]
    rw [n2, WriteBit_nbits] at this
    omega
  unfold ReadI
  simp only []
  rw [ReadBit_spec _ _ _ hlen, hbit]
  simp only [if_true]
  rw [e] at hbit ⊢
  rw [WriteBit_nbits] at b1 b2 n2
  rw [ReadU_of_hasBits U _ w2.2.1 _ i.natAbs a4 b1 b2]
  simp only [if_true]
  rw [n2]
  by_cases c : i < 0
  · simp only [c, decide_True, Bool.toNat_true, if_true] at a5 ⊢
    rw [a5]
  · simp only [c, decide_False, Bool.toNat_false, if_false] at a5 ⊢
    rw [a5]

theorem C2_signed_round_trip_witness :
    (WriteBool BitStreamOutput.init true).WF ∧ InRange UType.U8.bits (-128) ∧
    (WriteI .U8 (WriteBool BitStreamOutput.init true) (-128)
        = WriteU .U8 (WriteBit (WriteBool BitStreamOutput.init true)
            (if (-128 : Int) < 0 then 1 else 0)) (-128 : Int).natAbs ∧
      bitAt (WriteI .U8 (WriteBool BitStreamOutput.init true) (-128)).m_output
          (WriteBool BitStreamOutput.init true).m_nbits = decide ((-128 : Int) < 0) ∧
      ReadI .U8 ⟨(WriteI .U8 (WriteBool BitStreamOutput.init true) (-128)).m_output,
          (WriteBool BitStreamOutput.init true).m_nbits⟩ 0
        = (true, -128, ⟨(WriteI .U8 (WriteBool BitStreamOutput.init true) (-128)).m_output,
            (WriteI .U8 (WriteBool BitStreamOutput.init true) (-128)).m_nbits⟩) ∧
      toSigned UType.U8.bits (Combine UType.U8.bits (if (-128 : Int) < 0 then 1 else 0)
          (-128 : Int).natAbs) = -128) :=
  ⟨by decide, by decide,
    C2_signed_round_trip .U8 (WriteBool BitStreamOutput.init true) (-128) 0
      (by decide) (by decide)⟩

theorem isBytes_append {a b : List Nat} (ha : IsBytes a) (hb : IsBytes b) : IsBytes (a ++ b) := by
  intro x hx
  rcases List.mem_append.mp hx with h | h
  · exact ha x h
  · exact hb x h

theorem bitAt_append_left (a b : List Nat) (i : Nat) (h : i < a.length * 8) :
    bitAt (a ++ b) i = bitAt a i := by
  unfold bitAt
  rw [List.getD_append _ _ _ _ (by omega)]

theorem WriteBytesAligned_extends (s : BitStreamOutput) (buffer : List Nat) (n : Nat)
    (hs : s.WF) : Extends s (WriteBytesAligned s buffer n) := by
  have hl := WF.le_length hs
  unfold WriteBytesAligned
  split
  · exact Extends.refl s
  · refine ⟨?_, by simp, fun i hi => bitAt_append_left _ _ _ (by omega)⟩
    simp only [BITS2BOUNDARY_eq, BYTES2BITS_eq]
    omega

theorem WriteBytesAligned_WF (s : BitStreamOutput) (buffer : List Nat) (n : Nat)
    (hs : s.WF) (hb : IsBytes buffer) (hn : n ≤ buffer.length) :
    (WriteBytesAligned s buffer n).WF := by
  have h1 := hs.1
  unfold WriteBytesAligned
  split
  · exact hs
  · refine ⟨?_, ?_, ?_⟩
    · simp only [BITS2BOUNDARY_eq, BYTES2BITS_eq, BITS2BYTES_eq, List.length_append,
        List.length_take] at h1 ⊢
      omega
    · apply isBytes_append hs.2.1
      intro x hx
      exact hb x (List.mem_of_mem_take hx)
    · simp only [BITS2BOUNDARY_eq, BYTES2BITS_eq, BITS2BYTES_eq] at h1 ⊢
      rw [List.getD_eq_default _ _ (by simp only [List.length_append, List.length_take]; omega)]
      simp

/-- `ReadBytesAligned` of `n` bytes that follow the first `len` bytes. -/
theorem ReadBytesAligned_append (a str : List Nat) (m : Nat) (dest : List Nat)
    (hm : BITS2BYTES m = a.length) (hn : 0 < str.length) (hd : dest.length = str.length) :
    ReadBytesAligned ⟨a ++ str, m⟩ dest str.length
      = (true, str, ⟨a ++ str, BITS2BOUNDARY m + BYTES2BITS str.length⟩) := by
  unfold ReadBytesAligned
  simp only []
  rw [if_neg (by omega), hm, if_neg (by simp)]
  simp [List.drop_eq_nil_of_le (le_of_eq hd)]

/-- C3 (length-prefixed byte sequence round trip).  For every byte sequence `str`
shorter than `2 ^ 32` and every writer state reached from an empty buffer:
`Write (String)` and `Write (Buffer)` produce the same stream, namely the u32
variable-width length followed, when the length is not zero, by zero bits up to
the next byte boundary and then the bytes of `str`; reading a String or a Buffer
at the writer's old offset returns true, yields the bytes of `str`, and ends at
the writer's final bit offset. -/
theorem C3_string_round_trip (s : BitStreamOutput) (str str0 : Str) (b0 : Buffer)
    (hs : s.WF) (hb : IsBytes str) (hl : str.length < 2 ^ 32) :
    WriteBuffer s str = WriteString s str ∧
    (WriteString s str).m_output = (WriteU .U32 s str.length).m_output ++ str ∧
    (WriteString s str).m_nbits =
      (if str.length = 0 then (WriteU .U32 s str.length).m_nbits
        else BITS2BOUNDARY (WriteU .U32 s str.length).m_nbits + 8 * str.length) ∧
    (WriteU .U32 s str.length).m_output.length * 8
      = BITS2BOUNDARY (WriteU .U32 s str.length).m_nbits ∧
    (∀ i, (WriteU .U32 s str.length).m_nbits ≤ i →
      i < BITS2BOUNDARY (WriteU .U32 s str.length).m_nbits →
      bitAt (WriteString s str).m_output i = false) ∧
    ReadString ⟨(WriteString s str).m_output, s.m_nbits⟩ str0
      = (true, str, ⟨(WriteString s str).m_output, (WriteString s str).m_nbits⟩) ∧
    ReadBuffer ⟨(WriteString s str).m_output, s.m_nbits⟩ b0
      = (true, str, ⟨(WriteString s str).m_output, (WriteString s str).m_nbits⟩) := by
  have hu : str.length < 2 ^ UType.U32.bits := hl
  obtain ⟨w1, _, n1, b1, b2⟩ := WriteU_spec .U32 s str.length hs hu
  have hmod : str.length % 2 ^ 32 = str.length := Nat.mod_eq_of_lt hl
  have x2 := WriteBytesAligned_extends (WriteU .U32 s str.length) str str.length w1
  have hlen1 := w1.1
  have eW : WriteString s str
      = WriteBytesAligned (WriteU .U32 s str.length) str str.length := by
    unfold WriteString
    simp only [hmod]
  have eOut : (WriteString s str).m_output = (WriteU .U32 s str.length).m_output ++ str := by
    rw [eW]
    unfold WriteBytesAligned
    split
    · rename_i h
      rw [List.length_eq_zero.mp h]
      simp
    · simp
  have eN : (WriteString s str).m_nbits =
      (if str.length = 0 then (WriteU .U32 s str.length).m_nbits
        else BITS2BOUNDARY (WriteU .U32 s str.length).m_nbits + 8 * str.length) := by
    rw [eW]
    unfold WriteBytesAligned
    split
    · rfl
    · simp only [BYTES2BITS_eq]
  have hbytes : IsBytes (WriteString s str).m_output := by
    rw [eOut]; exact isBytes_append w1.2.1 hb
  have hread : ReadU .U32 ⟨(WriteString s str).m_output, s.m_nbits⟩ 0
      = (true, str.length, ⟨(WriteString s str).m_output, (WriteU .U32 s str.length).m_nbits⟩) := by
    rw [n1]
    apply ReadU_of_hasBits .U32 _ hbytes _ _ hu
    · rw [eW]; exact b1.mono (by rw [n1]; omega) x2
    · rw [eW]; exact b2.mono (by rw [n1]) x2
  refine ⟨rfl, eOut, eN, ?_, ?_, ?_, ?_⟩
  · rw [hlen1, BITS2BYTES_eq, BITS2BOUNDARY_eq]
  · intro i h1 h2
    rw [eOut, bitAt_append_left _ _ _ (by rw [hlen1, BITS2BYTES_eq]; rw [BITS2BOUNDARY_eq] at h2; omega)]
    exact WF.bitAt_trailing w1 i h1
  · unfold ReadString
    simp only []
    rw [hread]
    simp only [if_true]
    by_cases c : str.length = 0
    · rw [if_pos c, eN, if_pos c, List.length_eq_zero.mp c]
    · rw [if_neg c, eN, if_neg c, eOut,
        ReadBytesAligned_append _ str _ _ hlen1.symm (by omega) (by simp)]
      simp only [if_true, BYTES2BITS_eq]
  · unfold ReadBuffer
    simp only []
    rw [hread]
    simp only [if_true]
    by_cases c : str.length = 0
    · rw [eN, if_pos c, List.length_eq_zero.mp c]
      simp [ReadBytesAligned, resize]
    · rw [eN, if_neg c, eOut,
        ReadBytesAligned_append _ str _ _ hlen1.symm (by omega) (resize_length _ _)]
      simp only [BYTES2BITS_eq]

theorem C3_string_round_trip_witness :
    (WriteBool BitStreamOutput.init true).WF ∧ IsBytes [104, 105, 0] ∧
    [104, 105, 0].length < 2 ^ 32 ∧
    ReadString ⟨(WriteString (WriteBool BitStreamOutput.init true) [104, 105, 0]).m_output,
        (WriteBool BitStreamOutput.init true).m_nbits⟩ []
      = (true, [104, 105, 0],
          ⟨(WriteString (WriteBool BitStreamOutput.init true) [104, 105, 0]).m_output,
            (WriteString (WriteBool BitStreamOutput.init true) [104, 105, 0]).m_nbits⟩) :=
  ⟨by decide, by decide, by decide,
    (C3_string_round_trip (WriteBool BitStreamOutput.init true) [104, 105, 0] [] []
      (by decide) (by decide) (by decide)).2.2.2.2.2.1⟩

/-! ## Packets -/

theorem Header.read_bytes_append (h : Header) (payload : Buffer) :
    Header.read (h.bytes ++ payload)
      = ⟨h.seqnum % 65536, h.acknum % 65536, h.pflags % 65536, h.length % 65536⟩ := by
  simp only [Header.read, Header.bytes, u16Bytes, readU16, List.cons_append, List.nil_append,
    List.getD_cons_zero, List.getD_cons_succ, List.append_assoc, Header.mk.injEq]
  refine ⟨?_, ?_, ?_, ?_⟩ <;> omega

theorem Header.read_bytes (h : Header) :
    Header.read h.bytes
      = ⟨h.seqnum % 65536, h.acknum % 65536, h.pflags % 65536, h.length % 65536⟩ := by
  have := Header.read_bytes_append h []
  rwa [List.append_nil] at this

theorem Header.bytes_length (h : Header) : h.bytes.length = 8 := rfl

theorem payloadOf_bytes_append (h : Header) (payload : Buffer)
    (hl : h.length % 65536 = payload.length) :
    payloadOf (h.bytes ++ payload) = payload := by
  unfold payloadOf
  rw [Header.read_bytes_append]
  simp only [sizeofHeader]
  rw [List.drop_append_of_le_length (by rw [Header.bytes_length]),
    List.drop_of_length_le (by rw [Header.bytes_length]), List.nil_append, hl, List.take_length]

/-! ## C9: `Connection::Send` -/

theorem mapEmplace_append {α : Type} (k : Nat) (v : α) (m : List (Nat × α))
    (h : ∀ e ∈ m, gt k e.1 = true) : mapEmplace k v m = m ++ [(k, v)] := by
  induction m with
  | nil => rfl
  | cons e rest ih =>
    obtain ⟨k1, v1⟩ := e
    have h1 : gt k k1 = true := h (k1, v1) (List.mem_cons_self _ _)
    have h2 : lt k k1 = false := by
      simp only [gt, lt, toInt16, decide_eq_true_eq, decide_eq_false_iff_not] at h1 ⊢
      omega
    have h3 : lt k1 k = true := by
      simp only [gt, lt, toInt16, decide_eq_true_eq] at h1 ⊢
      omega
    simp only [mapEmplace, h2, h3, if_true, List.cons_append, Bool.false_eq_true, if_false]
    rw [ih (fun e he => h e (List.mem_cons_of_mem _ he))]

/-- C9, counterexample.  A payload of 65536 bytes is sent with the header field
`length = 0`, not `|data|`: the field is a `uint16_t`. -/
theorem C9_send_length_counterexample :
    ∃ packet, (exampleEstabed.Send (List.replicate 65536 0) true).2
        = [Event.send "10.0.0.2:4000" packet] ∧
      (Header.read packet).length = 0 ∧ (List.replicate 65536 0).length = 65536 := by
  refine ⟨Header.bytes ⟨7, 0, FLAG_RLB, (List.replicate 65536 0).length⟩
    ++ List.replicate 65536 0, rfl, ?_, List.length_replicate _ _⟩
  rw [Header.read_bytes_append, List.length_replicate]
  rfl

/-- C9, amended (send postcondition).  In `STATE_ESTABED`, `Send (data, reliable)`
emits exactly one datagram to the peer: the 8-byte header `seqnum, acknum = 0,
pflags, length = |data| mod 2^16` followed by the bytes of `data`.  For a reliable
send `seqnum` is the old `m_reliable_outgoing_sequence`, `pflags = FLAG_RLB`, the
counter is incremented modulo `2^16`, and the packet is emplaced in the
retransmission queue under `seqnum` with timeout 500 ms and 120 retries (as its
new last entry when every queued sequence number precedes `seqnum`); for an
unreliable send `seqnum` is the old `m_unreliable_outgoing_sequence`, `pflags =
0`, that counter is incremented and the queue is unchanged.  Nothing else
changes.  In every other state `Send` sends nothing and changes nothing. -/
theorem C9_send_postcondition (c : Connection) (data : Buffer)
    (hr : c.m_reliable_outgoing_sequence < 65536)
    (hu : c.m_unreliable_outgoing_sequence < 65536) :
    (c.m_state = .STATE_ESTABED →
      (∃ packet,
        c.Send data true =
          ({ c with
              m_reliable_outgoing_sequence := (c.m_reliable_outgoing_sequence + 1) % 65536
              m_reliable_retransmission_queue :=
                mapEmplace c.m_reliable_outgoing_sequence ⟨500, 120, packet⟩
                  c.m_reliable_retransmission_queue },
            [Event.send c.m_raddr packet]) ∧
        packet.length = 8 + data.length ∧ packet.drop 8 = data ∧
        Header.read packet = ⟨c.m_reliable_outgoing_sequence, 0, FLAG_RLB, data.length % 65536⟩ ∧
        ((∀ e ∈ c.m_reliable_retransmission_queue, gt c.m_reliable_outgoing_sequence e.1 = true) →
          (c.Send data true).1.m_reliable_retransmission_queue
            = c.m_reliable_retransmission_queue
              ++ [(c.m_reliable_outgoing_sequence, ⟨500, 120, packet⟩)])) ∧
      (∃ packet,
        c.Send data false =
          ({ c with
              m_unreliable_outgoing_sequence := (c.m_unreliable_outgoing_sequence + 1) % 65536 },
            [Event.send c.m_raddr packet]) ∧
        packet.length = 8 + data.length ∧ packet.drop 8 = data ∧
        Header.read packet = ⟨c.m_unreliable_outgoing_sequence, 0, 0, data.length % 65536⟩)) ∧
    (c.m_state ≠ .STATE_ESTABED → ∀ reliable, c.Send data reliable = (c, [])) := by
  refine ⟨fun hs => ⟨?_, ?_⟩, fun hs reliable => ?_⟩
  · refine ⟨Header.bytes ⟨c.m_reliable_outgoing_sequence, 0, FLAG_RLB, data.length⟩ ++ data,
      ?_, ?_, ?_, ?_, ?_⟩
    · simp [Connection.Send, hs, RETX_INTERVAL, RETX_COUNT]
    · rw [List.length_append, Header.bytes_length]
    · rw [List.drop_append_of_le_length (by rw [Header.bytes_length]),
        List.drop_of_length_le (by rw [Header.bytes_length]), List.nil_append]
    · rw [Header.read_bytes_append]
      simp [Nat.mod_eq_of_lt hr, FLAG_RLB]
    · intro hq
      simp only [Connection.Send, hs, ne_eq, not_true_eq_false, if_false, if_true]
      rw [mapEmplace_append _ _ _ hq]
      simp [RETX_INTERVAL, RETX_COUNT]
  · refine ⟨Header.bytes ⟨c.m_unreliable_outgoing_sequence, 0, 0, data.length⟩ ++ data,
      ?_, ?_, ?_, ?_⟩
    · simp [Connection.Send, hs]
    · rw [List.length_append, Header.bytes_length]
    · rw [List.drop_append_of_le_length (by rw [Header.bytes_length]),
        List.drop_of_length_le (by rw [Header.bytes_length]), List.nil_append]
    · rw [Header.read_bytes_append]
      simp [Nat.mod_eq_of_lt hu]
  · simp [Connection.Send, hs]

theorem C9_send_postcondition_witness :
    exampleEstabed.m_reliable_outgoing_sequence < 65536 ∧
    exampleEstabed.m_unreliable_outgoing_sequence < 65536 ∧
    exampleEstabed.m_state = .STATE_ESTABED ∧
    ∃ packet,
      exampleEstabed.Send [1, 2, 3] false =
        ({ exampleEstabed with
            m_unreliable_outgoing_sequence :=
              (exampleEstabed.m_unreliable_outgoing_sequence + 1) % 65536 },
          [Event.send exampleEstabed.m_raddr packet]) ∧
      packet.length = 8 + [1, 2, 3].length ∧ packet.drop 8 = [1, 2, 3] ∧
      Header.read packet
        = ⟨exampleEstabed.m_unreliable_outgoing_sequence, 0, 0, [1, 2, 3].length % 65536⟩ :=
  ⟨by decide, by decide, rfl,
    ((C9_send_postcondition exampleEstabed [1, 2, 3] (by decide) (by decide)).1 rfl).2⟩

theorem state_estabed_unreliable (c : Connection) (env : Env) (raddr : Address)
    (packet : Buffer) (hm : c.m_master = true → c.m_raddr = raddr)
    (hd : IsUnreliableData (Header.read packet)) :
    state_estabed c env raddr packet =
      if lt (Header.read packet).seqnum c.m_unreliable_incoming_sequence then (c, [])
      else
        ({ c with m_unreliable_incoming_sequence := ((Header.read packet).seqnum + 1) % 65536 },
          if c.m_listener then [Event.OnIncomingData (payloadOf packet)] else []) := by
  obtain ⟨h1, h2, h3, h4, h5, h6, h7, h8⟩ := hd
  have hm2 : (c.m_master && decide (c.m_raddr ≠ raddr)) = false := by
    cases hmm : c.m_master
    · rfl
    · simp [hm hmm]
  unfold state_estabed
  simp only [hm2, h1, h2, h3, h4, h5, h6, h7, h8, ne_eq, not_true_eq_false, if_false,
    Bool.false_eq_true]

theorem Connection.fsm_estabed (c : Connection) (env : Env) (raddr : Address) (packet : Buffer)
    (hs : c.m_state = .STATE_ESTABED) :
    c.fsm env raddr packet = state_estabed c env raddr packet := by
  unfold Connection.fsm; rw [hs]

theorem unreliable_drop (c : Connection) (env : Env) (raddr : Address) (packet : Buffer)
    (hs : c.m_state = .STATE_ESTABED) (hm : c.m_master = true → c.m_raddr = raddr)
    (hd : IsUnreliableData (Header.read packet))
    (hlt : lt (Header.read packet).seqnum c.m_unreliable_incoming_sequence = true) :
    c.fsm env raddr packet = (c, []) := by
  rw [Connection.fsm_estabed c env raddr packet hs,
    state_estabed_unreliable c env raddr packet hm hd, if_pos hlt]

theorem lt_succ_self (seq : Nat) : lt seq ((seq + 1) % 65536) = true := by
  simp only [lt, toInt16, decide_eq_true_eq]
  omega

/-- C10, counterexample.  Closing a listening master that holds an already closed
child sends no `RST` at all: that child sends none. -/
theorem C10_close_counterexample :
    exampleListenClosedChild.m_children.length = 1 ∧
    exampleListenClosedChild.conn.m_state = .STATE_LISTEN ∧
    (exampleListenClosedChild.Close).2 = [] := by
  decide

theorem closeChildren_eq (children : List (Address × Connection))
    (h : ∀ e ∈ children, e.2.m_state ≠ .STATE_LISTEN) :
    closeChildren children =
      (children.filter (fun e => decide (e.2.m_state ≠ .STATE_CLOSED))).map
        (fun e => Event.send e.2.m_raddr resetPacket) := by
  induction children with
  | nil => rfl
  | cons e rest ih =>
    obtain ⟨a, ch⟩ := e
    have h1 : ch.m_state ≠ .STATE_LISTEN := h (a, ch) (List.mem_cons_self _ _)
    have ih1 := ih (fun e he => h e (List.mem_cons_of_mem _ he))
    simp only [closeChildren, ih1, List.filter_cons]
    by_cases c : ch.m_state = .STATE_CLOSED
    · simp [Connection.Close, c]
    · simp [Connection.Close, c, h1, Connection.reset, send_reset]

/-- C10, amended (local close never notifies).  `Close ()` fires no listener
callback and leaves the connection `STATE_CLOSED` with empty retransmission
queue and reassembly list and zero sequence counters.  From `STATE_ESTABED`,
`STATE_SYNSENT` or `STATE_SYNRCVD` it sends exactly one bare `RST` to the peer;
from `STATE_LISTEN` it closes every child, each child that is not already closed
sending one bare `RST` to its peer and a closed child sending nothing, and
removes all children; from `STATE_CLOSED` it does nothing. -/
theorem C10_close_never_notifies (m : MasterConnection) (hc : ClosedClean m.conn)
    (hch : ∀ e ∈ m.m_children, e.2.m_state ≠ .STATE_LISTEN) :
    (∀ ev ∈ (m.Close).2, ev.isCallback = false) ∧
    (m.Close).1.conn.m_state = .STATE_CLOSED ∧
    (m.Close).1.conn.m_reliable_retransmission_queue = [] ∧
    (m.Close).1.conn.m_reliable_reassembly_list = [] ∧
    (m.Close).1.conn.m_unreliable_outgoing_sequence = 0 ∧
    (m.Close).1.conn.m_unreliable_incoming_sequence = 0 ∧
    (m.Close).1.conn.m_reliable_outgoing_sequence = 0 ∧
    (m.Close).1.conn.m_reliable_lowest_acceptable_sequence = 0 ∧
    (m.conn.m_state = .STATE_CLOSED → m.Close = (m, [])) ∧
    (m.conn.m_state = .STATE_LISTEN →
      m.Close = (⟨Connection.new m.conn.m_master, []⟩,
        (m.m_children.filter (fun e => decide (e.2.m_state ≠ .STATE_CLOSED))).map
          (fun e => Event.send e.2.m_raddr resetPacket))) ∧
    (m.conn.m_state ≠ .STATE_CLOSED → m.conn.m_state ≠ .STATE_LISTEN →
      m.Close = (⟨Connection.new m.conn.m_master, m.m_children⟩,
          [Event.send m.conn.m_raddr resetPacket]) ∧
      m.conn.Close = (Connection.new m.conn.m_master, [Event.send m.conn.m_raddr resetPacket])) := by
  have hcc := closeChildren_eq m.m_children hch
  by_cases c1 : m.conn.m_state = .STATE_CLOSED
  · obtain ⟨q1, q2, q3, q4, q5, q6⟩ := hc c1
    have e : m.Close = (m, []) := by simp [MasterConnection.Close, c1]
    rw [e]
    refine ⟨by simp, c1, q1, q2, q3, q4, q5, q6, fun _ => rfl, fun h => ?_, fun h => absurd c1 h⟩
    rw [c1] at h; cases h
  · by_cases c2 : m.conn.m_state = .STATE_LISTEN
    · have e : m.Close = (⟨Connection.new m.conn.m_master, []⟩,
          (m.m_children.filter (fun e => decide (e.2.m_state ≠ .STATE_CLOSED))).map
            (fun e => Event.send e.2.m_raddr resetPacket)) := by
        simp [MasterConnection.Close, c2, Connection.reset, hcc]
      rw [e]
      refine ⟨?_, rfl, rfl, rfl, rfl, rfl, rfl, rfl, fun h => absurd h c1, fun _ => rfl,
        fun _ h => absurd c2 h⟩
      intro ev hev
      obtain ⟨x, _, rfl⟩ := List.mem_map.mp hev
      rfl
    · have e : m.Close = (⟨Connection.new m.conn.m_master, m.m_children⟩,
          [Event.send m.conn.m_raddr resetPacket]) := by
        simp [MasterConnection.Close, c1, c2, Connection.reset, send_reset]
      have e2 : m.conn.Close
          = (Connection.new m.conn.m_master, [Event.send m.conn.m_raddr resetPacket]) := by
        simp [Connection.Close, c1, c2, Connection.reset, send_reset]
      rw [e]
      refine ⟨?_, rfl, rfl, rfl, rfl, rfl, rfl, rfl, fun h => absurd h c1, fun h => absurd h c2,
        fun _ _ => ⟨rfl, e2⟩⟩
      intro ev hev
      rw [List.mem_singleton.mp hev]
      rfl

theorem C10_close_never_notifies_witness :
    ClosedClean exampleListenClosedChild.conn ∧
    (∀ e ∈ exampleListenClosedChild.m_children, e.2.m_state ≠ .STATE_LISTEN) ∧
    (∀ ev ∈ (exampleListenClosedChild.Close).2, ev.isCallback = false) :=
  ⟨by decide, by decide,
    (C10_close_never_notifies exampleListenClosedChild (by decide) (by decide)).1⟩

/-! ## C5: the three-way handshake -/

theorem findChild_append_new (raddr : Address) (ch : Connection)
    (children : List (Address × Connection)) (h : findChild raddr children = none) :
    findChild raddr (children ++ [(raddr, ch)]) = some ch := by
  induction children with
  | nil => simp [findChild]
  | cons e rest ih =>
    obtain ⟨a, x⟩ := e
    by_cases c : a = raddr
    · simp [findChild, c] at h
    · have h1 : findChild raddr rest = none := by
        simpa [findChild, List.find?_cons, c] using h
      have := ih h1
      simpa [findChild, List.find?_cons, c] using this

theorem setChild_append_new (raddr : Address) (ch ch1 : Connection)
    (children : List (Address × Connection)) (h : findChild raddr children = none) :
    setChild raddr ch1 (children ++ [(raddr, ch)]) = children ++ [(raddr, ch1)] := by
  induction children with
  | nil => simp [setChild]
  | cons e rest ih =>
    obtain ⟨a, x⟩ := e
    by_cases c : a = raddr
    · simp [findChild, c] at h
    · have h1 : findChild raddr rest = none := by
        simpa [findChild, List.find?_cons, c] using h
      simp [setChild, c, ih h1]

/-- C5 (three-way handshake).  From a closed client master and a listening
server master that has no child for the client's address, with client ISN `c`
and server ISN `s` (the low 16 bits of the clocks): `Connect` sends `seq = c,
ack = 0, RLB|SYN`; the server, receiving it, sends `seq = s, ack = c + 1,
RLB|SYN|ACK`; the client, receiving that, sends the bare `ACK` with `acknum =
s + 1` and fires `OnConnectComplete` with the connection; the server child,
receiving the `ACK`, fires `OnCreateConnection`; each callback once and no
other.  Both ends are then `STATE_ESTABED` with empty retransmission queues,
client `lowest_acceptable = s + 1`, `outgoing_reliable = c + 1`, child
`lowest_acceptable = c + 1`, `outgoing_reliable = s + 1` (all modulo `2^16`). -/
theorem C5_three_way_handshake (cm : Connection) (sm : MasterConnection)
    (envC envS envX envY : Env) (caddr saddr : Address)
    (hc1 : cm.m_master = true) (hc2 : cm.m_state = .STATE_CLOSED)
    (hc3 : cm.m_reliable_retransmission_queue = [])
    (hs1 : sm.conn.m_master = true) (hs2 : sm.conn.m_state = .STATE_LISTEN)
    (hs3 : findChild caddr sm.m_children = none) :
    (cm.Connect envC saddr).2 = [Event.send saddr (synPacket (envC.time % 65536))] ∧
    (sm.fsm envS caddr (synPacket (envC.time % 65536))).2
      = [Event.send caddr (synAckPacket (envS.time % 65536) (envC.time % 65536))] ∧
    ((cm.Connect envC saddr).1.fsm envX saddr
        (synAckPacket (envS.time % 65536) (envC.time % 65536))).2
      = [Event.send saddr (ackPacket ((envS.time % 65536 + 1) % 65536)),
          Event.OnConnectComplete true] ∧
    ((sm.fsm envS caddr (synPacket (envC.time % 65536))).1.fsm envY caddr
        (ackPacket ((envS.time % 65536 + 1) % 65536))).2
      = [Event.OnCreateConnection caddr] ∧
    (∃ cm2, ((cm.Connect envC saddr).1.fsm envX saddr
        (synAckPacket (envS.time % 65536) (envC.time % 65536))).1 = cm2 ∧
      cm2.m_state = .STATE_ESTABED ∧ cm2.m_reliable_retransmission_queue = [] ∧
      cm2.m_reliable_lowest_acceptable_sequence = (envS.time % 65536 + 1) % 65536 ∧
      cm2.m_reliable_outgoing_sequence = (envC.time % 65536 + 1) % 65536) ∧
    (∃ ch, findChild caddr ((sm.fsm envS caddr (synPacket (envC.time % 65536))).1.fsm envY caddr
        (ackPacket ((envS.time % 65536 + 1) % 65536))).1.m_children = some ch ∧
      ch.m_state = .STATE_ESTABED ∧ ch.m_reliable_retransmission_queue = [] ∧
      ch.m_reliable_lowest_acceptable_sequence = (envC.time % 65536 + 1) % 65536 ∧
      ch.m_reliable_outgoing_sequence = (envS.time % 65536 + 1) % 65536) := by
  have hc : envC.time % 65536 < 65536 := Nat.mod_lt _ (by norm_num)
  have hs : envS.time % 65536 < 65536 := Nat.mod_lt _ (by norm_num)
  have hsyn : Header.read (synPacket (envC.time % 65536)) = ⟨envC.time % 65536, 0, 5, 0⟩ := by
    rw [synPacket, Header.read_bytes]
    simp [FLAG_RLB, FLAG_SYN]
  have hsynack : Header.read (synAckPacket (envS.time % 65536) (envC.time % 65536))
      = ⟨envS.time % 65536, (envC.time % 65536 + 1) % 65536, 7, 0⟩ := by
    rw [synAckPacket, Header.read_bytes]
    simp [FLAG_RLB, FLAG_SYN, FLAG_ACK]
  have hack : Header.read (ackPacket ((envS.time % 65536 + 1) % 65536))
      = ⟨0, (envS.time % 65536 + 1) % 65536, 2, 0⟩ := by
    rw [ackPacket, Header.read_bytes]
    simp [FLAG_ACK]
  have hsynack2 := hsynack
  have hack2 := hack
  simp only [Nat.mod_add_mod] at hsynack2 hack2
  have b1 : (7 : Nat) &&& 8 = 0 := by decide
  have b2 : (7 : Nat) &&& 255 = 7 := by decide
  have b3 : (2 : Nat) &&& 8 = 0 := by decide
  have b4 : (2 : Nat) &&& 255 = 2 := by decide
  have b5 : (1 : Nat) ||| 4 = 5 := by decide
  have b6 : (5 : Nat) ||| 2 = 7 := by decide
  -- step 1: the client connects
  have e1 : cm.Connect envC saddr =
      ({ cm with
          m_raddr := saddr
          m_socket := true
          m_client := true
          m_reliable_retransmission_queue :=
            [(envC.time % 65536, ⟨RETX_INTERVAL, RETX_COUNT, synPacket (envC.time % 65536)⟩)]
          m_unreliable_outgoing_sequence := envC.time % 65536
          m_reliable_outgoing_sequence := (envC.time % 65536 + 1) % 65536
          m_state := .STATE_SYNSENT }, [Event.send saddr (synPacket (envC.time % 65536))]) := by
    simp [Connection.Connect, hc1, hc2, hc3, mapEmplace, synPacket]
  -- step 2: the server master receives the SYN
  have e2 : sm.fsm envS caddr (synPacket (envC.time % 65536)) =
      ({ sm with m_children := sm.m_children ++ [(caddr,
          { Connection.new false with
            m_server := sm.conn.m_server
            m_socket := sm.conn.m_socket
            m_raddr := caddr
            m_unreliable_incoming_sequence := envC.time % 65536
            m_reliable_lowest_acceptable_sequence := (envC.time % 65536 + 1) % 65536
            m_reliable_retransmission_queue :=
              [(envS.time % 65536, ⟨RETX_INTERVAL, RETX_COUNT,
                synAckPacket (envS.time % 65536) (envC.time % 65536)⟩)]
            m_unreliable_outgoing_sequence := envS.time % 65536
            m_reliable_outgoing_sequence := (envS.time % 65536 + 1) % 65536
            m_state := .STATE_SYNRCVD })] },
        [Event.send caddr (synAckPacket (envS.time % 65536) (envC.time % 65536))]) := by
    simp [MasterConnection.fsm, hs2, state_listen, hs1, hs3, hsyn, mapEmplace, synAckPacket,
      FLAG_RLB, FLAG_SYN, FLAG_ACK, b5, b6]
  rw [e1, e2]
  refine ⟨rfl, rfl, ?_, ?_, ?_, ?_⟩
  · simp [Connection.fsm, state_synsent, hc1, hsynack, hsynack2, eq, send_ack, FLAG_RLB, FLAG_SYN,
      FLAG_ACK, FLAG_RST, FLAG_ALL, b1, b2, b5, b6]
  · simp [MasterConnection.fsm, hs2, state_listen, hs1, findChild_append_new _ _ _ hs3,
      Connection.fsm, state_synrcvd, hack, hack2, FLAG_ACK, FLAG_RST, FLAG_ALL, b3, b4]
  · simp [Connection.fsm, state_synsent, hc1, hsynack, hsynack2, eq, send_ack, FLAG_RLB, FLAG_SYN,
      FLAG_ACK, FLAG_RST, FLAG_ALL, b1, b2, b5, b6]
  · simp [MasterConnection.fsm, hs2, state_listen, hs1, findChild_append_new _ _ _ hs3,
      Connection.fsm, state_synrcvd, hack, hack2, setChild_append_new _ _ _ _ hs3,
      FLAG_ACK, FLAG_RST, FLAG_ALL, b3, b4]

theorem C5_three_way_handshake_witness :
    (Connection.new true).m_master = true ∧ (Connection.new true).m_state = .STATE_CLOSED ∧
    (Connection.new true).m_reliable_retransmission_queue = [] ∧
    exampleListen.conn.m_master = true ∧ exampleListen.conn.m_state = .STATE_LISTEN ∧
    findChild "10.0.0.2:4000" exampleListen.m_children = none ∧
    ∃ ch, findChild "10.0.0.2:4000"
        ((exampleListen.fsm ⟨1000, 0, 0, 0, 0⟩ "10.0.0.2:4000"
            (synPacket ((⟨65535, 0, 0, 0, 0⟩ : Env).time % 65536))).1.fsm
          ⟨0, 0, 0, 0, 0⟩ "10.0.0.2:4000"
          (ackPacket (((⟨1000, 0, 0, 0, 0⟩ : Env).time % 65536 + 1) % 65536))).1.m_children
        = some ch ∧
      ch.m_state = .STATE_ESTABED ∧ ch.m_reliable_retransmission_queue = [] ∧
      ch.m_reliable_lowest_acceptable_sequence
        = ((⟨65535, 0, 0, 0, 0⟩ : Env).time % 65536 + 1) % 65536 ∧
      ch.m_reliable_outgoing_sequence = ((⟨1000, 0, 0, 0, 0⟩ : Env).time % 65536 + 1) % 65536 :=
  ⟨rfl, rfl, rfl, rfl, rfl, rfl,
    (C5_three_way_handshake (Connection.new true) exampleListen ⟨65535, 0, 0, 0, 0⟩
      ⟨1000, 0, 0, 0, 0⟩ ⟨0, 0, 0, 0, 0⟩ ⟨0, 0, 0, 0, 0⟩ "10.0.0.2:4000" "10.0.0.1:8888"
      rfl rfl rfl rfl rfl rfl).2.2.2.2.2⟩

theorem lt_iff_seqOffset (low a b : Nat) (ha : a < 65536) (hb : b < 65536)
    (hoa : seqOffset low a ≤ 32767) (hob : seqOffset low b ≤ 32767) :
    lt a b = true ↔ seqOffset low a < seqOffset low b := by
  simp only [lt, toInt16, seqOffset, decide_eq_true_eq] at *
  omega

theorem seqOffset_eq_iff (low a b : Nat) (ha : a < 65536) (hb : b < 65536) :
    seqOffset low a = seqOffset low b ↔ a = b := by
  simp only [seqOffset]
  omega

theorem mem_mapEmplace {α : Type} (k : Nat) (v : α) (m : List (Nat × α)) (e : Nat × α)
    (h : e ∈ mapEmplace k v m) : e = (k, v) ∨ e ∈ m := by
  induction m with
  | nil => simpa [mapEmplace] using h
  | cons x rest ih =>
    obtain ⟨k1, v1⟩ := x
    simp only [mapEmplace] at h
    split at h
    · rcases List.mem_cons.mp h with h | h
      · exact Or.inl h
      · exact Or.inr h
    · split at h
      · rcases List.mem_cons.mp h with h | h
        · exact Or.inr (by rw [h]; exact List.mem_cons_self _ _)
        · rcases ih h with h | h
          · exact Or.inl h
          · exact Or.inr (List.mem_cons_of_mem _ h)
      · exact Or.inr h

theorem mapEmplace_sorted (low k : Nat) (pkt : Buffer) (list : List (Nat × Buffer))
    (hk : k < 65536) (hseq : (Header.read pkt).seqnum = k) (hoff : seqOffset low k ≤ 32767)
    (h : ReasmSorted low list) : ReasmSorted low (mapEmplace k pkt list) := by
  obtain ⟨h1, h2⟩ := h
  refine ⟨?_, ?_⟩
  · intro e he
    rcases mem_mapEmplace k pkt list e he with rfl | he
    · exact ⟨hk, hseq, hoff⟩
    · exact h1 e he
  · induction list with
    | nil => simp [mapEmplace]
    | cons x rest ih =>
      obtain ⟨k1, v1⟩ := x
      have hx := h1 (k1, v1) (List.mem_cons_self _ _)
      have h1r : ∀ e ∈ rest, e.1 < 65536 ∧ (Header.read e.2).seqnum = e.1 ∧
          seqOffset low e.1 ≤ 32767 := fun e he => h1 e (List.mem_cons_of_mem _ he)
      rw [List.pairwise_cons] at h2
      simp only [mapEmplace]
      split
      · rename_i hlt
        have := (lt_iff_seqOffset low k k1 hk hx.1 hoff hx.2.2).mp hlt
        rw [List.pairwise_cons]
        refine ⟨?_, List.pairwise_cons.mpr h2⟩
        intro e he
        rcases List.mem_cons.mp he with rfl | he
        · exact this
        · exact lt_trans this (h2.1 e he)
      · split
        · rename_i hlt
          have := (lt_iff_seqOffset low k1 k hx.1 hk hx.2.2 hoff).mp hlt
          rw [List.pairwise_cons]
          refine ⟨?_, ih h1r h2.2⟩
          intro e he
          rcases mem_mapEmplace k pkt rest e he with rfl | he
          · exact this
          · exact h2.1 e he
        · exact List.pairwise_cons.mpr h2

theorem reliableSeqs_append (a b : List Event) :
    reliableSeqs (a ++ b) = reliableSeqs a ++ reliableSeqs b := by
  simp [reliableSeqs, List.filterMap_append]

theorem consecutive_cons (low n : Nat) :
    low % 65536 :: (List.range n).map (fun i => ((low + 1) % 65536 + i) % 65536)
      = (List.range (n + 1)).map (fun i => (low + i) % 65536) := by
  rw [List.range_succ_eq_map, List.map_cons, List.map_map]
  congr 1
  apply List.map_congr_left
  intro i _
  simp only [Function.comp]
  omega

/-- The receive loop hands over the packets numbered `low`, `low + 1`, ... and
stops; what is left is strictly ahead of the new lowest acceptable number. -/
theorem deliverLoop_spec (listener : Bool) :
    ∀ (list : List (Nat × Buffer)) (low : Nat), low < 65536 → ReasmSorted low list →
      ∃ n, reliableSeqs (deliverLoop listener low list).1
          = (List.range n).map (fun i => (low + i) % 65536) ∧
        (deliverLoop listener low list).2.2.2 = (low + n) % 65536 ∧
        ReasmSorted (deliverLoop listener low list).2.2.2 (deliverLoop listener low list).2.2.1 ∧
        ∀ e ∈ (deliverLoop listener low list).2.2.1,
          1 ≤ seqOffset (deliverLoop listener low list).2.2.2 e.1 := by
  intro list
  induction list with
  | nil =>
    intro low hlow _
    refine ⟨0, rfl, ?_, ⟨by simp [deliverLoop], by simp [deliverLoop]⟩, by simp [deliverLoop]⟩
    simp only [deliverLoop]
    omega
  | cons x rest ih =>
    intro low hlow h
    obtain ⟨k, pkt⟩ := x
    obtain ⟨h1, h2⟩ := h
    have hx := h1 (k, pkt) (List.mem_cons_self _ _)
    rw [List.pairwise_cons] at h2
    by_cases c : k = low
    · subst c
      have hrest : ReasmSorted ((k + 1) % 65536) rest := by
        refine ⟨fun e he => ?_, ?_⟩
        · have a := h1 e (List.mem_cons_of_mem _ he)
          have b := h2.1 e he
          refine ⟨a.1, a.2.1, ?_⟩
          simp only [seqOffset] at a b ⊢
          omega
        · apply List.Pairwise.imp_of_mem _ h2.2
          intro a b ha hb hab
          have a1 := h1 a (List.mem_cons_of_mem _ ha)
          have b1 := h1 b (List.mem_cons_of_mem _ hb)
          have a2 := h2.1 a ha
          have b2 := h2.1 b hb
          simp only [seqOffset] at a1 b1 a2 b2 hab ⊢
          omega
      obtain ⟨n, e1, e2, e3, e4⟩ := ih ((k + 1) % 65536) (Nat.mod_lt _ (by norm_num)) hrest
      refine ⟨n + 1, ?_, ?_, ?_, ?_⟩
      · have : reliableSeqs (deliverLoop listener k ((k, pkt) :: rest)).1
            = k :: reliableSeqs (deliverLoop listener ((k + 1) % 65536) rest).1 := by
          simp only [deliverLoop, ne_eq, not_true_eq_false, if_false]
          cases listener <;> simp [reliableSeqs, hx.2.1]
        rw [this, e1, ← consecutive_cons, Nat.mod_eq_of_lt hlow]
      · have : (deliverLoop listener k ((k, pkt) :: rest)).2.2.2
            = (deliverLoop listener ((k + 1) % 65536) rest).2.2.2 := by
          simp only [deliverLoop, ne_eq, not_true_eq_false, if_false]
          cases listener <;> simp
        rw [this, e2]
        omega
      · have : (deliverLoop listener k ((k, pkt) :: rest)).2.2
            = (deliverLoop listener ((k + 1) % 65536) rest).2.2 := by
          simp only [deliverLoop, ne_eq, not_true_eq_false, if_false]
          cases listener <;> simp
        rw [this]
        exact e3
      · have : (deliverLoop listener k ((k, pkt) :: rest)).2.2
            = (deliverLoop listener ((k + 1) % 65536) rest).2.2 := by
          simp only [deliverLoop, ne_eq, not_true_eq_false, if_false]
          cases listener <;> simp
        rw [this]
        exact e4
    · have e : deliverLoop listener low ((k, pkt) :: rest) = ([], [], (k, pkt) :: rest, low) := by
        simp [deliverLoop, c]
      rw [e]
      refine ⟨0, rfl, by simp; omega, ⟨h1, List.pairwise_cons.mpr h2⟩, ?_⟩
      intro e he
      have hk0 : 1 ≤ seqOffset low k := by
        simp only [seqOffset]
        omega
      rcases List.mem_cons.mp he with rfl | he
      · exact hk0
      · exact le_trans hk0 (le_of_lt (h2.1 e he))

theorem reliableInv_new (master : Bool) : ReliableInv (Connection.new master) := by
  refine ⟨by simp [Connection.new], ⟨by simp [Connection.new], by simp [Connection.new]⟩,
    by simp [Connection.new]⟩

theorem ReliableStep.same (c : Connection) (r : Connection × List Event) (hinv : ReliableInv c)
    (h1 : r.1.m_reliable_lowest_acceptable_sequence = c.m_reliable_lowest_acceptable_sequence)
    (h2 : r.1.m_reliable_reassembly_list = c.m_reliable_reassembly_list)
    (h3 : reliableSeqs r.2 = []) : ReliableStep c r := by
  refine ⟨?_, 0, by rw [h3]; rfl, fun _ => ?_⟩
  · unfold ReliableInv
    rw [h1, h2]
    exact hinv
  · rw [h1]
    have := hinv.1
    omega

theorem ReliableStep.reset (c : Connection) (broken : Bool) (pre : List Event)
    (h3 : reliableSeqs pre = []) :
    ReliableStep c ((c.reset broken).1, pre ++ (c.reset broken).2) := by
  refine ⟨reliableInv_new _, 0, ?_, fun h => ?_⟩
  · rw [reliableSeqs_append, h3]
    simp only [Connection.reset]
    cases broken
    · rfl
    · cases c.m_state <;> cases c.m_server <;> cases c.m_client <;> rfl
  · simp [Connection.reset, Connection.new] at h

theorem header_seqnum_lt (packet : Buffer) : (Header.read packet).seqnum < 65536 := by
  simp only [Header.read, readU16]
  omega

theorem ReliableStep.ite (c : Connection) (p : Prop) [Decidable p]
    (a b : Connection × List Event) (ha : p → ReliableStep c a) (hb : ¬ p → ReliableStep c b) :
    ReliableStep c (if p then a else b) := by
  split
  · exact ha ‹_›
  · exact hb ‹_›

theorem state_estabed_reliableStep (c : Connection) (env : Env) (raddr : Address)
    (packet : Buffer) (hinv : ReliableInv c) :
    ReliableStep c (state_estabed c env raddr packet) := by
  unfold state_estabed
  dsimp only
  repeat' (apply ReliableStep.ite <;> intro _)
  all_goals first
    | exact ReliableStep.same c _ hinv rfl rfl rfl
    | exact ReliableStep.reset c true [] rfl
    | exact ReliableStep.reset c true (send_reset raddr) rfl
    | skip
  · refine ReliableStep.same c _ hinv rfl rfl ?_
    cases c.m_reliable_retransmission_queue <;> rfl
  · rename_i hge
    have hseq := header_seqnum_lt packet
    have hoff : seqOffset c.m_reliable_lowest_acceptable_sequence (Header.read packet).seqnum
        ≤ 32767 := by
      have hl := hinv.1
      simp only [ge, toInt16, decide_eq_true_eq, seqOffset] at hge ⊢
      omega
    have hsorted := mapEmplace_sorted c.m_reliable_lowest_acceptable_sequence
      (Header.read packet).seqnum packet c.m_reliable_reassembly_list hseq rfl hoff hinv.2.1
    obtain ⟨n, e1, e2, e3, e4⟩ := deliverLoop_spec c.m_listener _ _ hinv.1 hsorted
    refine ⟨⟨?_, e3, e4⟩, n, ?_, fun _ => e2⟩
    · show (deliverLoop c.m_listener c.m_reliable_lowest_acceptable_sequence _).2.2.2 < 65536
      rw [e2]
      exact Nat.mod_lt _ (by norm_num)
    · show reliableSeqs (_ ++ send_ack raddr _) = _
      rw [reliableSeqs_append, e1]
      simp [reliableSeqs, send_ack]
  · refine ReliableStep.same c _ hinv rfl rfl ?_
    cases c.m_listener <;> rfl

theorem runEstabed_not_estabed (c : Connection) (inputs : List (Env × Address × Buffer))
    (h : c.m_state ≠ .STATE_ESTABED) : runEstabed c inputs = (c, []) := by
  cases inputs with
  | nil => rfl
  | cons x rest => simp [runEstabed, h]

theorem consecutive_append (low n1 n2 : Nat) :
    (List.range n1).map (fun i => (low + i) % 65536)
        ++ (List.range n2).map (fun i => ((low + n1) % 65536 + i) % 65536)
      = (List.range (n1 + n2)).map (fun i => (low + i) % 65536) := by
  rw [List.range_add, List.map_append, List.map_map]
  congr 1
  apply List.map_congr_left
  intro i _
  simp only [Function.comp]
  omega

theorem runEstabed_spec :
    ∀ (inputs : List (Env × Address × Buffer)) (c : Connection), ReliableInv c →
      ReliableInv (runEstabed c inputs).1 ∧
      ∃ n, reliableSeqs (runEstabed c inputs).2
          = (List.range n).map (fun i => (c.m_reliable_lowest_acceptable_sequence + i) % 65536) ∧
        ((runEstabed c inputs).1.m_state = .STATE_ESTABED →
          (runEstabed c inputs).1.m_reliable_lowest_acceptable_sequence
            = (c.m_reliable_lowest_acceptable_sequence + n) % 65536) := by
  intro inputs
  induction inputs with
  | nil =>
    intro c hinv
    refine ⟨hinv, 0, rfl, fun _ => ?_⟩
    have := hinv.1
    simp only [runEstabed]
    omega
  | cons x rest ih =>
    intro c hinv
    by_cases hs : c.m_state = .STATE_ESTABED
    · obtain ⟨i1, n1, s1, l1⟩ := state_estabed_reliableStep c x.1 x.2.1 x.2.2 hinv
      obtain ⟨i2, n2, s2, l2⟩ := ih _ i1
      have e : runEstabed c (x :: rest) =
          ((runEstabed (state_estabed c x.1 x.2.1 x.2.2).1 rest).1,
            (state_estabed c x.1 x.2.1 x.2.2).2
              ++ (runEstabed (state_estabed c x.1 x.2.1 x.2.2).1 rest).2) := by
        simp [runEstabed, hs]
      rw [e]
      by_cases hs1 : (state_estabed c x.1 x.2.1 x.2.2).1.m_state = .STATE_ESTABED
      · refine ⟨i2, n1 + n2, ?_, fun h => ?_⟩
        · rw [reliableSeqs_append, s1, s2, l1 hs1, consecutive_append]
        · rw [l2 h, l1 hs1]
          omega
      · rw [runEstabed_not_estabed _ rest hs1]
        refine ⟨i1, n1, ?_, fun h => absurd h hs1⟩
        rw [List.append_nil, s1]
    · rw [runEstabed_not_estabed c _ hs]
      refine ⟨hinv, 0, rfl, fun _ => ?_⟩
      have := hinv.1
      show c.m_reliable_lowest_acceptable_sequence = _
      omega

/-- C4 (reliable delivery is in order and exactly once).  For every sequence of
packets (any order, with duplicates and gaps) processed by a connection in
`STATE_ESTABED`, starting with lowest acceptable number `low`: the reliable
packets handed to the listener or put on the incoming queue carry the sequence
numbers `low, low + 1, low + 2, ...` modulo `2^16`, one after the other, so none
is skipped and none is handed over twice (two of them less than `2^16` apart
never carry the same number); and while the connection stays established,
`lowest_acceptable` is `low` plus the number of packets handed over, that is the
last delivered sequence number plus one. -/
theorem C4_reliable_in_order (c : Connection) (inputs : List (Env × Address × Buffer))
    (hinv : ReliableInv c) :
    reliableSeqs (runEstabed c inputs).2
      = (List.range (reliableSeqs (runEstabed c inputs).2).length).map
          (fun i => (c.m_reliable_lowest_acceptable_sequence + i) % 65536) ∧
    ((runEstabed c inputs).1.m_state = .STATE_ESTABED →
      (runEstabed c inputs).1.m_reliable_lowest_acceptable_sequence
        = (c.m_reliable_lowest_acceptable_sequence
            + (reliableSeqs (runEstabed c inputs).2).length) % 65536) ∧
    (∀ i j, i < j → j < (reliableSeqs (runEstabed c inputs).2).length → j - i < 65536 →
      (reliableSeqs (runEstabed c inputs).2).getD i 0
        ≠ (reliableSeqs (runEstabed c inputs).2).getD j 0) ∧
    ReliableInv (runEstabed c inputs).1 := by
  obtain ⟨i1, n, s1, l1⟩ := runEstabed_spec inputs c hinv
  have hn : (reliableSeqs (runEstabed c inputs).2).length = n := by
    rw [s1]; simp
  rw [hn]
  refine ⟨s1, l1, ?_, i1⟩
  intro i j hij hj hd
  rw [s1, List.getD_eq_getElem?_getD, List.getD_eq_getElem?_getD, List.getElem?_map,
    List.getElem?_map, List.getElem?_range (by omega), List.getElem?_range hj]
  simp only [Option.map_some', Option.getD_some]
  omega

/-- The payloads the receive loop takes from the reassembly list are exactly
those it hands to the listener, or appends to the incoming queue when no
listener is attached, in the same order. -/
theorem deliverLoop_handover (listener : Bool) :
    ∀ (list : List (Nat × Buffer)) (low : Nat),
      (deliverLoop listener low list).1.filterMap
          (fun ev => match ev with
            | .deliverable _ data => some data
            | _ => none)
        = if listener then
            (deliverLoop listener low list).1.filterMap
              (fun ev => match ev with
                | .OnIncomingData data => some data
                | _ => none)
          else (deliverLoop listener low list).2.1 := by
  intro list
  induction list with
  | nil => intro low; cases listener <;> rfl
  | cons x rest ih =>
    intro low
    obtain ⟨k, pkt⟩ := x
    have := ih ((low + 1) % 65536)
    by_cases c : k = low
    · subst c
      cases listener
      · simp only [deliverLoop, ne_eq, not_true_eq_false, if_false, Bool.false_eq_true] at this ⊢
        simp [this]
      · simp only [deliverLoop, ne_eq, not_true_eq_false, if_false, if_true] at this ⊢
        simp [this]
    · cases listener <;> simp [deliverLoop, c]

theorem C4_reliable_in_order_witness :
    ReliableInv exampleEstabed ∧
    reliableSeqs (runEstabed exampleEstabed
        [reliablePacket 1 [11], reliablePacket 0 [10], reliablePacket 1 [11],
          reliablePacket 3 [13], reliablePacket 2 [12]]).2
      = (List.range (reliableSeqs (runEstabed exampleEstabed
          [reliablePacket 1 [11], reliablePacket 0 [10], reliablePacket 1 [11],
            reliablePacket 3 [13], reliablePacket 2 [12]]).2).length).map
          (fun i => (exampleEstabed.m_reliable_lowest_acceptable_sequence + i) % 65536) :=
  ⟨by decide,
    (C4_reliable_in_order exampleEstabed
      [reliablePacket 1 [11], reliablePacket 0 [10], reliablePacket 1 [11],
        reliablePacket 3 [13], reliablePacket 2 [12]] (by decide)).1⟩

/-- C7, counterexample.  `CreateRemoteObject` with a null object records the id
although no `CREATE_OBJECT` message is sent. -/
theorem C7_null_object_counterexample :
    ((⟨[]⟩ : DistributedObjectSystemConnection).CreateRemoteObject 7 none).1.m_spawnedObjects = [7] ∧
    ((⟨[]⟩ : DistributedObjectSystemConnection).CreateRemoteObject 7 none).2.2 = [] ∧
    liveAfter ((⟨[]⟩ : DistributedObjectSystemConnection).CreateRemoteObject 7 none).2.2 7 = false := by
  decide

theorem mem_setInsert (x y : ObjectID) (s : List ObjectID) :
    y ∈ setInsert x s ↔ y = x ∨ y ∈ s := by
  unfold setInsert
  split
  · constructor
    · exact Or.inr
    · rintro (rfl | h)
      · assumption
      · exact h
  · simp [or_comm]

theorem mem_setErase (x y : ObjectID) (s : List ObjectID) :
    y ∈ setErase x s ↔ y ≠ x ∧ y ∈ s := by
  simp [setErase, and_comm]

theorem liveAfter_append_one (log : List Sent) (m : Sent) (x : ObjectID) :
    liveAfter (log ++ [m]) x =
      if m.objID = x then
        if m.msgType = MESSAGE_CREATE_OBJECT then true
        else if m.msgType = MESSAGE_DELETE_OBJECT then false
        else liveAfter log x
      else liveAfter log x := by
  simp [liveAfter, List.foldl_append]

theorem call_tracks (c : DistributedObjectSystemConnection) (log : List Sent) (x : SpawnCall)
    (hx : x.hasObject = true) (h : Tracks c log) :
    Tracks (c.call x).1 (log ++ (c.call x).2.2) := by
  cases x with
  | create objID pobj =>
    cases pobj with
    | none => simp [SpawnCall.hasObject] at hx
    | some obj =>
      simp only [DistributedObjectSystemConnection.call,
        DistributedObjectSystemConnection.CreateRemoteObject]
      by_cases c1 : objID ∈ c.m_spawnedObjects
      · simpa [c1] using h
      · by_cases c2 : (obj.Serialize (messageStart MESSAGE_CREATE_OBJECT objID)).1 = true
        · simp only [c1, c2, if_false, Bool.not_true, Bool.false_eq_true]
          intro y
          rw [liveAfter_append_one, mem_setInsert]
          by_cases c3 : objID = y
          · subst c3; simp
          · have := h y
            simp [c3, Ne.symm c3, this]
        · simp only [c1, c2, if_false, Bool.not_false, if_true]
          simpa using h
  | delete objID =>
    simp only [DistributedObjectSystemConnection.call,
      DistributedObjectSystemConnection.DeleteRemoteObject]
    by_cases c1 : objID ∈ c.m_spawnedObjects
    · simp only [c1, if_true]
      intro y
      rw [liveAfter_append_one, mem_setErase]
      by_cases c3 : objID = y
      · subst c3; simp [MESSAGE_DELETE_OBJECT, MESSAGE_CREATE_OBJECT]
      · have := h y
        simp [c3, Ne.symm c3, this]
    · simpa [c1] using h

theorem runCalls_tracks :
    ∀ (calls : List SpawnCall) (c : DistributedObjectSystemConnection) (log : List Sent),
      (∀ x ∈ calls, x.hasObject = true) → Tracks c log →
      Tracks (runCalls c calls).1 (log ++ (runCalls c calls).2) := by
  intro calls
  induction calls with
  | nil => intro c log _ h; simpa [runCalls] using h
  | cons x rest ih =>
    intro c log hx h
    have h1 := call_tracks c log x (hx x (List.mem_cons_self _ _)) h
    have h2 := ih (c.call x).1 _ (fun y hy => hx y (List.mem_cons_of_mem _ hy)) h1
    simpa [runCalls, List.append_assoc] using h2

/-- C7, amended (spawned-object tracking).  After every sequence of
`CreateRemoteObject` calls with a non-null object and `DeleteRemoteObject` calls
on a fresh connection record, `m_spawnedObjects` is the set of ids for which a
`CREATE_OBJECT` message was sent and no `DELETE_OBJECT` message afterwards.
`CreateRemoteObject` for an id already in the set sends nothing and leaves the
set unchanged; for a new id and a non-null object it sends one reliable
`CREATE_OBJECT` and records the id when the object serialises, and does nothing
and returns false when it does not; for a new id and a null object it records
the id, sends nothing and returns true.  `DeleteRemoteObject` for an id in the
set removes it, sends one reliable `DELETE_OBJECT` and returns true; for any
other id it sends nothing, changes nothing and returns false. -/
theorem C7_spawned_tracking (calls : List SpawnCall) (c : DistributedObjectSystemConnection)
    (objID : ObjectID) (pobj : Option IDistributedObject) (obj : IDistributedObject)
    (hcalls : ∀ x ∈ calls, x.hasObject = true) :
    (∀ x, x ∈ (runCalls ⟨[]⟩ calls).1.m_spawnedObjects
      ↔ liveAfter (runCalls ⟨[]⟩ calls).2 x = true) ∧
    (objID ∈ c.m_spawnedObjects → c.CreateRemoteObject objID pobj = (c, true, [])) ∧
    (objID ∉ c.m_spawnedObjects →
      (obj.Serialize (messageStart MESSAGE_CREATE_OBJECT objID)).1 = true →
      c.CreateRemoteObject objID (some obj) =
        (⟨setInsert objID c.m_spawnedObjects⟩, true,
          [⟨MESSAGE_CREATE_OBJECT, objID,
            (obj.Serialize (messageStart MESSAGE_CREATE_OBJECT objID)).2.m_output, true⟩])) ∧
    (objID ∉ c.m_spawnedObjects →
      (obj.Serialize (messageStart MESSAGE_CREATE_OBJECT objID)).1 = false →
      c.CreateRemoteObject objID (some obj) = (c, false, [])) ∧
    (objID ∉ c.m_spawnedObjects →
      c.CreateRemoteObject objID none = (⟨setInsert objID c.m_spawnedObjects⟩, true, [])) ∧
    (objID ∈ c.m_spawnedObjects →
      c.DeleteRemoteObject objID =
        (⟨setErase objID c.m_spawnedObjects⟩, true,
          [⟨MESSAGE_DELETE_OBJECT, objID,
            (messageStart MESSAGE_DELETE_OBJECT objID).m_output, true⟩])) ∧
    (objID ∉ c.m_spawnedObjects → c.DeleteRemoteObject objID = (c, false, [])) := by
  refine ⟨?_, ?_, ?_, ?_, ?_, ?_, ?_⟩
  · have := runCalls_tracks calls ⟨[]⟩ [] hcalls (by intro x; simp [liveAfter])
    simpa [Tracks] using this
  · intro h; simp [DistributedObjectSystemConnection.CreateRemoteObject, h]
  · intro h h2; simp [DistributedObjectSystemConnection.CreateRemoteObject, h, h2]
  · intro h h2; simp [DistributedObjectSystemConnection.CreateRemoteObject, h, h2]
  · intro h; simp [DistributedObjectSystemConnection.CreateRemoteObject, h]
  · intro h; simp [DistributedObjectSystemConnection.DeleteRemoteObject, h]
  · intro h; simp [DistributedObjectSystemConnection.DeleteRemoteObject, h]

theorem C7_spawned_tracking_witness :
    (∀ x ∈ [SpawnCall.create 5 (some exampleObject), SpawnCall.delete 5,
        SpawnCall.create 6 (some exampleObject)], x.hasObject = true) ∧
    (∀ x, x ∈ (runCalls ⟨[]⟩ [SpawnCall.create 5 (some exampleObject), SpawnCall.delete 5,
          SpawnCall.create 6 (some exampleObject)]).1.m_spawnedObjects
      ↔ liveAfter (runCalls ⟨[]⟩ [SpawnCall.create 5 (some exampleObject), SpawnCall.delete 5,
          SpawnCall.create 6 (some exampleObject)]).2 x = true) :=
  ⟨by simp [SpawnCall.hasObject],
    (C7_spawned_tracking [SpawnCall.create 5 (some exampleObject), SpawnCall.delete 5,
      SpawnCall.create 6 (some exampleObject)] ⟨[]⟩ 0 none exampleObject
      (by simp [SpawnCall.hasObject])).1⟩

/-- C6, counterexample.  With no object bound to `objID`, `CreateRemoteObject`
and `DeleteRemoteObject` reach no connection, although the address in `connIDs`
is connected (`except = false`) and although `connIDs` is empty
(`except = true`). -/
theorem C6_unbound_object_counterexample :
    (exampleServer.CreateRemoteObject ["10.0.0.2:4000"] false 5).map (fun r => r.2) = some [] ∧
    (exampleServer.CreateRemoteObject [] true 5).map (fun r => r.2) = some [] ∧
    (exampleServer.DeleteRemoteObject ["10.0.0.2:4000"] false 5).map (fun r => r.2) = some [] ∧
    (exampleServer.DeleteRemoteObject [] true 5).map (fun r => r.2) = some [] ∧
    connectionKeys exampleServer.m_connections = ["10.0.0.2:4000"] := by
  refine ⟨rfl, rfl, rfl, rfl, rfl⟩

theorem findConnection_cons (a k : Address) (y : DistributedObjectSystemConnection)
    (rest : List (Address × DistributedObjectSystemConnection)) :
    findConnection a ((k, y) :: rest) = if k = a then some y else findConnection a rest := by
  by_cases h : k = a
  · simp [findConnection, List.find?_cons, h]
  · have hb : (k == a) = false := by simpa using h
    simp [findConnection, List.find?_cons, h, hb]

theorem setConnection_cons (a k : Address) (x y : DistributedObjectSystemConnection)
    (rest : List (Address × DistributedObjectSystemConnection)) :
    setConnection a x ((k, y) :: rest) =
      if k = a then (k, x) :: rest else (k, y) :: setConnection a x rest := by
  by_cases h : k = a
  · simp [setConnection, h]
  · have hb : (k == a) = false := by simpa using h
    simp [setConnection, h, hb]

theorem connectionKeys_cons (k : Address) (y : DistributedObjectSystemConnection)
    (rest : List (Address × DistributedObjectSystemConnection)) :
    connectionKeys ((k, y) :: rest) = k :: connectionKeys rest := rfl

theorem connectionKeys_setConnection (a : Address) (x : DistributedObjectSystemConnection) :
    ∀ conns, connectionKeys (setConnection a x conns) = connectionKeys conns := by
  intro conns
  induction conns with
  | nil => rfl
  | cons e rest ih =>
    obtain ⟨b, y⟩ := e
    rw [setConnection_cons]
    by_cases h : b = a
    · simp [h, connectionKeys_cons]
    · simp [h, connectionKeys_cons, ih]

theorem findConnection_setConnection_ne (a b : Address) (x : DistributedObjectSystemConnection)
    (hab : b ≠ a) :
    ∀ conns, findConnection b (setConnection a x conns) = findConnection b conns := by
  intro conns
  induction conns with
  | nil => rfl
  | cons e rest ih =>
    obtain ⟨k, y⟩ := e
    rw [setConnection_cons]
    by_cases h : k = a
    · have hkb : k ≠ b := by rw [h]; exact fun h2 => hab h2.symm
      simp [h, findConnection_cons, hkb, h ▸ hkb]
    · simp only [h, if_false, findConnection_cons, ih]

theorem findConnection_isSome (a : Address) :
    ∀ conns, a ∈ connectionKeys conns → ∃ c, findConnection a conns = some c := by
  intro conns
  induction conns with
  | nil => intro h; simp [connectionKeys] at h
  | cons e rest ih =>
    obtain ⟨k, y⟩ := e
    intro h
    rw [findConnection_cons]
    by_cases hk : k = a
    · exact ⟨y, by simp [hk]⟩
    · have : a ∈ connectionKeys rest := by
        rw [connectionKeys_cons, List.mem_cons] at h
        rcases h with h | h
        · exact absurd h.symm hk
        · exact h
      obtain ⟨c, hc⟩ := ih this
      exact ⟨c, by simp [hk, hc]⟩

theorem findConnection_of_mem (a : Address) (c : DistributedObjectSystemConnection) :
    ∀ conns, (connectionKeys conns).Nodup → (a, c) ∈ conns → findConnection a conns = some c := by
  intro conns
  induction conns with
  | nil => intro _ h; simp at h
  | cons e rest ih =>
    obtain ⟨k, y⟩ := e
    intro hnd hmem
    rw [connectionKeys_cons, List.nodup_cons] at hnd
    rw [findConnection_cons]
    rcases List.mem_cons.mp hmem with h | h
    · cases h
      simp
    · have hk : k ≠ a := by
        intro hka
        apply hnd.1
        rw [hka]
        exact List.mem_map.mpr ⟨(a, c), h, rfl⟩
      simp [hk, ih hnd.2 h]

theorem mem_of_findConnection (a : Address) (c : DistributedObjectSystemConnection) :
    ∀ conns, findConnection a conns = some c → (a, c) ∈ conns := by
  intro conns
  induction conns with
  | nil => intro h; simp [findConnection] at h
  | cons e rest ih =>
    obtain ⟨k, y⟩ := e
    intro h
    rw [findConnection_cons] at h
    by_cases hk : k = a
    · simp [hk] at h
      simp [hk, h]
    · simp only [hk, if_false] at h
      exact List.mem_cons_of_mem _ (ih h)

theorem setConnection_eq_map (a : Address) (x : DistributedObjectSystemConnection) :
    ∀ conns, (connectionKeys conns).Nodup →
      setConnection a x conns = conns.map (fun e => if e.1 = a then (e.1, x) else e) := by
  intro conns
  induction conns with
  | nil => intro _; rfl
  | cons e rest ih =>
    obtain ⟨k, y⟩ := e
    intro hnd
    rw [connectionKeys_cons, List.nodup_cons] at hnd
    rw [setConnection_cons]
    by_cases hk : k = a
    · subst hk
      simp only [if_true, List.map_cons, List.cons.injEq, true_and]
      symm
      calc rest.map (fun e => if e.1 = k then (e.1, x) else e)
          = rest.map id := by
            apply List.map_congr_left
            intro e he
            have : e.1 ≠ k := by
              intro h
              apply hnd.1
              rw [← h]
              exact List.mem_map.mpr ⟨e, he, rfl⟩
            simp [this]
        _ = rest := List.map_id _
    · simp only [List.map_cons, hk, if_false]
      rw [ih hnd.2]

theorem forConnIDs_spec
    (op : DistributedObjectSystemConnection → DistributedObjectSystemConnection × Bool × List Sent) :
    ∀ (connIDs : List Address) (conns : List (Address × DistributedObjectSystemConnection)),
      (connectionKeys conns).Nodup → connIDs.Nodup →
      (∀ a ∈ connIDs, a ∈ connectionKeys conns) →
      forConnIDs op connIDs conns =
        some (applyTo op (fun a => decide (a ∈ connIDs)) conns,
          connIDs.map (fun a => (a, sentOn op conns a))) := by
  intro connIDs
  induction connIDs with
  | nil =>
    intro conns _ _ _
    simp [forConnIDs, applyTo]
  | cons a rest ih =>
    intro conns hk hnd hin
    obtain ⟨c, hc⟩ := findConnection_isSome a conns (hin a (List.mem_cons_self _ _))
    have hnd2 := List.nodup_cons.mp hnd
    have hk1 : (connectionKeys (setConnection a (op c).1 conns)).Nodup := by
      rw [connectionKeys_setConnection]; exact hk
    have hin1 : ∀ b ∈ rest, b ∈ connectionKeys (setConnection a (op c).1 conns) := by
      intro b hb
      rw [connectionKeys_setConnection]
      exact hin b (List.mem_cons_of_mem _ hb)
    have h := ih (setConnection a (op c).1 conns) hk1 hnd2.2 hin1
    unfold forConnIDs
    simp only [hc, h]
    congr 2
    · -- the connections
      rw [setConnection_eq_map a _ conns hk]
      simp only [applyTo, List.map_map]
      apply List.map_congr_left
      intro e he
      by_cases hea : e.1 = a
      · have hec : e.2 = c := by
          have h1 := findConnection_of_mem e.1 e.2 conns hk he
          rw [hea, hc] at h1
          exact (Option.some.inj h1).symm
        have hnot : a ∉ rest := hnd2.1
        simp [hea, hnot, hec]
      · have : ¬ (a = e.1) := fun h => hea h.symm
        simp [hea]
    · -- the calls
      simp only [List.map_cons, sentOn, hc, List.cons.injEq, true_and]
      apply List.map_congr_left
      intro b hb
      have hba : b ≠ a := by
        intro h; rw [h] at hb; exact hnd2.1 hb
      rw [findConnection_setConnection_ne a b _ hba]

theorem forOthers_spec
    (op : DistributedObjectSystemConnection → DistributedObjectSystemConnection × Bool × List Sent)
    (connIDs : List Address) :
    ∀ (conns : List (Address × DistributedObjectSystemConnection)),
      forOthers op connIDs conns =
        (applyTo op (fun a => decide (a ∉ connIDs)) conns,
          (conns.filter (fun e => decide (e.1 ∉ connIDs))).map (fun e => (e.1, (op e.2).2.2))) := by
  intro conns
  induction conns with
  | nil => rfl
  | cons e rest ih =>
    obtain ⟨k, y⟩ := e
    unfold forOthers
    rw [ih]
    by_cases h : k ∈ connIDs
    · simp [h, applyTo]
    · simp [h, applyTo]

theorem fanOut_fansOut
    (op : DistributedObjectSystemConnection → DistributedObjectSystemConnection × Bool × List Sent)
    (srv : DistributedObjectSystemServer) (connIDs : List Address)
    (hk : (connectionKeys srv.m_connections).Nodup) (hn : connIDs.Nodup) :
    FansOut op srv connIDs (fun except => fanOut op srv connIDs except) := by
  constructor
  · simp [fanOut, forOthers_spec]
  · intro hin
    simp [fanOut, forConnIDs_spec op connIDs srv.m_connections hk hn hin]

theorem filter_not_mem_nil (conns : List (Address × DistributedObjectSystemConnection)) :
    conns.filter (fun e => decide (e.1 ∉ ([] : List Address))) = conns := by
  simp

/-- C6, amended (fan-out target set).  The connections of the server have
distinct addresses and `connIDs` is a set.  `InvokeRemoteMethod`, and
`CreateRemoteObject` and `DeleteRemoteObject` when an object is bound to
`objID`, apply the per-connection operation exactly once to each connection
whose address is not in `connIDs` and to none that is in it when `except` is
true, and, when every address of `connIDs` is connected, exactly once to each
connection whose address is in `connIDs` and to no other when `except` is false
(`FansOut`).  With no object bound to `objID`, `CreateRemoteObject` and
`DeleteRemoteObject` reach no connection and change nothing.  An empty `connIDs`
with `except` true makes `InvokeRemoteMethod` call every connection, and what
one `InvokeRemoteMethod` sends does not depend on the connection. -/
theorem C6_fanout_targets (srv : DistributedObjectSystemServer) (connIDs : List Address)
    (objID : ObjectID) (signature : Str) (args : BitStreamOutput → Bool × BitStreamOutput)
    (reliable : Bool)
    (hk : (connectionKeys srv.m_connections).Nodup) (hn : connIDs.Nodup) :
    (∀ pobj, srv.Translate objID = some pobj →
      FansOut (fun c => c.CreateRemoteObject objID (some pobj)) srv connIDs
        (fun except => srv.CreateRemoteObject connIDs except objID)) ∧
    (∀ pobj, srv.Translate objID = some pobj →
      FansOut (fun c => c.DeleteRemoteObject objID) srv connIDs
        (fun except => srv.DeleteRemoteObject connIDs except objID)) ∧
    FansOut (fun c => c.InvokeRemoteMethod objID signature args reliable) srv connIDs
      (fun except => srv.InvokeRemoteMethod connIDs except objID signature args reliable) ∧
    (srv.Translate objID = none → ∀ except,
      srv.CreateRemoteObject connIDs except objID = some (srv, []) ∧
      srv.DeleteRemoteObject connIDs except objID = some (srv, [])) ∧
    (srv.InvokeRemoteMethod [] true objID signature args reliable).map
        (fun r => r.2.map (fun call => call.1)) = some (connectionKeys srv.m_connections) ∧
    (∀ c1 c2 : DistributedObjectSystemConnection,
      (c1.InvokeRemoteMethod objID signature args reliable).2.2 =
        (c2.InvokeRemoteMethod objID signature args reliable).2.2) := by
  refine ⟨?_, ?_, ?_, ?_, ?_, ?_⟩
  · intro pobj hb
    have h := fanOut_fansOut (fun c => c.CreateRemoteObject objID (some pobj)) srv connIDs hk hn
    simpa [DistributedObjectSystemServer.CreateRemoteObject, hb] using h
  · intro pobj hb
    have h := fanOut_fansOut (fun c => c.DeleteRemoteObject objID) srv connIDs hk hn
    simpa [DistributedObjectSystemServer.DeleteRemoteObject, hb] using h
  · exact fanOut_fansOut _ srv connIDs hk hn
  · intro hb except
    simp [DistributedObjectSystemServer.CreateRemoteObject,
      DistributedObjectSystemServer.DeleteRemoteObject, hb]
  · simp [DistributedObjectSystemServer.InvokeRemoteMethod, fanOut, forOthers_spec,
      connectionKeys]
  · intro c1 c2
    simp only [DistributedObjectSystemConnection.InvokeRemoteMethod]
    split <;> rfl

theorem C6_fanout_targets_witness :
    (connectionKeys exampleServer2.m_connections).Nodup ∧
    ["10.0.0.2:4000"].Nodup ∧
    FansOut (fun c => c.InvokeRemoteMethod 5 [102] (fun s => (true, WriteU .U8 s 1)) true)
      exampleServer2 ["10.0.0.2:4000"]
      (fun except => exampleServer2.InvokeRemoteMethod ["10.0.0.2:4000"] except 5 [102]
        (fun s => (true, WriteU .U8 s 1)) true) :=
  ⟨by decide, by decide,
    (C6_fanout_targets exampleServer2 ["10.0.0.2:4000"] 5 [102]
      (fun s => (true, WriteU .U8 s 1)) true (by decide) (by decide)).2.2.1⟩

theorem deliveredData_append (a b : List Event) :
    deliveredData (a ++ b) = deliveredData a ++ deliveredData b := by
  simp [deliveredData, List.filterMap_append]

theorem incomingData_append (a b : List Event) :
    incomingData (a ++ b) = incomingData a ++ incomingData b := by
  simp [incomingData, List.filterMap_append]

theorem deliveredAtOnce_append (a b : List Event) (ha : deliveredAtOnce a = true)
    (hb : deliveredAtOnce b = true) : deliveredAtOnce (a ++ b) = true := by
  induction a with
  | nil => simpa using hb
  | cons ev rest ih =>
    simp only [deliveredAtOnce, Bool.and_eq_true] at ha
    simp only [List.cons_append, deliveredAtOnce, Bool.and_eq_true]
    refine ⟨?_, ih ha.2⟩
    have h1 := ha.1
    cases ev <;> try rfl
    cases rest with
    | nil => simp at h1
    | cons x xs => simpa using h1

theorem mailboxStep_ite (c : Connection) (p : Prop) [Decidable p]
    (a b : Connection × List Event) (ha : p → MailboxStep c a) (hb : ¬ p → MailboxStep c b) :
    MailboxStep c (if p then a else b) := by
  split
  · exact ha ‹_›
  · exact hb ‹_›

/-- A step that hands nothing over and leaves the listener and the queue. -/
theorem mailboxStep_same (c : Connection) (r : Connection × List Event)
    (h1 : r.1.m_listener = c.m_listener)
    (h2 : r.1.m_reliable_incoming_queue = c.m_reliable_incoming_queue)
    (h3 : deliveredData r.2 = []) (h4 : incomingData r.2 = [])
    (h5 : deliveredAtOnce r.2 = true) : MailboxStep c r := by
  refine ⟨fun hl => ⟨h4, fun _ => ⟨by rw [h1, hl], by rw [h2, h3, List.append_nil]⟩⟩,
    fun hl => ⟨h5, fun _ => ⟨by rw [h1, hl], h2⟩⟩⟩

/-- A step that resets the connection. -/
theorem mailboxStep_reset (c : Connection) (pre : List Event)
    (h3 : incomingData pre = []) (h5 : deliveredAtOnce pre = true) :
    MailboxStep c ((c.reset true).1, pre ++ (c.reset true).2) := by
  have hs : (c.reset true).1.m_state ≠ .STATE_ESTABED := by
    simp [Connection.reset, Connection.new]
  have hi : incomingData (c.reset true).2 = [] := by
    simp only [Connection.reset]
    cases c.m_state <;> cases c.m_server <;> cases c.m_client <;> rfl
  have hd : deliveredAtOnce (c.reset true).2 = true := by
    simp only [Connection.reset]
    cases c.m_state <;> cases c.m_server <;> cases c.m_client <;> rfl
  refine ⟨fun _ => ⟨?_, fun h => absurd h hs⟩, fun _ => ⟨?_, fun h => absurd h hs⟩⟩
  · rw [incomingData_append, h3, hi]; rfl
  · exact deliveredAtOnce_append _ _ h5 hd

theorem deliverLoop_mailbox (listener : Bool) :
    ∀ (list : List (Nat × Buffer)) (low : Nat),
      (listener = false →
        incomingData (deliverLoop listener low list).1 = [] ∧
        (deliverLoop listener low list).2.1 = deliveredData (deliverLoop listener low list).1) ∧
      (listener = true →
        deliveredAtOnce (deliverLoop listener low list).1 = true ∧
        (deliverLoop listener low list).2.1 = []) := by
  intro list
  induction list with
  | nil => intro low; exact ⟨fun _ => ⟨rfl, rfl⟩, fun _ => ⟨rfl, rfl⟩⟩
  | cons x rest ih =>
    intro low
    obtain ⟨k, pkt⟩ := x
    have h := ih ((low + 1) % 65536)
    by_cases c : k = low
    · subst c
      cases listener
      · obtain ⟨h1, h2⟩ := h.1 rfl
        refine ⟨fun _ => ?_, fun h => absurd h (by decide)⟩
        simp only [deliverLoop, ne_eq, not_true_eq_false, if_false, Bool.false_eq_true]
        refine ⟨?_, ?_⟩
        · simpa [incomingData] using h1
        · rw [h2]; simp [deliveredData]
      · obtain ⟨h1, h2⟩ := h.2 rfl
        refine ⟨fun h => absurd h (by decide), fun _ => ?_⟩
        simp only [deliverLoop, ne_eq, not_true_eq_false, if_false, if_true]
        refine ⟨?_, h2⟩
        simp [deliveredAtOnce, h1]
    · cases listener <;> simp [deliverLoop, c, incomingData, deliveredData, deliveredAtOnce]

theorem state_estabed_mailboxStep (c : Connection) (env : Env) (raddr : Address)
    (packet : Buffer) : MailboxStep c (state_estabed c env raddr packet) := by
  unfold state_estabed
  dsimp only
  repeat' (apply mailboxStep_ite <;> intro _)
  all_goals first
    | exact mailboxStep_same c _ rfl rfl rfl rfl rfl
    | exact mailboxStep_reset c [] rfl rfl
    | exact mailboxStep_reset c (send_reset raddr) rfl rfl
    | skip
  · refine mailboxStep_same c _ rfl rfl ?_ ?_ ?_ <;>
      cases c.m_reliable_retransmission_queue <;> rfl
  · obtain ⟨h1, h2⟩ := deliverLoop_mailbox c.m_listener
      (mapEmplace (Header.read packet).seqnum packet c.m_reliable_reassembly_list)
      c.m_reliable_lowest_acceptable_sequence
    refine ⟨fun hl => ?_, fun hl => ?_⟩
    · obtain ⟨a, b⟩ := h1 hl
      refine ⟨?_, fun _ => ⟨hl, ?_⟩⟩
      · show incomingData (_ ++ send_ack raddr _) = []
        rw [incomingData_append, a]; rfl
      · show c.m_reliable_incoming_queue ++ _ = c.m_reliable_incoming_queue
            ++ deliveredData (_ ++ send_ack raddr _)
        rw [deliveredData_append, b]
        simp [deliveredData, send_ack]
    · obtain ⟨a, b⟩ := h2 hl
      refine ⟨?_, fun _ => ⟨hl, ?_⟩⟩
      · show deliveredAtOnce (_ ++ send_ack raddr _) = true
        exact deliveredAtOnce_append _ _ a rfl
      · show c.m_reliable_incoming_queue ++ _ = c.m_reliable_incoming_queue
        rw [b, List.append_nil]
  · refine ⟨fun hl => ?_, fun hl => ?_⟩
    · refine ⟨?_, fun _ => ⟨hl, ?_⟩⟩
      · simp [hl, incomingData]
      · simp [hl, deliveredData]
    · refine ⟨?_, fun _ => ⟨hl, rfl⟩⟩
      simp [hl, deliveredAtOnce]

theorem runEstabed_mailbox :
    ∀ (inputs : List (Env × Address × Buffer)) (c : Connection),
      MailboxStep c (runEstabed c inputs) := by
  intro inputs
  induction inputs with
  | nil =>
    intro c
    exact mailboxStep_same c _ rfl rfl rfl rfl rfl
  | cons x rest ih =>
    intro c
    by_cases hs : c.m_state = .STATE_ESTABED
    · have e : runEstabed c (x :: rest) =
          ((runEstabed (state_estabed c x.1 x.2.1 x.2.2).1 rest).1,
            (state_estabed c x.1 x.2.1 x.2.2).2
              ++ (runEstabed (state_estabed c x.1 x.2.1 x.2.2).1 rest).2) := by
        simp [runEstabed, hs]
      rw [e]
      have s1 := state_estabed_mailboxStep c x.1 x.2.1 x.2.2
      have s2 := ih (state_estabed c x.1 x.2.1 x.2.2).1
      by_cases hs1 : (state_estabed c x.1 x.2.1 x.2.2).1.m_state = .STATE_ESTABED
      · refine ⟨fun hl => ?_, fun hl => ?_⟩
        · obtain ⟨a1, b1⟩ := s1.1 hl
          obtain ⟨l1, q1⟩ := b1 hs1
          obtain ⟨a2, b2⟩ := s2.1 l1
          refine ⟨?_, fun h => ?_⟩
          · show incomingData (_ ++ _) = []
            rw [incomingData_append, a1, a2]; rfl
          · obtain ⟨l2, q2⟩ := b2 h
            refine ⟨l2, ?_⟩
            show (runEstabed _ rest).1.m_reliable_incoming_queue
              = c.m_reliable_incoming_queue ++ deliveredData (_ ++ _)
            rw [q2, q1, deliveredData_append, List.append_assoc]
        · obtain ⟨a1, b1⟩ := s1.2 hl
          obtain ⟨l1, q1⟩ := b1 hs1
          obtain ⟨a2, b2⟩ := s2.2 l1
          refine ⟨deliveredAtOnce_append _ _ a1 a2, fun h => ?_⟩
          obtain ⟨l2, q2⟩ := b2 h
          exact ⟨l2, by rw [q2, q1]⟩
      · rw [runEstabed_not_estabed _ rest hs1]
        simp only [List.append_nil]
        exact s1
    · rw [runEstabed_not_estabed c _ hs]
      exact mailboxStep_same c _ rfl rfl rfl rfl rfl

theorem retransmitLoop_eq (raddr : Address) (elapsed : ℚ) :
    ∀ q : List (Nat × RetransmissionInfo),
      retransmitLoop raddr elapsed q =
        (((q.takeWhile (fun e => !exhausted elapsed e)).filter (expired elapsed)).map
            (fun e => Event.send raddr e.2.buffer),
          if q.any (exhausted elapsed) then none else some (q.map (ageEntry elapsed))) := by
  intro q
  induction q with
  | nil => rfl
  | cons e rest ih =>
    obtain ⟨k, info⟩ := e
    unfold retransmitLoop
    rw [ih]
    by_cases h1 : info.timeout ≤ elapsed
    · by_cases h2 : info.count = 0
      · simp [h1, h2, exhausted, expired]
      · by_cases h3 : rest.any (exhausted elapsed) = true
        · simp [h1, h2, h3, exhausted, expired, List.takeWhile_cons, List.filter_cons]
        · simp only [Bool.not_eq_true] at h3
          simp [h1, h2, h3, exhausted, expired, List.takeWhile_cons, List.filter_cons, ageEntry]
    · by_cases h3 : rest.any (exhausted elapsed) = true
      · simp [h1, h3, exhausted, expired, List.takeWhile_cons, List.filter_cons]
      · simp only [Bool.not_eq_true] at h3
        simp [h1, h3, exhausted, expired, List.takeWhile_cons, List.filter_cons, ageEntry]

theorem resent_nil (raddr : Address) (b : Buffer) : resent raddr b [] = 0 := rfl

theorem resent_cons_send (raddr : Address) (b b1 : Buffer) (l : List Event) :
    resent raddr b (Event.send raddr b1 :: l)
      = resent raddr b l + if b1 = b then 1 else 0 := by
  unfold resent
  rw [List.count_cons]
  by_cases h : b1 = b
  · simp [h]
  · have : ¬ (Event.send raddr b1 = Event.send raddr b) := by
      intro e; injection e with _ e2; exact h e2
    simp [h, this]

theorem resent_append (raddr : Address) (b : Buffer) (l1 l2 : List Event) :
    resent raddr b (l1 ++ l2) = resent raddr b l1 + resent raddr b l2 := by
  simp [resent, List.count_append]

theorem retransmitLoop_resent (raddr : Address) (elapsed : ℚ) :
    ∀ q : List (Nat × RetransmissionInfo), (q.map (fun e => e.2.buffer)).Nodup →
      (∀ b, b ∉ q.map (fun e => e.2.buffer) →
        resent raddr b (retransmitLoop raddr elapsed q).1 = 0) ∧
      (q.any (exhausted elapsed) = false → ∀ e ∈ q,
        resent raddr e.2.buffer (retransmitLoop raddr elapsed q).1
          = if e.2.timeout ≤ elapsed then 1 else 0) ∧
      (q.any (exhausted elapsed) = true →
        (∀ e ∈ q, resent raddr e.2.buffer (retransmitLoop raddr elapsed q).1 ≤ e.2.count) ∧
        ∃ e ∈ q, e.2.count = 0 ∧ e.2.timeout ≤ elapsed ∧
          resent raddr e.2.buffer (retransmitLoop raddr elapsed q).1 = 0) := by
  intro q
  induction q with
  | nil =>
    intro _
    refine ⟨fun _ _ => rfl, fun _ e he => by simp at he, fun h => by simp at h⟩
  | cons x rest ih =>
    obtain ⟨k, info⟩ := x
    intro hnd
    rw [List.map_cons, List.nodup_cons] at hnd
    obtain ⟨hA, hB, hC⟩ := ih hnd.2
    have hhead : resent raddr info.buffer (retransmitLoop raddr elapsed rest).1 = 0 :=
      hA _ hnd.1
    have hne : ∀ e ∈ rest, info.buffer ≠ e.2.buffer := by
      intro e he h
      apply hnd.1
      rw [h]
      exact List.mem_map.mpr ⟨e, he, rfl⟩
    by_cases h1 : info.timeout ≤ elapsed
    · by_cases h2 : info.count = 0
      · have e : retransmitLoop raddr elapsed ((k, info) :: rest) = ([], none) := by
          simp [retransmitLoop, h1, h2]
        rw [e]
        refine ⟨fun _ _ => rfl, fun h => ?_, fun _ => ⟨fun _ _ => Nat.zero_le _, ?_⟩⟩
        · simp [exhausted, expired, h1, h2] at h
        · exact ⟨(k, info), List.mem_cons_self _ _, h2, h1, rfl⟩
      · have e : (retransmitLoop raddr elapsed ((k, info) :: rest)).1
            = Event.send raddr info.buffer :: (retransmitLoop raddr elapsed rest).1 := by
          simp [retransmitLoop, h1, h2]
        have hany : ((k, info) :: rest).any (exhausted elapsed) = rest.any (exhausted elapsed) := by
          simp [exhausted, expired, h1, h2]
        rw [e, hany]
        refine ⟨fun b hb => ?_, fun h e he => ?_, fun h => ⟨fun e he => ?_, ?_⟩⟩
        · rw [List.map_cons, List.mem_cons, not_or] at hb
          rw [resent_cons_send, hA b hb.2, if_neg (fun h => hb.1 h.symm)]
        · rw [resent_cons_send]
          rcases List.mem_cons.mp he with rfl | he
          · simp [hhead, h1]
          · rw [hB h e he, if_neg (hne e he), Nat.add_zero]
        · rw [resent_cons_send]
          rcases List.mem_cons.mp he with rfl | he
          · simp only [hhead, if_true, Nat.zero_add]
            exact Nat.one_le_iff_ne_zero.mpr h2
          · rw [if_neg (hne e he)]
            exact (hC h).1 e he
        · obtain ⟨e, he, c1, c2, c3⟩ := (hC h).2
          refine ⟨e, List.mem_cons_of_mem _ he, c1, c2, ?_⟩
          rw [resent_cons_send, c3, if_neg (hne e he)]
    · have e : (retransmitLoop raddr elapsed ((k, info) :: rest)).1
          = (retransmitLoop raddr elapsed rest).1 := by
        simp [retransmitLoop, h1]
      have hany : ((k, info) :: rest).any (exhausted elapsed) = rest.any (exhausted elapsed) := by
        simp [exhausted, expired, h1]
      rw [e, hany]
      refine ⟨fun b hb => ?_, fun h e he => ?_, fun h => ⟨fun e he => ?_, ?_⟩⟩
      · rw [List.map_cons, List.mem_cons, not_or] at hb
        exact hA b hb.2
      · rcases List.mem_cons.mp he with rfl | he
        · simp [hhead, h1]
        · exact hB h e he
      · rcases List.mem_cons.mp he with rfl | he
        · rw [hhead]; exact Nat.zero_le _
        · exact (hC h).1 e he
      · obtain ⟨e, he, c⟩ := (hC h).2
        exact ⟨e, List.mem_cons_of_mem _ he, c⟩

theorem check_timeout_alive (c : Connection) (env : Env) (elapsed : ℚ)
    (h : c.m_reliable_retransmission_queue.any (exhausted elapsed) = false) :
    (c.check_timeout env elapsed).1.m_state = c.m_state ∧
    (c.check_timeout env elapsed).1.m_raddr = c.m_raddr ∧
    (c.check_timeout env elapsed).1.m_master = c.m_master ∧
    (c.check_timeout env elapsed).1.m_server = c.m_server ∧
    (c.check_timeout env elapsed).1.m_client = c.m_client ∧
    (c.check_timeout env elapsed).1.m_reliable_retransmission_queue
      = c.m_reliable_retransmission_queue.map (ageEntry elapsed) ∧
    (c.check_timeout env elapsed).2
      = (retransmitLoop c.m_raddr elapsed c.m_reliable_retransmission_queue).1
        ++ probes c env elapsed := by
  have e2 : (retransmitLoop c.m_raddr elapsed c.m_reliable_retransmission_queue).2
      = some (c.m_reliable_retransmission_queue.map (ageEntry elapsed)) := by
    rw [retransmitLoop_eq]
    simp [h]
  unfold Connection.check_timeout
  simp only [e2]
  by_cases hs : c.m_state = .STATE_ESTABED
  · by_cases hp : c.m_ping_timeout ≤ elapsed <;> by_cases hb : c.m_bandwidth_timeout ≤ elapsed <;>
      simp [hs, hp, hb, probes]
  · simp [hs, probes]

theorem check_timeout_exhausted (c : Connection) (env : Env) (elapsed : ℚ)
    (h : c.m_reliable_retransmission_queue.any (exhausted elapsed) = true) :
    c.check_timeout env elapsed
      = (Connection.new c.m_master,
          (retransmitLoop c.m_raddr elapsed c.m_reliable_retransmission_queue).1
            ++ (c.reset true).2) := by
  have e2 : (retransmitLoop c.m_raddr elapsed c.m_reliable_retransmission_queue).2 = none := by
    rw [retransmitLoop_eq]
    simp only [h, if_true]
  unfold Connection.check_timeout
  simp only [e2]
  rfl

theorem runTimeouts_closed (c : Connection) (ticks : List (Env × ℚ))
    (h : c.m_state = .STATE_CLOSED) : runTimeouts c ticks = (c, []) := by
  cases ticks with
  | nil => rfl
  | cons x rest => simp [runTimeouts, h]

theorem forall2_mem_left {α β : Type} {R : α → β → Prop} {a : List α} {b : List β}
    (h : List.Forall₂ R a b) : ∀ x ∈ a, ∃ y ∈ b, R x y := by
  induction h with
  | nil => intro x hx; simp at hx
  | cons hxy _ ih =>
    intro x hx
    rcases List.mem_cons.mp hx with rfl | hx
    · exact ⟨_, List.mem_cons_self _ _, hxy⟩
    · obtain ⟨y, hy, r⟩ := ih x hx
      exact ⟨y, List.mem_cons_of_mem _ hy, r⟩

theorem forall2_mem_right {α β : Type} {R : α → β → Prop} {a : List α} {b : List β}
    (h : List.Forall₂ R a b) : ∀ y ∈ b, ∃ x ∈ a, R x y := by
  induction h with
  | nil => intro y hy; simp at hy
  | cons hxy _ ih =>
    intro y hy
    rcases List.mem_cons.mp hy with rfl | hy
    · exact ⟨_, List.mem_cons_self _ _, hxy⟩
    · obtain ⟨x, hx, r⟩ := ih y hy
      exact ⟨x, List.mem_cons_of_mem _ hx, r⟩

theorem forall2_map_right_of_mem {α β γ : Type} {R : α → β → Prop} {S : α → γ → Prop}
    {a : List α} {b : List β} (f : β → γ) (h : List.Forall₂ R a b)
    (hf : ∀ x y, x ∈ a → y ∈ b → R x y → S x (f y)) : List.Forall₂ S a (b.map f) := by
  induction h with
  | nil => exact List.Forall₂.nil
  | cons hxy _ ih =>
    refine List.Forall₂.cons (hf _ _ (List.mem_cons_self _ _) (List.mem_cons_self _ _) hxy) (ih ?_)
    intro x y hx hy r
    exact hf x y (List.mem_cons_of_mem _ hx) (List.mem_cons_of_mem _ hy) r

theorem Budget.buffers {raddr : Address} {log : List Event}
    {q0 q : List (Nat × RetransmissionInfo)} (h : Budget raddr log q0 q) :
    q.map (fun e => e.2.buffer) = q0.map (fun e => e.2.buffer) := by
  unfold Budget at h
  induction h with
  | nil => rfl
  | cons hxy _ ih => simp only [List.map_cons, hxy.2.1, ih]

theorem budget_refl (raddr : Address) (q : List (Nat × RetransmissionInfo)) :
    Budget raddr [] q q := by
  unfold Budget
  induction q with
  | nil => exact List.Forall₂.nil
  | cons e rest ih => exact List.Forall₂.cons ⟨rfl, rfl, rfl⟩ ih

theorem floatPacket_pflags (v f : Nat) : (Header.read (floatPacket v f)).pflags = f % 65536 := by
  have : floatPacket v f
      = [(v >>> (8 * 0)) % 256, (v >>> (8 * 1)) % 256, (v >>> (8 * 2)) % 256,
          (v >>> (8 * 3)) % 256, f % 256, f / 256 % 256, 0 % 256, 0 / 256 % 256] := rfl
  rw [this]
  simp only [Header.read, readU16, List.getD_cons_zero, List.getD_cons_succ]
  omega

theorem bwPollPacket_pflags (v f : Nat) :
    (Header.read (bwPollPacket v f)).pflags = f % 65536 := by
  have : bwPollPacket v f
      = [(v >>> (8 * 0)) % 256, (v >>> (8 * 1)) % 256, (v >>> (8 * 2)) % 256,
          (v >>> (8 * 3)) % 256, f % 256, f / 256 % 256] ++
        (u16Bytes (SIZE_BW_POLL - sizeofHeader)
          ++ List.replicate (SIZE_BW_POLL - sizeofHeader) 0) := by
    simp [bwPollPacket, toBytes, u16Bytes, List.range_succ]
  rw [this]
  simp only [Header.read, readU16, List.cons_append, List.getD_cons_zero, List.getD_cons_succ]
  omega

theorem resent_probes (c : Connection) (env : Env) (elapsed : ℚ) (b : Buffer)
    (hb : (Header.read b).pflags &&& FLAG_RLB ≠ 0) :
    resent c.m_raddr b (probes c env elapsed) = 0 := by
  have h1 : ∀ v, floatPacket v FLAG_PIN ≠ b := by
    intro v e
    apply hb
    rw [← e, floatPacket_pflags]
    rfl
  have h2 : ∀ v, bwPollPacket v (FLAG_BWP ||| 0x0000) ≠ b := by
    intro v e
    apply hb
    rw [← e, bwPollPacket_pflags]
    rfl
  have h3 : ∀ v, bwPollPacket v (FLAG_BWP ||| 0x0100) ≠ b := by
    intro v e
    apply hb
    rw [← e, bwPollPacket_pflags]
    rfl
  unfold probes
  split
  · rw [resent_append]
    have p : resent c.m_raddr b
        (if c.m_ping_timeout ≤ elapsed then send_ping c.m_raddr env.now else []) = 0 := by
      split
      · simp only [send_ping]
        rw [resent_cons_send, resent_nil, if_neg (h1 _)]
      · rfl
    have q : resent c.m_raddr b
        (if c.m_bandwidth_timeout ≤ elapsed then send_bw_poll c.m_raddr env.nowPoll else []) = 0 := by
      split
      · simp only [send_bw_poll]
        rw [resent_cons_send, resent_cons_send, resent_nil, if_neg (h2 _), if_neg (h3 _)]
      · rfl
    rw [p, q]
  · rfl

theorem resent_reset (c : Connection) (raddr : Address) (b : Buffer) :
    resent raddr b (c.reset true).2 = 0 := by
  simp only [Connection.reset]
  cases c.m_state <;> cases c.m_server <;> cases c.m_client <;> rfl

theorem reset_events_congr (c d : Connection) (h1 : d.m_state = c.m_state)
    (h2 : d.m_raddr = c.m_raddr) (h3 : d.m_server = c.m_server) (h4 : d.m_client = c.m_client) :
    (d.reset true).2 = (c.reset true).2 := by
  simp only [Connection.reset, h1, h2, h3, h4]

theorem runTimeouts_budget :
    ∀ (ticks : List (Env × ℚ)) (c : Connection) (log : List Event)
      (q0 : List (Nat × RetransmissionInfo)),
      c.m_state ≠ .STATE_CLOSED → (q0.map (fun e => e.2.buffer)).Nodup → RlbFlagged q0 →
      Budget c.m_raddr log q0 c.m_reliable_retransmission_queue →
      ((runTimeouts c ticks).1.m_state ≠ .STATE_CLOSED →
        (runTimeouts c ticks).1.m_state = c.m_state ∧
        Budget c.m_raddr (log ++ (runTimeouts c ticks).2) q0
          (runTimeouts c ticks).1.m_reliable_retransmission_queue) ∧
      ((runTimeouts c ticks).1.m_state = .STATE_CLOSED →
        (runTimeouts c ticks).1 = Connection.new c.m_master ∧
        (∃ pre, (runTimeouts c ticks).2 = pre ++ (c.reset true).2 ∧
          ∀ ev ∈ pre, ev.isCallback = false) ∧
        (∀ e0 ∈ q0, resent c.m_raddr e0.2.buffer (log ++ (runTimeouts c ticks).2) ≤ e0.2.count) ∧
        ∃ e0 ∈ q0, resent c.m_raddr e0.2.buffer (log ++ (runTimeouts c ticks).2) = e0.2.count) := by
  intro ticks
  induction ticks with
  | nil =>
    intro c log q0 hs _ _ hb
    refine ⟨fun _ => ⟨rfl, ?_⟩, fun h => absurd h hs⟩
    simpa [runTimeouts] using hb
  | cons x rest ih =>
    intro c log q0 hs hnd hfl hb
    have e : runTimeouts c (x :: rest) =
        ((runTimeouts (c.check_timeout x.1 x.2).1 rest).1,
          (c.check_timeout x.1 x.2).2 ++ (runTimeouts (c.check_timeout x.1 x.2).1 rest).2) := by
      simp [runTimeouts, hs]
    rw [e]
    have hndq : (c.m_reliable_retransmission_queue.map (fun e => e.2.buffer)).Nodup := by
      rw [hb.buffers]; exact hnd
    obtain ⟨hA, hB, hC⟩ :=
      retransmitLoop_resent c.m_raddr x.2 c.m_reliable_retransmission_queue hndq
    by_cases hx : c.m_reliable_retransmission_queue.any (exhausted x.2) = true
    · -- an entry has no retry left: the connection is reset
      have e1 := check_timeout_exhausted c x.1 x.2 hx
      have e2 : runTimeouts (c.check_timeout x.1 x.2).1 rest = ((c.check_timeout x.1 x.2).1, []) :=
        runTimeouts_closed _ _ (by rw [e1]; rfl)
      rw [e2, e1]
      simp only [List.append_nil]
      have hcl : (Connection.new c.m_master).m_state = .STATE_CLOSED := rfl
      refine ⟨fun h => absurd hcl h, fun _ => ⟨by first | rfl | trivial, ⟨_, rfl, ?_⟩, ?_, ?_⟩⟩
      · intro ev hev
        rw [retransmitLoop_eq] at hev
        obtain ⟨y, _, rfl⟩ := List.mem_map.mp hev
        rfl
      · intro e0 he0
        obtain ⟨y, hy, r1, r2, r3⟩ := forall2_mem_left hb e0 he0
        have := (hC hx).1 y hy
        rw [r2] at this
        rw [resent_append, resent_append, resent_reset]
        omega
      · obtain ⟨y, hy, c1, _, c3⟩ := (hC hx).2
        obtain ⟨e0, he0, r1, r2, r3⟩ := forall2_mem_right hb y hy
        refine ⟨e0, he0, ?_⟩
        rw [r2] at c3
        rw [resent_append, resent_append, resent_reset, c3]
        omega
    · -- every expired entry has a retry left
      simp only [Bool.not_eq_true] at hx
      obtain ⟨a1, a2, a3, a4, a5, a6, a7⟩ := check_timeout_alive c x.1 x.2 hx
      have hs1 : (c.check_timeout x.1 x.2).1.m_state ≠ .STATE_CLOSED := by rw [a1]; exact hs
      have hb1 : Budget (c.check_timeout x.1 x.2).1.m_raddr (log ++ (c.check_timeout x.1 x.2).2) q0
          (c.check_timeout x.1 x.2).1.m_reliable_retransmission_queue := by
        rw [a2, a6, a7]
        refine forall2_map_right_of_mem _ hb ?_
        intro e0 y he0 hy r
        obtain ⟨r1, r2, r3⟩ := r
        have hres := hB hx y hy
        rw [r2] at hres
        have hpr := resent_probes c x.1 x.2 e0.2.buffer (hfl e0 he0)
        have hnx : ¬ (y.2.timeout ≤ x.2 ∧ y.2.count = 0) := by
          intro hh
          have : c.m_reliable_retransmission_queue.any (exhausted x.2) = true :=
            List.any_eq_true.mpr ⟨y, hy, by simp [exhausted, expired, hh.1, hh.2]⟩
          rw [hx] at this
          cases this
        refine ⟨?_, ?_, ?_⟩
        · unfold ageEntry; split <;> exact r1
        · unfold ageEntry; split <;> exact r2
        · rw [resent_append, resent_append, hres, hpr]
          unfold ageEntry
          by_cases ht : y.2.timeout ≤ x.2
          · have : y.2.count ≠ 0 := fun h0 => hnx ⟨ht, h0⟩
            simp only [ht, if_true]
            omega
          · simp only [ht, if_false]
            omega
      obtain ⟨i1, i2⟩ := ih (c.check_timeout x.1 x.2).1 (log ++ (c.check_timeout x.1 x.2).2) q0
        hs1 hnd hfl hb1
      rw [a2, List.append_assoc] at i1
      rw [a2, a3, List.append_assoc] at i2
      rw [reset_events_congr c _ a1 a2 a4 a5] at i2
      refine ⟨fun h => ?_, fun h => ?_⟩
      · obtain ⟨j1, j2⟩ := i1 h
        exact ⟨j1.trans a1, j2⟩
      · obtain ⟨j1, ⟨pre, j2, j3⟩, j4, j5⟩ := i2 h
        refine ⟨j1, ⟨(c.check_timeout x.1 x.2).2 ++ pre, ?_, ?_⟩, j4, j5⟩
        · rw [j2, List.append_assoc]
        · intro ev hev
          rcases List.mem_append.mp hev with hev | hev
          · rw [a7, retransmitLoop_eq] at hev
            rcases List.mem_append.mp hev with hev | hev
            · obtain ⟨y, _, rfl⟩ := List.mem_map.mp hev
              rfl
            · unfold probes at hev
              split at hev
              · rcases List.mem_append.mp hev with hev | hev
                · split at hev
                  · simp only [send_ping, List.mem_singleton] at hev
                    rw [hev]; rfl
                  · simp at hev
                · split at hev
                  · simp only [send_bw_poll, List.mem_cons, List.mem_singleton,
                      List.not_mem_nil, or_false] at hev
                    rcases hev with hev | hev <;> rw [hev] <;> rfl
                  · simp at hev
              · simp at hev
          · exact j3 ev hev

theorem takeWhile_not_exhausted (elapsed : ℚ) (q : List (Nat × RetransmissionInfo))
    (h : q.any (exhausted elapsed) = false) :
    q.takeWhile (fun e => !exhausted elapsed e) = q := by
  rw [List.takeWhile_eq_self_iff]
  intro e he
  have : exhausted elapsed e = false := by
    by_contra hne
    have : q.any (exhausted elapsed) = true :=
      List.any_eq_true.mpr ⟨e, he, by simpa using hne⟩
    rw [h] at this
    cases this
  simp [this]

theorem exampleSynRcvd_run (env : Env) (n : Nat) :
    runTimeouts
        { exampleSynRcvd with
          m_reliable_retransmission_queue := [(7, ⟨RETX_INTERVAL, n, synAckPacket 7 100⟩)] }
        (List.replicate (n + 1) (env, 500))
      = (Connection.new false,
          List.replicate n (Event.send "10.0.0.2:4000" (synAckPacket 7 100))) := by
  induction n with
  | zero =>
    simp [runTimeouts, exampleSynRcvd, Connection.check_timeout, retransmitLoop, RETX_INTERVAL,
      Connection.reset, Connection.new]
  | succ n ih =>
    have step : ({ exampleSynRcvd with
          m_reliable_retransmission_queue :=
            [(7, ⟨RETX_INTERVAL, n + 1, synAckPacket 7 100⟩)] } : Connection).check_timeout env 500
        = ({ exampleSynRcvd with
              m_reliable_retransmission_queue := [(7, ⟨RETX_INTERVAL, n, synAckPacket 7 100⟩)] },
            [Event.send "10.0.0.2:4000" (synAckPacket 7 100)]) := by
      simp [Connection.check_timeout, retransmitLoop, RETX_INTERVAL, exampleSynRcvd,
        Connection.new]
    rw [List.replicate_succ, runTimeouts, if_neg (by simp [exampleSynRcvd])]
    simp only [step, ih]
    rfl

/-- C12, counterexample.  The `SYN|ACK` of a child in `STATE_SYNRCVD` is never
acknowledged: it is sent again 120 times, and at the next expiry the child is
reset to `STATE_CLOSED` without any listener callback. -/
theorem C12_synrcvd_counterexample :
    runTimeouts exampleSynRcvd (List.replicate 121 (⟨0, 0, 0, 0, 0⟩, 500))
      = (Connection.new false,
          List.replicate 120 (Event.send "10.0.0.2:4000" (synAckPacket 7 100))) ∧
    ∀ ev ∈ (runTimeouts exampleSynRcvd (List.replicate 121 (⟨0, 0, 0, 0, 0⟩, 500))).2,
      ev.isCallback = false := by
  have h := exampleSynRcvd_run ⟨0, 0, 0, 0, 0⟩ 120
  have e : ({ exampleSynRcvd with
      m_reliable_retransmission_queue := [(7, ⟨RETX_INTERVAL, 120, synAckPacket 7 100⟩)] }
        : Connection) = exampleSynRcvd := rfl
  rw [e] at h
  refine ⟨h, ?_⟩
  rw [h]
  intro ev hev
  rw [List.eq_of_mem_replicate hev]
  rfl

/-- C12, amended (retransmission budget).  A reliable packet enters the
retransmission queue with timeout 500 ms and 120 retries.  One call
`check_timeout (elapsed)` in which no expired entry is out of retries leaves
every entry with timeout above `elapsed` its retries and `elapsed` less timeout,
sending nothing for it, and sends the packet of every other entry again, in
queue order, setting its timeout to 500 ms and taking one retry (`ageEntry`).
A call in which an expired entry has no retry left sends again only for the
expired entries before the first such entry and resets the connection: state
`STATE_CLOSED`, queue cleared, and the callback of `reset (true)`, which is
`OnDeleteConnection` or `OnConnectionBroken` from `STATE_ESTABED`,
`OnConnectComplete (null)` from `STATE_SYNSENT` and none from `STATE_SYNRCVD`.
Hence over any number of calls with no acknowledgement in between, for a queue
of distinct packets flagged `RLB`: while the connection lives, the retries an
entry has left plus the times its packet was sent again make up the retries it
had; when the connection is reset, no packet was sent again more often than it
had retries, and the packet of some entry exactly as often as it had retries
(120 times for an entry that came with 120). -/
theorem C12_retransmission_budget (c : Connection) (env : Env) (elapsed : ℚ) (data : Buffer)
    (ticks : List (Env × ℚ))
    (hs : c.m_state ≠ .STATE_CLOSED)
    (hnd : (c.m_reliable_retransmission_queue.map (fun e => e.2.buffer)).Nodup)
    (hfl : RlbFlagged c.m_reliable_retransmission_queue) :
    (c.m_state = .STATE_ESTABED →
      (c.Send data true).1.m_reliable_retransmission_queue
        = mapEmplace c.m_reliable_outgoing_sequence
            ⟨500, 120, Header.bytes ⟨c.m_reliable_outgoing_sequence, 0, FLAG_RLB, data.length⟩
              ++ data⟩ c.m_reliable_retransmission_queue) ∧
    (c.m_reliable_retransmission_queue.any (exhausted elapsed) = false →
      (c.check_timeout env elapsed).1.m_reliable_retransmission_queue
        = c.m_reliable_retransmission_queue.map (ageEntry elapsed) ∧
      (c.check_timeout env elapsed).1.m_state = c.m_state ∧
      (c.check_timeout env elapsed).2
        = (c.m_reliable_retransmission_queue.filter (expired elapsed)).map
            (fun e => Event.send c.m_raddr e.2.buffer) ++ probes c env elapsed) ∧
    (c.m_reliable_retransmission_queue.any (exhausted elapsed) = true →
      c.check_timeout env elapsed
        = (Connection.new c.m_master,
            ((c.m_reliable_retransmission_queue.takeWhile
                (fun e => !exhausted elapsed e)).filter (expired elapsed)).map
              (fun e => Event.send c.m_raddr e.2.buffer) ++ brokenNotification c)) ∧
    ((runTimeouts c ticks).1.m_state ≠ .STATE_CLOSED →
      (runTimeouts c ticks).1.m_state = c.m_state ∧
      Budget c.m_raddr (runTimeouts c ticks).2 c.m_reliable_retransmission_queue
        (runTimeouts c ticks).1.m_reliable_retransmission_queue) ∧
    ((runTimeouts c ticks).1.m_state = .STATE_CLOSED →
      (runTimeouts c ticks).1 = Connection.new c.m_master ∧
      (∃ pre, (runTimeouts c ticks).2 = pre ++ brokenNotification c ∧
        ∀ ev ∈ pre, ev.isCallback = false) ∧
      (∀ e ∈ c.m_reliable_retransmission_queue,
        resent c.m_raddr e.2.buffer (runTimeouts c ticks).2 ≤ e.2.count) ∧
      ∃ e ∈ c.m_reliable_retransmission_queue,
        resent c.m_raddr e.2.buffer (runTimeouts c ticks).2 = e.2.count) := by
  have hbn : (c.reset true).2 = brokenNotification c := by
    unfold Connection.reset brokenNotification
    cases c.m_state <;> rfl
  refine ⟨fun h => ?_, fun h => ?_, fun h => ?_, ?_⟩
  · simp [Connection.Send, h, RETX_INTERVAL, RETX_COUNT]
  · obtain ⟨a1, _, _, _, _, a6, a7⟩ := check_timeout_alive c env elapsed h
    refine ⟨a6, a1, ?_⟩
    rw [a7, retransmitLoop_eq, takeWhile_not_exhausted elapsed _ h]
  · rw [check_timeout_exhausted c env elapsed h, retransmitLoop_eq, hbn]
  · have := runTimeouts_budget ticks c [] c.m_reliable_retransmission_queue hs hnd hfl
      (budget_refl _ _)
    rw [hbn] at this
    simpa using this

theorem C12_retransmission_budget_witness :
    (exampleEstabed.Send [1, 2, 3] true).1.m_state ≠ .STATE_CLOSED ∧
    ((exampleEstabed.Send [1, 2, 3] true).1.m_reliable_retransmission_queue.map
        (fun e => e.2.buffer)).Nodup ∧
    RlbFlagged (exampleEstabed.Send [1, 2, 3] true).1.m_reliable_retransmission_queue ∧
    ((exampleEstabed.Send [1, 2, 3] true).1.m_reliable_retransmission_queue.any
        (exhausted 500) = false →
      ((exampleEstabed.Send [1, 2, 3] true).1.check_timeout ⟨0, 0, 0, 0, 0⟩
          500).1.m_reliable_retransmission_queue
        = (exampleEstabed.Send [1, 2, 3] true).1.m_reliable_retransmission_queue.map
            (ageEntry 500) ∧
      ((exampleEstabed.Send [1, 2, 3] true).1.check_timeout ⟨0, 0, 0, 0, 0⟩ 500).1.m_state
        = (exampleEstabed.Send [1, 2, 3] true).1.m_state ∧
      ((exampleEstabed.Send [1, 2, 3] true).1.check_timeout ⟨0, 0, 0, 0, 0⟩ 500).2
        = ((exampleEstabed.Send [1, 2, 3] true).1.m_reliable_retransmission_queue.filter
            (expired 500)).map
            (fun e => Event.send (exampleEstabed.Send [1, 2, 3] true).1.m_raddr e.2.buffer)
          ++ probes (exampleEstabed.Send [1, 2, 3] true).1 ⟨0, 0, 0, 0, 0⟩ 500) :=
  ⟨by decide, by decide, by decide,
    (C12_retransmission_budget (exampleEstabed.Send [1, 2, 3] true).1 ⟨0, 0, 0, 0, 0⟩ 500 []
      [(⟨0, 0, 0, 0, 0⟩, 500)] (by decide) (by decide) (by decide)).2.1⟩

/-- C13 (failed connect).  On the client master in `STATE_SYNSENT`, a packet that
carries `RST`, or comes from another address than the connect target, or whose
low-byte flags are not exactly `RLB|SYN|ACK`, or whose `acknum` differs from
`m_reliable_outgoing_sequence`, makes the connection fire `OnConnectComplete
(null)` exactly once and return to the state of a fresh connection (`STATE_CLOSED`,
all counters zero, queues empty); one bare `RST` goes to the packet's source
first, except when the packet itself carries `RST`, and nothing else happens.
Every other packet completes the connect: the connection is established and the
only callback is `OnConnectComplete` with the connection, so
`OnConnectComplete (null)` is not fired. -/
theorem C13_failed_connect (c : Connection) (env : Env) (raddr : Address) (packet : Buffer)
    (hs : c.m_state = .STATE_SYNSENT) (hm : c.m_master = true) (hc : c.m_client = true) :
    (SynSentAnomaly c raddr (Header.read packet) →
      c.fsm env raddr packet
        = (Connection.new true,
            (if (Header.read packet).pflags &&& FLAG_RST ≠ 0 then []
              else [Event.send raddr resetPacket]) ++ [Event.OnConnectComplete false]) ∧
      (c.fsm env raddr packet).2.count (Event.OnConnectComplete false) = 1 ∧
      (c.fsm env raddr packet).1.m_state = .STATE_CLOSED ∧
      (c.fsm env raddr packet).1.m_reliable_retransmission_queue = [] ∧
      (c.fsm env raddr packet).1.m_reliable_outgoing_sequence = 0 ∧
      (c.fsm env raddr packet).1.m_reliable_lowest_acceptable_sequence = 0 ∧
      (c.fsm env raddr packet).1.m_unreliable_outgoing_sequence = 0 ∧
      (c.fsm env raddr packet).1.m_unreliable_incoming_sequence = 0) ∧
    (¬ SynSentAnomaly c raddr (Header.read packet) →
      (c.fsm env raddr packet).2
        = [Event.send raddr (ackPacket (((Header.read packet).seqnum + 1) % 65536)),
            Event.OnConnectComplete true] ∧
      (c.fsm env raddr packet).1.m_state = .STATE_ESTABED ∧
      Event.OnConnectComplete false ∉ (c.fsm env raddr packet).2) := by
  have hfsm : c.fsm env raddr packet = state_synsent c raddr packet := by
    simp [Connection.fsm, hs]
  rw [hfsm]
  constructor
  · intro h
    have e : state_synsent c raddr packet
        = (Connection.new true,
            (if (Header.read packet).pflags &&& FLAG_RST ≠ 0 then []
              else [Event.send raddr resetPacket]) ++ [Event.OnConnectComplete false]) := by
      unfold state_synsent
      simp only [hm, hc, Bool.not_true, Bool.or_self, Bool.false_eq_true, if_false]
      by_cases h1 : (Header.read packet).pflags &&& FLAG_RST ≠ 0
      · simp [h1, Connection.reset, hm]
      · by_cases h2 : c.m_raddr ≠ raddr
        · simp [h1, h2, Connection.reset, hm, send_reset]
        · by_cases h3 : (Header.read packet).pflags &&& FLAG_ALL
              ≠ (FLAG_RLB ||| FLAG_SYN ||| FLAG_ACK)
          · simp [h1, h2, h3, Connection.reset, hm, send_reset]
          · have h4 : (Header.read packet).acknum ≠ c.m_reliable_outgoing_sequence := by
              rcases h with h | h | h | h
              · exact absurd h h1
              · exact absurd h h2
              · exact absurd h h3
              · exact h
            simp [h1, h2, h3, h4, eq, Connection.reset, hm, send_reset]
    rw [e]
    refine ⟨rfl, ?_, rfl, rfl, rfl, rfl, rfl, rfl⟩
    split
    · decide
    · simp [List.count_cons]
  · intro h
    simp only [SynSentAnomaly, not_or, not_not] at h
    obtain ⟨h1, h2, h3, h4⟩ := h
    have e : state_synsent c raddr packet
        = ({ c with
              m_reliable_latest_legal_ack := (Header.read packet).acknum
              m_reliable_retransmission_queue := c.m_reliable_retransmission_queue.drop 1
              m_unreliable_incoming_sequence := (Header.read packet).seqnum
              m_reliable_lowest_acceptable_sequence := ((Header.read packet).seqnum + 1) % 65536
              m_state := .STATE_ESTABED },
            send_ack raddr (((Header.read packet).seqnum + 1) % 65536)
              ++ [Event.OnConnectComplete true]) := by
      unfold state_synsent
      simp [hm, hc, h1, h2, h3, h4, eq]
    rw [e]
    refine ⟨rfl, rfl, ?_⟩
    simp [send_ack]

theorem C13_failed_connect_witness :
    exampleSynSent.m_state = .STATE_SYNSENT ∧ exampleSynSent.m_master = true ∧
    exampleSynSent.m_client = true ∧
    SynSentAnomaly exampleSynSent "10.0.0.9:4000" (Header.read (synAckPacket 7 41)) ∧
    exampleSynSent.fsm ⟨0, 0, 0, 0, 0⟩ "10.0.0.9:4000" (synAckPacket 7 41)
      = (Connection.new true,
          (if (Header.read (synAckPacket 7 41)).pflags &&& FLAG_RST ≠ 0 then []
            else [Event.send "10.0.0.9:4000" resetPacket])
            ++ [Event.OnConnectComplete false]) :=
  ⟨by decide, by decide, by decide, by decide,
    ((C13_failed_connect exampleSynSent ⟨0, 0, 0, 0, 0⟩ "10.0.0.9:4000"
      (synAckPacket 7 41) (by decide) (by decide) (by decide)).1 (by decide)).1⟩

theorem openAfter_append (a : Address) (l1 l2 : List Event) :
    ∀ o, openAfter a o (l1 ++ l2) = openAfter a (openAfter a o l1) l2 := by
  induction l1 with
  | nil => intro o; rfl
  | cons ev rest ih =>
    intro o
    rw [List.cons_append]
    cases ev <;> simp only [openAfter] <;> exact ih _

theorem pairedFrom_append (a : Address) (l1 l2 : List Event) :
    ∀ o, pairedFrom a o (l1 ++ l2)
      = (pairedFrom a o l1 && pairedFrom a (openAfter a o l1) l2) := by
  induction l1 with
  | nil => intro o; simp [pairedFrom, openAfter]
  | cons ev rest ih =>
    intro o
    rw [List.cons_append]
    cases ev with
    | OnDeleteConnection b =>
      simp only [openAfter, pairedFrom]
      split
      · rw [ih, Bool.and_assoc]
      · exact ih _
    | _ => simp only [openAfter, pairedFrom]; exact ih _

theorem NoPairing.mem {events : List Event} (h : NoPairing events) :
    ∀ ev ∈ events, ev.isPairing = false := by
  intro ev hev
  have := List.all_eq_true.mp h ev hev
  simpa using this

theorem quiet_of_noPairing {events : List Event} (h : NoPairing events) (a : Address) :
    Quiet a events :=
  ⟨fun hm => by have := h.mem _ hm; simp [Event.isPairing] at this,
    fun hm => by have := h.mem _ hm; simp [Event.isPairing] at this⟩

theorem Quiet.spec {a : Address} {events : List Event} (h : Quiet a events) :
    ∀ o, pairedFrom a o events = true ∧ openAfter a o events = o := by
  induction events with
  | nil => intro o; exact ⟨rfl, rfl⟩
  | cons ev rest ih =>
    intro o
    have hr : Quiet a rest :=
      ⟨fun hm => h.1 (List.mem_cons_of_mem _ hm), fun hm => h.2 (List.mem_cons_of_mem _ hm)⟩
    have h1 : Event.OnCreateConnection a ≠ ev := fun e => h.1 (e ▸ List.mem_cons_self _ _)
    have h2 : Event.OnDeleteConnection a ≠ ev := fun e => h.2 (e ▸ List.mem_cons_self _ _)
    cases ev with
    | OnCreateConnection b =>
      have : ¬ b = a := fun e => h1 (by rw [e])
      simp only [pairedFrom, openAfter, this, if_false]
      exact ih hr o
    | OnDeleteConnection b =>
      have : ¬ b = a := fun e => h2 (by rw [e])
      simp only [pairedFrom, openAfter, this, if_false]
      exact ih hr o
    | _ => simp only [pairedFrom, openAfter]; exact ih hr o

theorem quiet_append {a : Address} {l1 l2 : List Event} (h1 : Quiet a l1) (h2 : Quiet a l2) :
    Quiet a (l1 ++ l2) :=
  ⟨fun hm => (List.mem_append.mp hm).elim h1.1 h2.1,
    fun hm => (List.mem_append.mp hm).elim h1.2 h2.2⟩

theorem noPairing_append {l1 l2 : List Event} (h1 : NoPairing l1) (h2 : NoPairing l2) :
    NoPairing (l1 ++ l2) := by
  unfold NoPairing at *
  rw [List.all_append, h1, h2]
  rfl

theorem NoPairing.nil : NoPairing [] := rfl

theorem NoPairing.of_callback {events : List Event}
    (h : ∀ ev ∈ events, ev.isCallback = false) : NoPairing events := by
  unfold NoPairing
  rw [List.all_eq_true]
  intro ev hev
  have := h ev hev
  cases ev <;> first | rfl | (simp [Event.isCallback] at this)

theorem stepForm_ite (c : Connection) (p : Prop) [Decidable p]
    (a b : Connection × List Event) (ha : p → StepForm c a) (hb : ¬ p → StepForm c b) :
    StepForm c (if p then a else b) := by
  split
  · exact ha ‹_›
  · exact hb ‹_›

theorem StepForm.keep (c : Connection) (r : Connection × List Event)
    (h1 : r.1.m_state = c.m_state) (h2 : r.1.m_raddr = c.m_raddr) (h3 : NoPairing r.2) :
    StepForm c r := Or.inl ⟨h1, h2, h3⟩

theorem stepForm_reset (c : Connection) (pre : List Event) (h : NoPairing pre) :
    StepForm c ((c.reset true).1, pre ++ (c.reset true).2) := Or.inr ⟨pre, h, rfl⟩

theorem deliverLoop_noPairing (listener : Bool) :
    ∀ (list : List (Nat × Buffer)) (low : Nat), NoPairing (deliverLoop listener low list).1 := by
  intro list
  induction list with
  | nil => intro low; rfl
  | cons x rest ih =>
    intro low
    obtain ⟨k, pkt⟩ := x
    have h := ih ((low + 1) % 65536)
    unfold NoPairing at h ⊢
    by_cases c : k = low
    · subst c
      cases listener
      · simp only [deliverLoop, ne_eq, not_true_eq_false, if_false, Bool.false_eq_true]
        simpa [Event.isPairing] using h
      · simp only [deliverLoop, ne_eq, not_true_eq_false, if_false, if_true]
        simpa [Event.isPairing] using h
    · cases listener <;> simp [deliverLoop, c]

theorem state_estabed_stepForm (c : Connection) (env : Env) (raddr : Address)
    (packet : Buffer) : StepForm c (state_estabed c env raddr packet) := by
  unfold state_estabed
  dsimp only
  repeat' (apply stepForm_ite <;> intro _)
  all_goals first
    | exact StepForm.keep c _ rfl rfl rfl
    | exact stepForm_reset c [] rfl
    | exact stepForm_reset c (send_reset raddr) rfl
    | skip
  · refine StepForm.keep c _ rfl rfl ?_
    cases c.m_reliable_retransmission_queue <;> rfl
  · refine StepForm.keep c _ rfl rfl ?_
    exact noPairing_append (deliverLoop_noPairing _ _ _) rfl
  · refine StepForm.keep c _ rfl rfl ?_
    cases c.m_listener <;> rfl

theorem check_timeout_stepForm (c : Connection) (env : Env) (elapsed : ℚ) :
    StepForm c (c.check_timeout env elapsed) := by
  have hsend : NoPairing
      (retransmitLoop c.m_raddr elapsed c.m_reliable_retransmission_queue).1 := by
    apply NoPairing.of_callback
    intro ev hev
    rw [retransmitLoop_eq] at hev
    obtain ⟨y, _, rfl⟩ := List.mem_map.mp hev
    rfl
  by_cases hx : c.m_reliable_retransmission_queue.any (exhausted elapsed) = true
  · rw [check_timeout_exhausted c env elapsed hx]
    exact stepForm_reset c _ hsend
  · simp only [Bool.not_eq_true] at hx
    obtain ⟨a1, a2, _, _, _, _, a7⟩ := check_timeout_alive c env elapsed hx
    refine StepForm.keep c _ a1 a2 ?_
    rw [a7]
    refine noPairing_append hsend ?_
    unfold probes
    split
    · refine noPairing_append ?_ ?_ <;> split <;> rfl
    · rfl

theorem pairedFrom_reset (c : Connection) (a : Address) (hr : c.m_raddr = a) (o : Bool)
    (ho : c.m_state = .STATE_ESTABED → o = true) :
    pairedFrom a o (c.reset true).2 = true := by
  unfold Connection.reset
  cases hs : c.m_state <;> cases c.m_server <;> cases c.m_client <;>
    first
      | rfl
      | (have h9 := ho hs; subst h9; simp [pairedFrom, hr])

theorem quiet_reset (c : Connection) (a b : Address) (hr : c.m_raddr = a) (hb : b ≠ a) :
    Quiet b (c.reset true).2 := by
  unfold Connection.reset Quiet
  cases c.m_state <;> cases c.m_server <;> cases c.m_client <;> simp [hr, hb]

theorem childTrans_of_stepForm (a : Address) (child : Connection) (r : Connection × List Event)
    (hwf : ChildWF a child) (h : StepForm child r) : ChildTrans a child r := by
  rcases h with ⟨h1, h2, h3⟩ | ⟨pre, h1, rfl⟩
  · refine ⟨Or.inr ⟨h2.trans hwf.1, by rw [h1]; exact hwf.2⟩,
      fun b _ => quiet_of_noPairing h3 b, fun o ho => ?_⟩
    obtain ⟨p1, p2⟩ := (quiet_of_noPairing h3 a).spec o
    exact ⟨p1, fun hs => by rw [p2]; exact ho (h1 ▸ hs)⟩
  · refine ⟨Or.inl rfl, fun b hb => quiet_append (quiet_of_noPairing h1 b)
      (quiet_reset child a b hwf.1 hb), fun o ho => ⟨?_, fun hs => ?_⟩⟩
    · obtain ⟨p1, p2⟩ := (quiet_of_noPairing h1 a).spec o
      show pairedFrom a o (pre ++ (child.reset true).2) = true
      rw [pairedFrom_append, p1, p2, pairedFrom_reset child a hwf.1 o ho]
      rfl
    · simp [Connection.reset, Connection.new] at hs

theorem fsm_childTrans (a : Address) (child : Connection) (env : Env) (packet : Buffer)
    (hwf : ChildWF a child) : ChildTrans a child (child.fsm env a packet) := by
  rcases hwf.2 with hs | hs
  · -- `STATE_SYNRCVD`
    have e : child.fsm env a packet = state_synrcvd child a packet := by
      simp [Connection.fsm, hs]
    rw [e]
    unfold state_synrcvd
    dsimp only
    by_cases h1 : (Header.read packet).pflags &&& FLAG_RST ≠ 0
    · rw [if_pos h1]
      exact childTrans_of_stepForm a child _ hwf (stepForm_reset child [] rfl)
    · rw [if_neg h1]
      by_cases h2 : (Header.read packet).pflags &&& FLAG_ALL ≠ FLAG_ACK
      · rw [if_pos h2]
        exact childTrans_of_stepForm a child _ hwf (StepForm.keep child _ rfl rfl rfl)
      · rw [if_neg h2]
        by_cases h3 : (Header.read packet).acknum ≠ child.m_reliable_outgoing_sequence
        · rw [if_pos h3]
          exact childTrans_of_stepForm a child _ hwf (stepForm_reset child (send_reset a) rfl)
        · rw [if_neg h3]
          refine ⟨Or.inr ⟨hwf.1, Or.inr rfl⟩, fun b hb => ?_, fun o _ => ?_⟩
          · have : ¬ b = child.m_raddr := by rw [hwf.1]; exact hb
            simp [Quiet, this]
          · simp [pairedFrom, openAfter, hwf.1]
  · -- `STATE_ESTABED`
    have e : child.fsm env a packet = state_estabed child env a packet := by
      simp [Connection.fsm, hs]
    rw [e]
    exact childTrans_of_stepForm a child _ hwf (state_estabed_stepForm child env a packet)

theorem check_timeout_childTrans (a : Address) (child : Connection) (env : Env) (elapsed : ℚ)
    (hwf : ChildWF a child) : ChildTrans a child (child.check_timeout env elapsed) :=
  childTrans_of_stepForm a child _ hwf (check_timeout_stepForm child env elapsed)

theorem findChild_cons (a k : Address) (y : Connection) (rest : List (Address × Connection)) :
    findChild a ((k, y) :: rest) = if k = a then some y else findChild a rest := by
  by_cases h : k = a
  · simp [findChild, List.find?_cons, h]
  · have hb : (k == a) = false := by simpa using h
    simp [findChild, List.find?_cons, h, hb]

theorem setChild_cons (a k : Address) (x y : Connection) (rest : List (Address × Connection)) :
    setChild a x ((k, y) :: rest)
      = if k = a then (k, x) :: rest else (k, y) :: setChild a x rest := by
  by_cases h : k = a
  · simp [setChild, h]
  · have hb : (k == a) = false := by simpa using h
    simp [setChild, h, hb]

theorem findChild_mem (a : Address) (ch : Connection) :
    ∀ cs : List (Address × Connection), findChild a cs = some ch → (a, ch) ∈ cs := by
  intro cs
  induction cs with
  | nil => intro h; simp [findChild] at h
  | cons e rest ih =>
    obtain ⟨k, y⟩ := e
    intro h
    rw [findChild_cons] at h
    by_cases hk : k = a
    · simp [hk] at h
      simp [hk, h]
    · simp only [hk, if_false] at h
      exact List.mem_cons_of_mem _ (ih h)

theorem findChild_none (a : Address) :
    ∀ cs : List (Address × Connection), findChild a cs = none → a ∉ cs.map (fun e => e.1) := by
  intro cs
  induction cs with
  | nil => intro _; simp
  | cons e rest ih =>
    obtain ⟨k, y⟩ := e
    intro h
    rw [findChild_cons] at h
    by_cases hk : k = a
    · simp [hk] at h
    · simp only [hk, if_false] at h
      simp only [List.map_cons, List.mem_cons, not_or]
      exact ⟨fun e => hk e.symm, ih h⟩

theorem mem_eraseChild (a : Address) (cs : List (Address × Connection))
    (e : Address × Connection) : e ∈ eraseChild a cs ↔ e ∈ cs ∧ e.1 ≠ a := by
  simp [eraseChild]

theorem eraseChild_keys_nodup (a : Address) (cs : List (Address × Connection))
    (h : (cs.map (fun e => e.1)).Nodup) : ((eraseChild a cs).map (fun e => e.1)).Nodup :=
  List.Nodup.sublist (List.Sublist.map _ (List.filter_sublist _)) h

theorem setChild_keys (a : Address) (x : Connection) :
    ∀ cs : List (Address × Connection),
      (setChild a x cs).map (fun e => e.1) = cs.map (fun e => e.1) := by
  intro cs
  induction cs with
  | nil => rfl
  | cons e rest ih =>
    obtain ⟨k, y⟩ := e
    rw [setChild_cons]
    by_cases h : k = a
    · simp [h]
    · simp [h, ih]

theorem mem_setChild (a : Address) (x : Connection) :
    ∀ cs : List (Address × Connection), (cs.map (fun e => e.1)).Nodup →
      ∀ e ∈ setChild a x cs, e = (a, x) ∨ (e ∈ cs ∧ e.1 ≠ a) := by
  intro cs
  induction cs with
  | nil => intro _ e he; simp [setChild] at he
  | cons c rest ih =>
    obtain ⟨k, y⟩ := c
    intro hnd e he
    rw [List.map_cons, List.nodup_cons] at hnd
    rw [setChild_cons] at he
    by_cases h : k = a
    · simp only [h, if_true] at he
      rcases List.mem_cons.mp he with rfl | he
      · exact Or.inl rfl
      · refine Or.inr ⟨List.mem_cons_of_mem _ he, fun hea => hnd.1 ?_⟩
        rw [h, ← hea]
        exact List.mem_map.mpr ⟨e, he, rfl⟩
    · simp only [h, if_false] at he
      rcases List.mem_cons.mp he with rfl | he
      · exact Or.inr ⟨List.mem_cons_self _ _, h⟩
      · rcases ih hnd.2 e he with r | ⟨r1, r2⟩
        · exact Or.inl r
        · exact Or.inr ⟨List.mem_cons_of_mem _ r1, r2⟩

/-- A step without `OnCreateConnection` and `OnDeleteConnection` whose children
are old ones or not established keeps the invariant. -/
theorem ServerInv.quietStep {m : MasterConnection} {o : Address → Bool}
    (r : MasterConnection × List Event) (h : ServerInv m o)
    (hc : r.1.conn.m_master = true ∧
      (r.1.conn.m_state = .STATE_LISTEN ∨ r.1.conn.m_state = .STATE_CLOSED))
    (hnd : (r.1.m_children.map (fun e => e.1)).Nodup)
    (hch : ∀ e ∈ r.1.m_children,
      e ∈ m.m_children ∨ (ChildWF e.1 e.2 ∧ e.2.m_state ≠ .STATE_ESTABED))
    (hq : NoPairing r.2) :
    (∀ a, pairedFrom a (o a) r.2 = true) ∧ ServerInv r.1 (fun a => openAfter a (o a) r.2) := by
  have hsp := fun a => (quiet_of_noPairing hq a).spec (o a)
  refine ⟨fun a => (hsp a).1, ⟨hc.1, hc.2, hnd, fun e he => ?_⟩, fun e he hs => ?_⟩
  · rcases hch e he with h1 | h1
    · exact h.1.2.2.2 e h1
    · exact h1.1
  · show openAfter e.1 (o e.1) r.2 = true
    rw [(hsp e.1).2]
    rcases hch e he with h1 | h1
    · exact h.2 e h1 hs
    · exact absurd hs h1.2

theorem state_listen_step (m : MasterConnection) (o : Address → Bool) (env : Env)
    (raddr : Address) (packet : Buffer) (h : ServerInv m o) :
    (∀ a, pairedFrom a (o a) (state_listen m env raddr packet).2 = true) ∧
    ServerInv (state_listen m env raddr packet).1
      (fun a => openAfter a (o a) (state_listen m env raddr packet).2) := by
  obtain ⟨⟨hm, hst, hnd, hwf⟩, hopen⟩ := h
  unfold state_listen
  simp only [hm, Bool.not_true, Bool.false_eq_true, if_false]
  cases hf : findChild raddr m.m_children with
  | some child =>
    dsimp only
    have hmem := findChild_mem raddr child _ hf
    have hcw : ChildWF raddr child := hwf _ hmem
    obtain ⟨t1, t2, t3⟩ := fsm_childTrans raddr child env packet hcw
    obtain ⟨t3a, t3b⟩ := t3 (o raddr) (hopen _ hmem)
    have hpair : ∀ a, pairedFrom a (o a) (child.fsm env raddr packet).2 = true := by
      intro a
      by_cases ha : a = raddr
      · rw [ha]; exact t3a
      · exact ((t2 a ha).spec (o a)).1
    have hold : ∀ e ∈ m.m_children, e.1 ≠ raddr →
        ChildWF e.1 e.2 ∧ (e.2.m_state = .STATE_ESTABED →
          openAfter e.1 (o e.1) (child.fsm env raddr packet).2 = true) := by
      intro e he hne
      refine ⟨hwf e he, fun hs => ?_⟩
      rw [((t2 e.1 hne).spec (o e.1)).2]
      exact hopen e he hs
    by_cases hc : (child.fsm env raddr packet).1.m_state = .STATE_CLOSED
    · simp only [hc, if_true]
      refine ⟨hpair, ⟨hm, hst, eraseChild_keys_nodup _ _ hnd, fun e he => ?_⟩, fun e he hs => ?_⟩
      · obtain ⟨h1, h2⟩ := (mem_eraseChild _ _ _).mp he
        exact (hold e h1 h2).1
      · obtain ⟨h1, h2⟩ := (mem_eraseChild _ _ _).mp he
        exact (hold e h1 h2).2 hs
    · simp only [hc, if_false]
      have hcw1 : ChildWF raddr (child.fsm env raddr packet).1 := t1.resolve_left hc
      refine ⟨hpair, ⟨hm, hst, by rw [setChild_keys]; exact hnd, fun e he => ?_⟩,
        fun e he hs => ?_⟩
      · rcases mem_setChild raddr _ _ hnd e he with rfl | ⟨h1, h2⟩
        · exact hcw1
        · exact (hold e h1 h2).1
      · rcases mem_setChild raddr _ _ hnd e he with rfl | ⟨h1, h2⟩
        · exact t3b hs
        · exact (hold e h1 h2).2 hs
  | none =>
    dsimp only
    have hnot := findChild_none raddr _ hf
    by_cases h1 : (Header.read packet).pflags ≠ (FLAG_RLB ||| FLAG_SYN)
    · rw [if_pos h1]
      by_cases h2 : (Header.read packet).pflags &&& FLAG_RST = 0
      · rw [if_pos h2]
        exact ServerInv.quietStep (m, send_reset raddr) ⟨⟨hm, hst, hnd, hwf⟩, hopen⟩ ⟨hm, hst⟩ hnd
          (fun e he => Or.inl he) rfl
      · rw [if_neg h2]
        exact ServerInv.quietStep (m, []) ⟨⟨hm, hst, hnd, hwf⟩, hopen⟩ ⟨hm, hst⟩ hnd
          (fun e he => Or.inl he) rfl
    · rw [if_neg h1]
      refine ServerInv.quietStep _ ⟨⟨hm, hst, hnd, hwf⟩, hopen⟩ ⟨hm, hst⟩ ?_ ?_ rfl
      · show ((m.m_children ++ [(raddr, _)]).map
            (fun e : Address × Connection => e.1)).Nodup
        rw [List.map_append, List.nodup_append]
        refine ⟨hnd, by simp, ?_⟩
        intro x hx hx2
        simp only [List.map_cons, List.map_nil, List.mem_singleton] at hx2
        exact hnot (hx2 ▸ hx)
      · intro e he
        rcases List.mem_append.mp he with he | he
        · exact Or.inl he
        · rw [List.mem_singleton.mp he]
          exact Or.inr ⟨⟨rfl, Or.inl rfl⟩, by simp⟩

theorem tickChildren_step (envs : Address → Env) (elapsed : ℚ) (o : Address → Bool) :
    ∀ cs : List (Address × Connection), (cs.map (fun e => e.1)).Nodup →
      (∀ e ∈ cs, ChildWF e.1 e.2) →
      (∀ e ∈ cs, e.2.m_state = .STATE_ESTABED → o e.1 = true) →
      List.Sublist ((tickChildren envs elapsed cs).1.map (fun e => e.1)) (cs.map (fun e => e.1)) ∧
      (∀ e ∈ (tickChildren envs elapsed cs).1, ChildWF e.1 e.2) ∧
      (∀ b, b ∉ cs.map (fun e => e.1) → Quiet b (tickChildren envs elapsed cs).2) ∧
      (∀ a, pairedFrom a (o a) (tickChildren envs elapsed cs).2 = true) ∧
      (∀ e ∈ (tickChildren envs elapsed cs).1, e.2.m_state = .STATE_ESTABED →
        openAfter e.1 (o e.1) (tickChildren envs elapsed cs).2 = true) := by
  intro cs
  induction cs with
  | nil =>
    intro _ _ _
    refine ⟨List.Sublist.refl _, fun e he => by simp [tickChildren] at he,
      fun b _ => quiet_of_noPairing NoPairing.nil b, fun a => rfl,
      fun e he => by simp [tickChildren] at he⟩
  | cons x rest ih =>
    obtain ⟨a, child⟩ := x
    intro hnd hwf hopen
    rw [List.map_cons, List.nodup_cons] at hnd
    obtain ⟨i1, i2, i3, i4, i5⟩ := ih hnd.2
      (fun e he => hwf e (List.mem_cons_of_mem _ he))
      (fun e he => hopen e (List.mem_cons_of_mem _ he))
    have hcw : ChildWF a child := hwf (a, child) (List.mem_cons_self _ _)
    obtain ⟨t1, t2, t3⟩ := check_timeout_childTrans a child (envs a) elapsed hcw
    obtain ⟨t3a, t3b⟩ := t3 (o a) (hopen (a, child) (List.mem_cons_self _ _))
    have hqa : Quiet a (tickChildren envs elapsed rest).2 := i3 a hnd.1
    have hnotin : ∀ e ∈ (tickChildren envs elapsed rest).1, e.1 ≠ a := by
      intro e he hea
      apply hnd.1
      rw [← hea]
      exact i1.subset (List.mem_map.mpr ⟨e, he, rfl⟩)
    have e2 : (tickChildren envs elapsed ((a, child) :: rest)).2
        = (child.check_timeout (envs a) elapsed).2 ++ (tickChildren envs elapsed rest).2 := rfl
    have hrest : ∀ e ∈ (tickChildren envs elapsed rest).1,
        ChildWF e.1 e.2 ∧ (e.2.m_state = .STATE_ESTABED →
          openAfter e.1 (o e.1) (tickChildren envs elapsed ((a, child) :: rest)).2 = true) := by
      intro e he
      refine ⟨i2 e he, fun hs => ?_⟩
      rw [e2, openAfter_append, ((t2 e.1 (hnotin e he)).spec (o e.1)).2]
      exact i5 e he hs
    have hpair : ∀ b, pairedFrom b (o b) (tickChildren envs elapsed ((a, child) :: rest)).2
        = true := by
      intro b
      rw [e2, pairedFrom_append]
      by_cases hb : b = a
      · rw [hb, t3a, (hqa.spec _).1]
        rfl
      · rw [((t2 b hb).spec (o b)).1, ((t2 b hb).spec (o b)).2, i4 b]
        rfl
    have hquiet : ∀ b, b ∉ ((a, child) :: rest).map (fun e => e.1) →
        Quiet b (tickChildren envs elapsed ((a, child) :: rest)).2 := by
      intro b hb
      rw [List.map_cons, List.mem_cons, not_or] at hb
      rw [e2]
      exact quiet_append (t2 b hb.1) (i3 b hb.2)
    by_cases hc : (child.check_timeout (envs a) elapsed).1.m_state = .STATE_CLOSED
    · have e1 : (tickChildren envs elapsed ((a, child) :: rest)).1
          = (tickChildren envs elapsed rest).1 := by
        simp [tickChildren, hc]
      rw [e1]
      exact ⟨List.Sublist.cons _ i1, fun e he => (hrest e he).1, hquiet, hpair,
        fun e he => (hrest e he).2⟩
    · have e1 : (tickChildren envs elapsed ((a, child) :: rest)).1
          = (a, (child.check_timeout (envs a) elapsed).1) :: (tickChildren envs elapsed rest).1 := by
        simp [tickChildren, hc]
      rw [e1]
      refine ⟨List.Sublist.cons₂ _ i1, fun e he => ?_, hquiet, hpair, fun e he hs => ?_⟩
      · rcases List.mem_cons.mp he with rfl | he
        · exact t1.resolve_left hc
        · exact (hrest e he).1
      · rcases List.mem_cons.mp he with rfl | he
        · rw [e2, openAfter_append, (hqa.spec _).2]
          exact t3b hs
        · exact (hrest e he).2 hs

theorem close_noPairing (c : Connection) : NoPairing (c.Close).2 := by
  unfold Connection.Close
  split
  · rfl
  · split
    · simp only [Connection.reset]; rfl
    · simp only [Connection.reset]; rfl

theorem closeChildren_noPairing :
    ∀ cs : List (Address × Connection), NoPairing (closeChildren cs) := by
  intro cs
  induction cs with
  | nil => rfl
  | cons x rest ih =>
    obtain ⟨a, child⟩ := x
    exact noPairing_append (close_noPairing child) ih

theorem call_step (m : MasterConnection) (o : Address → Bool) (x : ServerCall)
    (h : ServerInv m o) :
    (∀ a, pairedFrom a (o a) (m.call x).2 = true) ∧
    ServerInv (m.call x).1 (fun a => openAfter a (o a) (m.call x).2) := by
  have hkeep : (∀ a, pairedFrom a (o a) ((m, []) : MasterConnection × List Event).2 = true) ∧
      ServerInv m (fun a => openAfter a (o a) ((m, []) : MasterConnection × List Event).2) :=
    ServerInv.quietStep (m, []) h ⟨h.1.1, h.1.2.1⟩ h.1.2.2.1 (fun e he => Or.inl he) rfl
  obtain ⟨⟨hm, hst, hnd, hwf⟩, hopen⟩ := h
  have hinv : ServerInv m o := ⟨⟨hm, hst, hnd, hwf⟩, hopen⟩
  cases x with
  | receive env raddr packet =>
    simp only [MasterConnection.call, MasterConnection.receive]
    split
    · exact hkeep
    · rename_i hg
      split
      · exact hkeep
      · split
        · exact hkeep
        · have hl : m.conn.m_state = .STATE_LISTEN := by
            rcases hst with h | h
            · exact h
            · simp [h] at hg
          have e : m.fsm env raddr packet = state_listen m env raddr packet := by
            simp [MasterConnection.fsm, hl]
          rw [e]
          exact state_listen_step m o env raddr packet hinv
  | timeouts envs elapsed =>
    simp only [MasterConnection.call, MasterConnection.timeouts]
    split
    · exact hkeep
    · rename_i hg
      have hl : m.conn.m_state = .STATE_LISTEN := by
        rcases hst with h | h
        · exact h
        · simp [h] at hg
      simp only [hl, if_true]
      obtain ⟨i1, i2, _, i4, i5⟩ := tickChildren_step envs elapsed o m.m_children hnd hwf hopen
      exact ⟨i4, ⟨hm, Or.inl hl, List.Nodup.sublist i1 hnd, i2⟩, i5⟩
  | Kick raddr =>
    simp only [MasterConnection.call, MasterConnection.Kick]
    split
    · exact hkeep
    · cases hf : findChild raddr m.m_children with
      | some child =>
        exact ServerInv.quietStep _ hinv ⟨hm, hst⟩ (eraseChild_keys_nodup _ _ hnd)
          (fun e he => Or.inl ((mem_eraseChild _ _ _).mp he).1) (close_noPairing child)
      | none => exact hkeep
  | Close =>
    simp only [MasterConnection.call, MasterConnection.Close]
    split
    · exact hkeep
    · split
      · refine ServerInv.quietStep _ hinv ⟨hm, Or.inr rfl⟩ (by simp) (fun e he => by simp at he) ?_
        exact noPairing_append (closeChildren_noPairing _) rfl
      · rename_i h1 h2
        rcases hst with h | h
        · exact absurd h h2
        · exact absurd h h1

theorem runServer_paired :
    ∀ (calls : List ServerCall) (m : MasterConnection) (o : Address → Bool), ServerInv m o →
      (∀ a, pairedFrom a (o a) (runServer m calls).2 = true) ∧
      ServerInv (runServer m calls).1 (fun a => openAfter a (o a) (runServer m calls).2) := by
  intro calls
  induction calls with
  | nil =>
    intro m o h
    exact ⟨fun a => rfl, h⟩
  | cons x rest ih =>
    intro m o h
    obtain ⟨s1, s2⟩ := call_step m o x h
    obtain ⟨r1, r2⟩ := ih _ _ s2
    have e : (runServer m (x :: rest)).2 = (m.call x).2 ++ (runServer (m.call x).1 rest).2 := rfl
    have e1 : (runServer m (x :: rest)).1 = (runServer (m.call x).1 rest).1 := rfl
    rw [e1]
    refine ⟨fun a => ?_, ?_⟩
    · rw [e, pairedFrom_append, s1 a, r1 a]
      rfl
    · have : (fun a => openAfter a (o a) (runServer m (x :: rest)).2)
          = (fun a => openAfter a (openAfter a (o a) (m.call x).2)
              (runServer (m.call x).1 rest).2) := by
        funext a
        rw [e, openAfter_append]
      rw [this]
      exact r2

theorem pairedFrom_count (a : Address) :
    ∀ (events : List Event) (o : Bool), pairedFrom a o events = true →
      events.count (Event.OnDeleteConnection a)
        ≤ events.count (Event.OnCreateConnection a) + (if o then 1 else 0) := by
  intro events
  induction events with
  | nil => intro o _; simp
  | cons ev rest ih =>
    intro o h
    cases ev with
    | OnCreateConnection b =>
      simp only [pairedFrom] at h
      have := ih _ h
      by_cases hb : b = a
      · subst hb
        simp only [if_true] at this
        simp [List.count_cons]
        omega
      · simp only [hb, if_false] at this
        have h1 : ¬ (Event.OnCreateConnection b = Event.OnCreateConnection a) := by
          intro e; injection e with e; exact hb e
        simp [List.count_cons, hb]
        exact this
    | OnDeleteConnection b =>
      simp only [pairedFrom] at h
      by_cases hb : b = a
      · subst hb
        simp only [if_true, Bool.and_eq_true] at h
        have := ih _ h.2
        simp only [h.1, if_true]
        simp [List.count_cons]
        simpa using this
      · simp only [hb, if_false] at h
        have := ih _ h
        simp [List.count_cons, hb]
        exact this
    | _ =>
      simp only [pairedFrom] at h
      have := ih _ h
      simpa [List.count_cons] using this

theorem close_noCallback (c : Connection) : ∀ ev ∈ (c.Close).2, ev.isCallback = false := by
  unfold Connection.Close
  intro ev hev
  split at hev
  · simp at hev
  · split at hev
    · simp [Connection.reset] at hev
    · simp [Connection.reset, send_reset] at hev
      rw [hev]; rfl

theorem closeChildren_noCallback :
    ∀ cs : List (Address × Connection), ∀ ev ∈ closeChildren cs, ev.isCallback = false := by
  intro cs
  induction cs with
  | nil => intro ev hev; simp [closeChildren] at hev
  | cons x rest ih =>
    obtain ⟨a, child⟩ := x
    intro ev hev
    rcases List.mem_append.mp hev with h | h
    · exact close_noCallback child ev h
    · exact ih ev h

theorem deleteOnly_ite (q : Prop) (x : Address) (p : Prop) [Decidable p]
    (a b : Connection × List Event) (ha : p → DeleteOnly q x a) (hb : ¬ p → DeleteOnly q x b) :
    DeleteOnly q x (if p then a else b) := by
  split
  · exact ha ‹_›
  · exact hb ‹_›

theorem deleteOnly_of_noPairing (q : Prop) (x : Address) (r : Connection × List Event)
    (h : NoPairing r.2) : DeleteOnly q x r := by
  intro hm
  have := h.mem _ hm
  simp [Event.isPairing] at this

theorem state_estabed_deleteOnly (c : Connection) (env : Env) (raddr : Address)
    (packet : Buffer) (x : Address) :
    DeleteOnly (PassiveResetCause c (Header.read packet)) x (state_estabed c env raddr packet) := by
  unfold state_estabed
  dsimp only
  repeat' (apply deleteOnly_ite <;> intro _)
  all_goals first
    | exact deleteOnly_of_noPairing _ _ _ rfl
    | exact fun _ => Or.inl ‹_›
    | exact fun _ => Or.inr ⟨‹_›, ‹_›⟩
    | skip
  · refine deleteOnly_of_noPairing _ _ _ ?_
    cases c.m_reliable_retransmission_queue <;> rfl
  · refine deleteOnly_of_noPairing _ _ _ ?_
    exact noPairing_append (deliverLoop_noPairing _ _ _) rfl
  · refine deleteOnly_of_noPairing _ _ _ ?_
    cases c.m_listener <;> rfl

/-- C14 (connection notifications are paired).  On a server whose children are
not yet established, over every sequence of received datagrams, timeouts, `Kick`
and `Close` calls and for every peer `a`: each `OnDeleteConnection` for `a` comes
after an `OnCreateConnection` for `a` with no other `OnDeleteConnection` for `a`
in between, so there are at most as many of the former as of the latter.  `Kick`
and `Close` fire no callback.  A packet makes an established connection fire
`OnDeleteConnection` only if it carries `RST` or is an `ACK` beyond what was
sent, and a timeout only if an expired entry of the retransmission queue has no
retry left.  A connection in `STATE_SYNRCVD` that is reset by a packet or by a
timeout fires no callback. -/
theorem C14_notifications_paired (m : MasterConnection) (calls : List ServerCall)
    (a raddr x : Address) (c : Connection) (env : Env) (elapsed : ℚ) (packet : Buffer)
    (hwf : ServerWF m) (hne : ∀ e ∈ m.m_children, e.2.m_state ≠ .STATE_ESTABED) :
    pairedFrom a false (runServer m calls).2 = true ∧
    (runServer m calls).2.count (Event.OnDeleteConnection a)
      ≤ (runServer m calls).2.count (Event.OnCreateConnection a) ∧
    (∀ ev ∈ (m.Kick raddr).2, ev.isCallback = false) ∧
    (∀ ev ∈ (m.Close).2, ev.isCallback = false) ∧
    (Event.OnDeleteConnection x ∈ (state_estabed c env raddr packet).2 →
      PassiveResetCause c (Header.read packet)) ∧
    (Event.OnDeleteConnection x ∈ (c.check_timeout env elapsed).2 →
      c.m_reliable_retransmission_queue.any (exhausted elapsed) = true) ∧
    (c.m_state = .STATE_SYNRCVD →
      (c.reset true).2 = [] ∧
      (∀ ev ∈ (c.check_timeout env elapsed).2, ev.isCallback = false) ∧
      ((c.fsm env raddr packet).1.m_state = .STATE_CLOSED →
        ∀ ev ∈ (c.fsm env raddr packet).2, ev.isCallback = false)) := by
  have hinv : ServerInv m (fun _ => false) :=
    ⟨hwf, fun e he hs => absurd hs (hne e he)⟩
  have hp := (runServer_paired calls m (fun _ => false) hinv).1 a
  have hsend : ∀ ev ∈ (retransmitLoop c.m_raddr elapsed c.m_reliable_retransmission_queue).1,
      ev.isCallback = false := by
    intro ev hev
    rw [retransmitLoop_eq] at hev
    obtain ⟨y, _, rfl⟩ := List.mem_map.mp hev
    rfl
  refine ⟨hp, ?_, ?_, ?_, state_estabed_deleteOnly c env raddr packet x, ?_, fun hs => ⟨?_, ?_, ?_⟩⟩
  · simpa using pairedFrom_count a _ false hp
  · intro ev hev
    unfold MasterConnection.Kick at hev
    split at hev
    · simp at hev
    · split at hev
      · exact close_noCallback _ ev hev
      · simp at hev
  · intro ev hev
    unfold MasterConnection.Close at hev
    split at hev
    · simp at hev
    · split at hev
      · simp only [Connection.reset, Bool.false_eq_true, if_false, List.append_nil] at hev
        exact closeChildren_noCallback _ ev hev
      · simp [Connection.reset, send_reset] at hev
        rw [hev]; rfl
  · intro hm
    by_contra hx
    simp only [Bool.not_eq_true] at hx
    obtain ⟨_, _, _, _, _, _, a7⟩ := check_timeout_alive c env elapsed hx
    have hnp : NoPairing (c.check_timeout env elapsed).2 := by
      have := check_timeout_stepForm c env elapsed
      rw [a7]
      refine noPairing_append (NoPairing.of_callback hsend) ?_
      unfold probes
      split
      · refine noPairing_append ?_ ?_ <;> split <;> rfl
      · rfl
    have := hnp.mem _ hm
    simp [Event.isPairing] at this
  · simp [Connection.reset, hs]
  · intro ev hev
    by_cases hx : c.m_reliable_retransmission_queue.any (exhausted elapsed) = true
    · rw [check_timeout_exhausted c env elapsed hx] at hev
      have : (c.reset true).2 = [] := by simp [Connection.reset, hs]
      rw [this, List.append_nil] at hev
      exact hsend ev hev
    · simp only [Bool.not_eq_true] at hx
      obtain ⟨_, _, _, _, _, _, a7⟩ := check_timeout_alive c env elapsed hx
      rw [a7] at hev
      have : probes c env elapsed = [] := by simp [probes, hs]
      rw [this, List.append_nil] at hev
      exact hsend ev hev
  · have e : c.fsm env raddr packet = state_synrcvd c raddr packet := by
      simp [Connection.fsm, hs]
    rw [e]
    unfold state_synrcvd
    dsimp only
    split
    · intro _ ev hev
      simp [Connection.reset, hs] at hev
    · split
      · intro _ ev hev
        simp at hev
      · split
        · intro _ ev hev
          simp [Connection.reset, hs, send_reset] at hev
          rw [hev]; rfl
        · intro h
          simp at h

theorem C14_notifications_paired_witness :
    ServerWF exampleListen ∧
    (∀ e ∈ exampleListen.m_children, e.2.m_state ≠ .STATE_ESTABED) ∧
    pairedFrom "10.0.0.2:4000" false (runServer exampleListen exampleServerCalls).2 = true :=
  ⟨by decide, by decide,
    (C14_notifications_paired exampleListen exampleServerCalls "10.0.0.2:4000" "" ""
      exampleEstabed ⟨0, 0, 0, 0, 0⟩ 0 [] (by decide) (by decide)).1⟩

theorem invokeFrom_connID (connID : Address) (signature : Str) (s : BitStreamInput) :
    ∀ (registries : List MethodsRegistry) (depth : Nat),
      ∀ call ∈ (invokeFrom connID signature s registries depth).2.2,
        call.connID = connID ∧ strEq call.signature signature = true ∧ depth ≤ call.depth := by
  intro registries
  induction registries with
  | nil => intro depth call h; simp [invokeFrom] at h
  | cons registry supers ih =>
    intro depth call h
    unfold invokeFrom at h
    cases hf : registry.find? (fun e => strEq e.1 signature) with
    | some e =>
      simp only [hf, List.mem_singleton] at h
      rw [h]
      exact ⟨rfl, by simpa using List.find?_some hf, le_refl _⟩
    | none =>
      simp only [hf] at h
      obtain ⟨h1, h2, h3⟩ := ih (depth + 1) call h
      exact ⟨h1, h2, by omega⟩

theorem invokeFrom_none (connID : Address) (signature : Str) (s : BitStreamInput) :
    ∀ (registries : List MethodsRegistry) (depth : Nat),
      (∀ registry ∈ registries, registry.find? (fun e => strEq e.1 signature) = none) →
      invokeFrom connID signature s registries depth = (false, s, []) := by
  intro registries
  induction registries with
  | nil => intro _ _; rfl
  | cons registry supers ih =>
    intro depth h
    unfold invokeFrom
    rw [h registry (List.mem_cons_self _ _)]
    exact ih (depth + 1) (fun r hr => h r (List.mem_cons_of_mem _ hr))

/-- C15 (incoming invoke dispatch).  `ProcessInvokeMethod (connID, s)` returns
false, calls no thunk and leaves the bound objects as they are when the
`ObjectID` cannot be read from `s`, when the id read is not bound, and when the
signature cannot be read.  When the id is bound to an object and the signature
is read, the object's invoke connection is `connID` at the call and afterwards,
and the result is that of the object's `Invoke (signature, s)`.  `Invoke` calls
the thunk registered under the signature in the object's class, else does what
the super class does, and with no class left returns false; so it returns false
and calls no thunk when no class of the chain registered the signature, and it
never calls more than one thunk. -/
theorem C15_invoke_dispatch (bound : List (ObjectID × InvokableObject)) (connID : Address)
    (s : BitStreamInput) (objID : ObjectID) (o : InvokableObject) (signature : Str)
    (registry : MethodsRegistry) (supers : List MethodsRegistry) (depth : Nat) :
    ((ReadU .U64 s MASTER_OBJECT).1 = false →
      (ProcessInvokeMethod bound connID s).1 = false ∧
      (ProcessInvokeMethod bound connID s).2.1 = bound ∧
      (ProcessInvokeMethod bound connID s).2.2.2 = []) ∧
    ((ReadU .U64 s MASTER_OBJECT).1 = true →
      bound.find? (fun e => e.1 == (ReadU .U64 s MASTER_OBJECT).2.1) = none →
      ProcessInvokeMethod bound connID s
        = (false, bound, (ReadU .U64 s MASTER_OBJECT).2.2, [])) ∧
    ((ReadU .U64 s MASTER_OBJECT).1 = true →
      bound.find? (fun e => e.1 == (ReadU .U64 s MASTER_OBJECT).2.1) = some (objID, o) →
      ((ReadString (ReadU .U64 s MASTER_OBJECT).2.2 []).1 = false →
        (ProcessInvokeMethod bound connID s).1 = false ∧
        (ProcessInvokeMethod bound connID s).2.1 = bound ∧
        (ProcessInvokeMethod bound connID s).2.2.2 = []) ∧
      ((ReadString (ReadU .U64 s MASTER_OBJECT).2.2 []).1 = true →
        ProcessInvokeMethod bound connID s
          = (((o.SetInvokeConnection connID).Invoke
                (ReadString (ReadU .U64 s MASTER_OBJECT).2.2 []).2.1
                (ReadString (ReadU .U64 s MASTER_OBJECT).2.2 []).2.2).1,
              setBound objID (o.SetInvokeConnection connID) bound,
              ((o.SetInvokeConnection connID).Invoke
                (ReadString (ReadU .U64 s MASTER_OBJECT).2.2 []).2.1
                (ReadString (ReadU .U64 s MASTER_OBJECT).2.2 []).2.2).2) ∧
        (o.SetInvokeConnection connID).m_connID = connID ∧
        ∀ call ∈ (ProcessInvokeMethod bound connID s).2.2.2, call.connID = connID)) ∧
    (∀ e, registry.find? (fun e => strEq e.1 signature) = some e →
      invokeFrom connID signature s (registry :: supers) depth
        = ((e.2 connID s).1, (e.2 connID s).2, [⟨depth, e.1, connID⟩])) ∧
    (registry.find? (fun e => strEq e.1 signature) = none →
      invokeFrom connID signature s (registry :: supers) depth
        = invokeFrom connID signature s supers (depth + 1)) ∧
    invokeFrom connID signature s [] depth = (false, s, []) ∧
    ((∀ r ∈ o.registries, r.find? (fun e => strEq e.1 signature) = none) →
      o.Invoke signature s = (false, s, [])) ∧
    (o.Invoke signature s).2.2.length ≤ 1 := by
  refine ⟨fun h => ?_, fun h hf => ?_, fun h hf => ⟨fun hs => ?_, fun hs => ⟨?_, rfl, ?_⟩⟩,
    fun e he => ?_, fun he => ?_, rfl, fun h => invokeFrom_none _ _ _ _ _ h, ?_⟩
  · simp [ProcessInvokeMethod, h]
  · simp [ProcessInvokeMethod, h, hf]
  · simp [ProcessInvokeMethod, h, hf, hs]
  · simp [ProcessInvokeMethod, h, hf, hs]
  · intro call hc
    have e : (ProcessInvokeMethod bound connID s).2.2.2
        = ((o.SetInvokeConnection connID).Invoke
            (ReadString (ReadU .U64 s MASTER_OBJECT).2.2 []).2.1
            (ReadString (ReadU .U64 s MASTER_OBJECT).2.2 []).2.2).2.2 := by
      simp [ProcessInvokeMethod, h, hf, hs]
    rw [e] at hc
    exact (invokeFrom_connID connID _ _ _ 0 call hc).1
  · simp [invokeFrom, he]
  · simp [invokeFrom, he]
  · unfold InvokableObject.Invoke
    generalize (0 : Nat) = d
    induction o.registries generalizing d with
    | nil => simp [invokeFrom]
    | cons r rest ih =>
      unfold invokeFrom
      cases hf : r.find? (fun e => strEq e.1 signature) with
      | some e => simp
      | none => exact ih (d + 1)

theorem C15_invoke_dispatch_witness :
    (ReadU .U64 exampleInvoke MASTER_OBJECT).1 = true ∧
    exampleBound.find? (fun e => e.1 == (ReadU .U64 exampleInvoke MASTER_OBJECT).2.1)
      = some (7, ⟨"", [[([65, 58, 58, 102], exampleThunk)], [([66, 58, 58, 103], exampleThunk)]]⟩) ∧
    (ReadString (ReadU .U64 exampleInvoke MASTER_OBJECT).2.2 []).1 = true ∧
    ∀ call ∈ (ProcessInvokeMethod exampleBound "10.0.0.2:4000" exampleInvoke).2.2.2,
      call.connID = "10.0.0.2:4000" :=
  ⟨by decide, rfl, by decide,
    (((C15_invoke_dispatch exampleBound "10.0.0.2:4000" exampleInvoke 7
      ⟨"", [[([65, 58, 58, 102], exampleThunk)], [([66, 58, 58, 103], exampleThunk)]]⟩
      [] [] [] 0).2.2.1 (by decide) rfl).2 (by decide)).2.2⟩

/-- C16 (ObjectID minting).  The counter starts at 0 and holds a `U64`.
`StaticGenerateObjectID` never returns 0 and leaves the counter at its result;
the first call returns 1; a call after the result `r < 2^64 - 1` returns
`r + 1`, and the call after the result `2^64 - 1` returns 1. -/
theorem C16_object_id_minting (s_id : Nat) (hs : s_id < 2 ^ 64) :
    (StaticGenerateObjectID s_id).1 ≠ MASTER_OBJECT ∧
    (StaticGenerateObjectID s_id).2 = (StaticGenerateObjectID s_id).1 ∧
    (StaticGenerateObjectID s_id).1 < 2 ^ 64 ∧
    (StaticGenerateObjectID 0).1 = 1 ∧
    (s_id < 2 ^ 64 - 1 → (StaticGenerateObjectID s_id).1 = s_id + 1) ∧
    (s_id = 2 ^ 64 - 1 → (StaticGenerateObjectID s_id).1 = 1) ∧
    (∀ n, ∀ x ∈ generateObjectIDs s_id n, x ≠ MASTER_OBJECT) := by
  have key : ∀ s, s < 2 ^ 64 →
      (StaticGenerateObjectID s).1 ≠ MASTER_OBJECT ∧
      (StaticGenerateObjectID s).2 = (StaticGenerateObjectID s).1 ∧
      (StaticGenerateObjectID s).1 < 2 ^ 64 := by
    intro s h
    unfold StaticGenerateObjectID MASTER_OBJECT
    dsimp only
    split
    · rename_i h1
      exact ⟨h1, rfl, Nat.mod_lt _ (by norm_num)⟩
    · rename_i h1
      simp only [ne_eq, not_not] at h1
      rw [h1]
      exact ⟨by norm_num, rfl, by norm_num⟩
  refine ⟨(key s_id hs).1, (key s_id hs).2.1, (key s_id hs).2.2, by decide, ?_, ?_, ?_⟩
  · intro h
    unfold StaticGenerateObjectID MASTER_OBJECT
    dsimp only
    have : (s_id + 1) % 2 ^ 64 = s_id + 1 := Nat.mod_eq_of_lt (by omega)
    rw [this, if_pos (show s_id + 1 ≠ 0 by omega)]
  · intro h
    rw [h]
    decide
  · intro n
    induction n generalizing s_id with
    | zero => intro x hx; simp [generateObjectIDs] at hx
    | succ n ih =>
      intro x hx
      rcases List.mem_cons.mp hx with rfl | hx
      · exact (key s_id hs).1
      · refine ih (StaticGenerateObjectID s_id).2 ?_ x hx
        rw [(key s_id hs).2.1]
        exact (key s_id hs).2.2

theorem C16_object_id_minting_witness :
    (2 ^ 64 - 1 < 2 ^ 64) ∧ (StaticGenerateObjectID (2 ^ 64 - 1)).1 = 1 :=
  ⟨by decide, (C16_object_id_minting (2 ^ 64 - 1) (by decide)).2.2.2.2.2.1 rfl⟩

theorem setErase_of_not_mem (x : ObjectID) (s : List ObjectID) (h : x ∉ s) :
    setErase x s = s := by
  unfold setErase
  rw [List.filter_eq_self]
  intro y hy
  have : y ≠ x := fun e => h (e ▸ hy)
  simpa using this

theorem translate_unbind (bound : List (ObjectID × IDistributedObject)) (objID x : ObjectID) :
    ((bound.filter (fun e => !(e.1 == objID))).find? (fun e => e.1 == x)).map (fun e => e.2)
      = if x = objID then none else (bound.find? (fun e => e.1 == x)).map (fun e => e.2) := by
  induction bound with
  | nil => simp
  | cons e rest ih =>
    by_cases h1 : e.1 = objID
    · by_cases h2 : x = objID
      · simp only [List.filter_cons, h1, h2, beq_self_eq_true, Bool.not_true,
          Bool.false_eq_true, if_false, if_true] at ih ⊢
        exact ih
      · have h3 : (objID == x) = false := by simpa using fun e => h2 e.symm
        simp only [List.filter_cons, List.find?_cons, h1, h2, h3, beq_self_eq_true,
          Bool.not_true, Bool.false_eq_true, if_false] at ih ⊢
        exact ih
    · have h1b : (e.1 == objID) = false := by simpa using h1
      by_cases h2 : x = objID
      · have h3 : (e.1 == objID) = false := h1b
        simp only [List.filter_cons, List.find?_cons, h2, h3, Bool.not_false, if_true] at ih ⊢
        exact ih
      · by_cases h3 : e.1 = x
        · simp [List.filter_cons, List.find?_cons, h1b, h2, h3]
        · have h3b : (e.1 == x) = false := by simpa using h3
          simp only [List.filter_cons, List.find?_cons, h1b, h2, h3b, Bool.not_false, if_true,
            if_false] at ih ⊢
          exact ih

/-- C17 (server unbind fans out the delete).  For an `objID` bound on the
server, `UnbindObject (objID)` sends on each connection whose spawned set
contains `objID` exactly one reliable `DELETE_OBJECT` message for `objID` and
nothing on the others, removes `objID` from every spawned set and from the
registry, so that `Translate (objID)` is null afterwards, and leaves every other
registry entry and every other spawned id as it was. -/
theorem C17_unbind_fans_out (srv : DistributedObjectSystemServer) (objID : ObjectID)
    (pobj : IDistributedObject) (hb : srv.Translate objID = some pobj) :
    srv.UnbindObject objID
      = some ({ m_boundObjects := srv.m_boundObjects.filter (fun e => !(e.1 == objID))
                m_connections := srv.m_connections.map
                  (fun e => (e.1, ⟨setErase objID e.2.m_spawnedObjects⟩)) },
          srv.m_connections.map
            (fun e => (e.1, if objID ∈ e.2.m_spawnedObjects then [deleteMessage objID] else []))) ∧
    (∀ srv1 calls, srv.UnbindObject objID = some (srv1, calls) →
      srv1.Translate objID = none ∧
      (∀ x, x ≠ objID → srv1.Translate x = srv.Translate x) ∧
      srv1.m_connections.map (fun e => e.1) = srv.m_connections.map (fun e => e.1)) ∧
    (∀ (s : List ObjectID) (x : ObjectID), x ∈ setErase objID s ↔ x ≠ objID ∧ x ∈ s) := by
  have e : srv.UnbindObject objID
      = some ({ m_boundObjects := srv.m_boundObjects.filter (fun e => !(e.1 == objID))
                m_connections := srv.m_connections.map
                  (fun e => (e.1, ⟨setErase objID e.2.m_spawnedObjects⟩)) },
          srv.m_connections.map
            (fun e => (e.1, if objID ∈ e.2.m_spawnedObjects then [deleteMessage objID]
              else []))) := by
    unfold DistributedObjectSystemServer.UnbindObject
      DistributedObjectSystemServer.DeleteRemoteObject
    simp only [hb, fanOut, Bool.not_true, Bool.false_eq_true, if_false, forOthers_spec,
      DistributedObjectSystemServer.UnbindObjectBase, applyTo]
    congr 2
    · congr 1
      apply List.map_congr_left
      intro x _
      by_cases h : objID ∈ x.2.m_spawnedObjects
      · simp [DistributedObjectSystemConnection.DeleteRemoteObject, h]
      · simp [DistributedObjectSystemConnection.DeleteRemoteObject, h,
          setErase_of_not_mem objID _ h]
    · rw [List.filter_eq_self.mpr (by simp)]
      apply List.map_congr_left
      intro x _
      by_cases h : objID ∈ x.2.m_spawnedObjects
      · simp [DistributedObjectSystemConnection.DeleteRemoteObject, h, deleteMessage]
      · simp [DistributedObjectSystemConnection.DeleteRemoteObject, h]
  refine ⟨e, ?_, fun s x => mem_setErase objID x s⟩
  intro srv1 calls h
  rw [e] at h
  simp only [Option.some.injEq, Prod.mk.injEq] at h
  obtain ⟨h1, _⟩ := h
  subst h1
  refine ⟨?_, fun x hx => ?_, ?_⟩
  · simp only [DistributedObjectSystemServer.Translate]
    rw [translate_unbind]
    simp
  · simp only [DistributedObjectSystemServer.Translate]
    rw [translate_unbind]
    simp [hx]
  · simp [List.map_map, Function.comp]

theorem C17_unbind_fans_out_witness :
    exampleServer2.Translate 5 = some exampleObject ∧
    exampleServer2.UnbindObject 5
      = some ({ m_boundObjects := exampleServer2.m_boundObjects.filter (fun e => !(e.1 == 5))
                m_connections := exampleServer2.m_connections.map
                  (fun e => (e.1, ⟨setErase 5 e.2.m_spawnedObjects⟩)) },
          exampleServer2.m_connections.map
            (fun e => (e.1, if 5 ∈ e.2.m_spawnedObjects then [deleteMessage 5] else []))) :=
  ⟨rfl, (C17_unbind_fans_out exampleServer2 5 exampleObject rfl).1⟩

/-! ## C18: the `unique` string policy writes a repeated string once -/

/-- C18, counterexample.  After `"a\\0b"` the string `"a\\0c"`, written for the
first time, is not written out: the policy emits the flag bit 1 and the offset
recorded for `"a\\0b"`. -/
theorem C18_first_write_counterexample :
    ((UniqueStringPolicy.Write ⟨[], []⟩ BitStreamOutput.init [97, 0, 98]).1.Write
        (UniqueStringPolicy.Write ⟨[], []⟩ BitStreamOutput.init [97, 0, 98]).2 [97, 0, 99]).2
      = WriteU .U32
          (WriteBool (UniqueStringPolicy.Write ⟨[], []⟩ BitStreamOutput.init [97, 0, 98]).2 true) 1 ∧
    ([97, 0, 98] : Str) ≠ [97, 0, 99] := by
  decide

theorem find?_append_of_some {α : Type} (p : α → Bool) (l more : List α) (e : α)
    (h : l.find? p = some e) : (l ++ more).find? p = some e := by
  rw [List.find?_append, h]
  rfl

theorem strEq_trans_right (a b c : Str) (h : cstr b = cstr c) : strEq a b = strEq a c := by
  simp [strEq, h]

theorem Write_of_some (p : UniqueStringPolicy) (stream : BitStreamOutput) (s : Str)
    (e : Str × Nat) (h : p.m_writeCache.find? (fun e => strEq e.1 s) = some e) :
    p.Write stream s = (p, WriteU .U32 (WriteBool stream true) (e.2 % 2 ^ 32)) := by
  unfold UniqueStringPolicy.Write
  rw [h]

theorem Write_of_none (p : UniqueStringPolicy) (stream : BitStreamOutput) (s : Str)
    (h : p.m_writeCache.find? (fun e => strEq e.1 s) = none) :
    p.Write stream s
      = ({ p with m_writeCache := p.m_writeCache ++ [(s, stream.m_nbits + 1)] },
          WriteString (WriteBool stream false) s) := by
  unfold UniqueStringPolicy.Write
  rw [h]
  rfl

theorem Write_cache_stable (p : UniqueStringPolicy) (stream : BitStreamOutput) (s x : Str)
    (e : Str × Nat) (h : p.m_writeCache.find? (fun e => strEq e.1 x) = some e) :
    (p.Write stream s).1.m_writeCache.find? (fun e => strEq e.1 x) = some e := by
  unfold UniqueStringPolicy.Write
  cases hf : p.m_writeCache.find? (fun e => strEq e.1 s) with
  | some e1 => exact h
  | none => exact find?_append_of_some _ _ _ _ h

theorem writeUniqueAll_cache_stable :
    ∀ (strs : List Str) (p : UniqueStringPolicy) (stream : BitStreamOutput) (x : Str)
      (e : Str × Nat), p.m_writeCache.find? (fun e => strEq e.1 x) = some e →
      (writeUniqueAll p stream strs).1.m_writeCache.find? (fun e => strEq e.1 x) = some e := by
  intro strs
  induction strs with
  | nil => intro p stream x e h; exact h
  | cons y rest ih =>
    intro p stream x e h
    exact ih _ _ x e (Write_cache_stable p stream y x e h)

/-- C18, amended (unique-string dedup).  Strings are compared as C strings, by
their bytes before the first zero byte.  A write of a string for which the cache
holds no equal string emits the flag bit 0 followed by the plain `String`
encoding and records the string with the bit offset at which that encoding
starts.  From then on, whatever is written in between under the policy, every
write of an equal string emits only the flag bit 1 and the u32 variable-width
encoding of the recorded offset (taken modulo `2^32`): at most 38 bits, none of
them from the string's bytes. -/
theorem C18_unique_string_dedup (p : UniqueStringPolicy) (stream later : BitStreamOutput)
    (s s2 : Str) (between : List Str) (hs : stream.WF) (hl : later.WF)
    (hn : p.m_writeCache.find? (fun e => strEq e.1 s) = none) (heq : cstr s2 = cstr s) :
    (p.Write stream s).2 = WriteString (WriteBool stream false) s ∧
    bitAt (p.Write stream s).2.m_output stream.m_nbits = false ∧
    (p.Write stream s).1.m_writeCache = p.m_writeCache ++ [(s, stream.m_nbits + 1)] ∧
    (writeUniqueAll (p.Write stream s).1 (p.Write stream s).2 between).1.Write later s2
      = ((writeUniqueAll (p.Write stream s).1 (p.Write stream s).2 between).1,
          WriteU .U32 (WriteBool later true) ((stream.m_nbits + 1) % 2 ^ 32)) ∧
    bitAt (WriteU .U32 (WriteBool later true) ((stream.m_nbits + 1) % 2 ^ 32)).m_output
      later.m_nbits = true ∧
    (WriteU .U32 (WriteBool later true) ((stream.m_nbits + 1) % 2 ^ 32)).m_nbits
      ≤ later.m_nbits + 38 := by
  have e1 : p.Write stream s
      = ({ p with m_writeCache := p.m_writeCache ++ [(s, stream.m_nbits + 1)] },
          WriteString (WriteBool stream false) s) := Write_of_none p stream s hn
  have hfind : (p.Write stream s).1.m_writeCache.find? (fun e => strEq e.1 s2)
      = some (s, stream.m_nbits + 1) := by
    rw [e1]
    show (p.m_writeCache ++ [(s, stream.m_nbits + 1)]).find? (fun e => strEq e.1 s2) = _
    have hn2 : p.m_writeCache.find? (fun e => strEq e.1 s2) = none := by
      rw [← hn]
      congr 1
      funext e
      exact strEq_trans_right e.1 s2 s heq
    rw [List.find?_append, hn2]
    simp [strEq, heq]
  have hfind2 := writeUniqueAll_cache_stable between _ (p.Write stream s).2 s2 _ hfind
  have hwb : (WriteBool later true).WF := WriteBit_WF later _ hl
  have hmod : (stream.m_nbits + 1) % 2 ^ 32 < 2 ^ UType.U32.bits := Nat.mod_lt _ (by norm_num)
  obtain ⟨w1, w2, w3, _, _⟩ := WriteU_spec .U32 (WriteBool later true) _ hwb hmod
  have hpv := (prefixValue_spec .U32 _ hmod).2.1
  refine ⟨by rw [e1], ?_, by rw [e1], ?_, ?_, ?_⟩
  · rw [e1]
    show bitAt (WriteString (WriteBool stream false) s).m_output stream.m_nbits = false
    have hwf : (WriteBool stream false).WF := WriteBit_WF stream _ hs
    have hu : s.length % 2 ^ 32 < 2 ^ UType.U32.bits := Nat.mod_lt _ (by norm_num)
    obtain ⟨u1, u2, _, _, _⟩ := WriteU_spec .U32 (WriteBool stream false) _ hwf hu
    have u3 := WriteBytesAligned_extends (WriteU .U32 (WriteBool stream false)
      (s.length % 2 ^ 32)) s (s.length % 2 ^ 32) u1
    have hext : Extends (WriteBool stream false) (WriteString (WriteBool stream false) s) :=
      u2.trans u3
    rw [hext.2.2 stream.m_nbits (by rw [WriteBool, WriteBit_nbits]; omega)]
    rw [WriteBool, WriteBit_bitAt stream _ hs]
    simp
  · rw [Write_of_some _ _ _ _ hfind2]
  · rw [w2.2.2 later.m_nbits (by rw [WriteBool, WriteBit_nbits]; omega)]
    rw [WriteBool, WriteBit_bitAt later _ hl]
    simp
  · rw [w3, WriteBool, WriteBit_nbits]
    have : N_PREFIX_BITS UType.U32 = 5 := rfl
    have hb : UType.U32.bits = 32 := rfl
    omega

theorem C18_unique_string_dedup_witness :
    BitStreamOutput.init.WF ∧ (WriteBool BitStreamOutput.init true).WF ∧
    (UniqueStringPolicy.Reset ⟨[], []⟩).m_writeCache.find? (fun e => strEq e.1 [104, 105]) = none ∧
    cstr [104, 105] = cstr [104, 105] ∧
    (writeUniqueAll ((UniqueStringPolicy.Reset ⟨[], []⟩).Write BitStreamOutput.init [104, 105]).1
          ((UniqueStringPolicy.Reset ⟨[], []⟩).Write BitStreamOutput.init [104, 105]).2
          [[120]]).1.Write (WriteBool BitStreamOutput.init true) [104, 105]
      = ((writeUniqueAll
            ((UniqueStringPolicy.Reset ⟨[], []⟩).Write BitStreamOutput.init [104, 105]).1
            ((UniqueStringPolicy.Reset ⟨[], []⟩).Write BitStreamOutput.init [104, 105]).2
            [[120]]).1,
          WriteU .U32 (WriteBool (WriteBool BitStreamOutput.init true) true)
            ((BitStreamOutput.init.m_nbits + 1) % 2 ^ 32)) :=
  ⟨by decide, by decide, rfl, rfl,
    (C18_unique_string_dedup (UniqueStringPolicy.Reset ⟨[], []⟩) BitStreamOutput.init
      (WriteBool BitStreamOutput.init true) [104, 105] [104, 105] [[120]]
      (by decide) (by decide) rfl rfl).2.2.2.1⟩

/-- C19, counterexample.  `"a\0b"` and `"a\0c"` are written under the policy in
one session; both reads return true, and the second yields `"a\0b"`. -/
theorem C19_zero_byte_counterexample :
    (readUniqueAll ⟨[], []⟩
        ⟨(writeUniqueAll ⟨[], []⟩ BitStreamOutput.init [[97, 0, 98], [97, 0, 99]]).2.m_output, 0⟩
        2).1
      = [(true, [97, 0, 98]), (true, [97, 0, 98])] := by
  decide

theorem byte_eq_of_bits (a b : Nat) (ha : a < 256) (hb : b < 256)
    (h : ∀ k, k < 8 → a.testBit (7 - k) = b.testBit (7 - k)) : a = b := by
  apply Nat.eq_of_testBit_eq
  intro i
  by_cases hi : i < 8
  · have := h (7 - i) (by omega)
    rwa [show 7 - (7 - i) = i by omega] at this
  · have h1 : a < 2 ^ i := lt_of_lt_of_le ha (by
      calc 256 = 2 ^ 8 := by norm_num
        _ ≤ 2 ^ i := Nat.pow_le_pow_right (by norm_num) (by omega))
    have h2 : b < 2 ^ i := lt_of_lt_of_le hb (by
      calc 256 = 2 ^ 8 := by norm_num
        _ ≤ 2 ^ i := Nat.pow_le_pow_right (by norm_num) (by omega))
    rw [Nat.testBit_lt_two_pow h1, Nat.testBit_lt_two_pow h2]

theorem byte_of_extends (w t : BitStreamOutput) (he : Extends w t) (hw : IsBytes w.m_output)
    (ht : IsBytes t.m_output) (j : Nat) (hj : 8 * (j + 1) ≤ w.m_nbits) :
    t.m_output.getD j 0 = w.m_output.getD j 0 := by
  apply byte_eq_of_bits _ _ (getD_lt_of_isBytes ht j) (getD_lt_of_isBytes hw j)
  intro k hk
  have := he.2.2 (8 * j + k) (by omega)
  unfold bitAt at this
  rw [show (8 * j + k) / 8 = j by omega, show (8 * j + k) % 8 = k by omega] at this
  exact this

theorem WriteString_facts (s : BitStreamOutput) (x : Str) (hs : s.WF) (hb : IsBytes x)
    (hl : x.length < 2 ^ 32) :
    (WriteString s x).WF ∧ Extends s (WriteString s x) ∧
    Extends (WriteU .U32 s x.length) (WriteString s x) ∧
    (WriteString s x).m_output = (WriteU .U32 s x.length).m_output ++ x ∧
    (WriteString s x).m_nbits
      = (if x.length = 0 then (WriteU .U32 s x.length).m_nbits
          else BITS2BOUNDARY (WriteU .U32 s x.length).m_nbits + 8 * x.length) ∧
    s.m_nbits < (WriteString s x).m_nbits := by
  have hu : x.length < 2 ^ UType.U32.bits := hl
  obtain ⟨w1, w2, w3, _, _⟩ := WriteU_spec .U32 s x.length hs hu
  have hmod : x.length % 2 ^ 32 = x.length := Nat.mod_eq_of_lt hl
  have eW : WriteString s x = WriteBytesAligned (WriteU .U32 s x.length) x x.length := by
    unfold WriteString
    simp only [hmod]
  have x2 := WriteBytesAligned_extends (WriteU .U32 s x.length) x x.length w1
  have x3 := WriteBytesAligned_WF (WriteU .U32 s x.length) x x.length w1 hb (le_refl _)
  rw [← eW] at x2 x3
  have hN : N_PREFIX_BITS UType.U32 = 5 := rfl
  refine ⟨x3, w2.trans x2, x2, ?_, ?_, ?_⟩
  · rw [eW]
    unfold WriteBytesAligned
    split
    · rename_i h
      rw [List.length_eq_zero.mp h]
      simp
    · simp
  · rw [eW]
    unfold WriteBytesAligned
    split
    · rfl
    · show _ + BYTES2BITS _ = _
      rw [BYTES2BITS_eq]
  · have := x2.1
    omega

theorem ReadString_of_extends (s t : BitStreamOutput) (x d : Str) (hs : s.WF) (hb : IsBytes x)
    (hl : x.length < 2 ^ 32) (ht : IsBytes t.m_output) (he : Extends (WriteString s x) t) :
    ReadString ⟨t.m_output, s.m_nbits⟩ d
      = (true, x, ⟨t.m_output, (WriteString s x).m_nbits⟩) := by
  have hu : x.length < 2 ^ UType.U32.bits := hl
  obtain ⟨w1, w2, w3, b1, b2⟩ := WriteU_spec .U32 s x.length hs hu
  obtain ⟨f1, f2, f3, f4, f5, _⟩ := WriteString_facts s x hs hb hl
  have hN : N_PREFIX_BITS UType.U32 = 5 := rfl
  have he1 : Extends (WriteU .U32 s x.length) t := f3.trans he
  have c1 := HasBits.mono b1 (by omega) he1
  have c2 := HasBits.mono b2 (by omega) he1
  have hread := ReadU_of_hasBits .U32 t.m_output ht s.m_nbits x.length hu c1 c2
  rw [← w3] at hread
  unfold ReadString
  simp only []
  rw [hread]
  simp only [if_true]
  by_cases c : x.length = 0
  · rw [if_pos c, f5, if_pos c, List.length_eq_zero.mp c]
  · rw [if_neg c, f5, if_neg c]
    have hlen1 : (WriteU .U32 s x.length).m_output.length
        = BITS2BYTES (WriteU .U32 s x.length).m_nbits := w1.1
    have hlenT : (WriteU .U32 s x.length).m_output.length + x.length ≤ t.m_output.length := by
      have := he.2.1
      rw [f4, List.length_append] at this
      exact this
    have hbytes : (t.m_output.drop (BITS2BYTES (WriteU .U32 s x.length).m_nbits)).take x.length
        = x := by
      apply list_ext_getD
      · rw [List.length_take, List.length_drop]
        omega
      · intro k
        by_cases hk : k < x.length
        · rw [List.getD_eq_getElem?_getD, List.getElem?_take_of_lt hk, List.getElem?_drop,
            ← List.getD_eq_getElem?_getD, ← hlen1]
          have hW : IsBytes (WriteString s x).m_output := f1.2.1
          have := byte_of_extends (WriteString s x) t he hW ht
            ((WriteU .U32 s x.length).m_output.length + k) (by
              rw [f5, if_neg c, BITS2BOUNDARY_eq, hlen1, BITS2BYTES_eq]
              omega)
          rw [this, f4, List.getD_append_right _ _ _ _ (by omega)]
          congr 1
          omega
        · rw [List.getD_eq_default _ _ (by rw [List.length_take, List.length_drop]; omega),
            List.getD_eq_default _ _ (by omega)]
    unfold ReadBytesAligned
    simp only []
    rw [if_neg c, if_neg (show ¬ (BITS2BYTES (WriteU .U32 s x.length).m_nbits + x.length
      > t.m_output.length) by rw [← hlen1]; omega), hbytes]
    simp [BYTES2BITS_eq]

theorem cstr_of_noZero (x : Str) (h : 0 ∉ x) : cstr x = x := by
  unfold cstr
  rw [List.takeWhile_eq_self_iff]
  intro b hb
  have : b ≠ 0 := fun e => h (e ▸ hb)
  simpa using this

theorem find?_readCache (cache : List (Str × Nat)) (e : Str × Nat)
    (hnd : (cache.map (fun e => e.2)).Nodup) (he : e ∈ cache) :
    (cache.map (fun e => (e.2, e.1))).find? (fun r => r.1 == e.2) = some (e.2, e.1) := by
  induction cache with
  | nil => simp at he
  | cons c rest ih =>
    rw [List.map_cons, List.nodup_cons] at hnd
    rcases List.mem_cons.mp he with rfl | he
    · simp
    · have hne : c.2 ≠ e.2 := by
        intro h
        apply hnd.1
        rw [h]
        exact List.mem_map.mpr ⟨e, he, rfl⟩
      have hb : (c.2 == e.2) = false := by simpa using hne
      simp only [List.map_cons, List.find?_cons, hb]
      exact ih hnd.2 he

theorem any_readCache (cache : List (Str × Nat)) (n : Nat) (h : ∀ e ∈ cache, e.2 ≤ n ∧ 0 ∉ e.1) :
    (cache.map (fun e => (e.2, e.1))).any (fun r => r.1 == n + 1) = false := by
  rw [List.any_eq_false]
  intro r hr
  obtain ⟨e, he, rfl⟩ := List.mem_map.mp hr
  have := (h e he).1
  simp
  omega

theorem ReadBool_of_extends (s w t : BitStreamOutput) (flag : Bool) (hs : s.WF)
    (hw : w.WF) (h1 : Extends (WriteBool s flag) w) (h2 : Extends w t) :
    ReadBool ⟨t.m_output, s.m_nbits⟩ = (true, flag, ⟨t.m_output, s.m_nbits + 1⟩) := by
  have hn : (WriteBool s flag).m_nbits = s.m_nbits + 1 := rfl
  have hlt : s.m_nbits < w.m_nbits := by have := h1.1; omega
  have hlen : s.m_nbits + 1 ≤ t.m_output.length * 8 := by
    have a := WF.le_length hw
    have b := h2.2.1
    omega
  have hbit : bitAt t.m_output s.m_nbits = flag := by
    rw [h2.2.2 _ hlt, h1.2.2 _ (by omega), WriteBool, WriteBit_bitAt s _ hs]
    cases flag <;> simp
  unfold ReadBool
  rw [ReadBit_spec _ _ _ hlen, hbit]
  cases flag <;> rfl

theorem unique_step (pw pr : UniqueStringPolicy) (s : BitStreamOutput) (x d : Str)
    (hs : s.WF) (hw : WriteInv pw.m_writeCache s.m_nbits)
    (hr : CacheInv pw.m_writeCache pr.m_readCache) (hx : TextString x) :
    (pw.Write s x).2.WF ∧ Extends s (pw.Write s x).2 ∧ s.m_nbits < (pw.Write s x).2.m_nbits ∧
    WriteInv (pw.Write s x).1.m_writeCache (pw.Write s x).2.m_nbits ∧
    ∀ t : BitStreamOutput, IsBytes t.m_output → Extends (pw.Write s x).2 t →
      s.m_nbits < 2 ^ 32 →
      ∃ pr1, pr.Read ⟨t.m_output, s.m_nbits⟩ d
          = (true, x, pr1, ⟨t.m_output, (pw.Write s x).2.m_nbits⟩) ∧
        CacheInv (pw.Write s x).1.m_writeCache pr1.m_readCache := by
  obtain ⟨hoff, hnd⟩ := hw
  obtain ⟨hxb, hxz, hxl⟩ := hx
  unfold CacheInv at hr
  cases hf : pw.m_writeCache.find? (fun e => strEq e.1 x) with
  | some e =>
    rw [Write_of_some pw s x e hf]
    dsimp only
    have hmem : e ∈ pw.m_writeCache := List.mem_of_find?_eq_some hf
    have hex : e.1 = x := by
      have h := List.find?_some hf
      simp only [strEq, decide_eq_true_eq] at h
      rw [cstr_of_noZero _ (hoff e hmem).2, cstr_of_noZero _ hxz] at h
      exact h
    have hwb : (WriteBool s true).WF := WriteBit_WF s _ hs
    have hwbn : (WriteBool s true).m_nbits = s.m_nbits + 1 := rfl
    have hwbe : Extends s (WriteBool s true) := WriteBit_extends s _ hs
    have hmod : e.2 % 2 ^ 32 < 2 ^ UType.U32.bits := Nat.mod_lt _ (by norm_num)
    obtain ⟨w1, w2, w3, b1, b2⟩ := WriteU_spec .U32 (WriteBool s true) _ hwb hmod
    refine ⟨w1, hwbe.trans w2, by have := w2.1; omega,
      ⟨fun e' he' => ⟨?_, (hoff e' he').2⟩, hnd⟩, ?_⟩
    · have := (hoff e' he').1
      have := w2.1
      omega
    intro t ht het hlt
    have he2 : e.2 % 2 ^ 32 = e.2 := Nat.mod_eq_of_lt (by have := (hoff e hmem).1; omega)
    rw [he2] at w1 w2 w3 b1 b2 het ⊢
    have hu : e.2 < 2 ^ UType.U32.bits := by rw [← he2]; exact hmod
    have hN : N_PREFIX_BITS UType.U32 = 5 := rfl
    have c1 := HasBits.mono b1 (by omega) het
    have c2 := HasBits.mono b2 (by omega) het
    have hread := ReadU_of_hasBits .U32 t.m_output ht (s.m_nbits + 1) e.2 hu c1 c2
    rw [hwbn] at w3
    rw [← w3] at hread
    refine ⟨pr, ?_, hr⟩
    unfold UniqueStringPolicy.Read
    simp only []
    rw [ReadBool_of_extends s _ t true hs w1 w2 het]
    simp only [if_true]
    rw [hread]
    simp only [if_true]
    rw [hr, find?_readCache _ e hnd hmem, hex]
  | none =>
    rw [Write_of_none pw s x hf]
    dsimp only
    have hwb : (WriteBool s false).WF := WriteBit_WF s _ hs
    have hwbn : (WriteBool s false).m_nbits = s.m_nbits + 1 := rfl
    have hwbe : Extends s (WriteBool s false) := WriteBit_extends s _ hs
    obtain ⟨f1, f2, _, _, _, f6⟩ := WriteString_facts (WriteBool s false) x hwb hxb hxl
    refine ⟨f1, hwbe.trans f2, by omega, ⟨?_, ?_⟩, ?_⟩
    · intro e he
      rcases List.mem_append.mp he with he | he
      · have := (hoff e he).1
        exact ⟨by omega, (hoff e he).2⟩
      · rw [List.mem_singleton.mp he]
        exact ⟨by show s.m_nbits + 1 ≤ _; omega, hxz⟩
    · rw [List.map_append, List.nodup_append]
      refine ⟨hnd, by simp, ?_⟩
      intro a ha hb
      simp only [List.map_cons, List.map_nil, List.mem_singleton] at hb
      obtain ⟨e, he, rfl⟩ := List.mem_map.mp ha
      have := (hoff e he).1
      omega
    intro t ht het hlt
    have hrs := ReadString_of_extends (WriteBool s false) t x d hwb hxb hxl ht het
    rw [hwbn] at hrs
    refine ⟨{ pr with m_readCache := pr.m_readCache ++ [(s.m_nbits + 1, x)] }, ?_, ?_⟩
    · unfold UniqueStringPolicy.Read
      simp only []
      rw [ReadBool_of_extends s _ t false hs f1 f2 het]
      simp only [Bool.false_eq_true, if_false, if_true, BitStreamInput.GetBitOffset]
      rw [hrs]
      simp only [if_true]
      unfold readCacheEmplace
      rw [hr, any_readCache _ _ hoff]
      simp
    · show pr.m_readCache ++ [(s.m_nbits + 1, x)] = _
      rw [hr]
      simp

theorem readUniqueAll_succ (p : UniqueStringPolicy) (s : BitStreamInput) (n : Nat) :
    readUniqueAll p s (n + 1)
      = (((p.Read s []).1, (p.Read s []).2.1)
            :: (readUniqueAll (p.Read s []).2.2.1 (p.Read s []).2.2.2 n).1,
          (readUniqueAll (p.Read s []).2.2.1 (p.Read s []).2.2.2 n).2) := rfl

theorem writeUniqueAll_spec :
    ∀ (strs : List Str) (pw pr : UniqueStringPolicy) (s : BitStreamOutput), s.WF →
      WriteInv pw.m_writeCache s.m_nbits → CacheInv pw.m_writeCache pr.m_readCache →
      (∀ x ∈ strs, TextString x) →
      (writeUniqueAll pw s strs).2.WF ∧ Extends s (writeUniqueAll pw s strs).2 ∧
      ∀ t : BitStreamOutput, IsBytes t.m_output → Extends (writeUniqueAll pw s strs).2 t →
        (writeUniqueAll pw s strs).2.m_nbits ≤ 2 ^ 32 →
        (readUniqueAll pr ⟨t.m_output, s.m_nbits⟩ strs.length).1 = strs.map (fun x => (true, x)) ∧
        (readUniqueAll pr ⟨t.m_output, s.m_nbits⟩ strs.length).2.2
          = ⟨t.m_output, (writeUniqueAll pw s strs).2.m_nbits⟩ := by
  intro strs
  induction strs with
  | nil =>
    intro pw pr s hs _ _ _
    exact ⟨hs, Extends.refl s, fun t _ _ _ => ⟨rfl, rfl⟩⟩
  | cons x rest ih =>
    intro pw pr s hs hw hr hx
    obtain ⟨u1, u2, u3, u4, u5⟩ :=
      unique_step pw pr s x [] hs hw hr (hx x (List.mem_cons_self _ _))
    have hrest : ∀ y ∈ rest, TextString y := fun y hy => hx y (List.mem_cons_of_mem _ hy)
    have e : writeUniqueAll pw s (x :: rest)
        = writeUniqueAll (pw.Write s x).1 (pw.Write s x).2 rest := rfl
    rw [e]
    obtain ⟨v1, v2, _⟩ := ih (pw.Write s x).1
      ⟨(pw.Write s x).1.m_writeCache.map (fun (e : Str × Nat) => (e.2, e.1)), []⟩
      (pw.Write s x).2 u1 u4 (by unfold CacheInv; rfl) hrest
    refine ⟨v1, u2.trans v2, ?_⟩
    intro t ht het hle
    have hlt : s.m_nbits < 2 ^ 32 := by have := v2.1; omega
    obtain ⟨pr1, r1, r2⟩ := u5 t ht (v2.trans het) hlt
    obtain ⟨_, _, v3⟩ := ih (pw.Write s x).1 pr1 (pw.Write s x).2 u1 u4 r2 hrest
    obtain ⟨z1, z2⟩ := v3 t ht het hle
    have e2 : readUniqueAll pr ⟨t.m_output, s.m_nbits⟩ (x :: rest).length
        = ((true, x) :: (readUniqueAll pr1 ⟨t.m_output, (pw.Write s x).2.m_nbits⟩ rest.length).1,
            (readUniqueAll pr1 ⟨t.m_output, (pw.Write s x).2.m_nbits⟩ rest.length).2) := by
      show readUniqueAll pr ⟨t.m_output, s.m_nbits⟩ (rest.length + 1) = _
      rw [readUniqueAll_succ, r1]
    rw [e2]
    exact ⟨by rw [List.map_cons]; exact congrArg _ z1, z2⟩

/-- C19, amended (unique-string round trip).  For every finite sequence of
strings (with repetitions) none of which holds a zero byte, written in one
session under the `unique` policy to a stream that stays within `2^32` bits:
reading the same number of strings under the policy from the produced buffer at
the writer's first offset, in a fresh session, returns true each time, yields
position by position the string written, and ends at the writer's last
offset. -/
theorem C19_unique_round_trip (s : BitStreamOutput) (strs : List Str) (hs : s.WF)
    (hx : ∀ x ∈ strs, TextString x)
    (hn : (writeUniqueAll ⟨[], []⟩ s strs).2.m_nbits ≤ 2 ^ 32) :
    (readUniqueAll ⟨[], []⟩ ⟨(writeUniqueAll ⟨[], []⟩ s strs).2.m_output, s.m_nbits⟩
        strs.length).1 = strs.map (fun x => (true, x)) ∧
    (readUniqueAll ⟨[], []⟩ ⟨(writeUniqueAll ⟨[], []⟩ s strs).2.m_output, s.m_nbits⟩
        strs.length).2.2
      = ⟨(writeUniqueAll ⟨[], []⟩ s strs).2.m_output,
          (writeUniqueAll ⟨[], []⟩ s strs).2.m_nbits⟩ := by
  obtain ⟨v1, _, v3⟩ := writeUniqueAll_spec strs ⟨[], []⟩ ⟨[], []⟩ s hs
    ⟨fun e he => by simp at he, by simp⟩ rfl hx
  exact v3 _ v1.2.1 (Extends.refl _) hn

theorem C19_unique_round_trip_witness :
    (WriteBool BitStreamOutput.init true).WF ∧
    (∀ x ∈ [[104, 105], [120], [104, 105]], TextString x) ∧
    (writeUniqueAll ⟨[], []⟩ (WriteBool BitStreamOutput.init true)
        [[104, 105], [120], [104, 105]]).2.m_nbits ≤ 2 ^ 32 ∧
    (readUniqueAll ⟨[], []⟩
        ⟨(writeUniqueAll ⟨[], []⟩ (WriteBool BitStreamOutput.init true)
            [[104, 105], [120], [104, 105]]).2.m_output,
          (WriteBool BitStreamOutput.init true).m_nbits⟩
        [[104, 105], [120], [104, 105]].length).1
      = [[104, 105], [120], [104, 105]].map (fun x => (true, x)) :=
  ⟨by decide, by decide, by decide,
    (C19_unique_round_trip (WriteBool BitStreamOutput.init true) [[104, 105], [120], [104, 105]]
      (by decide) (by decide) (by decide)).1⟩

/-! ## C20: Variant round trip -/

theorem fieldBytes_singleton (buffer : List Nat) (a b n : Nat) (hn : 0 < n) :
    fieldBytes buffer [a] n = fieldBytes buffer [b] n := by
  have h : 0 < BITS2BYTES n := by rw [BITS2BYTES_eq]; omega
  unfold fieldBytes
  simp [h]

/-- A `U8` is one byte: reading it does not depend on the value the variable
held before. -/
theorem ReadU_U8_of_hasBits (input : Buffer) (hb : IsBytes input) (m u d : Nat)
    (hu : u < 2 ^ UType.U8.bits)
    (h1 : HasBits input m [prefixValue .U8 u] (N_PREFIX_BITS .U8))
    (h2 : HasBits input (m + N_PREFIX_BITS .U8) (toBytes UType.U8.bits u)
      (prefixValue .U8 u + 1)) :
    ReadU .U8 ⟨input, m⟩ d =
      (true, u, ⟨input, m + N_PREFIX_BITS .U8 + (prefixValue .U8 u + 1)⟩) := by
  have h0 := ReadU_of_hasBits .U8 input hb m u hu h1 h2
  have hv := prefixValue_spec .U8 u hu
  have hp := prefix_spec UType.U8
  rw [← h0]
  unfold ReadU
  rw [ReadBits_of_hasBits input hb m _ _ _ hp.1 h1]
  have e : (fieldBytes [prefixValue .U8 u] [0] (N_PREFIX_BITS .U8)).getD 0 0
      = prefixValue .U8 u := by
    rw [fieldBytes_getD, if_pos ⟨by rw [BITS2BYTES_eq]; omega, by simp⟩]
    unfold nbitsIn
    rw [min_eq_right (by omega)]
    simpa using Nat.mod_eq_of_lt hv.1
  simp only [if_true, e]
  unfold ReadUN
  simp only [IsBigEndian]
  rw [if_neg (show ¬ prefixValue .U8 u + 1 > UType.U8.bits by omega),
    ReadBits_of_hasBits input hb _ _ _ (toBytes UType.U8.bits d) (by omega) h2,
    ReadBits_of_hasBits input hb _ _ _ (toBytes UType.U8.bits 0) (by omega) h2]
  have t : ∀ y, toBytes UType.U8.bits y = [y % 256] := fun y => by
    simp [toBytes, UType.bits, List.range_succ]
  rw [t d, t 0, fieldBytes_singleton _ (d % 256) (0 % 256) _ (by omega)]

theorem TypeListApplyAt_of_get {α β : Type} (f : α → β → β) (st : β) :
    ∀ (l : List α) (i : Nat) (a : α), l[i]? = some a → TypeListApplyAt l i f st = f a st := by
  intro l
  induction l with
  | nil => intro i a h; simp at h
  | cons hd tl ih =>
    intro i a h
    cases i with
    | zero =>
      simp only [List.getElem?_cons_zero, Option.some.injEq] at h
      subst h
      rfl
    | succ n =>
      simp only [List.getElem?_cons_succ] at h
      show (if n + 1 = 0 then f hd st else TypeListApplyAt tl (n + 1 - 1) f st) = _
      rw [if_neg (by omega)]
      exact ih n a h

/-- C20 (Variant round trip).  For a type list `alts` of fewer than 256 types
whose type of index `i` is `a`, a Variant holding the alternative of index `i`
with value `x`, and a writer state `s` reached from an empty buffer: if the
alternative's own `Serialize` in write mode, started behind the tag, returns
true, appends to the stream (leaving `s2`), and in read mode, from the produced
buffer behind the tag into a freshly constructed `a`, returns true with `x`,
then `Variant::Serialize` in write mode returns true and emits the tag `i` as a
u8 followed by the alternative's own encoding, and in read mode on the produced
buffer, on a Variant in any prior state, returns true and leaves a Variant of
index `i` holding `x`. -/
theorem C20_variant_round_trip {V : Type} (alts : List (Alternative V)) (a : Alternative V)
    (i : Nat) (x x1 : V) (s s2 : BitStreamOutput) (rest : BitStreamInput)
    (hcount : alts.length < 256) (hi : alts[i]? = some a) (hs : s.WF)
    (hw : a.Serialize (.output (WriteU .U8 s i)) x = (true, x1, .output s2))
    (he : Extends (WriteU .U8 s i) s2) (hb : IsBytes s2.m_output)
    (hr : a.Serialize (.input ⟨s2.m_output, (WriteU .U8 s i).m_nbits⟩) a.construct
      = (true, x, .input rest)) :
    Variant.Serialize alts ⟨x, i⟩ (.output s) = (true, ⟨x1, i⟩, .output s2) ∧
    ∀ prior : Variant V,
      Variant.Serialize alts prior (.input ⟨s2.m_output, s.m_nbits⟩)
        = (true, ⟨x, i⟩, .input rest) := by
  have hlt : i < alts.length := by
    by_contra hc
    rw [List.getElem?_eq_none (by omega)] at hi
    cases hi
  have hmod : i % 256 = i := Nat.mod_eq_of_lt (by omega)
  have hu : i < 2 ^ UType.U8.bits := by
    show i < 2 ^ 8
    omega
  obtain ⟨_, _, w3, b1, b2⟩ := WriteU_spec .U8 s i hs hu
  constructor
  · unfold Variant.Serialize
    simp only [SerializeU8, hmod, ISerializationType.IsReading, Bool.not_true,
      Bool.false_eq_true, if_false]
    rw [TypeListApplyAt_of_get _ _ alts i a hi]
    unfold Variant.Serializer
    simp only [hw]
  · intro prior
    have c1 := HasBits.mono b1 (by omega) he
    have c2 := HasBits.mono b2 (by omega) he
    have hread := ReadU_U8_of_hasBits s2.m_output hb s.m_nbits i (prior.m_index % 256) hu c1 c2
    rw [← w3] at hread
    unfold Variant.Serialize
    simp only [SerializeU8, hread, ISerializationType.IsReading, Bool.not_true,
      Bool.false_eq_true, if_false, if_true]
    rw [TypeListApplyAt_of_get _ _ alts i a hi]
    show TypeListApplyAt alts i Variant.Serializer _ = _
    rw [TypeListApplyAt_of_get _ _ alts i a hi]
    unfold Variant.Serializer Variant.Constructor
    simp only [hr]

theorem C20_variant_round_trip_witness :
    exampleTypes.length < 256 ∧ exampleTypes[1]? = some exampleI64 ∧
    (WriteBool BitStreamOutput.init true).WF ∧
    Variant.Serialize exampleTypes ⟨.i64 (-300), 1⟩ (.output (WriteBool BitStreamOutput.init true))
      = (true, ⟨.i64 (-300), 1⟩,
          .output (WriteI .U64 (WriteU .U8 (WriteBool BitStreamOutput.init true) 1) (-300))) ∧
    Variant.Serialize exampleTypes ⟨.string [104, 105], 0⟩
        (.input ⟨(WriteI .U64 (WriteU .U8 (WriteBool BitStreamOutput.init true) 1)
          (-300)).m_output, (WriteBool BitStreamOutput.init true).m_nbits⟩)
      = (true, ⟨.i64 (-300), 1⟩,
          .input ⟨(WriteI .U64 (WriteU .U8 (WriteBool BitStreamOutput.init true) 1)
            (-300)).m_output,
            (WriteI .U64 (WriteU .U8 (WriteBool BitStreamOutput.init true) 1) (-300)).m_nbits⟩) :=
  have h := C20_variant_round_trip exampleTypes exampleI64 1 (.i64 (-300)) (.i64 (-300))
    (WriteBool BitStreamOutput.init true)
    (WriteI .U64 (WriteU .U8 (WriteBool BitStreamOutput.init true) 1) (-300))
    ⟨(WriteI .U64 (WriteU .U8 (WriteBool BitStreamOutput.init true) 1) (-300)).m_output,
      (WriteI .U64 (WriteU .U8 (WriteBool BitStreamOutput.init true) 1) (-300)).m_nbits⟩
    (by decide) rfl (by decide) rfl (by decide) (by decide) (by decide)
  ⟨by decide, rfl, by decide, h.1, h.2 ⟨.string [104, 105], 0⟩⟩

/-! ## C24: the wire layout of the variable-width unsigned write -/

theorem prefixValue_eq_max (U : UType) (u : Nat) (hu : u < 2 ^ U.bits) :
    prefixValue U u = max 1 (GetNumEffectiveBits U u) - 1 := by
  unfold prefixValue
  by_cases c : u = 0
  · subst c
    rw [if_pos rfl]
    cases U <;> rfl
  · rw [if_neg c]
    obtain ⟨h1, _, h3⟩ := effSpec U u hu
    have h4 := h3 c
    have hb := bits_pos U
    omega

theorem payloadBit_lt (n j : Nat) (hj : j < n) : payloadBit n j < n := by
  unfold payloadBit nbitsIn
  have : 8 * (j / 8) + j % 8 = j := Nat.div_add_mod j 8
  omega

theorem srcBit_toBytes (w u n j : Nat) (hj : j < n) (hn : n ≤ w) (hw : w % 8 = 0) :
    srcBit (toBytes w u) n j = u.testBit (payloadBit n j) := by
  unfold srcBit payloadBit
  have hk : j / 8 < w / 8 := by omega
  have hlt : nbitsIn n (j / 8) - 1 - j % 8 < 8 := by unfold nbitsIn; omega
  rw [toBytes_getD, if_pos hk]
  simp only [hj, decide_True, Bool.true_and]
  rw [show (256 : Nat) = 2 ^ 8 by norm_num, Nat.testBit_mod_two_pow, Nat.testBit_shiftRight]
  simp [hlt]

theorem srcBit_singleton (v p j : Nat) (hj : j < p) (hp : p ≤ 8) :
    srcBit [v] p j = v.testBit (p - 1 - j) := by
  unfold srcBit nbitsIn
  have h0 : j / 8 = 0 := by omega
  have h1 : j % 8 = j := by omega
  simp [hj, h0, h1]
  congr 1
  omega

/-- C24 (variable-width wire layout).  For each unsigned type `U` (widths 8, 16,
32, 64 with prefix sizes `p` = 3, 4, 5, 6), every value `u` of the type and every
writer state reached from an empty buffer, with `e = GetNumEffectiveBits (u)` and
`n = max (1, e)`: `Write (u)` appends exactly `p + n` bits; the first `p` of them
are the number `n - 1`, most significant bit first; the next `n` are bits of `u`
at positions below `n`, which hold all of `u` (`u < 2^n`), the bytes of `u` going
out least significant first; no bit written before the call is changed.  The
value 0 takes `p + 1` bits, its one payload bit being 0. -/
theorem C24_variable_width_layout (U : UType) (s : BitStreamOutput) (u : Nat)
    (hs : s.WF) (hu : u < 2 ^ U.bits) :
    (N_PREFIX_BITS .U8 = 3 ∧ N_PREFIX_BITS .U16 = 4 ∧ N_PREFIX_BITS .U32 = 5 ∧
      N_PREFIX_BITS .U64 = 6) ∧
    (WriteU U s u).m_nbits
      = s.m_nbits + (N_PREFIX_BITS U + max 1 (GetNumEffectiveBits U u)) ∧
    (∀ j, j < N_PREFIX_BITS U →
      bitAt (WriteU U s u).m_output (s.m_nbits + j)
        = (max 1 (GetNumEffectiveBits U u) - 1).testBit (N_PREFIX_BITS U - 1 - j)) ∧
    (∀ j, j < max 1 (GetNumEffectiveBits U u) →
      bitAt (WriteU U s u).m_output (s.m_nbits + N_PREFIX_BITS U + j)
        = u.testBit (payloadBit (max 1 (GetNumEffectiveBits U u)) j) ∧
      payloadBit (max 1 (GetNumEffectiveBits U u)) j < max 1 (GetNumEffectiveBits U u)) ∧
    u < 2 ^ max 1 (GetNumEffectiveBits U u) ∧
    (∀ i, i < s.m_nbits → bitAt (WriteU U s u).m_output i = bitAt s.m_output i) ∧
    (u = 0 → (WriteU U s u).m_nbits = s.m_nbits + (N_PREFIX_BITS U + 1) ∧
      bitAt (WriteU U s u).m_output (s.m_nbits + N_PREFIX_BITS U) = false) := by
  have hp := prefix_spec U
  have hv := prefixValue_spec U u hu
  have hb := bits_pos U
  have hm := prefixValue_eq_max U u hu
  have hn : prefixValue U u + 1 = max 1 (GetNumEffectiveBits U u) := by omega
  obtain ⟨_, w2, w3, b1, b2⟩ := WriteU_spec U s u hs hu
  rw [hn] at w3 b2 hv
  have hpay : ∀ j, j < max 1 (GetNumEffectiveBits U u) →
      bitAt (WriteU U s u).m_output (s.m_nbits + N_PREFIX_BITS U + j)
        = u.testBit (payloadBit (max 1 (GetNumEffectiveBits U u)) j) := by
    intro j hj
    rw [b2.2 j hj, srcBit_toBytes _ _ _ _ hj hv.2.1 hb.2.1]
  refine ⟨⟨rfl, rfl, rfl, rfl⟩, by rw [w3]; omega, ?_, ?_, hv.2.2, w2.2.2, ?_⟩
  · intro j hj
    rw [b1.2 j hj, srcBit_singleton _ _ _ hj hp.2.1, hm]
  · intro j hj
    exact ⟨hpay j hj, payloadBit_lt _ _ hj⟩
  · intro h0
    subst h0
    have e0 : GetNumEffectiveBits U 0 = 0 := by cases U <;> rfl
    have e1 : max 1 (GetNumEffectiveBits U 0) = 1 := by rw [e0]; rfl
    rw [e1] at w3 hpay
    refine ⟨by rw [w3]; omega, ?_⟩
    have := hpay 0 (by omega)
    simpa using this

theorem C24_variable_width_layout_witness :
    (WriteBool BitStreamOutput.init true).WF ∧ (300 : Nat) < 2 ^ UType.U16.bits ∧
    (WriteU .U16 (WriteBool BitStreamOutput.init true) 300).m_nbits
      = (WriteBool BitStreamOutput.init true).m_nbits
          + (N_PREFIX_BITS .U16 + max 1 (GetNumEffectiveBits .U16 300)) ∧
    GetNumEffectiveBits .U16 300 = 9 ∧
    (WriteU .U16 (WriteBool BitStreamOutput.init true) 300).m_output = [193, 100] :=
  ⟨by decide, by decide,
    (C24_variable_width_layout .U16 (WriteBool BitStreamOutput.init true) 300
      (by decide) (by decide)).2.1, by decide, by decide⟩

/-! ## C22: fixed-width signed round trip with clipping -/

theorem toSigned_toUnsigned (w : Nat) (i : Int) (hw : 0 < w)
    (h1 : -(2 ^ (w - 1) : Int) ≤ i) (h2 : i < 2 ^ (w - 1)) :
    toSigned w (toUnsigned w i) = i := by
  have hp : (2 : Int) ^ w = 2 * 2 ^ (w - 1) := by
    rw [← pow_succ']
    congr 1
    omega
  have hpos : (0 : Int) < 2 ^ (w - 1) := by positivity
  have hpn : ((2 ^ w : Nat) : Int) = 2 ^ w := by push_cast; rfl
  have hpn1 : ((2 ^ (w - 1) : Nat) : Int) = 2 ^ (w - 1) := by push_cast; rfl
  unfold toSigned toUnsigned
  have hnn : 0 ≤ i % 2 ^ w := Int.emod_nonneg _ (by positivity)
  have hlt : i % 2 ^ w < 2 ^ w := Int.emod_lt_of_pos _ (by positivity)
  have hcast : (((i % 2 ^ w).toNat : Nat) : Int) = i % 2 ^ w := Int.toNat_of_nonneg hnn
  have hlt2 : (i % 2 ^ w).toNat < 2 ^ w := by
    have : (((i % 2 ^ w).toNat : Nat) : Int) < ((2 ^ w : Nat) : Int) := by rw [hcast, hpn]; exact hlt
    exact_mod_cast this
  rw [Nat.mod_eq_of_lt hlt2]
  by_cases c : 0 ≤ i
  · have e : i % 2 ^ w = i := Int.emod_eq_of_lt c (by omega)
    have hl : (i % 2 ^ w).toNat < 2 ^ (w - 1) := by
      have : (((i % 2 ^ w).toNat : Nat) : Int) < ((2 ^ (w - 1) : Nat) : Int) := by
        rw [hcast, hpn1, e]; exact h2
      exact_mod_cast this
    rw [if_pos hl, hcast, e]
  · have e : i % 2 ^ w = i + 2 ^ w := by
      rw [← Int.add_emod_self]
      exact Int.emod_eq_of_lt (by omega) (by omega)
    have hl : ¬ (i % 2 ^ w).toNat < 2 ^ (w - 1) := by
      intro hc
      have : (((i % 2 ^ w).toNat : Nat) : Int) < ((2 ^ (w - 1) : Nat) : Int) := by
        exact_mod_cast hc
      rw [hcast, hpn1, e] at this
      omega
    rw [if_neg hl, hcast, e]
    ring

theorem toUnsigned_of_nonneg (w : Nat) (i : Int) (h0 : 0 ≤ i) (h1 : i < 2 ^ w) :
    toUnsigned w i = i.toNat := by
  unfold toUnsigned
  rw [Int.emod_eq_of_lt h0 h1]

/-- The members of the conversion for `1 ≤ nbits ≤` width. -/
theorem SignedIntegralConversion.new_eq (U : UType) (nbits : Nat) (h1 : 1 ≤ nbits)
    (h2 : nbits ≤ U.bits) :
    SignedIntegralConversion.new U nbits
      = ⟨2 ^ (nbits - 1) - 1, -(2 ^ (nbits - 1) : Int)⟩ := by
  have hb := bits_pos U
  have hle : (2 : Int) ^ (nbits - 1) ≤ 2 ^ (U.bits - 1) :=
    pow_le_pow_right₀ (by norm_num) (by omega)
  have hpos : (0 : Int) < 2 ^ (nbits - 1) := by positivity
  have e1 : (((1 <<< (nbits - 1) : Nat) : Int)) = 2 ^ (nbits - 1) := by
    rw [Nat.shiftLeft_eq, one_mul]
    push_cast
    rfl
  unfold SignedIntegralConversion.new
  simp only [e1]
  rw [toSigned_toUnsigned U.bits _ (by omega) (by omega) (by omega)]
  rw [toSigned_toUnsigned U.bits _ (by omega) (by omega) (by omega)]
  congr 1
  ring

theorem clip_range (nbits : Nat) (x : Int) :
    -(2 ^ (nbits - 1) : Int) ≤ clip nbits x ∧ clip nbits x ≤ 2 ^ (nbits - 1) - 1 := by
  have hpos : (0 : Int) < 2 ^ (nbits - 1) := by positivity
  unfold clip
  constructor
  · exact le_max_left _ _
  · apply max_le
    · omega
    · exact min_le_left _ _

theorem clip_eq_ite (nbits : Nat) (x : Int) :
    (if x < -(2 ^ (nbits - 1) : Int) then -(2 ^ (nbits - 1) : Int)
      else if x > 2 ^ (nbits - 1) - 1 then 2 ^ (nbits - 1) - 1 else x) = clip nbits x := by
  have hpos : (0 : Int) < 2 ^ (nbits - 1) := by positivity
  unfold clip
  split
  · rw [min_eq_right (by omega), max_eq_left (by omega)]
  · split
    · rw [min_eq_left (by omega), max_eq_right (by omega)]
    · rw [min_eq_right (by omega), max_eq_right (by omega)]

/-- C22 (fixed-width signed round trip with clipping).  For the signed type of
each width `w` (8, 16, 32, 64), every `nbits` with `1 ≤ nbits ≤ w`, every value `x`
(of the type, or any integer) and every writer state reached from an empty buffer, with
`MIN = -2^(nbits-1)`, `MAX = 2^(nbits-1) - 1` and `x'` the value `x` clipped to
`[MIN, MAX]`: `Write (x, nbits)` is the unsigned fixed-width write of `x' - MIN`,
a number below `2^nbits`; it appends exactly `nbits` bits, which hold that number,
and changes no bit written before; `Read (., nbits)` at the writer's old offset
returns true, yields `x'` and ends at the writer's offset; and `x' = x` whenever
`MIN ≤ x ≤ MAX`. -/
theorem C22_fixed_width_signed (U : UType) (s : BitStreamOutput) (x i0 : Int) (nbits : Nat)
    (hs : s.WF) (h1 : 1 ≤ nbits) (h2 : nbits ≤ U.bits) :
    WriteIN U s x nbits
      = WriteUN U s (clip nbits x - -(2 ^ (nbits - 1) : Int)).toNat nbits ∧
    (0 ≤ clip nbits x - -(2 ^ (nbits - 1) : Int) ∧
      (clip nbits x - -(2 ^ (nbits - 1) : Int)).toNat < 2 ^ nbits) ∧
    (WriteIN U s x nbits).m_nbits = s.m_nbits + nbits ∧
    HasBits (WriteIN U s x nbits).m_output s.m_nbits
      (toBytes U.bits (clip nbits x - -(2 ^ (nbits - 1) : Int)).toNat) nbits ∧
    Extends s (WriteIN U s x nbits) ∧
    ReadIN U ⟨(WriteIN U s x nbits).m_output, s.m_nbits⟩ i0 nbits
      = (true, clip nbits x, ⟨(WriteIN U s x nbits).m_output, (WriteIN U s x nbits).m_nbits⟩) ∧
    (-(2 ^ (nbits - 1) : Int) ≤ x → x ≤ 2 ^ (nbits - 1) - 1 → clip nbits x = x) := by
  have hb := bits_pos U
  have hc := clip_range nbits x
  have hpos : (0 : Int) < 2 ^ (nbits - 1) := by positivity
  have hp : (2 : Int) ^ nbits = 2 * 2 ^ (nbits - 1) := by
    rw [← pow_succ']
    congr 1
    omega
  have hle : (2 : Int) ^ nbits ≤ 2 ^ U.bits := pow_le_pow_right₀ (by norm_num) h2
  have hnew := SignedIntegralConversion.new_eq U nbits h1 h2
  have hd0 : 0 ≤ clip nbits x - -(2 ^ (nbits - 1) : Int) := by omega
  have hdlt : clip nbits x - -(2 ^ (nbits - 1) : Int) < 2 ^ nbits := by omega
  have hcast : (((clip nbits x - -(2 ^ (nbits - 1) : Int)).toNat : Nat) : Int)
      = clip nbits x - -(2 ^ (nbits - 1) : Int) := Int.toNat_of_nonneg hd0
  have hnat : (clip nbits x - -(2 ^ (nbits - 1) : Int)).toNat < 2 ^ nbits := by
    have : (((clip nbits x - -(2 ^ (nbits - 1) : Int)).toNat : Nat) : Int)
        < ((2 ^ nbits : Nat) : Int) := by
      rw [hcast]; push_cast; exact hdlt
    exact_mod_cast this
  have hu : (SignedIntegralConversion.new U nbits).SignedToUnsigned U x
      = (clip nbits x - -(2 ^ (nbits - 1) : Int)).toNat := by
    rw [hnew]
    unfold SignedIntegralConversion.SignedToUnsigned
    simp only []
    rw [clip_eq_ite]
    exact toUnsigned_of_nonneg _ _ hd0 (by omega)
  have hW : WriteIN U s x nbits
      = WriteUN U s (clip nbits x - -(2 ^ (nbits - 1) : Int)).toNat nbits := by
    unfold WriteIN
    simp only []
    rw [hu]
  obtain ⟨w1, w2, w3, w4⟩ := WriteUN_spec U s (clip nbits x - -(2 ^ (nbits - 1) : Int)).toNat
    nbits hs (by omega) h2
  have hback : (SignedIntegralConversion.new U nbits).UnsignedToSigned U
      (clip nbits x - -(2 ^ (nbits - 1) : Int)).toNat = clip nbits x := by
    rw [hnew]
    unfold SignedIntegralConversion.UnsignedToSigned
    simp only []
    have hsum : (toUnsigned U.bits (-(2 ^ (nbits - 1) : Int))
        + (clip nbits x - -(2 ^ (nbits - 1) : Int)).toNat) % 2 ^ U.bits
        = toUnsigned U.bits (clip nbits x) := by
      unfold toUnsigned
      have hm : (0 : Int) ≤ (-(2 ^ (nbits - 1) : Int)) % 2 ^ U.bits :=
        Int.emod_nonneg _ (by positivity)
      have hm2 : (0 : Int) ≤ (clip nbits x) % 2 ^ U.bits := Int.emod_nonneg _ (by positivity)
      apply Int.ofNat_inj.mp
      push_cast
      rw [Int.toNat_of_nonneg hm, Int.toNat_of_nonneg hm2, hcast, Int.emod_add_emod]
      congr 1
      ring
    rw [hsum, toSigned_toUnsigned U.bits _ (by omega)
      (by have := pow_le_pow_right₀ (show (1 : Int) ≤ 2 by norm_num)
            (show nbits - 1 ≤ U.bits - 1 by omega); omega)
      (by have := pow_le_pow_right₀ (show (1 : Int) ≤ 2 by norm_num)
            (show nbits - 1 ≤ U.bits - 1 by omega); omega)]
    rw [if_neg (by omega), if_neg (by omega)]
  refine ⟨hW, ⟨hd0, hnat⟩, by rw [hW]; exact w3, by rw [hW]; exact w4, by rw [hW]; exact w2,
    ?_, ?_⟩
  · rw [hW, w3]
    unfold ReadIN
    simp only []
    rw [ReadUN_of_hasBits U _ w1.2.1 s.m_nbits _ nbits (by omega) h2 hnat w4]
    simp only [if_true, hback]
  · intro ha hb2
    unfold clip
    rw [min_eq_right (by omega), max_eq_right (by omega)]

theorem C22_fixed_width_signed_witness :
    (WriteBool BitStreamOutput.init true).WF ∧ 1 ≤ 5 ∧ 5 ≤ UType.U16.bits ∧
    clip 5 100 = 15 ∧
    ReadIN .U16 ⟨(WriteIN .U16 (WriteBool BitStreamOutput.init true) 100 5).m_output,
        (WriteBool BitStreamOutput.init true).m_nbits⟩ 0 5
      = (true, 15, ⟨(WriteIN .U16 (WriteBool BitStreamOutput.init true) 100 5).m_output,
          (WriteIN .U16 (WriteBool BitStreamOutput.init true) 100 5).m_nbits⟩) :=
  ⟨by decide, by decide, by decide, by decide,
    (C22_fixed_width_signed .U16 (WriteBool BitStreamOutput.init true) 100 0 5
      (by decide) (by decide) (by decide)).2.2.2.2.2.1⟩

/-! ## C23: a width above the width of the type -/

/-- C23, the code at the failing input `Write ((I8)5, 9)`.  The conversion is
built from the unclamped `nbits = 9`: its members are `mx = -1` and `mn = 0`, the
value 5 is written as the eight bits of 255, where `Write (5, 8)` writes those of
133, and `Read (., 9)` of them returns true with the value 0, where
`Read (., 8)` of what `Write (5, 8)` wrote yields 5. -/
theorem C23_signed_width_divergence :
    SignedIntegralConversion.new .U8 9 = ⟨-1, 0⟩ ∧
    WriteIN .U8 BitStreamOutput.init 5 9 = ⟨[255], 8⟩ ∧
    WriteIN .U8 BitStreamOutput.init 5 8 = ⟨[133], 8⟩ ∧
    ReadIN .U8 ⟨(WriteIN .U8 BitStreamOutput.init 5 9).m_output, 0⟩ 0 9
      = (true, 0, ⟨[255], 8⟩) ∧
    ReadIN .U8 ⟨(WriteIN .U8 BitStreamOutput.init 5 8).m_output, 0⟩ 0 8
      = (true, 5, ⟨[133], 8⟩) := by
  decide

/-- X1 (the unsigned fixed-width `nbits` is clamped).  For each unsigned type of
width `w`, every value `u` of the type, every `nbits > w` and every writer state
reached from an empty buffer: `Write (u, nbits)` is `Write (u, w)`, `Read (.,
nbits)` is `Read (., w)` on every stream, and reading at the writer's old offset
returns true and yields `u`. -/
theorem X1_unsigned_width_clamp (U : UType) (s : BitStreamOutput) (r : BitStreamInput)
    (u d nbits : Nat) (hs : s.WF) (hu : u < 2 ^ U.bits) (hn : nbits > U.bits) :
    WriteUN U s u nbits = WriteUN U s u U.bits ∧
    ReadUN U r d nbits = ReadUN U r d U.bits ∧
    (WriteUN U s u nbits).m_nbits = s.m_nbits + U.bits ∧
    ReadUN U ⟨(WriteUN U s u nbits).m_output, s.m_nbits⟩ 0 nbits
      = (true, u, ⟨(WriteUN U s u nbits).m_output, (WriteUN U s u nbits).m_nbits⟩) := by
  have hb := bits_pos U
  have e1 : WriteUN U s u nbits = WriteUN U s u U.bits := by
    unfold WriteUN
    simp only [if_pos hn, gt_iff_lt, lt_self_iff_false, if_false]
  have e2 : ∀ r, ReadUN U r d nbits = ReadUN U r d U.bits := by
    intro r
    unfold ReadUN
    simp only [if_pos hn, gt_iff_lt, lt_self_iff_false, if_false]
  have e3 : ∀ r, ReadUN U r 0 nbits = ReadUN U r 0 U.bits := by
    intro r
    unfold ReadUN
    simp only [if_pos hn, gt_iff_lt, lt_self_iff_false, if_false]
  obtain ⟨w1, _, w3, w4⟩ := WriteUN_spec U s u U.bits hs (by omega) (le_refl _)
  refine ⟨e1, e2 r, by rw [e1]; exact w3, ?_⟩
  rw [e1, e3, w3]
  exact ReadUN_of_hasBits U _ w1.2.1 s.m_nbits u U.bits (by omega) (le_refl _) hu w4

theorem X1_unsigned_width_clamp_witness :
    (WriteBool BitStreamOutput.init true).WF ∧ (200 : Nat) < 2 ^ UType.U8.bits ∧
    12 > UType.U8.bits ∧
    WriteUN .U8 (WriteBool BitStreamOutput.init true) 200 12
      = WriteUN .U8 (WriteBool BitStreamOutput.init true) 200 UType.U8.bits :=
  ⟨by decide, by decide, by decide,
    (X1_unsigned_width_clamp .U8 (WriteBool BitStreamOutput.init true) ⟨[], 0⟩ 200 0 12
      (by decide) (by decide) (by decide)).1⟩

theorem header_acknum_lt (packet : Buffer) : (Header.read packet).acknum < 65536 := by
  simp only [Header.read, readU16]
  omega

theorem datagrams_append (a b : List Event) : datagrams (a ++ b) = datagrams a ++ datagrams b := by
  simp [datagrams, List.filterMap_append]

theorem deliverLoop_datagrams (listener : Bool) :
    ∀ (list : List (Nat × Buffer)) (low : Nat), datagrams (deliverLoop listener low list).1 = [] := by
  intro list
  induction list with
  | nil => intro low; rfl
  | cons x rest ih =>
    intro low
    obtain ⟨k, pkt⟩ := x
    unfold deliverLoop
    split
    · rfl
    · simp only []
      split
      · simp only [datagrams, List.filterMap_cons]
        exact ih _
      · simp only [datagrams, List.filterMap_cons]
        exact ih _

/-- Below the first entry that is not less than `k`, a sorted queue holds the
entries less than `k` and nothing else. -/
theorem eraseBelow_eq_filter (base k : Nat) (hk : k < 65536) (hko : seqOffset base k ≤ 32767) :
    ∀ q : List (Nat × RetransmissionInfo), RetxSorted base q →
      eraseBelow k q = q.filter (fun e => !lt e.1 k) := by
  intro q
  induction q with
  | nil => intro _; rfl
  | cons x rest ih =>
    intro h
    obtain ⟨h1, h2⟩ := h
    have hx := h1 x (List.mem_cons_self _ _)
    have hrest : RetxSorted base rest :=
      ⟨fun e he => h1 e (List.mem_cons_of_mem _ he), (List.pairwise_cons.mp h2).2⟩
    have hp := (List.pairwise_cons.mp h2).1
    unfold eraseBelow
    by_cases c : lt x.1 k = true
    · simp only [List.dropWhile_cons, List.filter_cons, c, Bool.not_true, if_true,
        Bool.false_eq_true, if_false]
      exact ih hrest
    · have c2 : lt x.1 k = false := by simpa using c
      simp only [List.dropWhile_cons, List.filter_cons, c2, Bool.not_false, if_true,
        Bool.false_eq_true, if_false]
      congr 1
      symm
      rw [List.filter_eq_self]
      intro e he
      have he1 := h1 e (List.mem_cons_of_mem _ he)
      have hlt := hp e he
      have hxk : ¬ seqOffset base x.1 < seqOffset base k :=
        fun hc => c ((lt_iff_seqOffset base x.1 k hx.1 hk hx.2 hko).mpr hc)
      have : ¬ lt e.1 k = true := fun hc =>
        have := (lt_iff_seqOffset base e.1 k he1.1 hk he1.2 hko).mp hc
        by omega
      simpa using this

/-- C28, the code at the failing input.  `Send` with an empty buffer and
`reliable = true` puts a packet with the flag `RLB` and length 0 on the wire and
into the retransmission queue.  An established peer whose lowest acceptable
sequence number is that of the packet leaves `state_estabed` at the test of the
length: it sends nothing and its state is unchanged. -/
theorem C28_empty_reliable_divergence :
    exampleEstabed.Send [] true
      = ({ exampleEstabed with
            m_reliable_outgoing_sequence := 8
            m_reliable_retransmission_queue :=
              [(7, ⟨500, 120, Header.bytes ⟨7, 0, FLAG_RLB, 0⟩⟩)] },
          [Event.send "10.0.0.2:4000" (Header.bytes ⟨7, 0, FLAG_RLB, 0⟩)]) ∧
    IsReliableData (Header.read (Header.bytes ⟨7, 0, FLAG_RLB, 0⟩)) ∧
    state_estabed { exampleEstabed with m_reliable_lowest_acceptable_sequence := 7 }
        ⟨0, 0, 0, 0, 0⟩ "10.0.0.2:4000" (Header.bytes ⟨7, 0, FLAG_RLB, 0⟩)
      = ({ exampleEstabed with m_reliable_lowest_acceptable_sequence := 7 }, []) := by
  decide

/-- X2 (a reliable packet with a payload is acknowledged).  In `STATE_ESTABED`,
for a packet of the peer with the flag `RLB`, none of `RST`, `PIN`, `PON`, `BWP`,
`BWR`, `ACK`, and a length other than 0, stale or not: the connection sends
exactly one datagram, the bare `ACK` to the sender whose `acknum` is the lowest
acceptable sequence number after the packet was processed; a stale packet changes
nothing else. -/
theorem X2_reliable_payload_acked (c : Connection) (env : Env) (raddr : Address)
    (packet : Buffer) (hm : c.m_master = true → c.m_raddr = raddr)
    (hf : IsReliableData (Header.read packet)) (hl : (Header.read packet).length ≠ 0) :
    datagrams (state_estabed c env raddr packet).2
      = [(raddr, ackPacket
          (state_estabed c env raddr packet).1.m_reliable_lowest_acceptable_sequence)] ∧
    (ge (Header.read packet).seqnum c.m_reliable_lowest_acceptable_sequence = false →
      state_estabed c env raddr packet
        = (c, [Event.send raddr (ackPacket c.m_reliable_lowest_acceptable_sequence)])) := by
  obtain ⟨f1, f2, f3, f4, f5, f6, f7⟩ := hf
  have hg : ¬ (c.m_master && decide (c.m_raddr ≠ raddr)) = true := by
    intro h
    simp only [Bool.and_eq_true, decide_eq_true_eq] at h
    exact h.2 (hm h.1)
  unfold state_estabed
  simp only [hg, f1, f2, f3, f4, f5, f6, f7, hl, ne_eq, not_true_eq_false, not_false_eq_true,
    if_true, if_false, Bool.false_eq_true]
  constructor
  · split
    · simp only [datagrams_append, deliverLoop_datagrams, List.nil_append]
      rfl
    · rfl
  · intro hs
    simp only [hs, Bool.false_eq_true, if_false]
    rfl

theorem X2_reliable_payload_acked_witness :
    (exampleEstabed.m_master = true → exampleEstabed.m_raddr = "10.0.0.2:4000") ∧
    IsReliableData (Header.read (Header.bytes ⟨0, 0, FLAG_RLB, 1⟩ ++ [65])) ∧
    (Header.read (Header.bytes ⟨0, 0, FLAG_RLB, 1⟩ ++ [65])).length ≠ 0 ∧
    datagrams (state_estabed exampleEstabed ⟨0, 0, 0, 0, 0⟩ "10.0.0.2:4000"
        (Header.bytes ⟨0, 0, FLAG_RLB, 1⟩ ++ [65])).2
      = [("10.0.0.2:4000", ackPacket 1)] :=
  ⟨by decide, by decide, by decide,
    (X2_reliable_payload_acked exampleEstabed ⟨0, 0, 0, 0, 0⟩ "10.0.0.2:4000"
      (Header.bytes ⟨0, 0, FLAG_RLB, 1⟩ ++ [65]) (by decide) (by decide) (by decide)).1⟩

/-! ## C29: cumulative ACK -/

theorem runEstabed_cons (c : Connection) (x : Env × Address × Buffer)
    (rest : List (Env × Address × Buffer)) (h : c.m_state = .STATE_ESTABED) :
    runEstabed c (x :: rest)
      = ((runEstabed (state_estabed c x.1 x.2.1 x.2.2).1 rest).1,
          (state_estabed c x.1 x.2.1 x.2.2).2
            ++ (runEstabed (state_estabed c x.1 x.2.1 x.2.2).1 rest).2) := by
  rw [runEstabed, if_pos h]

/-- C30 (fast retransmit).  In `STATE_ESTABED`, for a zero-length `ACK` of the
peer (flag `ACK`, none of `RST`, `PIN`, `PON`, `BWP`, `BWR`) whose `acknum` is not
greater than `m_reliable_outgoing_sequence`, received while the retransmission
queue is `entry :: rest`, the duplicate-ACK counter being at most 2 (as it is
again afterwards): if `acknum` equals `m_reliable_latest_legal_ack` the counter
is incremented; when that makes it 3, the packet of `entry` is sent again as it
is, the counter is set to 0 and nothing else changes (the queue with its
timeouts and retry counts included); below 3 nothing is sent, and the counter
keeps the incremented value unless the `ACK` removes an entry.  Any such `ACK`
that is not the third duplicate and removes at least one entry sets the counter
to 0.  In a queue as `emplace` keeps it, `entry` has the lowest sequence number.
Hence of three such duplicates in a row from counter 0, none of which has
anything to remove, the first and second send nothing and the third sends the
packet of `entry` again, leaving the connection as it was. -/
theorem C30_fast_retransmit (c : Connection) (env env2 env3 : Env) (raddr : Address)
    (packet : Buffer) (entry : Nat × RetransmissionInfo) (rest : List (Nat × RetransmissionInfo))
    (base : Nat) (hm : c.m_master = true → c.m_raddr = raddr)
    (ha : IsAck (Header.read packet)) (hl : (Header.read packet).length = 0)
    (hg : gt (Header.read packet).acknum c.m_reliable_outgoing_sequence = false)
    (hq : c.m_reliable_retransmission_queue = entry :: rest)
    (hc : c.m_reliable_duplicated_ack_count ≤ 2) :
    (eq (Header.read packet).acknum c.m_reliable_latest_legal_ack = true →
      c.m_reliable_duplicated_ack_count = 2 →
      state_estabed c env raddr packet
        = ({ c with m_reliable_duplicated_ack_count := 0 },
            [Event.send raddr entry.2.buffer])) ∧
    (eq (Header.read packet).acknum c.m_reliable_latest_legal_ack = true →
      c.m_reliable_duplicated_ack_count < 2 →
      (state_estabed c env raddr packet).2 = [] ∧
      (state_estabed c env raddr packet).1.m_reliable_duplicated_ack_count
        = if lt entry.1 (Header.read packet).acknum then 0
          else c.m_reliable_duplicated_ack_count + 1) ∧
    (lt entry.1 (Header.read packet).acknum = true →
      ¬ (eq (Header.read packet).acknum c.m_reliable_latest_legal_ack = true ∧
          c.m_reliable_duplicated_ack_count = 2) →
      (state_estabed c env raddr packet).1.m_reliable_duplicated_ack_count = 0 ∧
      (state_estabed c env raddr packet).1.m_reliable_retransmission_queue.length
        < c.m_reliable_retransmission_queue.length) ∧
    (state_estabed c env raddr packet).1.m_reliable_duplicated_ack_count ≤ 2 ∧
    (RetxSorted base c.m_reliable_retransmission_queue →
      ∀ e ∈ rest, lt entry.1 e.1 = true) ∧
    (c.m_state = .STATE_ESTABED → c.m_reliable_duplicated_ack_count = 0 →
      eq (Header.read packet).acknum c.m_reliable_latest_legal_ack = true →
      lt entry.1 (Header.read packet).acknum = false →
      (runEstabed c [(env, raddr, packet)]).2 = [] ∧
      (runEstabed c [(env, raddr, packet), (env2, raddr, packet)]).2 = [] ∧
      runEstabed c [(env, raddr, packet), (env2, raddr, packet), (env3, raddr, packet)]
        = (c, [Event.send raddr entry.2.buffer])) := by
  obtain ⟨f1, f2, f3, f4, f5, f6⟩ := ha
  have hg0 : ¬ (c.m_master && decide (c.m_raddr ≠ raddr)) = true := by
    intro h
    simp only [Bool.and_eq_true, decide_eq_true_eq] at h
    exact h.2 (hm h.1)
  have hne : c.m_reliable_retransmission_queue.isEmpty = false := by rw [hq]; rfl
  -- the three forms of the step
  have third : ∀ (c : Connection) (env : Env),
      (c.m_master = true → c.m_raddr = raddr) →
      gt (Header.read packet).acknum c.m_reliable_outgoing_sequence = false →
      c.m_reliable_retransmission_queue = entry :: rest →
      eq (Header.read packet).acknum c.m_reliable_latest_legal_ack = true →
      c.m_reliable_duplicated_ack_count = 2 →
      state_estabed c env raddr packet
        = ({ c with m_reliable_duplicated_ack_count := 0 },
            [Event.send raddr entry.2.buffer]) := by
    intro c env hm hg hq he h2
    have hg0 : ¬ (c.m_master && decide (c.m_raddr ≠ raddr)) = true := by
      intro h
      simp only [Bool.and_eq_true, decide_eq_true_eq] at h
      exact h.2 (hm h.1)
    unfold state_estabed
    simp only [hg0, f1, f2, f3, f4, f5, f6, hl, hg, he, hq, h2, ne_eq, not_true_eq_false,
      not_false_eq_true, if_true, if_false, Bool.false_eq_true, gt_iff_lt, lt_self_iff_false,
      List.isEmpty_cons, Bool.not_false, Bool.and_self]
    rfl
  have early : ∀ (c : Connection) (env : Env),
      (c.m_master = true → c.m_raddr = raddr) →
      gt (Header.read packet).acknum c.m_reliable_outgoing_sequence = false →
      c.m_reliable_retransmission_queue = entry :: rest →
      eq (Header.read packet).acknum c.m_reliable_latest_legal_ack = true →
      c.m_reliable_duplicated_ack_count < 2 →
      state_estabed c env raddr packet
        = ({ c with
              m_reliable_latest_legal_ack :=
                if lt entry.1 (Header.read packet).acknum then (Header.read packet).acknum
                else c.m_reliable_latest_legal_ack
              m_reliable_duplicated_ack_count :=
                if lt entry.1 (Header.read packet).acknum then 0
                else c.m_reliable_duplicated_ack_count + 1
              m_reliable_retransmission_queue :=
                eraseBelow (Header.read packet).acknum (entry :: rest) }, []) := by
    intro c env hm hg hq he h2
    have hg0 : ¬ (c.m_master && decide (c.m_raddr ≠ raddr)) = true := by
      intro h
      simp only [Bool.and_eq_true, decide_eq_true_eq] at h
      exact h.2 (hm h.1)
    have hmod : (c.m_reliable_duplicated_ack_count + 1) % 65536
        = c.m_reliable_duplicated_ack_count + 1 := Nat.mod_eq_of_lt (by omega)
    have hlt3 : ¬ c.m_reliable_duplicated_ack_count + 1 ≥ 3 := by omega
    unfold state_estabed
    simp only [hg0, f1, f2, f3, f4, f5, f6, hl, hg, he, hq, hmod, hlt3, ne_eq,
      not_true_eq_false, not_false_eq_true, if_true, if_false, Bool.false_eq_true, gt_iff_lt,
      lt_self_iff_false, List.isEmpty_cons, Bool.not_false, Bool.and_self, lowerBoundNotBegin]
  have other : eq (Header.read packet).acknum c.m_reliable_latest_legal_ack = false →
      state_estabed c env raddr packet
        = ({ c with
              m_reliable_latest_legal_ack :=
                if lt entry.1 (Header.read packet).acknum then (Header.read packet).acknum
                else c.m_reliable_latest_legal_ack
              m_reliable_duplicated_ack_count :=
                if lt entry.1 (Header.read packet).acknum then 0
                else c.m_reliable_duplicated_ack_count
              m_reliable_retransmission_queue :=
                eraseBelow (Header.read packet).acknum (entry :: rest) }, []) := by
    intro he
    unfold state_estabed
    simp only [hg0, f1, f2, f3, f4, f5, f6, hl, hg, he, hq, ne_eq,
      not_true_eq_false, not_false_eq_true, if_true, if_false, Bool.false_eq_true, gt_iff_lt,
      lt_self_iff_false, Bool.false_and, lowerBoundNotBegin]
  have hdrop : lt entry.1 (Header.read packet).acknum = true →
      (eraseBelow (Header.read packet).acknum (entry :: rest)).length
        < (entry :: rest).length := by
    intro h
    unfold eraseBelow
    simp only [List.dropWhile_cons, h, if_true, List.length_cons]
    have := (List.dropWhile_sublist (fun e : Nat × RetransmissionInfo =>
      lt e.1 (Header.read packet).acknum) (l := rest)).length_le
    omega
  refine ⟨third c env hm hg hq, ?_, ?_, ?_, ?_, ?_⟩
  · intro he h2
    rw [early c env hm hg hq he h2]
    exact ⟨rfl, rfl⟩
  · intro hlt hn3
    by_cases he : eq (Header.read packet).acknum c.m_reliable_latest_legal_ack = true
    · have h2 : c.m_reliable_duplicated_ack_count < 2 := by
        have : c.m_reliable_duplicated_ack_count ≠ 2 := fun h => hn3 ⟨he, h⟩
        omega
      rw [early c env hm hg hq he h2, hq]
      simp only [hlt, if_true]
      exact ⟨trivial, hdrop hlt⟩
    · have he2 : eq (Header.read packet).acknum c.m_reliable_latest_legal_ack = false := by
        simpa using he
      rw [other he2, hq]
      simp only [hlt, if_true]
      exact ⟨trivial, hdrop hlt⟩
  · by_cases he : eq (Header.read packet).acknum c.m_reliable_latest_legal_ack = true
    · by_cases h2 : c.m_reliable_duplicated_ack_count = 2
      · rw [third c env hm hg hq he h2]
        exact Nat.zero_le _
      · rw [early c env hm hg hq he (by omega)]
        show (if lt entry.1 (Header.read packet).acknum then 0
          else c.m_reliable_duplicated_ack_count + 1) ≤ 2
        split <;> omega
    · have he2 : eq (Header.read packet).acknum c.m_reliable_latest_legal_ack = false := by
        simpa using he
      rw [other he2]
      show (if lt entry.1 (Header.read packet).acknum then 0
        else c.m_reliable_duplicated_ack_count) ≤ 2
      split <;> omega
  · intro hs e he
    rw [hq] at hs
    have hx := hs.1 entry (List.mem_cons_self _ _)
    have hy := hs.1 e (List.mem_cons_of_mem _ he)
    exact (lt_iff_seqOffset base entry.1 e.1 hx.1 hy.1 hx.2 hy.2).mpr
      ((List.pairwise_cons.mp hs.2).1 e he)
  · intro hst h0 he hlt
    have hkeep : eraseBelow (Header.read packet).acknum (entry :: rest) = entry :: rest := by
      unfold eraseBelow
      simp only [List.dropWhile_cons, hlt, Bool.false_eq_true, if_false]
    -- the connection after the first and after the second duplicate
    have s1 := early c env hm hg hq he (by omega)
    simp only [hlt, Bool.false_eq_true, if_false, hkeep, h0] at s1
    have e1 : state_estabed c env raddr packet
        = ({ c with m_reliable_duplicated_ack_count := 1 }, []) := by
      rw [s1]
      congr 1
      cases c
      simp only [Connection.mk.injEq, true_and, and_true] at hq ⊢
      exact hq.symm
    have s2 := early { c with m_reliable_duplicated_ack_count := 1 } env2 hm hg hq he
      (by show 1 < 2; omega)
    simp only [hlt, Bool.false_eq_true, if_false, hkeep] at s2
    have e2 : state_estabed { c with m_reliable_duplicated_ack_count := 1 } env2 raddr packet
        = ({ c with m_reliable_duplicated_ack_count := 2 }, []) := by
      rw [s2]
      congr 1
      cases c
      simp only [Connection.mk.injEq, true_and, and_true] at hq ⊢
      exact hq.symm
    have e3 := third { c with m_reliable_duplicated_ack_count := 2 } env3 hm hg hq he rfl
    have e3b : state_estabed { c with m_reliable_duplicated_ack_count := 2 } env3 raddr packet
        = (c, [Event.send raddr entry.2.buffer]) := by
      rw [e3]
      congr 1
      cases c
      simp only [Connection.mk.injEq, true_and, and_true] at h0 ⊢
      exact h0.symm
    have hst1 : ({ c with m_reliable_duplicated_ack_count := 1 } : Connection).m_state
        = .STATE_ESTABED := hst
    have hst2 : ({ c with m_reliable_duplicated_ack_count := 2 } : Connection).m_state
        = .STATE_ESTABED := hst
    have r3 : runEstabed { c with m_reliable_duplicated_ack_count := 2 } [(env3, raddr, packet)]
        = (c, [Event.send raddr entry.2.buffer]) := by
      rw [runEstabed_cons _ _ _ hst2]
      dsimp only
      rw [e3b]
      rfl
    have r2 : runEstabed { c with m_reliable_duplicated_ack_count := 1 }
        [(env2, raddr, packet), (env3, raddr, packet)]
        = (c, [Event.send raddr entry.2.buffer]) := by
      rw [runEstabed_cons _ _ _ hst1]
      dsimp only
      rw [e2]
      dsimp only
      rw [r3]
      rfl
    have r2b : (runEstabed { c with m_reliable_duplicated_ack_count := 1 }
        [(env2, raddr, packet)]).2 = [] := by
      rw [runEstabed_cons _ _ _ hst1]
      dsimp only
      rw [e2]
      rfl
    refine ⟨?_, ?_, ?_⟩
    · rw [runEstabed_cons _ _ _ hst]
      dsimp only
      rw [e1]
      rfl
    · rw [runEstabed_cons _ _ _ hst]
      dsimp only
      rw [e1]
      dsimp only
      rw [r2b]
      rfl
    · rw [runEstabed_cons _ _ _ hst]
      dsimp only
      rw [e1]
      dsimp only
      rw [r2]
      rfl

theorem C30_fast_retransmit_witness :
    (exampleSender.m_master = true → exampleSender.m_raddr = "10.0.0.2:4000") ∧
    IsAck (Header.read (ackPacket 4)) ∧ (Header.read (ackPacket 4)).length = 0 ∧
    gt (Header.read (ackPacket 4)).acknum exampleSender.m_reliable_outgoing_sequence = false ∧
    exampleSender.m_reliable_duplicated_ack_count ≤ 2 ∧
    runEstabed exampleSender
        [(⟨0, 0, 0, 0, 0⟩, "10.0.0.2:4000", ackPacket 4),
          (⟨0, 0, 0, 0, 0⟩, "10.0.0.2:4000", ackPacket 4),
          (⟨0, 0, 0, 0, 0⟩, "10.0.0.2:4000", ackPacket 4)]
      = (exampleSender,
          [Event.send "10.0.0.2:4000" (Header.bytes ⟨4, 0, FLAG_RLB, 1⟩ ++ [65])]) :=
  ⟨by decide, by decide, by decide, by decide, by decide,
    ((C30_fast_retransmit exampleSender ⟨0, 0, 0, 0, 0⟩ ⟨0, 0, 0, 0, 0⟩ ⟨0, 0, 0, 0, 0⟩
      "10.0.0.2:4000" (ackPacket 4) _ _ 4 (by decide) (by decide) (by decide) (by decide) rfl
      (by decide)).2.2.2.2.2 (by decide) (by decide) (by decide) (by decide)).2.2⟩

/-! ## C25: parse failures of containers -/

/-- C25, the code at the failing input.  On an empty stream the size prefix of
a container of `U8` cannot be read, and `Read` returns true, leaving the
container as it was; so it does on the one byte `0xE0`, where the prefix
announces a size of 32 bits and the stream ends.  When the size prefix is read
and the stream ends within the elements (two announced, one there), `Read`
returns false. -/
theorem C25_size_prefix_divergence :
    (ReadU .U32 ⟨[], 0⟩ 0).1 = false ∧
    containerRead (ReadU .U8) 0 ⟨[], 0⟩ [7] = (true, [7], ⟨[], 0⟩) ∧
    (ReadU .U32 ⟨[0xE0], 0⟩ 0).1 = false ∧
    (containerRead (ReadU .U8) 0 ⟨[0xE0], 0⟩ [7]).1 = true ∧
    (containerRead (ReadU .U8) 0
      ⟨(WriteU .U8 (WriteU .U32 BitStreamOutput.init 2) 5).m_output, 0⟩ []).1 = false ∧
    containerRead (ReadU .U8) 0
        ⟨(containerWrite (WriteU .U8) BitStreamOutput.init [5, 6]).m_output, 0⟩ []
      = (true, [5, 6], ⟨(containerWrite (WriteU .U8) BitStreamOutput.init [5, 6]).m_output,
          (containerWrite (WriteU .U8) BitStreamOutput.init [5, 6]).m_nbits⟩) := by
  decide

/-! ## C26: the payload of an `INVOKE_METHOD` message -/

/-- C26, counterexample.  The payload `InvokeRemoteMethod` hands to `Send` for
the object 7 and the signature `"A::f"` holds the signature in the plain `String`
encoding, which is not its encoding under the `unique` policy; and
`ProcessInvokeMethod` finds the method in the former payload and not in the
latter. -/
theorem C26_signature_policy_counterexample :
    ((⟨[]⟩ : DistributedObjectSystemConnection).InvokeRemoteMethod 7 [65, 58, 58, 102]
        (fun s => (true, s)) true).2.2
      = [⟨MESSAGE_INVOKE_METHOD, 7,
          (WriteString (messageStart MESSAGE_INVOKE_METHOD 7) [65, 58, 58, 102]).m_output,
          true⟩] ∧
    (WriteString (messageStart MESSAGE_INVOKE_METHOD 7) [65, 58, 58, 102]).m_output
      ≠ (UniqueStringPolicy.Write ⟨[], []⟩ (messageStart MESSAGE_INVOKE_METHOD 7)
          [65, 58, 58, 102]).2.m_output ∧
    (ProcessInvokeMethod exampleBound "10.0.0.2:4000"
        ⟨(WriteString (messageStart MESSAGE_INVOKE_METHOD 7) [65, 58, 58, 102]).m_output,
          6⟩).2.2.2
      = [⟨0, [65, 58, 58, 102], "10.0.0.2:4000"⟩] ∧
    (ProcessInvokeMethod exampleBound "10.0.0.2:4000"
        ⟨(UniqueStringPolicy.Write ⟨[], []⟩ (messageStart MESSAGE_INVOKE_METHOD 7)
          [65, 58, 58, 102]).2.m_output, 6⟩).2.2.2 = [] := by
  decide

/-- C26, amended (`INVOKE_METHOD` payload format).  The payload that
`InvokeRemoteMethod (objID, signature, args)` hands to `Send`, when the argument
serializer succeeds and appends to the stream, is the bit stream made of the
message type 4 as a u8, the `ObjectID` as a u64, the signature in the plain
`String` encoding of the default policy (u32 length, then the bytes from the
next byte boundary), and then the arguments.  The receiver reads the message
type back at offset 0 and `ProcessInvokeMethod`, started behind it, reads the
`ObjectID` and the signature with the same default policies and calls `Invoke`
of the bound object with that signature at the offset where the arguments
start. -/
theorem C26_invoke_payload_format (c : DistributedObjectSystemConnection) (objID : ObjectID)
    (signature : Str) (args : BitStreamOutput → Bool × BitStreamOutput) (reliable : Bool)
    (bound : List (ObjectID × InvokableObject)) (connID : Address) (o : InvokableObject)
    (ho : objID < 2 ^ 64) (hb : IsBytes signature) (hl : signature.length < 2 ^ 32)
    (hargs : (args (WriteString (messageStart MESSAGE_INVOKE_METHOD objID) signature)).1 = true)
    (hext : Extends (WriteString (messageStart MESSAGE_INVOKE_METHOD objID) signature)
      (args (WriteString (messageStart MESSAGE_INVOKE_METHOD objID) signature)).2)
    (hbytes : IsBytes
      (args (WriteString (messageStart MESSAGE_INVOKE_METHOD objID) signature)).2.m_output)
    (hfind : bound.find? (fun e => e.1 == objID) = some (objID, o)) :
    c.InvokeRemoteMethod objID signature args reliable
      = (c, true, [⟨MESSAGE_INVOKE_METHOD, objID,
          (args (WriteString (WriteU .U64 (WriteU .U8 BitStreamOutput.init 4) objID)
            signature)).2.m_output, reliable⟩]) ∧
    ReadU .U8 ⟨(args (WriteString (messageStart MESSAGE_INVOKE_METHOD objID)
        signature)).2.m_output, 0⟩ MESSAGE_INVALID_TYPE
      = (true, MESSAGE_INVOKE_METHOD,
          ⟨(args (WriteString (messageStart MESSAGE_INVOKE_METHOD objID) signature)).2.m_output,
            6⟩) ∧
    ReadU .U64 ⟨(args (WriteString (messageStart MESSAGE_INVOKE_METHOD objID)
        signature)).2.m_output, 6⟩ MASTER_OBJECT
      = (true, objID,
          ⟨(args (WriteString (messageStart MESSAGE_INVOKE_METHOD objID) signature)).2.m_output,
            (messageStart MESSAGE_INVOKE_METHOD objID).m_nbits⟩) ∧
    ReadString ⟨(args (WriteString (messageStart MESSAGE_INVOKE_METHOD objID)
        signature)).2.m_output, (messageStart MESSAGE_INVOKE_METHOD objID).m_nbits⟩ []
      = (true, signature,
          ⟨(args (WriteString (messageStart MESSAGE_INVOKE_METHOD objID) signature)).2.m_output,
            (WriteString (messageStart MESSAGE_INVOKE_METHOD objID) signature).m_nbits⟩) ∧
    ProcessInvokeMethod bound connID
        ⟨(args (WriteString (messageStart MESSAGE_INVOKE_METHOD objID) signature)).2.m_output, 6⟩
      = (((o.SetInvokeConnection connID).Invoke signature
            ⟨(args (WriteString (messageStart MESSAGE_INVOKE_METHOD objID)
                signature)).2.m_output,
              (WriteString (messageStart MESSAGE_INVOKE_METHOD objID) signature).m_nbits⟩).1,
          setBound objID (o.SetInvokeConnection connID) bound,
          ((o.SetInvokeConnection connID).Invoke signature
            ⟨(args (WriteString (messageStart MESSAGE_INVOKE_METHOD objID)
                signature)).2.m_output,
              (WriteString (messageStart MESSAGE_INVOKE_METHOD objID) signature).m_nbits⟩).2) := by
  have hs0 : BitStreamOutput.init.WF := by decide
  have h4 : (4 : Nat) < 2 ^ UType.U8.bits := by decide
  obtain ⟨a1, a2, a3, a4, a5⟩ := WriteU_spec .U8 BitStreamOutput.init 4 hs0 h4
  have ho2 : objID < 2 ^ UType.U64.bits := ho
  obtain ⟨b1, b2, b3, b4, b5⟩ := WriteU_spec .U64 (WriteU .U8 BitStreamOutput.init 4) objID a1 ho2
  have hms : messageStart MESSAGE_INVOKE_METHOD objID
      = WriteU .U64 (WriteU .U8 BitStreamOutput.init 4) objID := rfl
  rw [hms] at hargs hext hbytes ⊢
  obtain ⟨c1, c2, _⟩ := WriteString_facts _ signature b1 hb hl
  have n1 : (WriteU .U8 BitStreamOutput.init 4).m_nbits = 6 := rfl
  have e13 : Extends (WriteU .U8 BitStreamOutput.init 4)
      (args (WriteString (WriteU .U64 (WriteU .U8 BitStreamOutput.init 4) objID) signature)).2 :=
    (b2.trans c2).trans hext
  have e23 : Extends (WriteU .U64 (WriteU .U8 BitStreamOutput.init 4) objID)
      (args (WriteString (WriteU .U64 (WriteU .U8 BitStreamOutput.init 4) objID) signature)).2 :=
    c2.trans hext
  have hN8 : N_PREFIX_BITS UType.U8 = 3 := rfl
  have hN64 : N_PREFIX_BITS UType.U64 = 6 := rfl
  have r1 : ReadU .U8 ⟨(args (WriteString (WriteU .U64 (WriteU .U8 BitStreamOutput.init 4) objID)
      signature)).2.m_output, 0⟩ 0
      = (true, 4, ⟨(args (WriteString (WriteU .U64 (WriteU .U8 BitStreamOutput.init 4) objID)
          signature)).2.m_output, 6⟩) :=
    ReadU_of_hasBits .U8 _ hbytes 0 4 h4
      (HasBits.mono a4 (by rw [n1]; decide) e13)
      (HasBits.mono a5 (by rw [n1]; decide) e13)
  have n2 : (WriteU .U64 (WriteU .U8 BitStreamOutput.init 4) objID).m_nbits
      = 6 + N_PREFIX_BITS UType.U64 + (prefixValue UType.U64 objID + 1) := by
    rw [b3, n1]
  have r2 : ReadU .U64 ⟨(args (WriteString (WriteU .U64 (WriteU .U8 BitStreamOutput.init 4) objID)
      signature)).2.m_output, 6⟩ MASTER_OBJECT
      = (true, objID, ⟨(args (WriteString (WriteU .U64 (WriteU .U8 BitStreamOutput.init 4) objID)
          signature)).2.m_output,
          (WriteU .U64 (WriteU .U8 BitStreamOutput.init 4) objID).m_nbits⟩) := by
    rw [n2]
    exact ReadU_of_hasBits .U64 _ hbytes 6 objID ho2
      (HasBits.mono (by rw [← n1]; exact b4) (by omega) e23)
      (HasBits.mono (by rw [← n1]; exact b5) (by omega) e23)
  have r3 := ReadString_of_extends _ _ signature [] b1 hb hl hbytes hext
  refine ⟨?_, r1, r2, r3, ?_⟩
  · unfold DistributedObjectSystemConnection.InvokeRemoteMethod
    simp only [hms, hargs, Bool.not_true, Bool.false_eq_true, if_false]
  · unfold ProcessInvokeMethod
    simp only [r2, Bool.not_true, Bool.false_eq_true, if_false, hfind, r3]

theorem C26_invoke_payload_format_witness :
    ProcessInvokeMethod exampleBound "10.0.0.2:4000"
        ⟨(WriteU .U8 (WriteString (messageStart MESSAGE_INVOKE_METHOD 7)
          [66, 58, 58, 103]) 1).m_output, 6⟩
      = (((exampleObject7.SetInvokeConnection "10.0.0.2:4000").Invoke [66, 58, 58, 103]
            ⟨(WriteU .U8 (WriteString (messageStart MESSAGE_INVOKE_METHOD 7)
                [66, 58, 58, 103]) 1).m_output,
              (WriteString (messageStart MESSAGE_INVOKE_METHOD 7) [66, 58, 58, 103]).m_nbits⟩).1,
          setBound 7 (exampleObject7.SetInvokeConnection "10.0.0.2:4000") exampleBound,
          ((exampleObject7.SetInvokeConnection "10.0.0.2:4000").Invoke [66, 58, 58, 103]
            ⟨(WriteU .U8 (WriteString (messageStart MESSAGE_INVOKE_METHOD 7)
                [66, 58, 58, 103]) 1).m_output,
              (WriteString (messageStart MESSAGE_INVOKE_METHOD 7)
                [66, 58, 58, 103]).m_nbits⟩).2) :=
  (C26_invoke_payload_format ⟨[]⟩ 7 [66, 58, 58, 103] (fun s => (true, WriteU .U8 s 1)) true
    exampleBound "10.0.0.2:4000" exampleObject7
    (by decide) (by decide) (by decide) rfl (by decide) (by decide) rfl).2.2.2.2

/-! ## C27: the order of the arguments of a remote method -/

/-- C27, counterexample.  A method with two `U8` parameters is invoked with the
arguments 1 and 2: the serializer takes position 1 first and position 0 last,
so the stream holds 2 before 1, which is not the stream with 1 before 2; and a
receiver given the stream with 1 before 2 calls the method with 2 and 1. -/
theorem C27_declared_order_counterexample :
    ArgumentsSerializer [exampleU8, exampleU8] (.output BitStreamOutput.init) [1, 2]
      = (true, [1, 2], .output (WriteU .U8 (WriteU .U8 BitStreamOutput.init 2) 1), [1, 0]) ∧
    WriteU .U8 (WriteU .U8 BitStreamOutput.init 2) 1
      ≠ WriteU .U8 (WriteU .U8 BitStreamOutput.init 1) 2 ∧
    (StaticInvoke [exampleU8, exampleU8] [0, 0] (fun args => args == [1, 2])
      (.input ⟨(WriteU .U8 (WriteU .U8 BitStreamOutput.init 1) 2).m_output, 0⟩)).2.2
      = some [2, 1] := by
  decide

theorem ArgumentsSerializerHelper_eq {V : Type} (types : List (ArgSerialize V)) :
    ∀ (N : Nat) (s : ISerializationType) (args : List V),
      ArgumentsSerializerHelper types N s args
        = serializeAt types (List.range N).reverse s args := by
  intro N
  induction N with
  | zero => intro s args; rfl
  | succ N ih =>
    intro s args
    rw [List.range_succ, List.reverse_append, List.reverse_singleton, List.singleton_append]
    unfold ArgumentsSerializerHelper serializeAt
    cases types.get? N with
    | none => rfl
    | some t =>
      cases args.get? N with
      | none => rfl
      | some a =>
        simp only []
        rw [ih]

theorem serializeAt_log {V : Type} (types : List (ArgSerialize V)) :
    ∀ (order : List Nat) (s : ISerializationType) (args : List V),
      (serializeAt types order s args).2.2.2
          = order.take (serializeAt types order s args).2.2.2.length ∧
        ((serializeAt types order s args).1 = true →
          (serializeAt types order s args).2.2.2 = order) := by
  intro order
  induction order with
  | nil => intro s args; exact ⟨rfl, fun _ => rfl⟩
  | cons k rest ih =>
    intro s args
    unfold serializeAt
    cases types.get? k with
    | none => exact ⟨rfl, fun h => by cases h⟩
    | some t =>
      cases args.get? k with
      | none => exact ⟨rfl, fun h => by cases h⟩
      | some a =>
        simp only []
        by_cases c : (t s a).1 = true
        · rw [if_pos c]
          obtain ⟨i1, i2⟩ := ih (t s a).2.2 (args.set k (t s a).2.1)
          refine ⟨?_, fun h => ?_⟩
          · show k :: _ = List.take (_ + 1) (k :: rest)
            rw [List.take_succ_cons]
            exact congrArg _ i1
          · exact congrArg _ (i2 h)
        · rw [if_neg c]
          exact ⟨rfl, fun h => by cases h⟩

/-- C27, amended (RMI arguments travel in reverse declared order).  For a remote
method with parameters `p1, ..., pn`, the argument serializer that
`InvokeRemoteMethod` and the receiving thunk (`StaticInvoke`) use serializes
the arguments one at a time from the last declared to the first, `pn` first and
`p1` last, and stops at the first that fails: it is the serialization at the
positions `n - 1, ..., 0` in that order, and the positions it took are the first
of that list, all of them when it returns true.  `StaticInvoke` fills a
value-initialized tuple that way and, when the serializer returns true, calls the
method with the tuple, each decoded value in its declared position; otherwise it
returns false without calling the method. -/
theorem C27_argument_order {V : Type} (types : List (ArgSerialize V)) (s : ISerializationType)
    (args construct : List V) (m : List V → Bool) :
    ArgumentsSerializer types s args
      = serializeAt types (List.range types.length).reverse s args ∧
    (ArgumentsSerializer types s args).2.2.2
      = (List.range types.length).reverse.take (ArgumentsSerializer types s args).2.2.2.length ∧
    ((ArgumentsSerializer types s args).1 = true →
      (ArgumentsSerializer types s args).2.2.2 = (List.range types.length).reverse) ∧
    ((ArgumentsSerializer types s construct).1 = true →
      StaticInvoke types construct m s
        = (m (ArgumentsSerializer types s construct).2.1,
            (ArgumentsSerializer types s construct).2.2.1,
            some (ArgumentsSerializer types s construct).2.1)) ∧
    ((ArgumentsSerializer types s construct).1 = false →
      StaticInvoke types construct m s
        = (false, (ArgumentsSerializer types s construct).2.2.1, none)) := by
  have e : ∀ a : List V, ArgumentsSerializer types s a
      = serializeAt types (List.range types.length).reverse s a :=
    fun a => ArgumentsSerializerHelper_eq types types.length s a
  have hlog := serializeAt_log types (List.range types.length).reverse s args
  refine ⟨e args, ?_, ?_, ?_, ?_⟩
  · rw [e args]
    exact hlog.1
  · rw [e args]
    exact hlog.2
  · intro h
    unfold StaticInvoke
    simp only [h, if_true]
  · intro h
    unfold StaticInvoke
    simp only [h, Bool.false_eq_true, if_false]

theorem C27_argument_order_witness :
    ((ArgumentsSerializer [exampleU8, exampleU8]
        (.input ⟨(WriteU .U8 (WriteU .U8 BitStreamOutput.init 2) 1).m_output, 0⟩) [0, 0]).1
      = true →
      StaticInvoke [exampleU8, exampleU8] [0, 0] (fun args => args == [1, 2])
          (.input ⟨(WriteU .U8 (WriteU .U8 BitStreamOutput.init 2) 1).m_output, 0⟩)
        = ((fun args => args == [1, 2]) (ArgumentsSerializer [exampleU8, exampleU8]
              (.input ⟨(WriteU .U8 (WriteU .U8 BitStreamOutput.init 2) 1).m_output, 0⟩)
              [0, 0]).2.1,
            (ArgumentsSerializer [exampleU8, exampleU8]
              (.input ⟨(WriteU .U8 (WriteU .U8 BitStreamOutput.init 2) 1).m_output, 0⟩)
              [0, 0]).2.2.1,
            some (ArgumentsSerializer [exampleU8, exampleU8]
              (.input ⟨(WriteU .U8 (WriteU .U8 BitStreamOutput.init 2) 1).m_output, 0⟩)
              [0, 0]).2.1)) ∧
    (ArgumentsSerializer [exampleU8, exampleU8]
        (.input ⟨(WriteU .U8 (WriteU .U8 BitStreamOutput.init 2) 1).m_output, 0⟩) [0, 0]).1
      = true ∧
    (StaticInvoke [exampleU8, exampleU8] [0, 0] (fun args => args == [1, 2])
      (.input ⟨(WriteU .U8 (WriteU .U8 BitStreamOutput.init 2) 1).m_output, 0⟩)).2.2
      = some [1, 2] :=
  ⟨(C27_argument_order [exampleU8, exampleU8]
      (.input ⟨(WriteU .U8 (WriteU .U8 BitStreamOutput.init 2) 1).m_output, 0⟩)
      [0, 0] [0, 0] (fun args => args == [1, 2])).2.2.2.1, by decide, by decide⟩

/-! ## C21: MetaStruct round trip -/

theorem WriteInv_mono (cache : List (Str × Nat)) (n m : Nat) (h : WriteInv cache n)
    (hnm : n ≤ m) : WriteInv cache m :=
  ⟨fun e he => ⟨le_trans (h.1 e he).1 hnm, (h.1 e he).2⟩, h.2⟩

theorem unique_write_facts (pw : UniqueStringPolicy) (s : BitStreamOutput) (x : Str)
    (hs : s.WF) (hw : WriteInv pw.m_writeCache s.m_nbits) (hx : TextString x) :
    (pw.Write s x).2.WF ∧ Extends s (pw.Write s x).2 ∧ s.m_nbits < (pw.Write s x).2.m_nbits ∧
      WriteInv (pw.Write s x).1.m_writeCache (pw.Write s x).2.m_nbits := by
  obtain ⟨u1, u2, u3, u4, _⟩ := unique_step pw
    ⟨pw.m_writeCache.map (fun (e : Str × Nat) => (e.2, e.1)), []⟩ s x [] hs hw
    (by unfold CacheInv; rfl) hx
  exact ⟨u1, u2, u3, u4⟩

theorem unique_read_back (pw pr : UniqueStringPolicy) (s b : BitStreamOutput) (x d : Str)
    (hs : s.WF) (hw : WriteInv pw.m_writeCache s.m_nbits)
    (hr : CacheInv pw.m_writeCache pr.m_readCache) (hx : TextString x)
    (hb : IsBytes b.m_output) (he : Extends (pw.Write s x).2 b) (hn : s.m_nbits < 2 ^ 32) :
    ∃ pr1, pr.Read ⟨b.m_output, s.m_nbits⟩ d
        = (true, x, pr1, ⟨b.m_output, (pw.Write s x).2.m_nbits⟩) ∧
      CacheInv (pw.Write s x).1.m_writeCache pr1.m_readCache :=
  (unique_step pw pr s x d hs hw hr hx).2.2.2.2 b hb he hn

theorem tag_read_back (s b : BitStreamOutput) (u d : Nat) (hs : s.WF) (hu : u < 256)
    (hb : IsBytes b.m_output) (he : Extends (WriteU .U8 s u) b) :
    ReadU .U8 ⟨b.m_output, s.m_nbits⟩ d
      = (true, u, ⟨b.m_output, (WriteU .U8 s u).m_nbits⟩) := by
  have hu8 : u < 2 ^ UType.U8.bits := hu
  obtain ⟨_, _, w3, b1, b2⟩ := WriteU_spec .U8 s u hs hu8
  rw [w3]
  exact ReadU_U8_of_hasBits b.m_output hb s.m_nbits u d hu8
    (HasBits.mono b1 (by omega) he) (HasBits.mono b2 (by omega) he)

theorem size_read_back (s b : BitStreamOutput) (u : Nat) (hs : s.WF) (hu : u < 2 ^ 32)
    (hb : IsBytes b.m_output) (he : Extends (WriteU .U32 s u) b) :
    ReadU .U32 ⟨b.m_output, s.m_nbits⟩ 0
      = (true, u, ⟨b.m_output, (WriteU .U32 s u).m_nbits⟩) := by
  have hu32 : u < 2 ^ UType.U32.bits := hu
  obtain ⟨_, _, w3, b1, b2⟩ := WriteU_spec .U32 s u hs hu32
  rw [w3]
  exact ReadU_of_hasBits .U32 b.m_output hb s.m_nbits u hu32
    (HasBits.mono b1 (by omega) he) (HasBits.mono b2 (by omega) he)

theorem WriteU_facts (U : UType) (s : BitStreamOutput) (u : Nat) (hs : s.WF)
    (hu : u < 2 ^ U.bits) :
    (WriteU U s u).WF ∧ Extends s (WriteU U s u) := by
  obtain ⟨w1, w2, _⟩ := WriteU_spec U s u hs hu
  exact ⟨w1, w2⟩


mutual
theorem ValueType_roundTrip {V : Type} (scalars : List (ScalarType V))
    (hk : scalars.length + 2 < 256) :
    ∀ (v : ValueType V), v.WF scalars → ∀ (fuel : Nat), v.size ≤ fuel →
      ∀ (pw : UniqueStringPolicy) (s : BitStreamOutput), s.WF →
        WriteInv pw.m_writeCache s.m_nbits →
        RoundTrip pw s (v.write scalars pw s) (ValueType.read scalars fuel) v
  | .scalar index x, hwf, fuel, hf, pw, s, hs, hw => by
    rw [ValueType.WF] at hwf
    obtain ⟨t, ht, hok⟩ := hwf
    have hi : index < scalars.length := by
      rw [List.get?_eq_some] at ht
      exact ht.1
    have hm : index % 256 = index := Nat.mod_eq_of_lt (by omega)
    obtain ⟨fuel, rfl⟩ : ∃ f, fuel = f + 1 := ⟨fuel - 1, by rw [ValueType.size] at hf; omega⟩
    obtain ⟨a1, a2⟩ := WriteU_facts .U8 s index hs (by show index < 2 ^ 8; omega)
    obtain ⟨b1, b2, b3⟩ := hok _ a1
    rw [ValueType.write, hm, ht]
    refine ⟨rfl, b1, a2.trans b2, WriteInv_mono _ _ _ hw (a2.trans b2).1,
      fun pr b hc hb he _ => ⟨pr, ?_, hc⟩⟩
    have e1 := tag_read_back s b index ((scalars.length + 2) % 256) hs (by omega) hb
      (b2.trans he)
    have e2 := b3 b hb he
    rw [ValueType.read]
    dsimp only
    rw [e1]
    dsimp only
    rw [if_pos hi, ht]
    dsimp only
    rw [e2]
    rfl
  | .struct name mappings fields, hwf, fuel, hf, pw, s, hs, hw => by
    rw [ValueType.WF] at hwf
    obtain ⟨hx, hl, hmap, hwfF⟩ := hwf
    have hm : scalars.length % 256 = scalars.length := Nat.mod_eq_of_lt (by omega)
    have hm2 : fields.length % 2 ^ 32 = fields.length := Nat.mod_eq_of_lt hl
    obtain ⟨fuel, rfl⟩ : ∃ f, fuel = f + 1 := ⟨fuel - 1, by rw [ValueType.size] at hf; omega⟩
    rw [ValueType.size] at hf
    obtain ⟨a1, a2⟩ := WriteU_facts .U8 s scalars.length hs (by show _ < 2 ^ 8; omega)
    obtain ⟨u1, u2, u3, u4⟩ := unique_write_facts pw _ name a1
      (WriteInv_mono _ _ _ hw a2.1) hx
    obtain ⟨c1, c2⟩ := WriteU_facts .U32 _ fields.length u1 hl
    obtain ⟨i1, i2, i3, i4, i5⟩ := Fields_roundTrip scalars hk fields hwfF fuel (by omega)
      _ _ c1 (WriteInv_mono _ _ _ u4 c2.1)
    rw [ValueType.write, hm, hm2]
    refine ⟨i1, i2, a2.trans (u2.trans (c2.trans i3)), i4, fun pr b hc hb he hn => ?_⟩
    have e1 := tag_read_back s b scalars.length ((scalars.length + 2) % 256) hs (by omega) hb
      (u2.trans (c2.trans (i3.trans he)))
    obtain ⟨pr1, e2, hc1⟩ := unique_read_back pw pr _ b name [] a1
      (WriteInv_mono _ _ _ hw a2.1) hc hx hb (c2.trans (i3.trans he))
      (by have h1 := c2.1; have h2 := i3.1; omega)
    have e3 := size_read_back _ b fields.length u1 hl hb (i3.trans he)
    obtain ⟨pr2, e4, hc2⟩ := i5 pr1 b hc1 hb he hn
    refine ⟨pr2, ?_, hc2⟩
    rw [ValueType.read]
    dsimp only
    rw [e1]
    dsimp only
    rw [if_neg (lt_irrefl _), if_pos rfl, e2]
    dsimp only
    rw [e3]
    dsimp only
    rw [e4]
    dsimp only
    rw [hmap]
    rfl
  | .array items, hwf, fuel, hf, pw, s, hs, hw => by
    rw [ValueType.WF] at hwf
    obtain ⟨hl, hwfA⟩ := hwf
    have hm : (scalars.length + 1) % 256 = scalars.length + 1 := Nat.mod_eq_of_lt (by omega)
    have hm2 : items.length % 2 ^ 32 = items.length := Nat.mod_eq_of_lt hl
    obtain ⟨fuel, rfl⟩ : ∃ f, fuel = f + 1 := ⟨fuel - 1, by rw [ValueType.size] at hf; omega⟩
    rw [ValueType.size] at hf
    obtain ⟨a1, a2⟩ := WriteU_facts .U8 s (scalars.length + 1) hs (by show _ < 2 ^ 8; omega)
    obtain ⟨c1, c2⟩ := WriteU_facts .U32 _ items.length a1 hl
    obtain ⟨i1, i2, i3, i4, i5⟩ := ArrayType_roundTrip scalars hk items hwfA fuel (by omega)
      pw _ c1 (WriteInv_mono _ _ _ hw (a2.trans c2).1)
    rw [ValueType.write, hm, hm2]
    refine ⟨i1, i2, a2.trans (c2.trans i3), i4, fun pr b hc hb he hn => ?_⟩
    have e1 := tag_read_back s b (scalars.length + 1) ((scalars.length + 2) % 256) hs
      (by omega) hb (c2.trans (i3.trans he))
    have e3 := size_read_back _ b items.length a1 hl hb (i3.trans he)
    obtain ⟨pr2, e4, hc2⟩ := i5 pr b hc hb he hn
    refine ⟨pr2, ?_, hc2⟩
    rw [ValueType.read]
    dsimp only
    rw [e1]
    dsimp only
    rw [if_neg (show ¬ scalars.length + 1 < scalars.length by omega),
      if_neg (show ¬ scalars.length + 1 = scalars.length by omega), if_pos rfl, e3]
    dsimp only
    rw [e4]
    rfl
theorem ArrayType_roundTrip {V : Type} (scalars : List (ScalarType V))
    (hk : scalars.length + 2 < 256) :
    ∀ (items : ArrayType V), items.WF scalars → ∀ (fuel : Nat), items.size ≤ fuel →
      ∀ (pw : UniqueStringPolicy) (s : BitStreamOutput), s.WF →
        WriteInv pw.m_writeCache s.m_nbits →
        RoundTrip pw s (items.write scalars pw s) (ArrayType.read scalars fuel items.length)
          items
  | .nil, _, fuel, hf, pw, s, hs, hw => by
    obtain ⟨fuel, rfl⟩ : ∃ f, fuel = f + 1 := ⟨fuel - 1, by rw [ArrayType.size] at hf; omega⟩
    rw [ArrayType.write]
    exact ⟨rfl, hs, Extends.refl s, hw, fun pr b hc _ _ _ => ⟨pr, by
      rw [ArrayType.length, ArrayType.read], hc⟩⟩
  | .cons v rest, hwf, fuel, hf, pw, s, hs, hw => by
    rw [ArrayType.WF] at hwf
    obtain ⟨fuel, rfl⟩ : ∃ f, fuel = f + 1 := ⟨fuel - 1, by rw [ArrayType.size] at hf; omega⟩
    rw [ArrayType.size] at hf
    obtain ⟨v1, v2, v3, v4, v5⟩ := ValueType_roundTrip scalars hk v hwf.1 fuel (by omega)
      pw s hs hw
    obtain ⟨i1, i2, i3, i4, i5⟩ := ArrayType_roundTrip scalars hk rest hwf.2 fuel (by omega)
      _ _ v2 v4
    rw [ArrayType.write, v1, if_neg (by decide)]
    refine ⟨i1, i2, v3.trans i3, i4, fun pr b hc hb he hn => ?_⟩
    obtain ⟨pr1, e1, hc1⟩ := v5 pr b hc hb (i3.trans he) (le_trans i3.1 hn)
    obtain ⟨pr2, e2, hc2⟩ := i5 pr1 b hc1 hb he hn
    refine ⟨pr2, ?_, hc2⟩
    rw [ArrayType.length, ArrayType.read, e1]
    dsimp only
    rw [e2]
theorem Fields_roundTrip {V : Type} (scalars : List (ScalarType V))
    (hk : scalars.length + 2 < 256) :
    ∀ (fields : Fields V), fields.WF scalars → ∀ (fuel : Nat), fields.size ≤ fuel →
      ∀ (pw : UniqueStringPolicy) (s : BitStreamOutput), s.WF →
        WriteInv pw.m_writeCache s.m_nbits →
        RoundTrip pw s (fields.write scalars pw s) (Fields.read scalars fuel fields.length)
          fields
  | .nil, _, fuel, hf, pw, s, hs, hw => by
    obtain ⟨fuel, rfl⟩ : ∃ f, fuel = f + 1 := ⟨fuel - 1, by rw [Fields.size] at hf; omega⟩
    rw [Fields.write]
    exact ⟨rfl, hs, Extends.refl s, hw, fun pr b hc _ _ _ => ⟨pr, by
      rw [Fields.length, Fields.read], hc⟩⟩
  | .noValue name rest, hwf, fuel, hf, pw, s, hs, hw => by
    rw [Fields.WF] at hwf
    obtain ⟨fuel, rfl⟩ : ∃ f, fuel = f + 1 := ⟨fuel - 1, by rw [Fields.size] at hf; omega⟩
    rw [Fields.size] at hf
    obtain ⟨u1, u2, u3, u4⟩ := unique_write_facts pw s name hs hw hwf.1
    have w1 : (WriteBool (pw.Write s name).2 false).WF := WriteBit_WF _ _ u1
    have w2 : Extends (pw.Write s name).2 (WriteBool (pw.Write s name).2 false) :=
      WriteBit_extends _ _ u1
    obtain ⟨i1, i2, i3, i4, i5⟩ := Fields_roundTrip scalars hk rest hwf.2 fuel (by omega)
      _ _ w1 (WriteInv_mono _ _ _ u4 w2.1)
    rw [Fields.write]
    refine ⟨i1, i2, u2.trans (w2.trans i3), i4, fun pr b hc hb he hn => ?_⟩
    obtain ⟨pr1, e1, hc1⟩ := unique_read_back pw pr s b name [] hs hw hc hwf.1 hb
      (w2.trans (i3.trans he)) (by have h1 := w2.1; have h2 := i3.1; omega)
    have e2 := ReadBool_of_extends _ _ b false u1 w1 (Extends.refl _) (i3.trans he)
    obtain ⟨pr2, e3, hc2⟩ := i5 pr1 b hc1 hb he hn
    refine ⟨pr2, ?_, hc2⟩
    rw [Fields.length, Fields.read]
    dsimp only
    rw [e1]
    dsimp only
    rw [e2]
    dsimp only
    have e3b : Fields.read scalars fuel rest.length pr1
        ⟨b.m_output, (pw.Write s name).2.m_nbits + 1⟩ = _ := e3
    rw [e3b]
    rfl
  | .withValue name v rest, hwf, fuel, hf, pw, s, hs, hw => by
    rw [Fields.WF] at hwf
    obtain ⟨fuel, rfl⟩ : ∃ f, fuel = f + 1 := ⟨fuel - 1, by rw [Fields.size] at hf; omega⟩
    rw [Fields.size] at hf
    obtain ⟨u1, u2, u3, u4⟩ := unique_write_facts pw s name hs hw hwf.1
    have w1 : (WriteBool (pw.Write s name).2 true).WF := WriteBit_WF _ _ u1
    have w2 : Extends (pw.Write s name).2 (WriteBool (pw.Write s name).2 true) :=
      WriteBit_extends _ _ u1
    obtain ⟨v1, v2, v3, v4, v5⟩ := ValueType_roundTrip scalars hk v hwf.2.1 fuel (by omega)
      _ _ w1 (WriteInv_mono _ _ _ u4 w2.1)
    obtain ⟨i1, i2, i3, i4, i5⟩ := Fields_roundTrip scalars hk rest hwf.2.2 fuel (by omega)
      _ _ v2 v4
    rw [Fields.write, v1, if_neg (by decide)]
    refine ⟨i1, i2, u2.trans (w2.trans (v3.trans i3)), i4, fun pr b hc hb he hn => ?_⟩
    obtain ⟨pr1, e1, hc1⟩ := unique_read_back pw pr s b name [] hs hw hc hwf.1 hb
      (w2.trans (v3.trans (i3.trans he)))
      (by have h1 := w2.1; have h2 := v3.1; have h3 := i3.1; omega)
    have e2 := ReadBool_of_extends _ _ b true u1 w1 (Extends.refl _) (v3.trans (i3.trans he))
    obtain ⟨pr2, e3, hc2⟩ := v5 pr1 b hc1 hb (i3.trans he) (le_trans i3.1 hn)
    obtain ⟨pr3, e4, hc3⟩ := i5 pr2 b hc2 hb he hn
    refine ⟨pr3, ?_, hc3⟩
    rw [Fields.length, Fields.read]
    dsimp only
    rw [e1]
    dsimp only
    rw [e2]
    dsimp only
    have e3b : ValueType.read scalars fuel pr1
        ⟨b.m_output, (pw.Write s name).2.m_nbits + 1⟩ = _ := e3
    rw [e3b]
    dsimp only
    rw [e4]
    rfl
end


theorem Struct_roundTrip {V : Type} (scalars : List (ScalarType V))
    (hk : scalars.length + 2 < 256) (st : Struct V) (hwf : st.WF scalars) (fuel : Nat)
    (hf : st.m_fields.size ≤ fuel) (pw : UniqueStringPolicy) (s : BitStreamOutput) (hs : s.WF)
    (hw : WriteInv pw.m_writeCache s.m_nbits) :
    RoundTrip pw s (st.write scalars pw s) (Struct.read scalars fuel) st := by
  obtain ⟨name, mappings, fields⟩ := st
  obtain ⟨hx, hl, hmap, hwfF, _⟩ := hwf
  dsimp only at hx hl hmap hwfF hf
  have hm2 : fields.length % 2 ^ 32 = fields.length := Nat.mod_eq_of_lt hl
  obtain ⟨u1, u2, u3, u4⟩ := unique_write_facts pw s name hs hw hx
  obtain ⟨c1, c2⟩ := WriteU_facts .U32 _ fields.length u1 hl
  obtain ⟨i1, i2, i3, i4, i5⟩ := Fields_roundTrip scalars hk fields hwfF fuel hf
    _ _ c1 (WriteInv_mono _ _ _ u4 c2.1)
  unfold Struct.write
  dsimp only
  rw [hm2]
  refine ⟨i1, i2, u2.trans (c2.trans i3), i4, fun pr b hc hb he hn => ?_⟩
  obtain ⟨pr1, e2, hc1⟩ := unique_read_back pw pr s b name [] hs hw hc hx hb
    (c2.trans (i3.trans he)) (by have h1 := c2.1; have h2 := i3.1; omega)
  have e3 := size_read_back _ b fields.length u1 hl hb (i3.trans he)
  obtain ⟨pr2, e4, hc2⟩ := i5 pr1 b hc1 hb he hn
  refine ⟨pr2, ?_, hc2⟩
  unfold Struct.read
  dsimp only
  rw [e2]
  dsimp only
  rw [e3]
  dsimp only
  rw [e4]
  dsimp only
  rw [hmap]
  rfl

theorem mapAssign_of_absent (name : Str) (i : Nat) (m : List (Str × Nat))
    (h : ∀ e ∈ m, strEq e.1 name = false) : mapAssign name i m = m ++ [(name, i)] := by
  induction m with
  | nil => rfl
  | cons e rest ih =>
    rw [mapAssign, if_neg (by rw [h e (List.mem_cons_self _ _)]; decide),
      ih (fun e he => h e (List.mem_cons_of_mem _ he))]
    rfl

theorem rebuildMappings_eq_indexed (names : List Str) :
    ∀ (i : Nat) (m : List (Str × Nat)),
      names.Pairwise (fun a b => strEq a b = false) →
      (∀ e ∈ m, ∀ n ∈ names, strEq e.1 n = false) →
      rebuildMappings names i m = m ++ indexed names i := by
  induction names with
  | nil => intro i m _ _; simp [rebuildMappings, indexed]
  | cons name rest ih =>
    intro i m hp hm
    rw [List.pairwise_cons] at hp
    rw [rebuildMappings, mapAssign_of_absent name i m
      (fun e he => hm e he name (List.mem_cons_self _ _)),
      ih (i + 1) _ hp.2 (fun e he n hn => by
        rcases List.mem_append.1 he with h | h
        · exact hm e h n (List.mem_cons_of_mem _ hn)
        · rw [List.mem_singleton] at h
          rw [h]
          exact hp.1 n hn)]
    simp [indexed]

theorem strEq_self (a : Str) : strEq a a = true := by
  unfold strEq
  exact decide_eq_true rfl

theorem indexed_find (names : List Str) :
    ∀ (i j : Nat) (name : Str), names.Pairwise (fun a b => strEq a b = false) →
      names.get? j = some name →
      (indexed names i).find? (fun e => strEq e.1 name) = some (name, i + j) := by
  induction names with
  | nil => intro i j name _ h; simp at h
  | cons n rest ih =>
    intro i j name hp h
    rw [List.pairwise_cons] at hp
    cases j with
    | zero =>
      simp only [List.get?_cons_zero, Option.some.injEq] at h
      subst h
      simp [indexed, List.find?_cons, strEq_self]
    | succ j =>
      rw [List.get?_cons_succ] at h
      have hmem : name ∈ rest := List.get?_mem h
      have hne : strEq n name = false := hp.1 name hmem
      rw [indexed, List.find?_cons]
      simp only [hne]
      rw [ih (i + 1) j name hp.2 h]
      congr 2
      omega

theorem indexed_find_none (names : List Str) (name : Str) :
    ∀ (i : Nat), (indexed names i).find? (fun e => strEq e.1 name) = none →
      ∀ n ∈ names, strEq n name = false := by
  induction names with
  | nil => intro _ _ n hn; simp at hn
  | cons a rest ih =>
    intro i h n hn
    rw [indexed, List.find?_cons] at h
    cases ha : strEq a name with
    | true => simp [ha] at h
    | false =>
      simp only [ha] at h
      rcases List.mem_cons.1 hn with e | e
      · rw [e]; exact ha
      · exact ih (i + 1) h n e

theorem indexed_mem (l : List Str) : ∀ (k : Nat), ∀ y ∈ indexed l k, y.1 ∈ l := by
  induction l with
  | nil => intro k y hy; simp [indexed] at hy
  | cons a t ih =>
    intro k y hy
    rw [indexed, List.mem_cons] at hy
    rcases hy with h | h
    · rw [h]; exact List.mem_cons_self _ _
    · exact List.mem_cons_of_mem _ (ih (k + 1) y h)

theorem indexed_append (name : Str) (l : List Str) :
    ∀ (k : Nat), indexed (l ++ [name]) k = indexed l k ++ [(name, k + l.length)] := by
  induction l with
  | nil => intro k; simp [indexed]
  | cons a t ih =>
    intro k
    rw [List.cons_append, indexed, indexed, ih (k + 1), List.cons_append, List.length_cons,
      Nat.add_assoc, Nat.add_comm 1]

theorem Fields.names_get? {V : Type} :
    ∀ (fields : Fields V) (i : Nat) (f : Str × Option (ValueType V)),
      fields.get? i = some f → fields.names.get? i = some f.1
  | .nil, _, _, h => by simp [Fields.get?] at h
  | .noValue name rest, 0, f, h => by
    simp only [Fields.get?, Option.some.injEq] at h
    subst h
    rfl
  | .withValue name v rest, 0, f, h => by
    simp only [Fields.get?, Option.some.injEq] at h
    subst h
    rfl
  | .noValue name rest, i + 1, f, h => by
    rw [Fields.get?] at h
    rw [Fields.names, List.get?_cons_succ]
    exact Fields.names_get? rest i f h
  | .withValue name v rest, i + 1, f, h => by
    rw [Fields.get?] at h
    rw [Fields.names, List.get?_cons_succ]
    exact Fields.names_get? rest i f h

theorem Fields.names_emplace_back {V : Type} :
    ∀ (fields : Fields V) (name : Str),
      (fields.emplace_back name).names = fields.names ++ [name] ∧
      (fields.emplace_back name).length = fields.length + 1 ∧
      fields.names.length = fields.length
  | .nil, _ => ⟨rfl, rfl, rfl⟩
  | .noValue n rest, name => by
    obtain ⟨h1, h2, h3⟩ := Fields.names_emplace_back rest name
    simp only [Fields.emplace_back, Fields.names, Fields.length, h1, h2, List.cons_append,
      List.length_cons, h3, and_self]
  | .withValue n v rest, name => by
    obtain ⟨h1, h2, h3⟩ := Fields.names_emplace_back rest name
    simp only [Fields.emplace_back, Fields.names, Fields.length, h1, h2, List.cons_append,
      List.length_cons, h3, and_self]

/-- On a `Struct` whose map is the one `AddField` keeps and whose field names
are distinct, every field is found under its name. -/
theorem Struct.field_lookup {V : Type} (st : Struct V)
    (hmap : st.m_mappings = rebuildMappings st.m_fields.names 0 [])
    (hp : st.m_fields.names.Pairwise (fun a b => strEq a b = false))
    (i : Nat) (f : Str × Option (ValueType V)) (h : st.m_fields.get? i = some f) :
    st.HasField f.1 = true ∧ st.GetField f.1 = some f := by
  have e := rebuildMappings_eq_indexed st.m_fields.names 0 [] hp (fun e he => by simp at he)
  rw [List.nil_append] at e
  have e2 := indexed_find st.m_fields.names 0 i f.1 hp (Fields.names_get? _ i f h)
  rw [Nat.zero_add] at e2
  unfold Struct.HasField Struct.GetField
  rw [hmap, e, e2]
  exact ⟨rfl, h⟩

/-- `AddField` keeps the map that `Serialize` rebuilds in read mode and keeps
the names of the fields distinct; the `Struct` that `Struct (name)` constructs
has both. -/
theorem Struct.AddField_built {V : Type} (st : Struct V) (name : Str)
    (hmap : st.m_mappings = rebuildMappings st.m_fields.names 0 [])
    (hp : st.m_fields.names.Pairwise (fun a b => strEq a b = false)) :
    (st.AddField name).m_mappings = rebuildMappings (st.AddField name).m_fields.names 0 [] ∧
    (st.AddField name).m_fields.names.Pairwise (fun a b => strEq a b = false) ∧
    (st.AddField name).HasField name = true := by
  have e := rebuildMappings_eq_indexed st.m_fields.names 0 [] hp (fun e he => by simp at he)
  rw [List.nil_append] at e
  unfold Struct.AddField
  cases hfind : st.m_mappings.find? (fun e => strEq e.1 name) with
  | some x =>
    dsimp only
    refine ⟨hmap, hp, ?_⟩
    unfold Struct.HasField
    rw [hfind]
    rfl
  | none =>
    dsimp only
    obtain ⟨n1, n2, n3⟩ := Fields.names_emplace_back st.m_fields name
    rw [hmap, e] at hfind
    have habs := indexed_find_none _ _ 0 hfind
    have hp2 : (st.m_fields.names ++ [name]).Pairwise (fun a b => strEq a b = false) := by
      rw [List.pairwise_append]
      refine ⟨hp, List.pairwise_singleton _ _, fun a ha b hb => ?_⟩
      rw [List.mem_singleton] at hb
      rw [hb]
      exact habs a ha
    have e3 := rebuildMappings_eq_indexed (st.m_fields.names ++ [name]) 0 [] hp2
      (fun e he => by simp at he)
    rw [List.nil_append] at e3
    have e4 : mapAssign name ((st.m_fields.emplace_back name).length - 1) st.m_mappings
        = indexed (st.m_fields.names ++ [name]) 0 := by
      rw [hmap, e, mapAssign_of_absent name _ _
        (fun x hx => habs x.1 (indexed_mem _ _ x hx)), n2, Nat.add_sub_cancel, ← n3,
        indexed_append, Nat.zero_add]
    refine ⟨by rw [n1, e3]; exact e4, by rw [n1]; exact hp2, ?_⟩
    unfold Struct.HasField
    dsimp only
    rw [e4, indexed_find _ 0 st.m_fields.names.length name hp2 (by simp)]
    rfl

theorem scalarU32_ok (x : Nat) (hx : x < 2 ^ 32) : ScalarOK scalarU32 x := by
  intro s hs
  obtain ⟨a1, a2⟩ := WriteU_facts .U32 s x hs hx
  exact ⟨a1, a2, fun b hb he => size_read_back s b x hs hx hb he⟩

/-- C21, the claim as written fails.  The `Struct` named `"a\0b"` with the one
field `"a\0c"` is built by `SetName` and `AddField` (its map is the one
`AddField` keeps); `Serialize` in write mode returns true, and `Serialize` in
read mode on the output restores the name `"a\0b"` and one field, whose name is
`"a\0b"`, not `"a\0c"`. -/
theorem C21_zero_byte_counterexample :
    ((⟨[], [], .nil⟩ : Struct Nat).SetName [97, 0, 98]).AddField [97, 0, 99]
      = zeroByteStruct ∧
    (zeroByteStruct.write [scalarU32] ⟨[], []⟩ BitStreamOutput.init).1 = true ∧
    (Struct.read [scalarU32] 5 ⟨[], []⟩
        ⟨(zeroByteStruct.write [scalarU32] ⟨[], []⟩ BitStreamOutput.init).2.2.m_output, 0⟩).map
        (fun r => (r.1.m_name, r.1.m_fields.names))
      = some ([97, 0, 98], [[97, 0, 98]]) ∧
    zeroByteStruct.m_fields.names = [[97, 0, 99]] := by
  refine ⟨rfl, by decide, ?_, rfl⟩
  set_option maxRecDepth 100000 in decide

/-- C21, amended (MetaStruct round trip).  For every `Struct` as `SetName`,
`AddField` and `SetValue` build it over fewer than 254 scalar types (fields
holding no value, a scalar, a nested `Struct` or an array of values, to any
depth), whose names hold no zero byte, whose scalars round trip under their
default policy and whose deques have fewer than `2^32` elements, written under
a reset `unique` policy to a stream that stays within `2^32` bits: `Serialize`
in write mode returns true, and `Serialize` in read mode on a default-constructed
`Struct`, under a reset `unique` policy at the writer's first offset of the
output, returns true, ends at the writer's last offset and restores the
`Struct` written: its name, its fields in order with their names and values,
and the name-to-index map, so that `HasField (n)` is true and `GetField (n)` is
the field named `n` for the name `n` of every field. -/
theorem C21_metastruct_round_trip {V : Type} (scalars : List (ScalarType V)) (st : Struct V)
    (s : BitStreamOutput) (fuel : Nat) (hk : scalars.length + 2 < 256) (hs : s.WF)
    (hwf : st.WF scalars) (hf : st.m_fields.size ≤ fuel)
    (hn : (st.write scalars ⟨[], []⟩ s).2.2.m_nbits ≤ 2 ^ 32) :
    (st.write scalars ⟨[], []⟩ s).1 = true ∧
    ∃ r, Struct.read scalars fuel ⟨[], []⟩
          ⟨(st.write scalars ⟨[], []⟩ s).2.2.m_output, s.m_nbits⟩ = some r ∧
      r.1 = st ∧
      r.2.2 = ⟨(st.write scalars ⟨[], []⟩ s).2.2.m_output,
        (st.write scalars ⟨[], []⟩ s).2.2.m_nbits⟩ ∧
      ∀ (i : Nat) (f : Str × Option (ValueType V)), r.1.m_fields.get? i = some f →
        r.1.HasField f.1 = true ∧ r.1.GetField f.1 = some f := by
  obtain ⟨i1, i2, _, _, i5⟩ := Struct_roundTrip scalars hk st hwf fuel hf ⟨[], []⟩ s hs
    ⟨fun e he => by simp at he, by simp⟩
  obtain ⟨pr, e, _⟩ := i5 ⟨[], []⟩ _ rfl i2.2.1 (Extends.refl _) hn
  exact ⟨i1, _, e, rfl, rfl, fun i f h => Struct.field_lookup st hwf.2.2.1 hwf.2.2.2.2 i f h⟩

theorem exampleStruct_WF : exampleStruct.WF [scalarU32] := by
  refine ⟨by decide, by decide, by decide, ?_, by decide⟩
  exact ⟨by decide, ⟨scalarU32, rfl, scalarU32_ok 1000 (by decide)⟩, by decide,
    by decide, ⟨by decide, ⟨⟨by decide, by decide, by decide, by decide, trivial⟩,
      ⟨scalarU32, rfl, scalarU32_ok 7 (by decide)⟩, trivial⟩⟩, trivial⟩

theorem C21_metastruct_round_trip_witness :
    [scalarU32].length + 2 < 256 ∧ BitStreamOutput.init.WF ∧ exampleStruct.WF [scalarU32] ∧
    exampleStruct.m_fields.size ≤ 20 ∧
    (exampleStruct.write [scalarU32] ⟨[], []⟩ BitStreamOutput.init).2.2.m_nbits ≤ 2 ^ 32 ∧
    ((exampleStruct.write [scalarU32] ⟨[], []⟩ BitStreamOutput.init).1 = true ∧
    ∃ r, Struct.read [scalarU32] 20 ⟨[], []⟩
          ⟨(exampleStruct.write [scalarU32] ⟨[], []⟩ BitStreamOutput.init).2.2.m_output,
            BitStreamOutput.init.m_nbits⟩ = some r ∧
      r.1 = exampleStruct ∧
      r.2.2 = ⟨(exampleStruct.write [scalarU32] ⟨[], []⟩ BitStreamOutput.init).2.2.m_output,
        (exampleStruct.write [scalarU32] ⟨[], []⟩ BitStreamOutput.init).2.2.m_nbits⟩ ∧
      ∀ (i : Nat) (f : Str × Option (ValueType Nat)), r.1.m_fields.get? i = some f →
        r.1.HasField f.1 = true ∧ r.1.GetField f.1 = some f) :=
  ⟨by decide, by decide, exampleStruct_WF, by decide, by decide,
    C21_metastruct_round_trip [scalarU32] exampleStruct BitStreamOutput.init 20 (by decide)
      (by decide) exampleStruct_WF (by decide) (by decide)⟩

/-! ## C34: wraparound sequence comparison -/

/-- C34 (wraparound sequence comparison).  For all 16-bit `a` and `b`, with `d`
the value of `(a - b) mod 2^16` read as a signed 16-bit integer: `lt (a, b)` holds
iff `d < 0`, `le` iff `d ≤ 0`, `gt` iff `d > 0` and `ge` iff `d ≥ 0` (and `eq` iff
`d = 0`); hence for every `k` with `1 ≤ k ≤ 32767`, `lt (a, (a + k) mod 2^16)` and
`gt ((a + k) mod 2^16, a)` hold, also when `a + k` wraps past 65535. -/
theorem C34_wraparound_comparison (a b : Nat) (ha : a < 65536) (hb : b < 65536) :
    (lt a b = true ↔ signedDiff16 a b < 0) ∧
    (le a b = true ↔ signedDiff16 a b ≤ 0) ∧
    (gt a b = true ↔ signedDiff16 a b > 0) ∧
    (ge a b = true ↔ signedDiff16 a b ≥ 0) ∧
    (eq a b = true ↔ signedDiff16 a b = 0) ∧
    ∀ k, 1 ≤ k → k ≤ 32767 →
      lt a ((a + k) % 65536) = true ∧ gt ((a + k) % 65536) a = true := by
  unfold lt le gt ge eq toInt16 signedDiff16
  simp only [decide_eq_true_eq]
  refine ⟨?_, ?_, ?_, ?_, ?_, ?_⟩
  · split <;> omega
  · split <;> omega
  · split <;> omega
  · split <;> omega
  · split <;> omega
  · intro k h1 h2
    constructor <;> omega

theorem C34_wraparound_comparison_witness :
    (65000 : Nat) < 65536 ∧ (200 : Nat) < 65536 ∧
    (lt 65000 200 = true ↔ signedDiff16 65000 200 < 0) ∧
    signedDiff16 65000 200 = -736 ∧
    lt 65000 ((65000 + 736) % 65536) = true ∧ gt ((65000 + 736) % 65536) 65000 = true :=
  ⟨by decide, by decide,
    (C34_wraparound_comparison 65000 200 (by decide) (by decide)).1, by decide,
    (C34_wraparound_comparison 65000 200 (by decide) (by decide)).2.2.2.2.2 736
      (by decide) (by decide)⟩

/-! ## C35: effective-bit count -/

theorem effLow_table (v : Nat) (hv : v < 2 ^ 4) :
    (v = 0 → effectiveBitsTable.getD v 0 = 0) ∧
    (v ≠ 0 → 2 ^ (effectiveBitsTable.getD v 0 - 1) ≤ v) := by
  have hv : v < 16 := by simpa using hv
  interval_cases v <;> simp [effectiveBitsTable]

theorem effLow_halve (h : Nat) (f : Nat → Nat) (hs : EffSpec h f)
    (hf : ∀ v, v < 2 ^ h → (v = 0 → f v = 0) ∧ (v ≠ 0 → 2 ^ (f v - 1) ≤ v))
    (u : Nat) (hu : u < 2 ^ (h + h)) :
    (u = 0 → (if u >>> h ≠ 0 then h + f ((u >>> h) % 2 ^ h) else f (u % 2 ^ h)) = 0) ∧
    (u ≠ 0 →
      2 ^ ((if u >>> h ≠ 0 then h + f ((u >>> h) % 2 ^ h) else f (u % 2 ^ h)) - 1) ≤ u) := by
  rw [Nat.shiftRight_eq_div_pow]
  have hpos : 0 < 2 ^ h := by positivity
  by_cases c : u / 2 ^ h ≠ 0
  · rw [if_pos c]
    have h1 : u / 2 ^ h < 2 ^ h := by
      rw [Nat.div_lt_iff_lt_mul hpos, ← pow_add]; exact hu
    rw [Nat.mod_eq_of_lt h1]
    have h3 := (hf _ h1).2 c
    have h4 := (hs _ h1).2.2 c
    refine ⟨fun h0 => ?_, fun _ => ?_⟩
    · subst h0
      simp at c
    · have e : h + f (u / 2 ^ h) - 1 = (f (u / 2 ^ h) - 1) + h := by omega
      rw [e, pow_add]
      calc 2 ^ (f (u / 2 ^ h) - 1) * 2 ^ h ≤ (u / 2 ^ h) * 2 ^ h := Nat.mul_le_mul_right _ h3
        _ ≤ u := Nat.div_mul_le_self u (2 ^ h)
  · rw [if_neg c]
    have h0 : u / 2 ^ h = 0 := by simpa using c
    have h1 : u < 2 ^ h := (Nat.div_eq_zero_iff hpos).mp h0
    rw [Nat.mod_eq_of_lt h1]
    exact hf _ h1

theorem GetNumEffectiveBits8_eq (u : Nat) (hu : u < 2 ^ 8) :
    GetNumEffectiveBits8 u =
      if u >>> 4 ≠ 0 then 4 + effectiveBitsTable.getD ((u >>> 4) % 2 ^ 4) 0
      else effectiveBitsTable.getD (u % 2 ^ 4) 0 := by
  unfold GetNumEffectiveBits8
  have h1 : u >>> 4 < 2 ^ 4 := by
    rw [Nat.shiftRight_eq_div_pow]; norm_num at hu ⊢; omega
  by_cases c : u >>> 4 ≠ 0
  · rw [if_pos c, if_pos c, Nat.mod_eq_of_lt h1]
  · rw [if_neg c, if_neg c]
    have : u < 2 ^ 4 := by
      rw [Nat.shiftRight_eq_div_pow] at c; norm_num at c hu ⊢; omega
    rw [Nat.mod_eq_of_lt this]

theorem effLow_8 (u : Nat) (hu : u < 2 ^ 8) :
    (u = 0 → GetNumEffectiveBits8 u = 0) ∧
    (u ≠ 0 → 2 ^ (GetNumEffectiveBits8 u - 1) ≤ u) := by
  rw [GetNumEffectiveBits8_eq u hu]
  exact effLow_halve 4 _ effSpec_table effLow_table u hu

theorem effLow_16 (u : Nat) (hu : u < 2 ^ 16) :
    (u = 0 → GetNumEffectiveBits16 u = 0) ∧
    (u ≠ 0 → 2 ^ (GetNumEffectiveBits16 u - 1) ≤ u) :=
  effLow_halve 8 _ effSpec_8 effLow_8 u hu

theorem effLow_32 (u : Nat) (hu : u < 2 ^ 32) :
    (u = 0 → GetNumEffectiveBits32 u = 0) ∧
    (u ≠ 0 → 2 ^ (GetNumEffectiveBits32 u - 1) ≤ u) :=
  effLow_halve 16 _ effSpec_16 effLow_16 u hu

theorem effLow_64 (u : Nat) (hu : u < 2 ^ 64) :
    (u = 0 → GetNumEffectiveBits64 u = 0) ∧
    (u ≠ 0 → 2 ^ (GetNumEffectiveBits64 u - 1) ≤ u) :=
  effLow_halve 32 _ effSpec_32 effLow_32 u hu

theorem effLow (U : UType) (u : Nat) (hu : u < 2 ^ U.bits) :
    (u = 0 → GetNumEffectiveBits U u = 0) ∧
    (u ≠ 0 → 2 ^ (GetNumEffectiveBits U u - 1) ≤ u) := by
  cases U
  · exact effLow_8 u hu
  · exact effLow_16 u hu
  · exact effLow_32 u hu
  · exact effLow_64 u hu

/-- C35 (effective-bit count).  For each of the four unsigned widths and every
value `x` of that width, `GetNumEffectiveBits (x)` is 0 when `x = 0` and otherwise
`floor (log2 x) + 1`, the 1-based position of the highest set bit (that bit of
`x` is set and no bit at or above the count is); it is the least `n` with
`x < 2^n`. -/
theorem C35_effective_bits (U : UType) (x : Nat) (hx : x < 2 ^ U.bits) :
    (x = 0 → GetNumEffectiveBits U x = 0) ∧
    (x ≠ 0 → GetNumEffectiveBits U x = Nat.log 2 x + 1) ∧
    (x ≠ 0 → x.testBit (GetNumEffectiveBits U x - 1) = true) ∧
    (∀ i, GetNumEffectiveBits U x ≤ i → x.testBit i = false) ∧
    (∀ n, x < 2 ^ n ↔ GetNumEffectiveBits U x ≤ n) := by
  obtain ⟨l0, l1⟩ := effLow U x hx
  obtain ⟨_, s2, s3⟩ := effSpec U x hx
  have hlog : x ≠ 0 → GetNumEffectiveBits U x = Nat.log 2 x + 1 := by
    intro h
    have h1 := s3 h
    have e : Nat.log 2 x = GetNumEffectiveBits U x - 1 := by
      rw [Nat.log_eq_iff (Or.inr ⟨by norm_num, h⟩)]
      refine ⟨l1 h, ?_⟩
      rw [Nat.sub_add_cancel h1]
      exact s2
    omega
  refine ⟨l0, hlog, fun h => ?_, fun i hi => ?_, fun n => ⟨fun h => ?_, fun h => ?_⟩⟩
  · have h1 := s3 h
    have h2 := l1 h
    rw [Nat.testBit_to_div_mod, decide_eq_true_eq]
    have h3 : x / 2 ^ (GetNumEffectiveBits U x - 1) = 1 := by
      apply Nat.div_eq_of_lt_le
      · simpa using h2
      · have : 2 ^ GetNumEffectiveBits U x = 2 ^ (GetNumEffectiveBits U x - 1) * 2 := by
          rw [← pow_succ, Nat.sub_add_cancel h1]
        omega
    rw [h3]
  · exact Nat.testBit_lt_two_pow (lt_of_lt_of_le s2 (Nat.pow_le_pow_right (by norm_num) hi))
  · by_contra hc
    have hx0 : x ≠ 0 := by
      intro h0
      have := l0 h0
      omega
    have h2 := l1 hx0
    have h3 : 2 ^ n ≤ 2 ^ (GetNumEffectiveBits U x - 1) :=
      Nat.pow_le_pow_right (by norm_num) (by omega)
    omega
  · exact lt_of_lt_of_le s2 (Nat.pow_le_pow_right (by norm_num) h)

theorem C35_effective_bits_witness :
    (40000 : Nat) < 2 ^ UType.U16.bits ∧ GetNumEffectiveBits .U16 40000 = 16 ∧
    GetNumEffectiveBits .U16 40000 = Nat.log 2 40000 + 1 ∧
    ((40000 : Nat) < 2 ^ 16 ↔ GetNumEffectiveBits .U16 40000 ≤ 16) :=
  ⟨by decide, by decide,
    (C35_effective_bits .U16 40000 (by decide)).2.1 (by decide),
    (C35_effective_bits .U16 40000 (by decide)).2.2.2.2 16⟩

/-! ## C33: an `ACK` beyond what was sent -/

theorem state_estabed_ack (c : Connection) (env : Env) (raddr : Address) (packet : Buffer)
    (hm : c.m_master = true → c.m_raddr = raddr) (ha : IsAck (Header.read packet))
    (hl : (Header.read packet).length = 0) :
    state_estabed c env raddr packet =
      if gt (Header.read packet).acknum c.m_reliable_outgoing_sequence then
        ((c.reset true).1, send_reset raddr ++ (c.reset true).2)
      else if eq (Header.read packet).acknum c.m_reliable_latest_legal_ack
          && !c.m_reliable_retransmission_queue.isEmpty then
        if (c.m_reliable_duplicated_ack_count + 1) % 65536 ≥ 3 then
          ({ c with m_reliable_duplicated_ack_count := 0 },
            match c.m_reliable_retransmission_queue with
            | [] => []
            | e :: _ => [Event.send raddr e.2.buffer])
        else
          ({ c with
              m_reliable_latest_legal_ack :=
                if lowerBoundNotBegin (Header.read packet).acknum
                    c.m_reliable_retransmission_queue
                then (Header.read packet).acknum else c.m_reliable_latest_legal_ack
              m_reliable_duplicated_ack_count :=
                if lowerBoundNotBegin (Header.read packet).acknum
                    c.m_reliable_retransmission_queue
                then 0 else (c.m_reliable_duplicated_ack_count + 1) % 65536
              m_reliable_retransmission_queue :=
                eraseBelow (Header.read packet).acknum c.m_reliable_retransmission_queue }, [])
      else
        ({ c with
            m_reliable_latest_legal_ack :=
              if lowerBoundNotBegin (Header.read packet).acknum
                  c.m_reliable_retransmission_queue
              then (Header.read packet).acknum else c.m_reliable_latest_legal_ack
            m_reliable_duplicated_ack_count :=
              if lowerBoundNotBegin (Header.read packet).acknum
                  c.m_reliable_retransmission_queue
              then 0 else c.m_reliable_duplicated_ack_count
            m_reliable_retransmission_queue :=
              eraseBelow (Header.read packet).acknum c.m_reliable_retransmission_queue }, []) := by
  obtain ⟨f1, f2, f3, f4, f5, f6⟩ := ha
  have hg : (c.m_master && decide (c.m_raddr ≠ raddr)) = false := by
    cases h : c.m_master
    · rfl
    · simp [hm h]
  unfold state_estabed
  simp only [hg, f1, f2, f3, f4, f5, f6, hl, ne_eq, not_true_eq_false,
    not_false_eq_true, if_true, if_false, Bool.false_eq_true, gt_iff_lt, lt_self_iff_false]

/-- C33 (`ACK` beyond sent).  In `STATE_ESTABED`, a zero-length `ACK` of the peer
(flag `ACK`, none of `RST`, `PIN`, `PON`, `BWP`, `BWR`) whose `acknum` is greater
than `m_reliable_outgoing_sequence` in the wraparound order makes the connection
send a bare `RST` to the sender, become the connection the constructor builds
(`STATE_CLOSED`, empty retransmission queue) and fire the broken notification
after the `RST`: `OnDeleteConnection` for a server child, `OnConnectionBroken` for
a client master.  An `ACK` whose `acknum` is not greater keeps the state, the
outgoing sequence number and the peer, fires no callback and sends nothing but
the oldest packet of the queue (fast retransmit). -/
theorem C33_ack_beyond_sent (c : Connection) (env : Env) (raddr : Address) (packet : Buffer)
    (hm : c.m_master = true → c.m_raddr = raddr) (hs : c.m_state = .STATE_ESTABED)
    (ha : IsAck (Header.read packet)) (hl : (Header.read packet).length = 0) :
    (gt (Header.read packet).acknum c.m_reliable_outgoing_sequence = true →
      state_estabed c env raddr packet
        = (Connection.new c.m_master,
            [Event.send raddr (Header.bytes ⟨0, 0, FLAG_RST, 0⟩)] ++
              ((if c.m_server then [Event.OnDeleteConnection c.m_raddr] else []) ++
                (if c.m_client then [Event.OnConnectionBroken] else []))) ∧
      (state_estabed c env raddr packet).1.m_state = .STATE_CLOSED ∧
      (state_estabed c env raddr packet).1.m_reliable_retransmission_queue = [] ∧
      (c.m_server = true → c.m_client = false →
        (state_estabed c env raddr packet).2
          = [Event.send raddr (Header.bytes ⟨0, 0, FLAG_RST, 0⟩),
              Event.OnDeleteConnection c.m_raddr]) ∧
      (c.m_client = true → c.m_server = false →
        (state_estabed c env raddr packet).2
          = [Event.send raddr (Header.bytes ⟨0, 0, FLAG_RST, 0⟩), Event.OnConnectionBroken])) ∧
    (gt (Header.read packet).acknum c.m_reliable_outgoing_sequence = false →
      (state_estabed c env raddr packet).1.m_state = .STATE_ESTABED ∧
      (state_estabed c env raddr packet).1.m_raddr = c.m_raddr ∧
      (state_estabed c env raddr packet).1.m_reliable_outgoing_sequence
        = c.m_reliable_outgoing_sequence ∧
      ((state_estabed c env raddr packet).2 = [] ∨
        ∃ e rest, c.m_reliable_retransmission_queue = e :: rest ∧
          (state_estabed c env raddr packet).2 = [Event.send raddr e.2.buffer])) := by
  rw [state_estabed_ack c env raddr packet hm ha hl]
  constructor
  · intro hg
    rw [if_pos hg]
    have e : c.reset true = (Connection.new c.m_master,
        (if c.m_server then [Event.OnDeleteConnection c.m_raddr] else []) ++
          (if c.m_client then [Event.OnConnectionBroken] else [])) := by
      unfold Connection.reset
      simp only [hs, if_true]
    rw [e]
    refine ⟨rfl, rfl, rfl, fun h1 h2 => ?_, fun h1 h2 => ?_⟩
    · simp [h1, h2, send_reset, resetPacket]
    · simp [h1, h2, send_reset, resetPacket]
  · intro hg
    rw [if_neg (by rw [hg]; decide)]
    split
    · split
      · refine ⟨hs, rfl, rfl, ?_⟩
        cases hq : c.m_reliable_retransmission_queue with
        | nil => exact Or.inl rfl
        | cons e rest => exact Or.inr ⟨e, rest, rfl, rfl⟩
      · exact ⟨hs, rfl, rfl, Or.inl rfl⟩
    · exact ⟨hs, rfl, rfl, Or.inl rfl⟩

theorem C33_ack_beyond_sent_witness :
    (exampleSender.m_master = true → exampleSender.m_raddr = "10.0.0.2:4000") ∧
    exampleSender.m_state = .STATE_ESTABED ∧
    IsAck (Header.read (ackPacket 8)) ∧ (Header.read (ackPacket 8)).length = 0 ∧
    gt (Header.read (ackPacket 8)).acknum exampleSender.m_reliable_outgoing_sequence = true ∧
    state_estabed exampleSender ⟨0, 0, 0, 0, 0⟩ "10.0.0.2:4000" (ackPacket 8)
      = (Connection.new false,
          [Event.send "10.0.0.2:4000" (Header.bytes ⟨0, 0, FLAG_RST, 0⟩),
            Event.OnDeleteConnection "10.0.0.2:4000"]) :=
  ⟨by decide, by decide, by decide, by decide, by decide,
    ((C33_ack_beyond_sent exampleSender ⟨0, 0, 0, 0, 0⟩ "10.0.0.2:4000" (ackPacket 8)
      (by decide) (by decide) (by decide) (by decide)).1 (by decide)).1⟩


/-! ## The sender's window is kept by every call -/

theorem seqRange_succ (first n : Nat) :
    seqRange first (n + 1) = seqRange first n ++ [(first + n) % 65536] := by
  simp [seqRange, List.range_succ]

theorem seqRange_cons (first n : Nat) :
    seqRange first (n + 1) = first % 65536 :: seqRange (first + 1) n := by
  simp only [seqRange, List.range_succ_eq_map, List.map_cons, List.map_map, Nat.add_zero]
  congr 1
  apply List.map_congr_left
  intro i _
  simp only [Function.comp, Nat.succ_eq_add_one]
  congr 1
  omega

theorem seqRange_mod (first n : Nat) : seqRange (first % 65536) n = seqRange first n := by
  simp only [seqRange]
  apply List.map_congr_left
  intro i _
  omega

theorem mem_seqRange (first n k : Nat) (h : k ∈ seqRange first n) :
    ∃ i, i < n ∧ k = (first + i) % 65536 := by
  simp only [seqRange, List.mem_map, List.mem_range] at h
  obtain ⟨i, hi, e⟩ := h
  exact ⟨i, hi, e.symm⟩

theorem seqRange_drop (d : Nat) :
    ∀ (first n : Nat), (seqRange first n).drop d = seqRange (first + d) (n - d) := by
  induction d with
  | zero => intro first n; rfl
  | succ d ih =>
    intro first n
    cases n with
    | zero => simp [seqRange]
    | succ n =>
      rw [seqRange_cons, List.drop_succ_cons, ih]
      have e1 : first + 1 + d = first + (d + 1) := by omega
      have e2 : n + 1 - (d + 1) = n - d := by omega
      rw [e1, e2]

theorem dropWhile_keys (p : Nat → Bool) :
    ∀ (q : List (Nat × RetransmissionInfo)) (first d : Nat),
      retxKeys q = seqRange first q.length → d ≤ q.length →
      (∀ i, i < d → p ((first + i) % 65536) = true) →
      (d < q.length → p ((first + d) % 65536) = false) →
      q.dropWhile (fun e => p e.1) = q.drop d := by
  intro q
  induction q with
  | nil => intro first d _ _ _ _; simp
  | cons e rest ih =>
    intro first d hk hd h1 h2
    rw [List.length_cons, seqRange_cons] at hk
    simp only [retxKeys, List.map_cons, List.cons.injEq] at hk
    obtain ⟨hk1, hk2⟩ := hk
    cases d with
    | zero =>
      have := h2 (by simp)
      rw [Nat.add_zero, ← hk1] at this
      rw [List.dropWhile_cons, this]
      rfl
    | succ d =>
      have := h1 0 (by omega)
      rw [Nat.add_zero, ← hk1] at this
      rw [List.dropWhile_cons, this, List.drop_succ_cons]
      simp only [if_true]
      apply ih (first + 1) d hk2 (by simpa using hd)
      · intro i hi
        have := h1 (i + 1) (by omega)
        rwa [show first + (i + 1) = first + 1 + i by omega] at this
      · intro hlt
        have := h2 (by simpa using hlt)
        rwa [show first + (d + 1) = first + 1 + d by omega] at this

/-- The entries an `ACK` within the window takes from the queue. -/
theorem eraseBelow_window (q : List (Nat × RetransmissionInfo)) (first a : Nat)
    (hk : retxKeys q = seqRange first q.length) (hn : q.length ≤ 32767)
    (hf : first < 65536) (ha : a < 65536)
    (hg : gt a ((first + q.length) % 65536) = false) :
    (lowerBoundNotBegin a q = true →
      ∃ d, 1 ≤ d ∧ d ≤ q.length ∧ a = (first + d) % 65536 ∧ eraseBelow a q = q.drop d ∧
        gt a first = true) ∧
    (lowerBoundNotBegin a q = false → eraseBelow a q = q) := by
  cases q with
  | nil => simp [lowerBoundNotBegin, eraseBelow]
  | cons e rest =>
    have hk0 := hk
    rw [List.length_cons, seqRange_cons] at hk0
    simp only [retxKeys, List.map_cons, List.cons.injEq] at hk0
    have he : e.1 = first := by rw [hk0.1]; exact Nat.mod_eq_of_lt hf
    simp only [lowerBoundNotBegin, he]
    constructor
    · intro hlt
      have hpos : 1 ≤ (e :: rest).length := by simp
      have hd1 : 1 ≤ (a + 65536 - first) % 65536 ∧
          (a + 65536 - first) % 65536 ≤ (e :: rest).length ∧
          a = (first + (a + 65536 - first) % 65536) % 65536 ∧ gt a first = true := by
        simp only [gt, lt, toInt16, decide_eq_true_eq, decide_eq_false_iff_not] at hg hlt ⊢
        omega
      obtain ⟨d1, d2, d3, d4⟩ := hd1
      refine ⟨(a + 65536 - first) % 65536, d1, d2, d3, ?_, d4⟩
      unfold eraseBelow
      apply dropWhile_keys (fun k => lt k a) (e :: rest) first _ hk d2
      · intro i hi
        simp only [lt, toInt16, decide_eq_true_eq] at hlt ⊢
        omega
      · intro _
        simp only [lt, toInt16, decide_eq_false_iff_not] at hlt ⊢
        omega
    · intro hlt
      unfold eraseBelow
      rw [List.dropWhile_cons, he, hlt]
      rfl

theorem senderInv_new (master : Bool) : SenderInv (Connection.new master) := by
  refine ⟨by simp [Connection.new], by simp [Connection.new], rfl, fun _ => rfl,
    fun _ => by simp [Connection.new], fun h => ?_⟩
  simp [Connection.new] at h

theorem ackStep_ite (c : Connection) (header : Header) (p : Prop) [Decidable p]
    (a b : Connection × List Event) (ha : p → AckStep c header a)
    (hb : ¬ p → AckStep c header b) : AckStep c header (if p then a else b) := by
  split
  · exact ha ‹_›
  · exact hb ‹_›

theorem state_estabed_ackStep (c : Connection) (env : Env) (raddr : Address)
    (packet : Buffer) : AckStep c (Header.read packet) (state_estabed c env raddr packet) := by
  unfold state_estabed
  dsimp only
  repeat' (apply ackStep_ite <;> intro _)
  all_goals first
    | exact Or.inr ⟨rfl, rfl, Or.inl ⟨rfl, rfl⟩⟩
    | exact Or.inl rfl
    | exact Or.inr ⟨rfl, rfl, Or.inr ⟨by
        rw [← Bool.not_eq_true]; assumption, rfl, rfl⟩⟩

theorem check_timeout_alive_seq (c : Connection) (env : Env) (elapsed : ℚ)
    (h : c.m_reliable_retransmission_queue.any (exhausted elapsed) = false) :
    (c.check_timeout env elapsed).1.m_reliable_outgoing_sequence
      = c.m_reliable_outgoing_sequence ∧
    (c.check_timeout env elapsed).1.m_reliable_latest_legal_ack
      = c.m_reliable_latest_legal_ack := by
  have e2 : (retransmitLoop c.m_raddr elapsed c.m_reliable_retransmission_queue).2
      = some (c.m_reliable_retransmission_queue.map (ageEntry elapsed)) := by
    rw [retransmitLoop_eq]
    simp [h]
  unfold Connection.check_timeout
  simp only [e2]
  by_cases hs : c.m_state = .STATE_ESTABED
  · by_cases hp : c.m_ping_timeout ≤ elapsed <;> by_cases hb : c.m_bandwidth_timeout ≤ elapsed <;>
      simp [hs, hp, hb]
  · simp [hs]

theorem retxKeys_age (elapsed : ℚ) (q : List (Nat × RetransmissionInfo)) :
    retxKeys (q.map (ageEntry elapsed)) = retxKeys q := by
  simp only [retxKeys, List.map_map]
  apply List.map_congr_left
  intro e _
  simp only [Function.comp, ageEntry]
  split <;> rfl

theorem senderInv_send (c : Connection) (data : Buffer) (reliable : Bool) (h : SenderInv c)
    (hw : reliable = true → c.m_reliable_retransmission_queue.length < 32767) :
    SenderInv (c.Send data reliable).1 := by
  unfold Connection.Send
  split
  · exact h
  · rename_i hst
    have hst : c.m_state = .STATE_ESTABED := by simpa using hst
    split
    · rename_i hr
      obtain ⟨h1, h2, h3, h4, h5, h6⟩ := h
      have hn := hw hr
      have hmem : ∀ e ∈ c.m_reliable_retransmission_queue,
          gt c.m_reliable_outgoing_sequence e.1 = true := by
        intro e he
        have : e.1 ∈ retxKeys c.m_reliable_retransmission_queue :=
          List.mem_map_of_mem (fun e => e.1) he
        rw [h3] at this
        obtain ⟨i, hi, hk⟩ := mem_seqRange _ _ _ this
        rw [hk]
        simp only [oldestUnacked, gt, toInt16, decide_eq_true_eq]
        omega
      dsimp only
      rw [mapEmplace_append _ _ _ hmem]
      refine ⟨Nat.mod_lt _ (by norm_num), by simp; omega, ?_, fun hx => ?_, fun hx => ?_,
        fun _ => ?_⟩
      · simp only [retxKeys, List.map_append, List.map_cons, List.map_nil, List.length_append,
          List.length_singleton, oldestUnacked] at h3 ⊢
        rw [seqRange_succ, h3]
        have e1 : ((c.m_reliable_outgoing_sequence + 1) % 65536 + 65536 -
            (c.m_reliable_retransmission_queue.length + 1) % 65536) % 65536
            = (c.m_reliable_outgoing_sequence + 65536 -
              c.m_reliable_retransmission_queue.length % 65536) % 65536 := by omega
        rw [e1]
        congr 2
        omega
      · rw [hst] at hx
        rcases hx with hx | hx <;> exact absurd hx (by decide)
      · rw [hst] at hx
        rcases hx with hx | hx <;> exact absurd hx (by decide)
      · have := h6 hst
        simp only [oldestUnacked, List.length_append, List.length_singleton] at this ⊢
        rw [this]
        omega
    · exact h

theorem senderInv_estabed (c : Connection) (env : Env) (raddr : Address) (packet : Buffer)
    (h : SenderInv c) (hst : c.m_state = .STATE_ESTABED) :
    SenderInv (state_estabed c env raddr packet).1 ∧
    ((state_estabed c env raddr packet).1.m_state = .STATE_ESTABED →
      (state_estabed c env raddr packet).1.m_reliable_latest_legal_ack
          = c.m_reliable_latest_legal_ack ∨
        ((state_estabed c env raddr packet).1.m_reliable_latest_legal_ack
            = (Header.read packet).acknum ∧
          gt (Header.read packet).acknum c.m_reliable_latest_legal_ack = true)) := by
  obtain ⟨h1, h2, h3, h4, h5, h6⟩ := h
  have hlat := h6 hst
  rcases state_estabed_ackStep c env raddr packet with hr | ⟨a1, a2, hcase⟩
  · rw [hr]
    refine ⟨senderInv_new _, fun hx => by simp [Connection.new] at hx⟩
  · rcases hcase with ⟨b1, b2⟩ | ⟨b0, b1, b2⟩
    · refine ⟨⟨by rw [a2]; exact h1, by rw [b1]; exact h2, ?_, ?_, ?_, ?_⟩, fun _ => Or.inl b2⟩
      · simp only [oldestUnacked, b1, a2] at h3 ⊢
        exact h3
      · rw [a1, b1]; exact h4
      · rw [a1, b1]; exact h5
      · intro _
        simp only [oldestUnacked, b1, a2, b2] at hlat ⊢
        exact hlat
    · have hfirst : oldestUnacked c < 65536 := Nat.mod_lt _ (by norm_num)
      have hend : (oldestUnacked c + c.m_reliable_retransmission_queue.length) % 65536
          = c.m_reliable_outgoing_sequence := by
        simp only [oldestUnacked]
        omega
      obtain ⟨w1, w2⟩ := eraseBelow_window c.m_reliable_retransmission_queue (oldestUnacked c)
        (Header.read packet).acknum h3 h2 hfirst (header_acknum_lt packet)
        (by rw [hend]; exact b0)
      cases hleg : lowerBoundNotBegin (Header.read packet).acknum
          c.m_reliable_retransmission_queue with
      | false =>
        have e := w2 hleg
        rw [hleg] at b2
        rw [e] at b1
        refine ⟨⟨by rw [a2]; exact h1, by rw [b1]; exact h2, ?_, ?_, ?_, ?_⟩,
          fun _ => Or.inl (by simpa using b2)⟩
        · simp only [oldestUnacked, b1, a2] at h3 ⊢
          exact h3
        · rw [a1, b1]; exact h4
        · rw [a1, b1]; exact h5
        · intro _
          simp only [Bool.false_eq_true, if_false] at b2
          simp only [oldestUnacked, b1, a2, b2] at hlat ⊢
          exact hlat
      | true =>
        obtain ⟨d, d1, d2, d3, d4, d5⟩ := w1 hleg
        rw [hleg] at b2
        simp only [if_true] at b2
        rw [d4] at b1
        have hlen : (state_estabed c env raddr packet).1.m_reliable_retransmission_queue.length
            = c.m_reliable_retransmission_queue.length - d := by
          rw [b1, List.length_drop]
        have hold : oldestUnacked (state_estabed c env raddr packet).1
            = (Header.read packet).acknum := by
          simp only [oldestUnacked, hlen, a2] at hlat ⊢
          rw [d3]
          simp only [oldestUnacked]
          omega
        refine ⟨⟨by rw [a2]; exact h1, by rw [hlen]; omega, ?_, ?_, ?_, ?_⟩,
          fun _ => Or.inr ⟨b2, by rw [hlat]; exact d5⟩⟩
        · rw [hold, hlen, b1]
          have : retxKeys (c.m_reliable_retransmission_queue.drop d)
              = (retxKeys c.m_reliable_retransmission_queue).drop d := by
            simp [retxKeys, List.map_drop]
          rw [this, h3, seqRange_drop, d3, seqRange_mod]
        · intro hx
          rw [a1, hst] at hx
          rcases hx with hx | hx <;> exact absurd hx (by decide)
        · intro hx
          rw [a1, hst] at hx
          rcases hx with hx | hx <;> exact absurd hx (by decide)
        · intro _
          rw [hold, b2]

theorem senderInv_handshake (c : Connection) (acknum : Nat) (h : SenderInv c)
    (hq : c.m_reliable_retransmission_queue.length ≤ 1)
    (ha : acknum = c.m_reliable_outgoing_sequence) (c2 : Connection)
    (e1 : c2.m_reliable_outgoing_sequence = c.m_reliable_outgoing_sequence)
    (e2 : c2.m_reliable_retransmission_queue = c.m_reliable_retransmission_queue.drop 1)
    (e3 : c2.m_reliable_latest_legal_ack = acknum) (e4 : c2.m_state = .STATE_ESTABED) :
    SenderInv c2 := by
  obtain ⟨h1, _, _, _, _, _⟩ := h
  have hnil : c2.m_reliable_retransmission_queue = [] := by
    rw [e2]
    cases hc : c.m_reliable_retransmission_queue with
    | nil => rfl
    | cons x rest =>
      rw [hc] at hq
      have : rest = [] := by
        cases rest with
        | nil => rfl
        | cons y t => simp at hq
      rw [this]
      rfl
  refine ⟨by rw [e1]; exact h1, by rw [hnil]; decide, by rw [hnil]; rfl, fun _ => hnil,
    fun hx => ?_, fun _ => ?_⟩
  · rw [e4] at hx
    rcases hx with hx | hx <;> exact absurd hx (by decide)
  · simp only [oldestUnacked, hnil, e1, e3, ha, List.length_nil]
    omega

theorem senderInv_call (c : Connection) (x : ConnectionCall) (h : SenderInv c)
    (hw : withinWindow c [x] = true) : SenderInv (c.call x).1 := by
  cases x with
  | Connect env raddr =>
    show SenderInv (c.Connect env raddr).1
    unfold Connection.Connect
    split
    · exact h
    · rename_i hc
      have hcl : c.m_state = .STATE_CLOSED := by
        simp only [Bool.or_eq_true, Bool.not_eq_true', decide_eq_true_eq, not_or] at hc
        by_contra hne
        exact hc.2 hne
      have hq := h.2.2.2.1 (Or.inl hcl)
      dsimp only
      rw [hq]
      refine ⟨Nat.mod_lt _ (by norm_num), by simp [mapEmplace], ?_, fun hx => ?_,
        fun _ => by simp [mapEmplace], fun hx => by simp at hx⟩
      · simp only [retxKeys, mapEmplace, List.map_cons, List.map_nil, seqRange, oldestUnacked,
          List.length_singleton, List.range_succ, List.range_zero, List.nil_append,
          Nat.add_zero, List.cons.injEq, and_true]
        omega
      · rcases hx with hx | hx <;> simp at hx
  | Listen =>
    show SenderInv c.Listen
    unfold Connection.Listen
    split
    · exact h
    · rename_i hc
      have hcl : c.m_state = .STATE_CLOSED := by
        simp only [Bool.or_eq_true, Bool.not_eq_true', decide_eq_true_eq, not_or] at hc
        by_contra hne
        exact hc.2 hne
      have hq := h.2.2.2.1 (Or.inl hcl)
      obtain ⟨h1, h2, h3, h4, h5, h6⟩ := h
      exact ⟨h1, h2, h3, fun _ => hq, fun _ => by rw [hq]; decide,
        fun hx => by simp at hx⟩
  | Setup => exact h
  | Send data reliable =>
    refine senderInv_send c data reliable h (fun hr => ?_)
    subst hr
    simpa [withinWindow, ConnectionCall.isReliableSend] using hw
  | Close =>
    show SenderInv c.Close.1
    unfold Connection.Close
    split
    · exact h
    · split
      · exact senderInv_new _
      · exact senderInv_new _
  | receive env raddr packet =>
    show SenderInv (c.fsm env raddr packet).1
    unfold Connection.fsm
    cases hst : c.m_state with
    | STATE_CLOSED =>
      simp only []
      unfold state_closed
      dsimp only
      split <;> exact h
    | STATE_LISTEN => exact h
    | STATE_SYNRCVD =>
      simp only []
      unfold state_synrcvd
      dsimp only
      split
      · exact senderInv_new _
      · split
        · exact h
        · split
          · exact senderInv_new _
          · rename_i hack
            have hack : (Header.read packet).acknum = c.m_reliable_outgoing_sequence := by
              simpa using hack
            exact senderInv_handshake c _ h (h.2.2.2.2.1 (Or.inr hst)) hack _ rfl rfl rfl rfl
    | STATE_SYNSENT =>
      simp only []
      unfold state_synsent
      split
      · exact h
      · dsimp only
        split
        · exact senderInv_new _
        · rename_i hnone
          split at hnone
          · exact absurd hnone (by simp)
          · split at hnone
            · exact absurd hnone (by simp)
            · split at hnone
              · exact absurd hnone (by simp)
              · split at hnone
                · exact absurd hnone (by simp)
                · rename_i hack
                  have hack : (Header.read packet).acknum = c.m_reliable_outgoing_sequence := by
                    simpa [eq] using hack
                  exact senderInv_handshake c _ h (h.2.2.2.2.1 (Or.inl hst)) hack _ rfl rfl
                    rfl rfl
    | STATE_ESTABED =>
      exact (senderInv_estabed c env raddr packet h hst).1
  | check_timeout env elapsed =>
    show SenderInv (c.check_timeout env elapsed).1
    by_cases hx : c.m_reliable_retransmission_queue.any (exhausted elapsed) = true
    · rw [check_timeout_exhausted c env elapsed hx]
      exact senderInv_new _
    · simp only [Bool.not_eq_true] at hx
      obtain ⟨a1, _, _, _, _, a6, _⟩ := check_timeout_alive c env elapsed hx
      obtain ⟨b1, b2⟩ := check_timeout_alive_seq c env elapsed hx
      obtain ⟨h1, h2, h3, h4, h5, h6⟩ := h
      have hlen : (c.check_timeout env elapsed).1.m_reliable_retransmission_queue.length
          = c.m_reliable_retransmission_queue.length := by
        rw [a6, List.length_map]
      have hold : oldestUnacked (c.check_timeout env elapsed).1 = oldestUnacked c := by
        simp only [oldestUnacked, hlen, b1]
      refine ⟨by rw [b1]; exact h1, by rw [hlen]; exact h2, ?_, fun hx => ?_, fun hx => ?_,
        fun hx => ?_⟩
      · rw [hold, hlen, a6, retxKeys_age]
        exact h3
      · rw [a1] at hx
        have := h4 hx
        rw [a6, this]
        rfl
      · rw [a1] at hx
        rw [hlen]
        exact h5 hx
      · rw [a1] at hx
        rw [hold, b2]
        exact h6 hx

theorem senderInv_run :
    ∀ (calls : List ConnectionCall) (c : Connection), SenderInv c →
      withinWindow c calls = true → SenderInv (runConnection c calls).1 := by
  intro calls
  induction calls with
  | nil => intro c h _; exact h
  | cons x rest ih =>
    intro c h hw
    simp only [withinWindow, Bool.and_eq_true] at hw
    exact ih _ (senderInv_call c x h (by simp only [withinWindow, Bool.and_eq_true]; exact ⟨hw.1, trivial⟩)) hw.2

theorem mem_setChild_weak (a : Address) (x : Connection) :
    ∀ cs : List (Address × Connection), ∀ e ∈ setChild a x cs, e = (a, x) ∨ e ∈ cs := by
  intro cs
  induction cs with
  | nil => intro e he; simp [setChild] at he
  | cons c rest ih =>
    intro e he
    obtain ⟨k, y⟩ := c
    simp only [setChild] at he
    split at he
    · rename_i hk
      rcases List.mem_cons.mp he with h | h
      · left
        rw [h]
        simp only [beq_iff_eq] at hk
        rw [hk]
      · exact Or.inr (List.mem_cons_of_mem _ h)
    · rcases List.mem_cons.mp he with h | h
      · exact Or.inr (by rw [h]; exact List.mem_cons_self _ _)
      · rcases ih e h with h | h
        · exact Or.inl h
        · exact Or.inr (List.mem_cons_of_mem _ h)

/-- The children of a server keep the sender's window through `state_listen`,
the child it builds for a new peer included. -/
theorem senderInv_state_listen (m : MasterConnection) (env : Env) (raddr : Address)
    (packet : Buffer) (h : ∀ e ∈ m.m_children, SenderInv e.2) :
    ∀ e ∈ (state_listen m env raddr packet).1.m_children, SenderInv e.2 := by
  unfold state_listen
  split
  · exact h
  · cases hf : findChild raddr m.m_children with
    | some connection =>
      dsimp only
      have hc : SenderInv (connection.fsm env raddr packet).1 :=
        senderInv_call connection (.receive env raddr packet)
          (h _ (findChild_mem raddr connection _ hf)) rfl
      split
      · intro e he
        exact h e ((mem_eraseChild raddr _ e).mp he).1
      · intro e he
        rcases mem_setChild_weak raddr _ _ e he with h1 | h1
        · rw [h1]; exact hc
        · exact h e h1
    | none =>
      dsimp only
      split
      · split <;> exact h
      · intro e he
        rcases List.mem_append.mp he with h1 | h1
        · exact h e h1
        · rw [List.mem_singleton] at h1
          rw [h1]
          refine ⟨Nat.mod_lt _ (by norm_num), by simp [mapEmplace], ?_, fun hx => ?_,
            fun _ => by simp [mapEmplace], fun hx => by simp at hx⟩
          · simp only [retxKeys, mapEmplace, List.map_cons, List.map_nil, seqRange,
              oldestUnacked, List.length_singleton, List.range_succ, List.range_zero,
              List.nil_append, Nat.add_zero, List.cons.injEq, and_true]
            omega
          · rcases hx with hx | hx <;> simp at hx

theorem senderInv_keys (c : Connection) (h : SenderInv c) :
    (retxKeys c.m_reliable_retransmission_queue).Nodup ∧
    (∀ k, k < 65536 → (k ∈ retxKeys c.m_reliable_retransmission_queue ↔
      seqOffset (oldestUnacked c) k < c.m_reliable_retransmission_queue.length)) ∧
    (oldestUnacked c + c.m_reliable_retransmission_queue.length) % 65536
      = c.m_reliable_outgoing_sequence ∧
    (c.m_reliable_retransmission_queue = [] ↔
      oldestUnacked c = c.m_reliable_outgoing_sequence) := by
  obtain ⟨h1, h2, h3, _, _, _⟩ := h
  have hfirst : oldestUnacked c < 65536 := Nat.mod_lt _ (by norm_num)
  refine ⟨?_, fun k hk => ?_, ?_, ?_⟩
  · rw [h3]
    unfold seqRange
    apply List.Nodup.map_on _ (List.nodup_range _)
    intro i hi j hj e
    rw [List.mem_range] at hi hj
    omega
  · rw [h3]
    simp only [seqRange, List.mem_map, List.mem_range, seqOffset]
    constructor
    · rintro ⟨i, hi, e⟩
      omega
    · intro hlt
      exact ⟨(k + 65536 - oldestUnacked c % 65536) % 65536, hlt, by omega⟩
  · simp only [oldestUnacked]
    omega
  · rw [← List.length_eq_zero]
    simp only [oldestUnacked]
    omega

theorem latest_call (c : Connection) (x : ConnectionCall) (h : SenderInv c)
    (hs : c.m_state = .STATE_ESTABED) (hr : (c.call x).1.m_state = .STATE_ESTABED) :
    (c.call x).1.m_reliable_latest_legal_ack = c.m_reliable_latest_legal_ack ∨
      ∃ env raddr packet, x = .receive env raddr packet ∧
        (c.call x).1.m_reliable_latest_legal_ack = (Header.read packet).acknum ∧
        gt (Header.read packet).acknum c.m_reliable_latest_legal_ack = true := by
  cases x with
  | Connect env raddr =>
    left
    show (c.Connect env raddr).1.m_reliable_latest_legal_ack = _
    unfold Connection.Connect
    rw [if_pos (by simp [hs])]
  | Listen =>
    left
    show c.Listen.m_reliable_latest_legal_ack = _
    unfold Connection.Listen
    rw [if_pos (by simp [hs])]
  | Setup => exact Or.inl rfl
  | Send data reliable =>
    left
    show (c.Send data reliable).1.m_reliable_latest_legal_ack = _
    unfold Connection.Send
    split
    · rfl
    · split <;> rfl
  | Close =>
    exfalso
    have : (c.Close).1.m_state = .STATE_ESTABED := hr
    unfold Connection.Close at this
    rw [if_neg (by simp [hs]), if_neg (by simp [hs])] at this
    simp [Connection.reset, Connection.new] at this
  | receive env raddr packet =>
    have e : c.call (.receive env raddr packet) = state_estabed c env raddr packet := by
      show c.fsm env raddr packet = _
      unfold Connection.fsm
      rw [hs]
    rw [e] at hr ⊢
    rcases (senderInv_estabed c env raddr packet h hs).2 hr with h1 | h1
    · exact Or.inl h1
    · exact Or.inr ⟨env, raddr, packet, rfl, h1⟩
  | check_timeout env elapsed =>
    left
    show (c.check_timeout env elapsed).1.m_reliable_latest_legal_ack = _
    by_cases hx : c.m_reliable_retransmission_queue.any (exhausted elapsed) = true
    · exfalso
      have : (c.check_timeout env elapsed).1.m_state = .STATE_ESTABED := hr
      rw [check_timeout_exhausted c env elapsed hx] at this
      simp [Connection.new] at this
    · simp only [Bool.not_eq_true] at hx
      exact (check_timeout_alive_seq c env elapsed hx).2

/-- C31, amended (the retransmission queue is a contiguous window).  For a connection
record that keeps the sender's window, as the record the constructor builds
does, and every sequence of calls on it (`Connect`, `Listen`, `Setup`, `Send`,
`Close`, a datagram handed to its state function, `check_timeout`) in which
every reliable `Send` finds fewer than `2^15 - 1` packets in the queue: the
record after the calls keeps the window; the keys of its retransmission queue
are, in iteration order, the sequence numbers `oldest`, `oldest + 1`, ...,
`m_reliable_outgoing_sequence - 1` modulo `2^16`, `oldest` being the outgoing
sequence number minus the number of entries; they are distinct, a 16-bit number
is a key iff it lies in that range, and the queue is empty iff `oldest` is the
outgoing sequence number.  The children of a server keep the window through
`state_listen`, the child built for a new peer included. -/
theorem C31_retransmission_window (c : Connection) (calls : List ConnectionCall)
    (h : SenderInv c) (hw : withinWindow c calls = true) :
    SenderInv (runConnection c calls).1 ∧
    retxKeys (runConnection c calls).1.m_reliable_retransmission_queue
      = seqRange (oldestUnacked (runConnection c calls).1)
          (runConnection c calls).1.m_reliable_retransmission_queue.length ∧
    (retxKeys (runConnection c calls).1.m_reliable_retransmission_queue).Nodup ∧
    (∀ k, k < 65536 →
      (k ∈ retxKeys (runConnection c calls).1.m_reliable_retransmission_queue ↔
        seqOffset (oldestUnacked (runConnection c calls).1) k
          < (runConnection c calls).1.m_reliable_retransmission_queue.length)) ∧
    (oldestUnacked (runConnection c calls).1
        + (runConnection c calls).1.m_reliable_retransmission_queue.length) % 65536
      = (runConnection c calls).1.m_reliable_outgoing_sequence ∧
    ((runConnection c calls).1.m_reliable_retransmission_queue = [] ↔
      oldestUnacked (runConnection c calls).1
        = (runConnection c calls).1.m_reliable_outgoing_sequence) ∧
    (∀ master, SenderInv (Connection.new master)) ∧
    (∀ (m : MasterConnection) (env : Env) (raddr : Address) (packet : Buffer),
      (∀ e ∈ m.m_children, SenderInv e.2) →
      ∀ e ∈ (state_listen m env raddr packet).1.m_children, SenderInv e.2) := by
  have hi := senderInv_run calls c h hw
  obtain ⟨k1, k2, k3, k4⟩ := senderInv_keys _ hi
  exact ⟨hi, hi.2.2.1, k1, k2, k3, k4, senderInv_new, senderInv_state_listen⟩

theorem C31_retransmission_window_witness :
    SenderInv exampleClient ∧ withinWindow exampleClient exampleClientCalls = true ∧
    (runConnection exampleClient exampleClientCalls).1.m_reliable_outgoing_sequence = 44 ∧
    retxKeys (runConnection exampleClient exampleClientCalls).1.m_reliable_retransmission_queue
      = [43] ∧
    retxKeys (runConnection exampleClient exampleClientCalls).1.m_reliable_retransmission_queue
      = seqRange (oldestUnacked (runConnection exampleClient exampleClientCalls).1)
          (runConnection exampleClient
            exampleClientCalls).1.m_reliable_retransmission_queue.length :=
  ⟨by decide, by decide, by decide, by decide,
    (C31_retransmission_window exampleClient exampleClientCalls (by decide) (by decide)).2.1⟩

/-- C32, amended (cumulative `ACK` monotonicity).  For a connection record that keeps the
sender's window (as every record does from the constructor on while each
reliable `Send` finds fewer than `2^15 - 1` packets in the queue) and any call on
it: the record keeps the window; if it is in `STATE_ESTABED` before and after
the call (the handshake is complete and the connection is not reset), the call
leaves `m_reliable_latest_legal_ack` unchanged or it is a received packet that
replaces it by its `acknum`, which is greater than the previous value in the
wraparound order; and whenever the record is in `STATE_ESTABED` after the call,
the completion of the handshake included, `m_reliable_latest_legal_ack` is not
greater than `m_reliable_outgoing_sequence`. -/
theorem C32_ack_monotonic (c : Connection) (x : ConnectionCall) (h : SenderInv c)
    (hw : withinWindow c [x] = true) :
    SenderInv (c.call x).1 ∧
    (c.m_state = .STATE_ESTABED → (c.call x).1.m_state = .STATE_ESTABED →
      (c.call x).1.m_reliable_latest_legal_ack = c.m_reliable_latest_legal_ack ∨
        ∃ env raddr packet, x = .receive env raddr packet ∧
          (c.call x).1.m_reliable_latest_legal_ack = (Header.read packet).acknum ∧
          gt (Header.read packet).acknum c.m_reliable_latest_legal_ack = true) ∧
    ((c.call x).1.m_state = .STATE_ESTABED →
      gt (c.call x).1.m_reliable_latest_legal_ack
        (c.call x).1.m_reliable_outgoing_sequence = false ∧
      le (c.call x).1.m_reliable_latest_legal_ack
        (c.call x).1.m_reliable_outgoing_sequence = true) := by
  have hi := senderInv_call c x h hw
  refine ⟨hi, fun hs hr => latest_call c x h hs hr, fun hr => ?_⟩
  obtain ⟨h1, h2, _, _, _, h6⟩ := hi
  have e := h6 hr
  rw [e]
  simp only [oldestUnacked, gt, le, toInt16, decide_eq_false_iff_not, decide_eq_true_eq]
  omega

theorem C32_ack_monotonic_witness :
    SenderInv exampleSender ∧
    withinWindow exampleSender [.receive ⟨0, 0, 0, 0, 0⟩ "10.0.0.2:4000" (ackPacket 6)] = true ∧
    exampleSender.m_reliable_latest_legal_ack = 4 ∧
    (exampleSender.call
      (.receive ⟨0, 0, 0, 0, 0⟩ "10.0.0.2:4000" (ackPacket 6))).1.m_reliable_latest_legal_ack
        = 6 ∧
    SenderInv (exampleSender.call
      (.receive ⟨0, 0, 0, 0, 0⟩ "10.0.0.2:4000" (ackPacket 6))).1 :=
  ⟨by decide, by decide, by decide, by decide,
    (C32_ack_monotonic exampleSender (.receive ⟨0, 0, 0, 0, 0⟩ "10.0.0.2:4000" (ackPacket 6))
      (by decide) (by decide)).1⟩

/-! ## C36: the value read and the destination's old value -/

/-- C36, the code at the failing input.  `Write ((U32)5)` gives the one byte
`0x15`; `Read (u)` of it into a `U32` that holds 0 leaves 5, and into one that
holds 256 leaves 261, both returning true and ending at the same offset.  So it
is with `Read (u, 8)` of the byte `0xAB` into a `U16` holding 0 or `0x1200`, and
`Read (u, 0)` returns true and leaves the old value.  A `U8` read with the
variable-width `Read (u)` keeps nothing of the old value. -/
theorem C36_old_value_divergence :
    WriteU .U32 BitStreamOutput.init 5 = ⟨[0x15], 8⟩ ∧
    ReadU .U32 ⟨[0x15], 0⟩ 0 = (true, 5, ⟨[0x15], 8⟩) ∧
    ReadU .U32 ⟨[0x15], 0⟩ 256 = (true, 261, ⟨[0x15], 8⟩) ∧
    ReadUN .U16 ⟨[0xAB], 0⟩ 0 8 = (true, 0xAB, ⟨[0xAB], 8⟩) ∧
    ReadUN .U16 ⟨[0xAB], 0⟩ 0x1200 8 = (true, 0x12AB, ⟨[0xAB], 8⟩) ∧
    ReadUN .U8 ⟨[0xAB], 0⟩ 7 0 = (true, 7, ⟨[0xAB], 0⟩) ∧
    ReadUN .U8 ⟨[0xAB], 0⟩ 9 0 = (true, 9, ⟨[0xAB], 0⟩) ∧
    ReadU .U8 ⟨[0x54], 0⟩ 0 = ReadU .U8 ⟨[0x54], 0⟩ 255 := by
  decide

/-! ## C37: the reader stays within its input -/

theorem readLoopReads_le (endIndex : Nat) :
    ∀ (count readIndex : Nat), ∀ k ∈ readLoopReads endIndex count readIndex, k ≤ endIndex := by
  intro count
  induction count with
  | zero => intro _ k hk; simp [readLoopReads] at hk
  | succ n ih =>
    intro readIndex k hk
    rw [readLoopReads, List.mem_append] at hk
    rcases hk with h | h
    · split at h
      · rw [List.mem_singleton] at h
        omega
      · simp at h
    · exact ih _ k h

theorem ReadBits_reads_lt (s : BitStreamInput) (nbits : Nat) :
    ∀ k ∈ ReadBits_reads s nbits, k < s.m_input.length := by
  intro k hk
  unfold ReadBits_reads at hk
  split at hk
  · simp at hk
  · split at hk
    · simp at hk
    · rename_i h0 h1
      rcases List.mem_cons.mp hk with h | h
      · rw [h, Nat.shiftRight_eq_div_pow]
        omega
      · have := readLoopReads_le _ _ _ k h
        rw [BITS2BYTES_eq] at this
        omega

theorem ReadBit_reads_lt (s : BitStreamInput) :
    ∀ k ∈ ReadBit_reads s, k < s.m_input.length := by
  intro k hk
  unfold ReadBit_reads at hk
  split at hk
  · simp at hk
  · rw [List.mem_singleton] at hk
    rw [hk, Nat.shiftRight_eq_div_pow]
    omega

theorem ReadBytesAligned_reads_lt (s : BitStreamInput) (nbytes : Nat) :
    ∀ k ∈ ReadBytesAligned_reads s nbytes, k < s.m_input.length := by
  intro k hk
  unfold ReadBytesAligned_reads at hk
  split at hk
  · simp at hk
  · split at hk
    · simp at hk
    · simp only [List.mem_map, List.mem_range] at hk
      obtain ⟨i, hi, e⟩ := hk
      omega

theorem ReadBits_true (s : BitStreamInput) (buffer : List Nat) (n : Nat)
    (h : (ReadBits s buffer n).1 = true) :
    (ReadBits s buffer n).2.2 = ⟨s.m_input, s.m_nbits + n⟩ ∧
      (0 < n → s.m_nbits + n ≤ s.m_input.length * 8) := by
  unfold ReadBits at h ⊢
  split
  · rename_i h0
    subst h0
    exact ⟨rfl, fun hn => absurd hn (by decide)⟩
  · split
    · rename_i h0 h1
      rw [if_neg h0, if_pos h1] at h
      simp at h
    · exact ⟨rfl, fun _ => by omega⟩

theorem ReadBits_false (s : BitStreamInput) (buffer : List Nat) (n : Nat)
    (h : (ReadBits s buffer n).1 = false) :
    ReadBits s buffer n = (false, buffer, s) ∧ 0 < n ∧
      s.m_nbits + n > s.m_input.length * 8 := by
  unfold ReadBits at h ⊢
  split
  · rename_i h0
    rw [if_pos h0] at h
    simp at h
  · split
    · exact ⟨rfl, by omega, by assumption⟩
    · rename_i h0 h1
      rw [if_neg h0, if_neg h1] at h
      simp at h

theorem ReadBit_true (s : BitStreamInput) (bit : Nat) (h : (ReadBit s bit).1 = true) :
    (ReadBit s bit).2.2 = ⟨s.m_input, s.m_nbits + 1⟩ ∧
      s.m_nbits + 1 ≤ s.m_input.length * 8 := by
  unfold ReadBit at h ⊢
  split
  · rename_i h0
    rw [if_pos h0] at h
    simp at h
  · exact ⟨rfl, by omega⟩

theorem ReadBit_false (s : BitStreamInput) (bit : Nat) (h : (ReadBit s bit).1 = false) :
    ReadBit s bit = (false, bit, s) ∧ s.m_nbits + 1 > s.m_input.length * 8 := by
  unfold ReadBit at h ⊢
  split
  · exact ⟨rfl, by assumption⟩
  · rename_i h0
    rw [if_neg h0] at h
    simp at h

theorem ReadBytesAligned_true (s : BitStreamInput) (buffer : List Nat) (n : Nat)
    (h : (ReadBytesAligned s buffer n).1 = true) :
    (ReadBytesAligned s buffer n).2.2.m_input = s.m_input ∧
      (n = 0 → (ReadBytesAligned s buffer n).2.2 = s) ∧
      (0 < n → (ReadBytesAligned s buffer n).2.2.m_nbits = 8 * (BITS2BYTES s.m_nbits + n) ∧
        BITS2BYTES s.m_nbits + n ≤ s.m_input.length) := by
  unfold ReadBytesAligned at h ⊢
  split
  · rename_i h0
    exact ⟨rfl, fun _ => rfl, fun hn => by omega⟩
  · rename_i h0
    dsimp only at h ⊢
    split
    · rename_i h1
      rw [if_neg h0, if_pos h1] at h
      simp at h
    · refine ⟨rfl, fun hn => absurd hn h0, fun _ => ⟨?_, by omega⟩⟩
      show BITS2BOUNDARY s.m_nbits + BYTES2BITS n = _
      rw [BITS2BOUNDARY_eq, BYTES2BITS_eq, BITS2BYTES_eq]
      omega

theorem ReadBytesAligned_false (s : BitStreamInput) (buffer : List Nat) (n : Nat)
    (h : (ReadBytesAligned s buffer n).1 = false) :
    ReadBytesAligned s buffer n = (false, buffer, s) ∧ 0 < n ∧
      BITS2BYTES s.m_nbits + n > s.m_input.length := by
  unfold ReadBytesAligned at h ⊢
  split
  · rename_i h0
    rw [if_pos h0] at h
    simp at h
  · rename_i h0
    dsimp only at h ⊢
    split
    · exact ⟨rfl, by omega, by assumption⟩
    · rename_i h1
      rw [if_neg h0, if_neg h1] at h
      simp at h

theorem ReadUN_true (U : UType) (s : BitStreamInput) (u n : Nat)
    (h : (ReadUN U s u n).1 = true) :
    (ReadUN U s u n).2.2 = ⟨s.m_input, s.m_nbits + min n U.bits⟩ ∧
      (0 < n → s.m_nbits + min n U.bits ≤ s.m_input.length * 8) := by
  have hb := bits_pos U
  have hmin : (if n > U.bits then U.bits else n) = min n U.bits := by
    split <;> omega
  unfold ReadUN at h ⊢
  dsimp only at h ⊢
  rw [hmin] at h ⊢
  cases hr : (ReadBits s (toBytes U.bits u) (min n U.bits)).1 with
  | true =>
    obtain ⟨a1, a2⟩ := ReadBits_true _ _ _ hr
    simp only [if_true]
    exact ⟨a1, fun hn => a2 (by omega)⟩
  | false =>
    rw [hr] at h
    simp at h

theorem ReadU_true (U : UType) (s : BitStreamInput) (u : Nat) (h : (ReadU U s u).1 = true) :
    (ReadU U s u).2.2.m_input = s.m_input ∧ s.m_nbits < (ReadU U s u).2.2.m_nbits ∧
      (ReadU U s u).2.2.m_nbits ≤ s.m_input.length * 8 := by
  have hp := prefix_spec U
  have hb := bits_pos U
  unfold ReadU at h ⊢
  dsimp only at h ⊢
  cases hr : (ReadBits s [0] (N_PREFIX_BITS U)).1 with
  | true =>
    rw [hr] at h
    simp only [if_true] at h ⊢
    obtain ⟨a1, a2⟩ := ReadBits_true _ _ _ hr
    obtain ⟨b1, b2⟩ := ReadUN_true U _ u _ h
    rw [b1]
    have b3 := b2 (by omega)
    rw [a1] at b3 ⊢
    dsimp only at b3 ⊢
    refine ⟨rfl, by omega, b3⟩
  | false =>
    rw [hr] at h
    simp at h

theorem ReadU_reads_lt (U : UType) (s : BitStreamInput) :
    ∀ k ∈ ReadU_reads U s, k < s.m_input.length := by
  intro k hk
  unfold ReadU_reads at hk
  dsimp only at hk
  rcases List.mem_append.mp hk with h | h
  · exact ReadBits_reads_lt _ _ k h
  · split at h
    · rename_i hr
      have a1 := (ReadBits_true _ _ _ hr).1
      have := ReadBits_reads_lt _ _ k h
      rw [a1] at this
      exact this
    · simp at h

theorem ReadI_true (U : UType) (s : BitStreamInput) (i : Int) (h : (ReadI U s i).1 = true) :
    (ReadI U s i).2.2.m_input = s.m_input ∧ s.m_nbits < (ReadI U s i).2.2.m_nbits ∧
      (ReadI U s i).2.2.m_nbits ≤ s.m_input.length * 8 := by
  unfold ReadI at h ⊢
  dsimp only at h ⊢
  cases hr : (ReadBit s 0).1 with
  | true =>
    rw [hr] at h
    simp only [if_true] at h ⊢
    obtain ⟨a1, a2⟩ := ReadBit_true _ _ hr
    cases hu : (ReadU U (ReadBit s 0).2.2 0).1 with
    | true =>
      simp only [if_true]
      obtain ⟨b1, b2, b3⟩ := ReadU_true U _ 0 hu
      rw [a1] at b1 b2 b3
      dsimp only at b1 b2 b3
      rw [a1]
      exact ⟨b1, by omega, b3⟩
    | false =>
      rw [hu] at h
      simp at h
  | false =>
    rw [hr] at h
    simp at h

theorem ReadI_reads_lt (U : UType) (s : BitStreamInput) :
    ∀ k ∈ ReadI_reads U s, k < s.m_input.length := by
  intro k hk
  unfold ReadI_reads at hk
  dsimp only at hk
  rcases List.mem_append.mp hk with h | h
  · exact ReadBit_reads_lt _ k h
  · split at h
    · rename_i hr
      have a1 := (ReadBit_true _ _ hr).1
      have := ReadU_reads_lt U _ k h
      rw [a1] at this
      exact this
    · simp at h

theorem ReadString_true (s : BitStreamInput) (str : Str) (h : (ReadString s str).1 = true) :
    (ReadString s str).2.2.m_input = s.m_input ∧
      (ReadString s str).2.2.m_nbits ≤ s.m_input.length * 8 := by
  unfold ReadString at h ⊢
  dsimp only at h ⊢
  cases hr : (ReadU .U32 s 0).1 with
  | true =>
    rw [hr] at h
    simp only [if_true] at h ⊢
    obtain ⟨a1, a2, a3⟩ := ReadU_true .U32 s 0 hr
    split
    · exact ⟨a1, a3⟩
    · rename_i hz
      rw [if_neg hz] at h
      cases hb : (ReadBytesAligned (ReadU .U32 s 0).2.2
          (List.replicate (ReadU .U32 s 0).2.1 0) (ReadU .U32 s 0).2.1).1 with
      | true =>
        simp only [if_true]
        obtain ⟨b1, _, b3⟩ := ReadBytesAligned_true _ _ _ hb
        obtain ⟨b4, b5⟩ := b3 (Nat.pos_of_ne_zero hz)
        rw [b1, a1, b4]
        rw [a1] at b5
        exact ⟨rfl, by omega⟩
      | false =>
        rw [hb] at h
        simp at h
  | false =>
    rw [hr] at h
    simp at h

theorem ReadString_reads_lt (s : BitStreamInput) :
    ∀ k ∈ ReadString_reads s, k < s.m_input.length := by
  intro k hk
  unfold ReadString_reads at hk
  dsimp only at hk
  rcases List.mem_append.mp hk with h | h
  · exact ReadU_reads_lt _ _ k h
  · split at h
    · rename_i hr
      have a1 := (ReadU_true .U32 s 0 hr).1
      split at h
      · simp at h
      · have := ReadBytesAligned_reads_lt _ _ k h
        rw [a1] at this
        exact this
    · simp at h

theorem ReadBuffer_true (s : BitStreamInput) (b : Buffer) (h : (ReadBuffer s b).1 = true) :
    (ReadBuffer s b).2.2.m_input = s.m_input ∧
      (ReadBuffer s b).2.2.m_nbits ≤ s.m_input.length * 8 := by
  unfold ReadBuffer at h ⊢
  dsimp only at h ⊢
  cases hr : (ReadU .U32 s 0).1 with
  | true =>
    rw [hr] at h
    simp only [if_true] at h ⊢
    obtain ⟨a1, a2, a3⟩ := ReadU_true .U32 s 0 hr
    obtain ⟨b1, b2, b3⟩ := ReadBytesAligned_true _ _ _ h
    by_cases hz : (ReadU .U32 s 0).2.1 = 0
    · rw [b2 hz]
      exact ⟨a1, a3⟩
    · obtain ⟨b4, b5⟩ := b3 (Nat.pos_of_ne_zero hz)
      rw [b1, a1, b4]
      rw [a1] at b5
      exact ⟨rfl, by omega⟩
  | false =>
    rw [hr] at h
    simp at h

theorem ReadBuffer_reads_lt (s : BitStreamInput) :
    ∀ k ∈ ReadBuffer_reads s, k < s.m_input.length := by
  intro k hk
  unfold ReadBuffer_reads at hk
  dsimp only at hk
  rcases List.mem_append.mp hk with h | h
  · exact ReadU_reads_lt _ _ k h
  · split at h
    · rename_i hr
      have a1 := (ReadU_true .U32 s 0 hr).1
      have := ReadBytesAligned_reads_lt _ _ k h
      rw [a1] at this
      exact this
    · simp at h

/-- C37 (the reader never reads past the end of its input).  For every input
buffer and every bit offset: every index at which `ReadBit`, `ReadBits`,
`ReadBytesAligned` and the bool, integer (unsigned and signed, variable and
fixed width), `String` and `Buffer` reads built on them access `m_input` is
smaller than the size of the buffer.  `ReadBit`, `ReadBits` (of at least one
bit) and `ReadBytesAligned` (of at least one byte) return false when the stream
holds fewer bits or bytes than they need, and when they return false the
destination and the bit offset are unchanged.  A read that returns true ends
within the buffer: it took only bits that are there. -/
theorem C37_reads_in_bounds (U : UType) (s : BitStreamInput) (buffer : List Nat)
    (bit nbits nbytes u : Nat) (i : Int) (str : Str) :
    ((∀ k ∈ ReadBit_reads s, k < s.m_input.length) ∧
      (∀ k ∈ ReadBits_reads s nbits, k < s.m_input.length) ∧
      (∀ k ∈ ReadBytesAligned_reads s nbytes, k < s.m_input.length) ∧
      (∀ k ∈ ReadUN_reads U s nbits, k < s.m_input.length) ∧
      (∀ k ∈ ReadU_reads U s, k < s.m_input.length) ∧
      (∀ k ∈ ReadI_reads U s, k < s.m_input.length) ∧
      (∀ k ∈ ReadString_reads s, k < s.m_input.length) ∧
      (∀ k ∈ ReadBuffer_reads s, k < s.m_input.length)) ∧
    ((s.m_nbits + 1 > s.m_input.length * 8 → ReadBit s bit = (false, bit, s)) ∧
      (0 < nbits → s.m_nbits + nbits > s.m_input.length * 8 →
        ReadBits s buffer nbits = (false, buffer, s)) ∧
      (0 < nbytes → BITS2BYTES s.m_nbits + nbytes > s.m_input.length →
        ReadBytesAligned s buffer nbytes = (false, buffer, s))) ∧
    (((ReadBit s bit).1 = false → ReadBit s bit = (false, bit, s)) ∧
      ((ReadBits s buffer nbits).1 = false → ReadBits s buffer nbits = (false, buffer, s)) ∧
      ((ReadBytesAligned s buffer nbytes).1 = false →
        ReadBytesAligned s buffer nbytes = (false, buffer, s))) ∧
    (((ReadBit s bit).1 = true → s.m_nbits + 1 ≤ s.m_input.length * 8) ∧
      ((ReadBool s).1 = true → (ReadBool s).2.2.m_nbits ≤ s.m_input.length * 8) ∧
      ((ReadBits s buffer nbits).1 = true → 0 < nbits →
        s.m_nbits + nbits ≤ s.m_input.length * 8) ∧
      ((ReadBytesAligned s buffer nbytes).1 = true → 0 < nbytes →
        BITS2BYTES s.m_nbits + nbytes ≤ s.m_input.length) ∧
      ((ReadUN U s u nbits).1 = true → 0 < nbits →
        (ReadUN U s u nbits).2.2.m_nbits ≤ s.m_input.length * 8) ∧
      ((ReadIN U s i nbits).1 = true → 0 < nbits →
        (ReadIN U s i nbits).2.2.m_nbits ≤ s.m_input.length * 8) ∧
      ((ReadU U s u).1 = true → (ReadU U s u).2.2.m_nbits ≤ s.m_input.length * 8) ∧
      ((ReadI U s i).1 = true → (ReadI U s i).2.2.m_nbits ≤ s.m_input.length * 8) ∧
      ((ReadString s str).1 = true →
        (ReadString s str).2.2.m_nbits ≤ s.m_input.length * 8) ∧
      ((ReadBuffer s str).1 = true →
        (ReadBuffer s str).2.2.m_nbits ≤ s.m_input.length * 8)) := by
  refine ⟨⟨ReadBit_reads_lt s, ReadBits_reads_lt s nbits, ReadBytesAligned_reads_lt s nbytes,
    ReadBits_reads_lt s _, ReadU_reads_lt U s, ReadI_reads_lt U s, ReadString_reads_lt s,
    ReadBuffer_reads_lt s⟩, ⟨?_, ?_, ?_⟩, ⟨?_, ?_, ?_⟩, ?_, ?_, ?_, ?_, ?_, ?_, ?_, ?_, ?_, ?_⟩
  · intro h
    unfold ReadBit
    rw [if_pos h]
  · intro h0 h
    unfold ReadBits
    rw [if_neg (by omega), if_pos h]
  · intro h0 h
    unfold ReadBytesAligned
    rw [if_neg (by omega)]
    dsimp only
    rw [if_pos h]
  · exact fun h => (ReadBit_false s bit h).1
  · exact fun h => (ReadBits_false s buffer nbits h).1
  · exact fun h => (ReadBytesAligned_false s buffer nbytes h).1
  · exact fun h => (ReadBit_true s bit h).2
  · intro h
    have h1 : (ReadBit s 0).1 = true := h
    obtain ⟨a1, a2⟩ := ReadBit_true s 0 h1
    show (ReadBit s 0).2.2.m_nbits ≤ _
    rw [a1]
    exact a2
  · exact fun h hn => (ReadBits_true s buffer nbits h).2 hn
  · exact fun h hn => ((ReadBytesAligned_true s buffer nbytes h).2.2 hn).2
  · intro h hn
    obtain ⟨a1, a2⟩ := ReadUN_true U s u nbits h
    rw [a1]
    exact a2 hn
  · intro h hn
    unfold ReadIN at h ⊢
    dsimp only at h ⊢
    cases hr : (ReadUN U s 0 nbits).1 with
    | true =>
      simp only [if_true]
      obtain ⟨a1, a2⟩ := ReadUN_true U s 0 nbits hr
      rw [a1]
      exact a2 hn
    | false =>
      rw [hr] at h
      simp at h
  · exact fun h => (ReadU_true U s u h).2.2
  · exact fun h => (ReadI_true U s i h).2.2
  · exact fun h => (ReadString_true s str h).2
  · exact fun h => (ReadBuffer_true s str h).2

theorem C37_reads_in_bounds_witness :
    ReadBits_reads ⟨[0x15, 0x00], 3⟩ 6 = [0, 1] ∧
    ReadU_reads .U32 ⟨[0x15], 0⟩ = [0, 0] ∧
    (∀ k ∈ ReadU_reads .U32 ⟨[0x15], 0⟩, k < 1) ∧
    ((14 : Nat) + 3 > [0x15, 0x00].length * 8) ∧
    ReadBits ⟨[0x15, 0x00], 14⟩ [0] 3 = (false, [0], ⟨[0x15, 0x00], 14⟩) :=
  ⟨by decide, by decide,
    (C37_reads_in_bounds .U32 ⟨[0x15], 0⟩ [0] 0 3 1 0 0 []).1.2.2.2.2.1,
    by decide,
    (C37_reads_in_bounds .U32 ⟨[0x15, 0x00], 14⟩ [0] 0 3 1 0 0 []).2.1.2.1 (by decide)
      (by decide)⟩

/-! ## C38: the name-to-index map after a read -/

theorem fieldReadInto_fresh {V : Type} (scalars : List (ScalarType V)) (fuel n : Nat)
    (loop : UniqueStringPolicy → BitStreamInput →
      Option (Fields V × UniqueStringPolicy × BitStreamInput))
    (h : ∀ p s, loop p s = Fields.read scalars fuel n p s)
    (p : UniqueStringPolicy) (s : BitStreamInput) :
    fieldReadInto scalars fuel [] none loop p s = Fields.read scalars (fuel + 1) (n + 1) p s := by
  rw [Fields.read]
  unfold fieldReadInto
  simp only [h, Fields.push]
  try rfl

/-- On a default-constructed deque the loop over the resized fields is the loop
of `Fields.read`. -/
theorem Fields_readInto_fresh {V : Type} (scalars : List (ScalarType V)) :
    ∀ (fuel n : Nat) (p : UniqueStringPolicy) (s : BitStreamInput),
      Fields.readInto scalars fuel (Fields.resize .nil n) p s
        = Fields.read scalars fuel n p s := by
  intro fuel
  induction fuel with
  | zero =>
    intro n p s
    cases n <;> rfl
  | succ fuel ih =>
    intro n p s
    cases n with
    | zero => rfl
    | succ n =>
      rw [Fields.resize, Fields.readInto]
      exact fieldReadInto_fresh scalars fuel n _ (ih n) p s

/-- On a default-constructed `Struct`, `Struct.readInto` is `Struct.read`. -/
theorem Struct_readInto_fresh {V : Type} (scalars : List (ScalarType V)) (fuel : Nat)
    (p : UniqueStringPolicy) (s : BitStreamInput) :
    Struct.readInto scalars fuel ⟨[], [], .nil⟩ p s = Struct.read scalars fuel p s := by
  unfold Struct.readInto Struct.read
  simp only [Fields.length, Nat.zero_mod, Fields_readInto_fresh]
  try rfl

/-- C38, the code at the failing input.  The `Struct` `"S"` with the fields `"a"`
and `"b"`, built with `SetName` and `AddField`, has the map `a -> 0, b -> 1`.
`Serialize` in read mode on it, from the output of `Serialize` in write mode of
the `Struct` `"T"` with the one field `"c"`, returns true and leaves the name
`"T"`, the one field `"c"` and the map `a -> 0, b -> 1, c -> 0`: the entry of `"b"`
holds an index that is not below the number of fields, and `GetField ("a")` is
the field named `"c"`.  Read into a default-constructed `Struct`, the same
stream leaves the map `c -> 0`. -/
theorem C38_stale_map_divergence :
    usedStruct.m_fields.names = [[97], [98]] ∧
    usedStruct.m_mappings = [([97], 0), ([98], 1)] ∧
    (sourceStruct.write [scalarU32] ⟨[], []⟩ BitStreamOutput.init).1 = true ∧
    (Struct.readInto [scalarU32] 5 usedStruct ⟨[], []⟩
        ⟨(sourceStruct.write [scalarU32] ⟨[], []⟩ BitStreamOutput.init).2.2.m_output, 0⟩).map
        (fun r => (r.1.m_name, r.1.m_fields.names, r.1.m_mappings))
      = some ([84], [[99]], [([97], 0), ([98], 1), ([99], 0)]) ∧
    (Struct.readInto [scalarU32] 5 usedStruct ⟨[], []⟩
        ⟨(sourceStruct.write [scalarU32] ⟨[], []⟩ BitStreamOutput.init).2.2.m_output, 0⟩).map
        (fun r => (r.1.m_fields.length, r.1.HasField [98],
          (r.1.GetField [97]).map (fun f => f.1)))
      = some (1, true, some [99]) ∧
    (Struct.readInto [scalarU32] 5 ⟨[], [], .nil⟩ ⟨[], []⟩
        ⟨(sourceStruct.write [scalarU32] ⟨[], []⟩ BitStreamOutput.init).2.2.m_output, 0⟩).map
        (fun r => (r.1.m_name, r.1.m_fields.names, r.1.m_mappings))
      = some ([84], [[99]], [([99], 0)]) := by
  refine ⟨by decide, by decide, by decide, ?_, ?_, ?_⟩
  · set_option maxRecDepth 100000 in decide
  · set_option maxRecDepth 100000 in decide
  · set_option maxRecDepth 100000 in decide

/-! ## C39: the lookups of the fan-out -/

/-- C39, the code at the failing input.  The server has the connections
`"10.0.0.2:4000"` and `"10.0.0.3:4000"` and the object 5 bound; `"10.0.0.9:1"` is
not connected, so `m_connections.find` returns `end ()` for it.  With that
address in `connIDs` and `except = false`, `CreateRemoteObject`,
`DeleteRemoteObject` and `InvokeRemoteMethod` dereference `end ()`, also after a
connected address was served; with connected addresses only they do not. -/
theorem C39_fanout_lookup_divergence :
    findConnection "10.0.0.9:1" exampleServer2.m_connections = none ∧
    exampleServer2.Translate 5 = some exampleObject ∧
    exampleServer2.CreateRemoteObject ["10.0.0.9:1"] false 5 = none ∧
    exampleServer2.DeleteRemoteObject ["10.0.0.9:1"] false 5 = none ∧
    exampleServer2.InvokeRemoteMethod ["10.0.0.9:1"] false 5 [102] (fun s => (true, s)) true
      = none ∧
    exampleServer2.CreateRemoteObject ["10.0.0.2:4000", "10.0.0.9:1"] false 5 = none ∧
    (exampleServer2.CreateRemoteObject ["10.0.0.2:4000"] false 5).isSome = true ∧
    (exampleServer2.InvokeRemoteMethod ["10.0.0.2:4000", "10.0.0.3:4000"] false 5 [102]
      (fun s => (true, s)) true).isSome = true := by
  refine ⟨rfl, rfl, rfl, rfl, rfl, rfl, rfl, rfl⟩

/-! ## C40: `ComputePath` returns a cheapest path -/

theorem umFind_umSet_eq {β : Type} (k : Location) (v : β) (m : List (Location × β)) :
    umFind k (umSet k v m) = some v := by
  induction m with
  | nil => simp [umSet, umFind]
  | cons e rest ih =>
    by_cases h : e.1 = k
    · simp [umSet, umFind, h]
    · have hb : (e.1 == k) = false := by simpa using h
      simp only [umSet, hb, Bool.false_eq_true, if_false]
      simp only [umFind, List.find?_cons, hb] at ih ⊢
      exact ih

theorem umFind_umSet_ne {β : Type} (k k2 : Location) (v : β) (m : List (Location × β))
    (hne : k2 ≠ k) : umFind k2 (umSet k v m) = umFind k2 m := by
  induction m with
  | nil =>
    have hb : (k == k2) = false := by simpa using (Ne.symm hne)
    simp [umSet, umFind, hb]
  | cons e rest ih =>
    by_cases h : e.1 = k
    · have hb : (e.1 == k2) = false := by rw [h]; simpa using (Ne.symm hne)
      have hb2 : (k == k2) = false := by simpa using (Ne.symm hne)
      simp [umSet, umFind, h, hb, hb2, List.find?_cons]
    · have hb : (e.1 == k) = false := by simpa using h
      simp only [umSet, hb, Bool.false_eq_true, if_false]
      simp only [umFind, List.find?_cons] at ih ⊢
      split
      · rfl
      · exact ih

theorem umFind_isSome_iff {β : Type} (k : Location) (m : List (Location × β)) :
    (umFind k m).isSome = true ↔ k ∈ m.map (fun e => e.1) := by
  induction m with
  | nil => simp [umFind]
  | cons e rest ih =>
    by_cases h : e.1 = k
    · simp [umFind, List.find?_cons, h]
    · have hb : (e.1 == k) = false := by simpa using h
      simp only [umFind, List.find?_cons, hb, List.map_cons, List.mem_cons] at ih ⊢
      rw [ih]
      constructor
      · exact fun hx => Or.inr hx
      · rintro (hx | hx)
        · exact absurd hx.symm h
        · exact hx

theorem umSet_keys {β : Type} (k : Location) (v : β) (m : List (Location × β)) :
    (umSet k v m).map (fun e => e.1)
      = if (umFind k m).isSome then m.map (fun e => e.1) else m.map (fun e => e.1) ++ [k] := by
  induction m with
  | nil => simp [umSet, umFind]
  | cons e rest ih =>
    by_cases h : e.1 = k
    · simp [umSet, umFind, h, List.find?_cons]
    · have hb : (e.1 == k) = false := by simpa using h
      simp only [umSet, hb, Bool.false_eq_true, if_false, List.map_cons]
      have e2 : umFind k (e :: rest) = umFind k rest := by
        simp [umFind, List.find?_cons, hb]
      rw [ih, e2]
      split <;> simp

theorem umSet_length {β : Type} (k : Location) (v : β) (m : List (Location × β)) :
    (umSet k v m).length = if (umFind k m).isSome then m.length else m.length + 1 := by
  have h := congrArg List.length (umSet_keys k v m)
  rw [List.length_map] at h
  rw [h]
  split <;> simp

theorem umSet_sum (k : Location) (v : Nat) (m : List (Location × Nat)) :
    ((umSet k v m).map (fun e => e.2)).sum + (umFind k m).getD 0
      = (m.map (fun e => e.2)).sum + v := by
  induction m with
  | nil => simp [umSet, umFind]
  | cons e rest ih =>
    by_cases h : e.1 = k
    · simp [umSet, umFind, h, List.find?_cons]
      omega
    · have hb : (e.1 == k) = false := by simpa using h
      have e2 : umFind k (e :: rest) = umFind k rest := by
        simp [umFind, List.find?_cons, hb]
      simp only [umSet, hb, Bool.false_eq_true, if_false, List.map_cons, List.sum_cons, e2]
      omega

theorem umSet_keys_nodup {β : Type} (k : Location) (v : β) (m : List (Location × β))
    (h : (m.map (fun e => e.1)).Nodup) : ((umSet k v m).map (fun e => e.1)).Nodup := by
  rw [umSet_keys]
  split
  · exact h
  · rename_i hn
    rw [umFind_isSome_iff] at hn
    exact List.Nodup.append h (List.nodup_singleton k) (by
      intro a ha hb
      rw [List.mem_singleton] at hb
      exact hn (hb ▸ ha))

theorem mem_cells (N : Nat) (p : Location) (hx : p.x < N) (hy : p.y < N) : p ∈ cells N := by
  simp only [cells, List.mem_flatMap, List.mem_range, List.mem_map]
  exact ⟨p.x, hx, p.y, hy, rfl⟩

theorem cells_length (N : Nat) : (cells N).length = N * N := by
  simp [cells, List.length_flatMap, Function.comp_def]

/-- Distinct keys that are locations of the grid are no more than its cells. -/
theorem keys_length_le (g : SquareGrid) (m : List (Location × Nat))
    (hn : (m.map (fun e => e.1)).Nodup)
    (hv : ∀ x c, umFind x m = some c → g.valid x = true) : m.length ≤ g.N * g.N := by
  have hsub : m.map (fun e => e.1) ⊆ cells g.N := by
    intro x hx
    rw [← umFind_isSome_iff] at hx
    obtain ⟨c, hc⟩ := Option.isSome_iff_exists.mp hx
    have := hv x c hc
    simp only [SquareGrid.valid, Bool.and_eq_true, decide_eq_true_eq] at this
    exact mem_cells g.N x this.1 this.2
  have := (List.Nodup.subperm hn hsub).length_le
  rw [List.length_map, cells_length] at this
  exact this

theorem mem_neighbors (g : SquareGrid) (a b : Location) (hN : g.N < 2 ^ 64)
    (ha : g.valid a = true) :
    b ∈ g.neighbors a ↔ g.valid b = true ∧ IsNeighbor4 a b := by
  have hmem : b ∈ (DIRS.map (fun d =>
      (⟨(a.x + d.x) % 2 ^ 64, (a.y + d.y) % 2 ^ 64⟩ : Location))).filter g.valid
      ↔ g.valid b = true ∧ IsNeighbor4 a b := by
    obtain ⟨bx, by1⟩ := b
    obtain ⟨ax, ay⟩ := a
    simp only [SquareGrid.valid, Bool.and_eq_true, decide_eq_true_eq] at ha
    simp only [DIRS, List.map_cons, List.map_nil, List.mem_filter, List.mem_cons,
      Location.mk.injEq, List.mem_nil_iff, or_false, SquareGrid.valid, Bool.and_eq_true,
      decide_eq_true_eq, IsNeighbor4]
    constructor
    · rintro ⟨h1, h2⟩
      refine ⟨h2, ?_⟩
      omega
    · rintro ⟨h1, h2⟩
      refine ⟨?_, h1⟩
      omega
  unfold SquareGrid.neighbors
  dsimp only
  split
  · rw [List.mem_reverse]; exact hmem
  · exact hmem

theorem isNeighbor4_ne {a b : Location} (h : IsNeighbor4 a b) : b ≠ a := by
  intro e
  subst e
  unfold IsNeighbor4 at h
  omega

theorem heuristic_eq (a b : Location) (N : Nat) (hN : 2 * N < 2 ^ 64) (ha : a.x < N ∧ a.y < N)
    (hb : b.x < N ∧ b.y < N) :
    heuristic a b = (if a.x > b.x then a.x - b.x else b.x - a.x)
      + (if a.y > b.y then a.y - b.y else b.y - a.y) := by
  unfold heuristic
  apply Nat.mod_eq_of_lt
  split <;> split <;> omega

theorem valid_iff (g : SquareGrid) (p : Location) :
    g.valid p = true ↔ p.x < g.N ∧ p.y < g.N := by
  simp [SquareGrid.valid]

theorem heuristic_step (g : SquareGrid) (a b goal : Location) (hN : 2 * g.N < 2 ^ 64)
    (ha : g.valid a = true) (hb : g.valid b = true) (hg : g.valid goal = true)
    (h : IsNeighbor4 a b) : heuristic a goal ≤ heuristic b goal + 1 := by
  rw [valid_iff] at ha hb hg
  rw [heuristic_eq a goal g.N hN ha hg, heuristic_eq b goal g.N hN hb hg]
  unfold IsNeighbor4 at h
  split <;> split <;> split <;> split <;> omega

theorem heuristic_self (a : Location) : heuristic a a = 0 := by
  simp [heuristic]

theorem getWeight_ok (g : SquareGrid) (hg : GridOK g) (p : Location)
    (hp : g.valid p = true) : 1 ≤ g.GetWeight p ∧ g.GetWeight p ≤ 255 := by
  obtain ⟨h1, h2⟩ := hg
  have hv := (valid_iff g p).mp hp
  unfold SquareGrid.GetWeight
  rw [if_pos hp]
  have hy : p.y < g.m_grid.length := by rw [h1]; exact hv.2
  have hrow : g.m_grid.getD p.y [] ∈ g.m_grid := by
    rw [List.getD_eq_getElem _ _ hy]
    exact List.getElem_mem _
  obtain ⟨r1, r2⟩ := h2 _ hrow
  have hx : p.x < (g.m_grid.getD p.y []).length := by rw [r1]; exact hv.1
  have hw : (g.m_grid.getD p.y []).getD p.x 0 ∈ g.m_grid.getD p.y [] := by
    rw [List.getD_eq_getElem _ _ hx]
    exact List.getElem_mem _
  exact r2 _ hw

theorem gridOK_new (N : Nat) : GridOK (SquareGrid.new N) := by
  refine ⟨by simp [SquareGrid.new, SquareGrid.Reset], ?_⟩
  intro row hrow
  simp only [SquareGrid.new, SquareGrid.Reset] at hrow
  rw [List.eq_of_mem_replicate hrow]
  refine ⟨by simp [SquareGrid.new, SquareGrid.Reset], ?_⟩
  intro w hw
  rw [List.eq_of_mem_replicate hw]
  omega

theorem gridOK_SetWeight (g : SquareGrid) (p : Location) (weight : Nat) (hg : GridOK g)
    (hw : weight ≤ 255) : GridOK (g.SetWeight p weight) ∧ (g.SetWeight p weight).N = g.N := by
  unfold SquareGrid.SetWeight
  split
  · rename_i hc
    simp only [Bool.and_eq_true, decide_eq_true_eq] at hc
    obtain ⟨h1, h2⟩ := hg
    refine ⟨⟨by simp [h1], ?_⟩, rfl⟩
    intro row hrow
    rcases List.mem_or_eq_of_mem_set hrow with hr | hr
    · exact h2 row hr
    · have hv := (valid_iff g p).mp hc.1
      have hy : p.y < g.m_grid.length := by rw [h1]; exact hv.2
      have hrow0 : g.m_grid.getD p.y [] ∈ g.m_grid := by
        rw [List.getD_eq_getElem _ _ hy]
        exact List.getElem_mem _
      obtain ⟨r1, r2⟩ := h2 _ hrow0
      rw [hr]
      refine ⟨by rw [List.length_set]; exact r1, ?_⟩
      intro w hw2
      rcases List.mem_or_eq_of_mem_set hw2 with h3 | h3
      · exact r2 w h3
      · rw [h3]; omega
  · exact ⟨hg, rfl⟩

theorem heuristic_le (g : SquareGrid) (a b : Location) (hN : 2 * g.N < 2 ^ 64)
    (ha : g.valid a = true) (hb : g.valid b = true) : heuristic a b ≤ 2 * g.N := by
  rw [valid_iff] at ha hb
  rw [heuristic_eq a b g.N hN ha hb]
  split <;> split <;> omega

theorem elementLt_true {a b : Element} (h : Element.lt a b = true) : a.1 ≤ b.1 := by
  simp only [Element.lt, Bool.or_eq_true, Bool.and_eq_true, decide_eq_true_eq,
    Bool.not_eq_true', decide_eq_false_iff_not] at h
  omega

theorem elementLt_false {a b : Element} (h : Element.lt a b = false) : b.1 ≤ a.1 := by
  simp only [Element.lt, Bool.or_eq_false_iff, decide_eq_false_iff_not] at h
  omega

theorem leastElement_spec (rest : List Element) : ∀ e, leastElement e rest ∈ e :: rest ∧
    (leastElement e rest).1 ≤ e.1 ∧ ∀ x ∈ rest, (leastElement e rest).1 ≤ x.1 := by
  induction rest with
  | nil => intro e; simp [leastElement]
  | cons y rest ih =>
    intro e
    have hstep : leastElement e (y :: rest)
        = leastElement (if Element.lt y e then y else e) rest := by
      simp [leastElement]
    rw [hstep]
    obtain ⟨h1, h2, h3⟩ := ih (if Element.lt y e then y else e)
    by_cases hlt : Element.lt y e = true
    · simp only [hlt, if_true] at h1 h2 h3 ⊢
      have := elementLt_true hlt
      refine ⟨?_, by omega, ?_⟩
      · rcases List.mem_cons.mp h1 with h | h
        · rw [h]; simp
        · exact List.mem_cons_of_mem _ (List.mem_cons_of_mem _ h)
      · intro x hx
        rcases List.mem_cons.mp hx with h | h
        · rw [h]; exact h2
        · exact h3 x h
    · have hf : Element.lt y e = false := by simpa using hlt
      simp only [hf, Bool.false_eq_true, if_false] at h1 h2 h3 ⊢
      have := elementLt_false hf
      refine ⟨?_, h2, ?_⟩
      · rcases List.mem_cons.mp h1 with h | h
        · rw [h]; simp
        · exact List.mem_cons_of_mem _ (List.mem_cons_of_mem _ h)
      · intro x hx
        rcases List.mem_cons.mp hx with h | h
        · rw [h]; omega
        · exact h3 x h

theorem frontierTop_some {l : List Element} {top : Element} (h : frontierTop l = some top) :
    top ∈ l ∧ ∀ x ∈ l, top.1 ≤ x.1 := by
  cases l with
  | nil => simp [frontierTop] at h
  | cons e rest =>
    simp only [frontierTop, Option.some.injEq] at h
    subst h
    obtain ⟨h1, h2, h3⟩ := leastElement_spec rest e
    refine ⟨h1, ?_⟩
    intro x hx
    rcases List.mem_cons.mp hx with h | h
    · rw [h]; exact h2
    · exact h3 x h

theorem frontierTop_none {l : List Element} (h : frontierTop l = none) : l = [] := by
  cases l with
  | nil => rfl
  | cons e rest => simp [frontierTop] at h

theorem umFind_single {β : Type} {x k : Location} {v c : β}
    (h : umFind x [(k, v)] = some c) : x = k ∧ c = v := by
  by_cases hk : k = x
  · subst hk
    simp [umFind] at h
    exact ⟨rfl, h.symm⟩
  · have hb : (k == x) = false := by simpa using hk
    simp [umFind, hb] at h

theorem gridOK_SetWeights (weights : List (Location × Nat))
    (hw : ∀ each ∈ weights, each.2 ≤ 255) :
    ∀ g : SquareGrid, GridOK g → GridOK (g.SetWeights weights) ∧ (g.SetWeights weights).N = g.N := by
  induction weights with
  | nil => intro g hg; exact ⟨hg, rfl⟩
  | cons each rest ih =>
    intro g hg
    obtain ⟨h1, h2⟩ := gridOK_SetWeight g each.1 each.2 hg (hw each (List.mem_cons_self _ _))
    obtain ⟨h3, h4⟩ := ih (fun e he => hw e (List.mem_cons_of_mem _ he)) _ h1
    exact ⟨h3, h4.trans h2⟩

/-- The state that `ComputePath` enters its loop with. -/
theorem searchInv_init (g : SquareGrid) (start goal : Location) (hs : g.valid start = true) :
    SearchInv g start goal ⟨[(0, start)], [(start, start)], [(start, 0)]⟩ ∧
      OpenOrExpanded g goal ⟨[(0, start)], [(start, start)], [(start, 0)]⟩ none := by
  refine ⟨⟨by simp [umFind], by simp, ?_, ?_, ?_, ?_⟩, ?_⟩
  · intro x c hx
    rw [(umFind_single hx).1]; exact hs
  · intro x c hx
    rw [(umFind_single hx).2]; simp
  · intro x c hx hne
    exact absurd (umFind_single hx).1 hne
  · intro e he
    simp only [List.mem_singleton] at he
    subst he
    exact ⟨0, by simp [umFind], Nat.le_refl _⟩
  · intro x c hx _
    obtain ⟨h1, h2⟩ := umFind_single hx
    subst h1 h2
    exact Or.inl ⟨0, Nat.zero_le _, by simp⟩

theorem loopInv_mono (g : SquareGrid) (start goal cur : Location) (D E : Location → Prop)
    (st : SearchState) (hDE : ∀ y, E y → D y) (h : LoopInv g start goal cur D st) :
    LoopInv g start goal cur E st := by
  obtain ⟨h1, h2, c, hc, h3⟩ := h
  exact ⟨h1, h2, c, hc, fun y hy => h3 y (hDE y hy)⟩

/-- Taking the top element from the frontier. -/
theorem pop_inv (g : SquareGrid) (start goal : Location) (st : SearchState) (top : Element)
    (hinv : SearchInv g start goal st) (hopen : OpenOrExpanded g goal st none)
    (htop : top ∈ st.frontier) :
    LoopInv g start goal top.2 (fun _ => False)
      { st with frontier := st.frontier.erase top } := by
  obtain ⟨c, hc, _⟩ := hinv.entries top htop
  refine ⟨⟨hinv.start_cost, hinv.keys_nodup, hinv.keys_valid, hinv.bound, hinv.chain, ?_⟩,
    ?_, c, hc, fun y hy => hy.elim⟩
  · intro e he
    exact hinv.entries e (List.mem_of_mem_erase he)
  · intro x cx hx hne
    rcases hopen x cx hx (by simp) with ⟨pr, hpr, hmem⟩ | hexp
    · refine Or.inl ⟨pr, hpr, ?_⟩
      have hne2 : (pr, x) ≠ top := by
        intro e
        apply hne
        rw [← e]
      exact (List.mem_erase_of_ne hne2).mpr hmem
    · exact Or.inr hexp

/-- One neighbour of the inner loop of `ComputePath`: the invariant is kept, the
neighbour is done, and the measure does not grow. -/
theorem relax_inv (g : SquareGrid) (start goal cur next : Location) (D : Location → Prop)
    (st : SearchState) (hg : GridOK g) (hN : 255 * (g.N * g.N) + 2 * g.N < 2 ^ 64)
    (hgoal : g.valid goal = true) (hnext : g.valid next = true) (hnb : IsNeighbor4 cur next)
    (h : LoopInv g start goal cur D st) :
    LoopInv g start goal cur (fun y => y = next ∨ D y) (relax g goal cur st next) ∧
      searchMeasure g (relax g goal cur st next) ≤ searchMeasure g st := by
  obtain ⟨hinv, hopen, ccur, hcur, hD⟩ := h
  have hvcur := hinv.keys_valid cur ccur hcur
  have hlen := keys_length_le g st.cost_so_far hinv.keys_nodup hinv.keys_valid
  have hb := hinv.bound cur ccur hcur
  obtain ⟨hw1, hw2⟩ := getWeight_ok g hg next hnext
  have hne : next ≠ cur := isNeighbor4_ne hnb
  have hh := heuristic_le g next goal (by omega) hnext hgoal
  have hnc : (((umFind cur st.cost_so_far).getD 0) + g.GetWeight next) % 2 ^ 64
      = ccur + g.GetWeight next := by
    rw [hcur, Option.getD_some]
    apply Nat.mod_eq_of_lt
    omega
  have hpr : (ccur + g.GetWeight next + heuristic next goal) % 2 ^ 64
      = ccur + g.GetWeight next + heuristic next goal := by
    apply Nat.mod_eq_of_lt
    omega
  simp only [relax, hnc, hpr]
  by_cases hupd : ((umFind next st.cost_so_far).isNone
      || decide (ccur + g.GetWeight next < (umFind next st.cost_so_far).getD 0)) = true
  · rw [if_pos hupd]
    have hold : ∀ cn, umFind next st.cost_so_far = some cn → ccur + g.GetWeight next < cn := by
      intro cn hcn
      rw [hcn] at hupd
      simpa using hupd
    have hnstart : start ≠ next := by
      intro e
      have := hold 0 (e ▸ hinv.start_cost)
      omega
    have hfne : ∀ y, y ≠ next → umFind y (umSet next (ccur + g.GetWeight next) st.cost_so_far)
        = umFind y st.cost_so_far :=
      fun y hy => umFind_umSet_ne next y _ _ hy
    have hfeq : umFind next (umSet next (ccur + g.GetWeight next) st.cost_so_far)
        = some (ccur + g.GetWeight next) := umFind_umSet_eq next _ _
    have hmono : ∀ y cy, umFind y st.cost_so_far = some cy →
        ∃ cy2, umFind y (umSet next (ccur + g.GetWeight next) st.cost_so_far) = some cy2
          ∧ cy2 ≤ cy := by
      intro y cy hy
      by_cases e : y = next
      · subst e
        exact ⟨_, hfeq, Nat.le_of_lt (hold cy hy)⟩
      · exact ⟨cy, (hfne y e).trans hy, Nat.le_refl _⟩
    have hlen2 : st.cost_so_far.length
        ≤ (umSet next (ccur + g.GetWeight next) st.cost_so_far).length := by
      rw [umSet_length]
      split <;> omega
    have hinv2 : SearchInv g start goal
        { cost_so_far := umSet next (ccur + g.GetWeight next) st.cost_so_far,
          frontier := (ccur + g.GetWeight next + heuristic next goal, next) :: st.frontier,
          came_from := umSet next cur st.came_from } := by
      refine ⟨?_, ?_, ?_, ?_, ?_, ?_⟩
      · exact (hfne start hnstart).trans hinv.start_cost
      · exact umSet_keys_nodup next _ _ hinv.keys_nodup
      · intro x c hx
        by_cases e : x = next
        · rw [e]; exact hnext
        · exact hinv.keys_valid x c ((hfne x e).symm.trans hx)
      · intro x c hx
        by_cases e : x = next
        · subst e
          have hc : c = ccur + g.GetWeight x := by
            rw [hfeq] at hx
            exact (Option.some.inj hx).symm
          show c + 255 ≤ 255 * (umSet x (ccur + g.GetWeight x) st.cost_so_far).length
          rw [umSet_length]
          cases hxo : umFind x st.cost_so_far with
          | none =>
            simp only [Option.isSome_none, Bool.false_eq_true, if_false]
            omega
          | some cn =>
            simp only [Option.isSome_some, if_true]
            have := hold cn hxo
            have := hinv.bound x cn hxo
            omega
        · have := hinv.bound x c ((hfne x e).symm.trans hx)
          show c + 255 ≤ 255 * (umSet next (ccur + g.GetWeight next) st.cost_so_far).length
          omega
      · intro x c hx hxs
        by_cases e : x = next
        · subst e
          have hc : c = ccur + g.GetWeight x := by
            rw [hfeq] at hx
            exact (Option.some.inj hx).symm
          exact ⟨cur, ccur, umFind_umSet_eq x cur _, (hfne cur (Ne.symm hne)).trans hcur,
            by omega, hvcur, hnb⟩
        · obtain ⟨p, cp, h1, h2, h3, h4, h5⟩ :=
            hinv.chain x c ((hfne x e).symm.trans hx) hxs
          obtain ⟨cp2, h6, h7⟩ := hmono p cp h2
          exact ⟨p, cp2, (umFind_umSet_ne next x cur _ e).trans h1, h6, by omega, h4, h5⟩
      · intro e he
        rcases List.mem_cons.mp he with h1 | h1
        · subst h1
          exact ⟨_, hfeq, Nat.le_add_right _ _⟩
        · obtain ⟨c, h2, h3⟩ := hinv.entries e h1
          obtain ⟨c2, h4, h5⟩ := hmono e.2 c h2
          exact ⟨c2, h4, by omega⟩
    refine ⟨⟨hinv2, ?_, ccur, (hfne cur (Ne.symm hne)).trans hcur, ?_⟩, ?_⟩
    · intro x c hx hxc
      by_cases e : x = next
      · subst e
        have hc : c = ccur + g.GetWeight x := by
          rw [hfeq] at hx
          exact (Option.some.inj hx).symm
        exact Or.inl ⟨_, by rw [hc], List.mem_cons_self _ _⟩
      · rcases hopen x c ((hfne x e).symm.trans hx) hxc with ⟨pr, h1, h2⟩ | hexp
        · exact Or.inl ⟨pr, h1, List.mem_cons_of_mem _ h2⟩
        · refine Or.inr ?_
          intro y hy
          obtain ⟨cy, h1, h2⟩ := hexp y hy
          obtain ⟨cy2, h3, h4⟩ := hmono y cy h1
          exact ⟨cy2, h3, by omega⟩
    · intro y hy
      rcases hy with e | hy
      · subst e
        exact ⟨_, hfeq, Nat.le_refl _⟩
      · obtain ⟨cy, h1, h2⟩ := hD y hy
        obtain ⟨cy2, h3, h4⟩ := hmono y cy h1
        exact ⟨cy2, h3, by omega⟩
    · have hlen3 := keys_length_le g _ hinv2.keys_nodup hinv2.keys_valid
      have hb2 := hinv2.bound next _ hfeq
      have hsum := umSet_sum next (ccur + g.GetWeight next) st.cost_so_far
      simp only [searchMeasure, List.length_cons]
      simp only at hlen3 hb2
      rw [umSet_length] at hlen3 hb2 ⊢
      cases hxo : umFind next st.cost_so_far with
      | none =>
        rw [hxo] at hsum hlen3 hb2
        simp only [Option.isSome_none, Bool.false_eq_true, if_false, Option.getD_none]
          at hsum hlen3 hb2 ⊢
        have e1 : g.N * g.N - st.cost_so_far.length
            = (g.N * g.N - (st.cost_so_far.length + 1)) + 1 := by omega
        rw [e1, Nat.add_mul, Nat.one_mul]
        omega
      | some cn =>
        rw [hxo] at hsum hlen3 hb2
        simp only [Option.isSome_some, if_true, Option.getD_some] at hsum hlen3 hb2 ⊢
        have := hold cn hxo
        omega
  · rw [if_neg hupd]
    simp only [Bool.or_eq_true, Option.isNone_iff_eq_none, decide_eq_true_eq, not_or] at hupd
    obtain ⟨h1, h2⟩ := hupd
    obtain ⟨cn, hcn⟩ := Option.ne_none_iff_exists'.mp h1
    rw [hcn, Option.getD_some] at h2
    refine ⟨⟨hinv, hopen, ccur, hcur, ?_⟩, Nat.le_refl _⟩
    intro y hy
    rcases hy with e | hy
    · subst e
      exact ⟨cn, hcn, by omega⟩
    · exact hD y hy

theorem foldl_relax_inv (g : SquareGrid) (start goal cur : Location) (hg : GridOK g)
    (hN : 255 * (g.N * g.N) + 2 * g.N < 2 ^ 64) (hgoal : g.valid goal = true) :
    ∀ (l : List Location) (D : Location → Prop) (st : SearchState),
      (∀ y ∈ l, g.valid y = true ∧ IsNeighbor4 cur y) → LoopInv g start goal cur D st →
      LoopInv g start goal cur (fun y => y ∈ l ∨ D y) (l.foldl (relax g goal cur) st) ∧
        searchMeasure g (l.foldl (relax g goal cur) st) ≤ searchMeasure g st := by
  intro l
  induction l with
  | nil =>
    intro D st _ h
    refine ⟨loopInv_mono g start goal cur D _ st ?_ h, Nat.le_refl _⟩
    intro y hy
    rcases hy with hy | hy
    · simp at hy
    · exact hy
  | cons a l ih =>
    intro D st hl h
    obtain ⟨ha1, ha2⟩ := hl a (List.mem_cons_self _ _)
    obtain ⟨h1, h2⟩ := relax_inv g start goal cur a D st hg hN hgoal ha1 ha2 h
    obtain ⟨h3, h4⟩ := ih (fun y => y = a ∨ D y) (relax g goal cur st a)
      (fun y hy => hl y (List.mem_cons_of_mem _ hy)) h1
    rw [List.foldl_cons]
    refine ⟨loopInv_mono g start goal cur _ _ _ ?_ h3, Nat.le_trans h4 h2⟩
    intro y hy
    rcases hy with hy | hy
    · rcases List.mem_cons.mp hy with e | e
      · exact Or.inr (Or.inl e)
      · exact Or.inl e
    · exact Or.inr (Or.inr hy)

/-- One round of the search loop that does not end it: the invariant is kept
and the measure goes down. -/
theorem round_inv (g : SquareGrid) (start goal : Location) (st : SearchState) (top : Element)
    (hg : GridOK g) (hN : 255 * (g.N * g.N) + 2 * g.N < 2 ^ 64) (hgoal : g.valid goal = true)
    (hinv : SearchInv g start goal st) (hopen : OpenOrExpanded g goal st none)
    (htop : top ∈ st.frontier) :
    SearchInv g start goal ((g.neighbors top.2).foldl (relax g goal top.2)
        { st with frontier := st.frontier.erase top }) ∧
      OpenOrExpanded g goal ((g.neighbors top.2).foldl (relax g goal top.2)
        { st with frontier := st.frontier.erase top }) none ∧
      searchMeasure g ((g.neighbors top.2).foldl (relax g goal top.2)
        { st with frontier := st.frontier.erase top }) < searchMeasure g st := by
  have hpop := pop_inv g start goal st top hinv hopen htop
  obtain ⟨c0, hc0, _⟩ := hinv.entries top htop
  have hvcur := hinv.keys_valid top.2 c0 hc0
  have hNlt : g.N < 2 ^ 64 := by
    have := (valid_iff g goal).mp hgoal
    have : g.N ≤ g.N * g.N := Nat.le_mul_of_pos_left _ (by omega)
    omega
  obtain ⟨⟨h1, h2, c, hc, h3⟩, h4⟩ := foldl_relax_inv g start goal top.2 hg hN hgoal
    (g.neighbors top.2) (fun _ => False) _
    (fun y hy => (mem_neighbors g top.2 y hNlt hvcur).mp hy) hpop
  refine ⟨h1, ?_, ?_⟩
  · intro x cx hx _
    by_cases e : x = top.2
    · subst e
      rw [hc] at hx
      have hcx : c = cx := Option.some.inj hx
      subst hcx
      exact Or.inr (fun y hy => h3 y (Or.inl hy))
    · exact h2 x cx hx (by simpa using e)
  · have hm : searchMeasure g { st with frontier := st.frontier.erase top } + 1
        = searchMeasure g st := by
      simp only [searchMeasure, List.length_erase_of_mem htop]
      have : 0 < st.frontier.length := List.length_pos_of_mem htop
      omega
    omega

/-- A location other than `start` has a neighbour nearer to `start`. -/
theorem exists_nearer (g : SquareGrid) (start p : Location) (hN : 2 * g.N < 2 ^ 64)
    (hs : g.valid start = true) (hp : g.valid p = true) (hne : p ≠ start) :
    ∃ p2, g.valid p2 = true ∧ IsNeighbor4 p2 p ∧ heuristic p2 start < heuristic p start := by
  have hs2 := (valid_iff g start).mp hs
  have hp2 := (valid_iff g p).mp hp
  obtain ⟨px, py⟩ := p
  obtain ⟨sx, sy⟩ := start
  simp only at hs2 hp2
  have hxy : px ≠ sx ∨ py ≠ sy := by
    by_contra hcon
    simp only [not_or, not_not] at hcon
    apply hne
    simp only [Location.mk.injEq]
    exact hcon
  have key : ∀ qx qy : Nat, qx < g.N → qy < g.N →
      ((qx = px ∧ (qy + 1 = py ∨ py + 1 = qy)) ∨ (qy = py ∧ (qx + 1 = px ∨ px + 1 = qx))) →
      ((if qx > sx then qx - sx else sx - qx) + (if qy > sy then qy - sy else sy - qy)
        < (if px > sx then px - sx else sx - px) + (if py > sy then py - sy else sy - py)) →
      ∃ p2, g.valid p2 = true ∧ IsNeighbor4 p2 ⟨px, py⟩ ∧
        heuristic p2 ⟨sx, sy⟩ < heuristic ⟨px, py⟩ ⟨sx, sy⟩ := by
    intro qx qy h1 h2 h3 h4
    refine ⟨⟨qx, qy⟩, (valid_iff g _).mpr ⟨h1, h2⟩, h3, ?_⟩
    rw [heuristic_eq ⟨qx, qy⟩ ⟨sx, sy⟩ g.N hN ⟨h1, h2⟩ hs2,
      heuristic_eq ⟨px, py⟩ ⟨sx, sy⟩ g.N hN hp2 hs2]
    exact h4
  by_cases h1 : sx < px
  · exact key (px - 1) py (by omega) (by omega) (by omega) (by split_ifs <;> omega)
  · by_cases h2 : px < sx
    · exact key (px + 1) py (by omega) (by omega) (by omega) (by split_ifs <;> omega)
    · by_cases h3 : sy < py
      · exact key px (py - 1) (by omega) (by omega) (by omega) (by split_ifs <;> omega)
      · exact key px (py + 1) (by omega) (by omega) (by omega) (by split_ifs <;> omega)

/-- With the frontier empty every location of the grid has a cost. -/
theorem all_set_of_empty (g : SquareGrid) (start goal : Location) (st : SearchState)
    (hN : 2 * g.N < 2 ^ 64) (hs : g.valid start = true)
    (hinv : SearchInv g start goal st) (hopen : OpenOrExpanded g goal st none)
    (hempty : st.frontier = []) :
    ∀ (n : Nat) (p : Location), g.valid p = true → heuristic p start = n →
      ∃ c, umFind p st.cost_so_far = some c := by
  have hNlt : g.N < 2 ^ 64 := by omega
  intro n
  induction n using Nat.strong_induction_on with
  | _ n ih =>
    intro p hp hn
    by_cases e : p = start
    · rw [e]; exact ⟨0, hinv.start_cost⟩
    · obtain ⟨p2, h1, h2, h3⟩ := exists_nearer g start p hN hs hp e
      obtain ⟨c2, hc2⟩ := ih (heuristic p2 start) (by omega) p2 h1 rfl
      rcases hopen p2 c2 hc2 (by simp) with ⟨pr, _, hmem⟩ | hexp
      · rw [hempty] at hmem
        simp at hmem
      · obtain ⟨cy, hcy, _⟩ := hexp p ((mem_neighbors g p2 p hNlt h1).mpr ⟨hp, h2⟩)
        exact ⟨cy, hcy⟩

/-- The heuristic is admissible: no more than the cost of any walk to the goal. -/
theorem heuristic_admissible (g : SquareGrid) (goal : Location) (hg : GridOK g)
    (hN : 2 * g.N < 2 ^ 64) (hgoal : g.valid goal = true) :
    ∀ (q : List Location) (v : Location), g.valid v = true → List.Chain IsNeighbor4 v q →
      (∀ p ∈ q, g.valid p = true) → (v :: q).getLast? = some goal →
      heuristic v goal ≤ (q.map g.GetWeight).sum := by
  intro q
  induction q with
  | nil =>
    intro v _ _ _ hl
    simp only [List.getLast?_singleton, Option.some.injEq] at hl
    rw [hl, heuristic_self]
    exact Nat.zero_le _
  | cons y q ih =>
    intro v hv hch hval hl
    rw [List.getLast?_cons_cons] at hl
    rw [List.chain_cons] at hch
    have hy := hval y (List.mem_cons_self _ _)
    have h1 := ih y hy hch.2 (fun p hp => hval p (List.mem_cons_of_mem _ hp)) hl
    have h2 := heuristic_step g v y goal hN hv hy hgoal hch.1
    have h3 := (getWeight_ok g hg y hy).1
    simp only [List.map_cons, List.sum_cons]
    omega

/-- Along a walk to the goal from a location with a cost, either the goal has a
cost no more than that of the walk, or the frontier holds an element whose
priority is no more than it. -/
theorem walk_bound (g : SquareGrid) (start goal : Location) (st : SearchState) (hg : GridOK g)
    (hN : 2 * g.N < 2 ^ 64) (hgoal : g.valid goal = true)
    (hinv : SearchInv g start goal st) (hopen : OpenOrExpanded g goal st none) :
    ∀ (q : List Location) (v : Location) (c : Nat), umFind v st.cost_so_far = some c →
      List.Chain IsNeighbor4 v q → (∀ p ∈ q, g.valid p = true) →
      (v :: q).getLast? = some goal →
      (∃ cl, umFind goal st.cost_so_far = some cl ∧ cl ≤ c + (q.map g.GetWeight).sum) ∨
        (∃ e, e ∈ st.frontier ∧ e.1 ≤ c + (q.map g.GetWeight).sum) := by
  have hNlt : g.N < 2 ^ 64 := by omega
  intro q
  induction q with
  | nil =>
    intro v c hv _ _ hl
    simp only [List.getLast?_singleton, Option.some.injEq] at hl
    subst hl
    exact Or.inl ⟨c, hv, Nat.le_add_right _ _⟩
  | cons y q ih =>
    intro v c hv hch hval hl
    have hvv := hinv.keys_valid v c hv
    rcases hopen v c hv (by simp) with ⟨pr, hpr, hmem⟩ | hexp
    · have := heuristic_admissible g goal hg hN hgoal (y :: q) v hvv hch hval hl
      exact Or.inr ⟨(pr, v), hmem, by simp only; omega⟩
    · rw [List.getLast?_cons_cons] at hl
      rw [List.chain_cons] at hch
      have hy := hval y (List.mem_cons_self _ _)
      obtain ⟨cy, hcy, hle⟩ := hexp y ((mem_neighbors g v y hNlt hvv).mpr ⟨hy, hch.1⟩)
      simp only [List.map_cons, List.sum_cons]
      rcases ih y cy hcy hch.2 (fun p hp => hval p (List.mem_cons_of_mem _ hp)) hl with
        ⟨cl, h1, h2⟩ | ⟨e, h1, h2⟩
      · exact Or.inl ⟨cl, h1, by omega⟩
      · exact Or.inr ⟨e, h1, by omega⟩

theorem isPath_walk {g : SquareGrid} {start goal : Location} {q : List Location}
    (h : IsPath g start goal q) :
    ∃ r, q = start :: r ∧ List.Chain IsNeighbor4 start r ∧ (∀ p ∈ r, g.valid p = true) ∧
      (start :: r).getLast? = some goal ∧ pathCost g q = (r.map g.GetWeight).sum := by
  obtain ⟨h1, h2, h3, h4⟩ := h
  cases q with
  | nil => simp at h1
  | cons a r =>
    simp only [List.head?_cons, Option.some.injEq] at h1
    subst h1
    exact ⟨r, rfl, h4, fun p hp => h3 p (List.mem_cons_of_mem _ hp), h2, rfl⟩

/-- With fuel above the measure the search loop ends, and it leaves the goal
with a cost that is no more than the cost of any path. -/
theorem searchLoop_spec (g : SquareGrid) (start goal : Location) (hg : GridOK g)
    (hN : 255 * (g.N * g.N) + 2 * g.N < 2 ^ 64) (hs : g.valid start = true)
    (hgoal : g.valid goal = true) :
    ∀ (fuel : Nat) (st : SearchState), SearchInv g start goal st →
      OpenOrExpanded g goal st none → searchMeasure g st < fuel →
      ∃ st2, searchLoop g goal fuel st = some st2 ∧ SearchInv g start goal st2 ∧
        ∃ cg, umFind goal st2.cost_so_far = some cg ∧
          ∀ q, IsPath g start goal q → cg ≤ pathCost g q := by
  intro fuel
  induction fuel with
  | zero =>
    intro st _ _ h
    omega
  | succ fuel ih =>
    intro st hinv hopen hm
    unfold searchLoop
    cases htop : frontierTop st.frontier with
    | none =>
      simp only
      have hempty := frontierTop_none htop
      obtain ⟨cg, hcg⟩ := all_set_of_empty g start goal st (by omega) hs hinv hopen hempty
        _ goal hgoal rfl
      refine ⟨st, rfl, hinv, cg, hcg, ?_⟩
      intro q hq
      obtain ⟨r, _, h1, h2, h3, h4⟩ := isPath_walk hq
      rw [h4]
      rcases walk_bound g start goal st hg (by omega) hgoal hinv hopen r start 0
        hinv.start_cost h1 h2 h3 with ⟨cl, h5, h6⟩ | ⟨e, h5, _⟩
      · rw [hcg] at h5
        have := Option.some.inj h5
        omega
      · rw [hempty] at h5
        simp at h5
    | some top =>
      simp only
      obtain ⟨hmem, hmin⟩ := frontierTop_some htop
      by_cases e : top.2 = goal
      · rw [if_pos e]
        obtain ⟨cg, hcg, hle⟩ := hinv.entries top hmem
        rw [e] at hcg
        refine ⟨_, rfl, ⟨hinv.start_cost, hinv.keys_nodup, hinv.keys_valid, hinv.bound,
          hinv.chain, fun x hx => hinv.entries x (List.mem_of_mem_erase hx)⟩, cg, hcg, ?_⟩
        intro q hq
        obtain ⟨r, _, h1, h2, h3, h4⟩ := isPath_walk hq
        rw [h4]
        rcases walk_bound g start goal st hg (by omega) hgoal hinv hopen r start 0
          hinv.start_cost h1 h2 h3 with ⟨cl, h5, h6⟩ | ⟨x, h5, h6⟩
        · rw [hcg] at h5
          have := Option.some.inj h5
          omega
        · have := hmin x h5
          omega
      · rw [if_neg e]
        obtain ⟨h1, h2, h3⟩ := round_inv g start goal st top hg hN hgoal hinv hopen hmem
        exact ih _ h1 h2 (by omega)

/-- The second loop of `ComputePath`: with fuel above the cost of `x` it walks
`came_from` back to `start`, and what it puts before `x` is a path from `start`
to `x` that costs no more than `x` does. -/
theorem tracePath_spec (g : SquareGrid) (start goal : Location) (st : SearchState)
    (hg : GridOK g) (hinv : SearchInv g start goal st) :
    ∀ (c : Nat) (x : Location) (fuel : Nat) (acc : List Location),
      umFind x st.cost_so_far = some c → c < fuel →
      ∃ pre, tracePath start st.came_from fuel x (x :: acc) = some (pre ++ x :: acc) ∧
        IsPath g start x (pre ++ [x]) ∧ pathCost g (pre ++ [x]) ≤ c := by
  intro c
  induction c using Nat.strong_induction_on with
  | _ c ih =>
    intro x fuel acc hx hf
    have hvx := hinv.keys_valid x c hx
    cases fuel with
    | zero => omega
    | succ fuel =>
      unfold tracePath
      by_cases e : x = start
      · rw [if_pos e]
        refine ⟨[], rfl, ⟨by simp [e], by simp, ?_, by simp⟩, by simp [pathCost]⟩
        intro p hp
        simp only [List.nil_append, List.mem_singleton] at hp
        rw [hp]; exact hvx
      · rw [if_neg e]
        obtain ⟨p, cp, h1, h2, h3, h4, h5⟩ := hinv.chain x c hx e
        have hw := (getWeight_ok g hg x hvx).1
        obtain ⟨pre, h6, h7, h8⟩ := ih cp (by omega) p fuel (x :: acc) h2 (by omega)
        simp only [h1, Option.getD_some]
        refine ⟨pre ++ [p], by rw [h6]; simp, ?_, ?_⟩
        · obtain ⟨a1, a2, a3, a4⟩ := h7
          refine ⟨?_, by simp, ?_, ?_⟩
          · rw [List.head?_append_of_ne_nil _ (by simp)]
            exact a1
          · intro y hy
            rcases List.mem_append.mp hy with hy | hy
            · exact a3 y hy
            · simp only [List.mem_singleton] at hy
              rw [hy]; exact hvx
          · refine List.Chain'.append a4 (by simp) ?_
            intro u hu v hv
            rw [a2] at hu
            simp only [Option.mem_def, Option.some.injEq, List.head?_cons] at hu hv
            rw [← hu, ← hv]
            exact h5
        · have : pathCost g (pre ++ [p] ++ [x]) = pathCost g (pre ++ [p]) + g.GetWeight x := by
            simp only [pathCost]
            rw [List.tail_append_of_ne_nil (by simp)]
            simp
          omega

/-- C40 (A* returns a cheapest path): on a grid of `N` rows of `N` weights, all
at least 1, small enough for the costs not to wrap, with `start` and `goal`
inside the grid, `ComputePath` ends (fuel of `fuelBound N` is enough for its two
loops) and returns a sequence of locations of the grid that begins with `start`,
ends with `goal`, in which each location is a 4-neighbour of its predecessor,
and whose cost is no more than that of any such sequence; for `start = goal` it
returns the single location. -/
theorem C40_astar_cheapest_path (g : SquareGrid) (start goal : Location) (fuel : Nat)
    (hg : GridOK g) (hN : 255 * (g.N * g.N) + 2 * g.N < 2 ^ 64)
    (hs : g.valid start = true) (hgoal : g.valid goal = true)
    (hfuel : fuelBound g.N ≤ fuel) :
    ∃ path, g.ComputePath fuel start goal = some path ∧ IsPath g start goal path ∧
      (∀ q, IsPath g start goal q → pathCost g path ≤ pathCost g q) ∧
      (start = goal → path = [start]) := by
  obtain ⟨hi1, hi2⟩ := searchInv_init g start goal hs
  have hpos : 1 ≤ g.N * g.N := by
    have := (valid_iff g start).mp hs
    exact Nat.mul_pos (by omega) (by omega)
  have hK : 255 * (g.N * g.N) + 1 ≤ g.N * g.N * (255 * (g.N * g.N) + 1) :=
    Nat.le_mul_of_pos_left _ hpos
  have hm0 : searchMeasure g ⟨[(0, start)], [(start, start)], [(start, 0)]⟩ < fuel := by
    have e1 : (g.N * g.N - 1) * (255 * (g.N * g.N) + 1)
        ≤ g.N * g.N * (255 * (g.N * g.N) + 1) := Nat.mul_le_mul_right _ (Nat.sub_le _ _)
    simp only [searchMeasure, List.length_singleton, List.map_cons, List.map_nil,
      List.sum_cons, List.sum_nil]
    simp only [fuelBound] at hfuel
    omega
  obtain ⟨st2, h1, h2, cg, h3, h4⟩ :=
    searchLoop_spec g start goal hg hN hs hgoal fuel _ hi1 hi2 hm0
  have hb := h2.bound goal cg h3
  have hlen := keys_length_le g st2.cost_so_far h2.keys_nodup h2.keys_valid
  have hcf : cg < fuel := by
    simp only [fuelBound] at hfuel
    omega
  obtain ⟨pre, h5, h6, h7⟩ := tracePath_spec g start goal st2 hg h2 cg goal fuel [] h3 hcf
  have hcp : g.ComputePath fuel start goal = some (pre ++ [goal]) := by
    unfold SquareGrid.ComputePath
    rw [hs, hgoal]
    simp only [Bool.not_true, Bool.or_self, Bool.false_eq_true, if_false]
    rw [h1]
    exact h5
  refine ⟨pre ++ [goal], hcp, h6, fun q hq => Nat.le_trans h7 (h4 q hq), ?_⟩
  intro e
  cases fuel with
  | zero => omega
  | succ fuel =>
    unfold tracePath at h5
    rw [if_pos e.symm] at h5
    rw [← Option.some.inj h5, e]

/-- An instance of C40 on `exampleGrid`, from a corner to the far side of a wall
of weight 9. -/
theorem C40_astar_cheapest_path_witness :
    GridOK exampleGrid ∧ 255 * (exampleGrid.N * exampleGrid.N) + 2 * exampleGrid.N < 2 ^ 64 ∧
      exampleGrid.valid ⟨0, 0⟩ = true ∧ exampleGrid.valid ⟨2, 0⟩ = true ∧
      fuelBound exampleGrid.N ≤ 20666 ∧
      ∃ path, exampleGrid.ComputePath 20666 ⟨0, 0⟩ ⟨2, 0⟩ = some path ∧
        IsPath exampleGrid ⟨0, 0⟩ ⟨2, 0⟩ path ∧
        (∀ q, IsPath exampleGrid ⟨0, 0⟩ ⟨2, 0⟩ q →
          pathCost exampleGrid path ≤ pathCost exampleGrid q) ∧
        ((⟨0, 0⟩ : Location) = ⟨2, 0⟩ → path = [⟨0, 0⟩]) :=
  ⟨by decide, by decide, by decide, by decide, by decide,
    C40_astar_cheapest_path exampleGrid ⟨0, 0⟩ ⟨2, 0⟩ 20666 (by decide) (by decide)
      (by decide) (by decide) (by decide)⟩

/-- C8, counterexample.  A connection with a listener, whose counter is 0,
receives the unreliable packets numbered 0, 32768 and 0 again: the first is
accepted (counter 1), the second is accepted (counter 32769), and the copy of
the first is accepted and delivered once more, as `lt (0, 32769)` is false. -/
theorem C8_redelivery_counterexample :
    exampleEstabedListener.m_state = .STATE_ESTABED ∧
    exampleEstabedListener.m_listener = true ∧
    exampleEstabedListener.m_unreliable_incoming_sequence = 0 ∧
    lt 0 32769 = false ∧
    (runEstabed exampleEstabedListener
        [unreliablePacket 0 [104], unreliablePacket 32768 [105], unreliablePacket 0 [104]]).2
      = [Event.OnIncomingData [104], Event.OnIncomingData [105], Event.OnIncomingData [104]] := by
  decide

theorem lt_succ_of_not_lt (a b : Nat) (h : lt a b = false) :
    lt b ((a + 1) % 65536) = true := by
  simp only [lt, toInt16, decide_eq_true_eq, decide_eq_false_iff_not] at h ⊢
  omega

/-! ## C29, C31, C32: more than `2^15` packets outstanding -/

theorem mem_mapEmplace_of_mem {α : Type} (k : Nat) (v : α) (m : List (Nat × α)) (e : Nat × α)
    (h : e ∈ m) : e ∈ mapEmplace k v m := by
  induction m with
  | nil => simp at h
  | cons x rest ih =>
    obtain ⟨k1, v1⟩ := x
    simp only [mapEmplace]
    split
    · exact List.mem_cons_of_mem _ h
    · split
      · rcases List.mem_cons.mp h with h | h
        · rw [h]; exact List.mem_cons_self _ _
        · exact List.mem_cons_of_mem _ (ih h)
      · exact h

theorem send_reliable_estabed (c : Connection) (data : Buffer)
    (hs : c.m_state = .STATE_ESTABED) :
    (c.Send data true).1 =
      { c with
        m_reliable_outgoing_sequence := (c.m_reliable_outgoing_sequence + 1) % 65536
        m_reliable_retransmission_queue :=
          mapEmplace c.m_reliable_outgoing_sequence
            ⟨RETX_INTERVAL, RETX_COUNT,
              Header.bytes ⟨c.m_reliable_outgoing_sequence, 0, FLAG_RLB, data.length⟩ ++ data⟩
            c.m_reliable_retransmission_queue } := by
  simp [Connection.Send, hs]

/-- Reliable `Send`s on an established connection: the state and the latest legal
`ACK` stay, the outgoing sequence number advances by one each time modulo
`2^16`, and no entry leaves the retransmission queue. -/
theorem sends_counters (data : Buffer) :
    ∀ (n : Nat) (c : Connection), c.m_state = .STATE_ESTABED →
      (runConnection c (List.replicate n (ConnectionCall.Send data true))).1.m_state
          = .STATE_ESTABED ∧
        (runConnection c (List.replicate n
            (ConnectionCall.Send data true))).1.m_reliable_latest_legal_ack
          = c.m_reliable_latest_legal_ack ∧
        (runConnection c (List.replicate n
            (ConnectionCall.Send data true))).1.m_reliable_outgoing_sequence % 65536
          = (c.m_reliable_outgoing_sequence + n) % 65536 ∧
        (c.m_reliable_outgoing_sequence < 65536 →
          (runConnection c (List.replicate n
            (ConnectionCall.Send data true))).1.m_reliable_outgoing_sequence < 65536) ∧
        ∀ e ∈ c.m_reliable_retransmission_queue,
          e ∈ (runConnection c (List.replicate n
            (ConnectionCall.Send data true))).1.m_reliable_retransmission_queue := by
  intro n
  induction n with
  | zero =>
    intro c hs
    exact ⟨hs, rfl, rfl, fun h => h, fun e he => he⟩
  | succ n ih =>
    intro c hs
    have e1 : (runConnection c (List.replicate (n + 1) (ConnectionCall.Send data true))).1
        = (runConnection (c.Send data true).1
            (List.replicate n (ConnectionCall.Send data true))).1 := rfl
    rw [e1]
    have hsend := send_reliable_estabed c data hs
    have hs1 : (c.Send data true).1.m_state = .STATE_ESTABED := by rw [hsend]; exact hs
    obtain ⟨a1, a2, a3, a4, a5⟩ := ih (c.Send data true).1 hs1
    refine ⟨a1, ?_, ?_, fun _ => ?_, fun e he => ?_⟩
    · rw [a2, hsend]
    · rw [a3, hsend]
      simp only
      omega
    · apply a4
      rw [hsend]
      exact Nat.mod_lt _ (by norm_num)
    · apply a5
      rw [hsend]
      exact mem_mapEmplace_of_mem _ _ _ _ he

theorem runConnection_cons_fst (c : Connection) (x : ConnectionCall)
    (rest : List ConnectionCall) :
    (runConnection c (x :: rest)).1 = (runConnection (c.call x).1 rest).1 := rfl

theorem exampleConnected_facts :
    exampleConnected.m_state = .STATE_ESTABED ∧
    exampleConnected.m_reliable_retransmission_queue = [] ∧
    exampleConnected.m_reliable_outgoing_sequence = 42 ∧
    exampleConnected.m_reliable_latest_legal_ack = 42 := by
  decide

/-- C31, counterexample.  The client completes the handshake (outgoing sequence
number and latest legal `ACK` 42, empty queue) and the application sends 65536
reliable packets before any `ACK` arrives.  The outgoing sequence number has
wrapped to 42 and equals the latest legal `ACK`, yet the queue still holds the key
42 of the first packet: the queue is not empty, and for no `oldest` do the keys
lie within `oldest`, ..., `outgoing - 1` modulo `2^16`, a range that never holds
the outgoing sequence number itself. -/
theorem C31_wrapped_window_counterexample :
    exampleConnected.m_state = .STATE_ESTABED ∧
    exampleConnected.m_reliable_retransmission_queue = [] ∧
    (runConnection exampleConnected (reliableSends 65536)).1.m_state = .STATE_ESTABED ∧
    (runConnection exampleConnected (reliableSends 65536)).1.m_reliable_outgoing_sequence = 42 ∧
    (runConnection exampleConnected (reliableSends 65536)).1.m_reliable_latest_legal_ack = 42 ∧
    42 ∈ retxKeys
      (runConnection exampleConnected (reliableSends 65536)).1.m_reliable_retransmission_queue ∧
    (runConnection exampleConnected (reliableSends 65536)).1.m_reliable_retransmission_queue
      ≠ [] ∧
    ¬ ∃ oldest, ∀ k ∈ retxKeys
        (runConnection exampleConnected (reliableSends 65536)).1.m_reliable_retransmission_queue,
      k ∈ seqRange oldest (seqOffset oldest
        (runConnection exampleConnected (reliableSends 65536)).1.m_reliable_outgoing_sequence) := by
  obtain ⟨f1, f2, f3, f4⟩ := exampleConnected_facts
  have e0 : reliableSends 65536
      = ConnectionCall.Send [1] true :: List.replicate 65535 (ConnectionCall.Send [1] true) :=
    List.replicate_succ _ 65535
  have e1 : (runConnection exampleConnected (reliableSends 65536)).1
      = (runConnection (exampleConnected.Send [1] true).1
          (List.replicate 65535 (ConnectionCall.Send [1] true))).1 := by
    rw [e0, runConnection_cons_fst]
    rfl
  have hsend := send_reliable_estabed exampleConnected [1] f1
  have hs1 : (exampleConnected.Send [1] true).1.m_state = .STATE_ESTABED := by
    rw [hsend]; exact f1
  obtain ⟨a1, a2, a3, a4, a5⟩ := sends_counters [1] 65535 (exampleConnected.Send [1] true).1 hs1
  have ho1 : (exampleConnected.Send [1] true).1.m_reliable_outgoing_sequence = 43 := by
    rw [hsend, f3]
  have hl1 : (exampleConnected.Send [1] true).1.m_reliable_latest_legal_ack = 42 := by
    rw [hsend]; exact f4
  have hout : (runConnection exampleConnected (reliableSends 65536)).1.m_reliable_outgoing_sequence
      = 42 := by
    rw [e1]
    have b1 := a4 (by rw [ho1]; norm_num)
    rw [ho1] at a3
    omega
  have hkey : 42 ∈ retxKeys
      (runConnection exampleConnected (reliableSends 65536)).1.m_reliable_retransmission_queue := by
    rw [e1]
    have hq : (42, (⟨RETX_INTERVAL, RETX_COUNT,
          Header.bytes ⟨42, 0, FLAG_RLB, 1⟩ ++ [1]⟩ : RetransmissionInfo))
        ∈ (exampleConnected.Send [1] true).1.m_reliable_retransmission_queue := by
      rw [hsend, f2, f3]
      simp [mapEmplace]
    exact List.mem_map.mpr ⟨_, a5 _ hq, rfl⟩
  refine ⟨f1, f2, ?_, hout, ?_, hkey, ?_, ?_⟩
  · rw [e1]; exact a1
  · rw [e1, a2, hl1]
  · intro hnil
    rw [hnil] at hkey
    simp [retxKeys] at hkey
  · rintro ⟨oldest, h⟩
    obtain ⟨i, hi, e⟩ := mem_seqRange _ _ _ (h 42 hkey)
    rw [hout] at hi
    simp only [seqOffset] at hi
    omega

/-- C32, counterexample.  After the handshake (latest legal `ACK` 42) the
application sends 32769 reliable packets before any `ACK` arrives: the connection
is established, and `m_reliable_latest_legal_ack`, still 42, is greater than
`m_reliable_outgoing_sequence`, now 32811, in the wraparound order. -/
theorem C32_ack_exceeds_counterexample :
    exampleConnected.m_state = .STATE_ESTABED ∧
    (runConnection exampleConnected (reliableSends 32769)).1.m_state = .STATE_ESTABED ∧
    (runConnection exampleConnected (reliableSends 32769)).1.m_reliable_latest_legal_ack = 42 ∧
    (runConnection exampleConnected (reliableSends 32769)).1.m_reliable_outgoing_sequence
      = 32811 ∧
    gt (runConnection exampleConnected (reliableSends 32769)).1.m_reliable_latest_legal_ack
      (runConnection exampleConnected (reliableSends 32769)).1.m_reliable_outgoing_sequence
        = true := by
  obtain ⟨f1, f2, f3, f4⟩ := exampleConnected_facts
  obtain ⟨a1, a2, a3, a4, _⟩ := sends_counters [1] 32769 exampleConnected f1
  have hout : (runConnection exampleConnected (reliableSends 32769)).1.m_reliable_outgoing_sequence
      = 32811 := by
    have b1 := a4 (by rw [f3]; norm_num)
    rw [f3] at a3
    show (runConnection exampleConnected
      (List.replicate 32769 (ConnectionCall.Send [1] true))).1.m_reliable_outgoing_sequence = _
    omega
  have hlat : (runConnection exampleConnected (reliableSends 32769)).1.m_reliable_latest_legal_ack
      = 42 := by
    show (runConnection exampleConnected
      (List.replicate 32769 (ConnectionCall.Send [1] true))).1.m_reliable_latest_legal_ack = _
    rw [a2, f4]
  refine ⟨f1, a1, hlat, hout, ?_⟩
  rw [hout, hlat]
  decide

theorem sentQueue_succ (first n : Nat) :
    sentQueue first (n + 1)
      = (first % 65536, (⟨RETX_INTERVAL, RETX_COUNT,
          Header.bytes ⟨first % 65536, 0, FLAG_RLB, 1⟩ ++ [1]⟩ : RetransmissionInfo))
        :: sentQueue (first + 1) n := by
  simp only [sentQueue, List.range_succ_eq_map, List.map_cons, List.map_map, Nat.add_zero]
  congr 1
  apply List.map_congr_left
  intro i _
  simp only [Function.comp, Nat.succ_eq_add_one]
  have : (first + (i + 1)) % 65536 = (first + 1 + i) % 65536 := by omega
  rw [this]

/-- A zero-length `ACK` that is not beyond what was sent and differs from the
latest legal `ACK`: the queue loses its leading entries below `acknum`. -/
theorem state_estabed_ack_queue (c : Connection) (env : Env) (raddr : Address)
    (packet : Buffer) (hm : c.m_master = true → c.m_raddr = raddr)
    (ha : IsAck (Header.read packet)) (hl : (Header.read packet).length = 0)
    (hgt : gt (Header.read packet).acknum c.m_reliable_outgoing_sequence = false)
    (heq : eq (Header.read packet).acknum c.m_reliable_latest_legal_ack = false) :
    (state_estabed c env raddr packet).1.m_reliable_retransmission_queue
      = eraseBelow (Header.read packet).acknum c.m_reliable_retransmission_queue := by
  rw [state_estabed_ack c env raddr packet hm ha hl]
  simp only [hgt, heq, Bool.false_and, Bool.false_eq_true, if_false]

theorem state_estabed_reliable_data (c : Connection) (env : Env) (raddr : Address)
    (packet : Buffer) (hm : c.m_master = true → c.m_raddr = raddr)
    (hf : IsReliableData (Header.read packet)) (hl : (Header.read packet).length ≠ 0) :
    state_estabed c env raddr packet =
      if ge (Header.read packet).seqnum c.m_reliable_lowest_acceptable_sequence then
        ({ c with
            m_reliable_incoming_queue := c.m_reliable_incoming_queue
              ++ (deliverLoop c.m_listener c.m_reliable_lowest_acceptable_sequence
                (mapEmplace (Header.read packet).seqnum packet
                  c.m_reliable_reassembly_list)).2.1
            m_reliable_reassembly_list :=
              (deliverLoop c.m_listener c.m_reliable_lowest_acceptable_sequence
                (mapEmplace (Header.read packet).seqnum packet
                  c.m_reliable_reassembly_list)).2.2.1
            m_reliable_lowest_acceptable_sequence :=
              (deliverLoop c.m_listener c.m_reliable_lowest_acceptable_sequence
                (mapEmplace (Header.read packet).seqnum packet
                  c.m_reliable_reassembly_list)).2.2.2 },
          (deliverLoop c.m_listener c.m_reliable_lowest_acceptable_sequence
              (mapEmplace (Header.read packet).seqnum packet c.m_reliable_reassembly_list)).1
            ++ send_ack raddr
              (deliverLoop c.m_listener c.m_reliable_lowest_acceptable_sequence
                (mapEmplace (Header.read packet).seqnum packet
                  c.m_reliable_reassembly_list)).2.2.2)
      else (c, send_ack raddr c.m_reliable_lowest_acceptable_sequence) := by
  obtain ⟨h1, h2, h3, h4, h5, h6, h7⟩ := hf
  have hm2 : (c.m_master && decide (c.m_raddr ≠ raddr)) = false := by
    cases hmm : c.m_master
    · rfl
    · simp [hm hmm]
  unfold state_estabed
  simp only [hm2, h1, h2, h3, h4, h5, h6, h7, hl, ne_eq, not_true_eq_false, not_false_eq_true,
    if_true, if_false, Bool.false_eq_true]

theorem deliverLoop_rest :
    ∀ (list : List (Nat × Buffer)) (current : Nat),
      (deliverLoop false current list).2.2.1
        = list.drop (deliverLoop false current list).2.1.length := by
  intro list
  induction list with
  | nil => intro current; rfl
  | cons x rest ih =>
    intro current
    obtain ⟨k, pkt⟩ := x
    by_cases c : k = current
    · subst c
      simp only [deliverLoop, ne_eq, not_true_eq_false, if_false, Bool.false_eq_true,
        List.length_cons, List.drop_succ_cons]
      exact ih _
    · simp [deliverLoop, c]

theorem deliverLoop_current :
    ∀ (list : List (Nat × Buffer)) (current : Nat), current < 65536 →
      (deliverLoop false current list).2.2.2
        = (current + (deliverLoop false current list).2.1.length) % 65536 := by
  intro list
  induction list with
  | nil =>
    intro current h
    simp only [deliverLoop, List.length_nil, Nat.add_zero]
    omega
  | cons x rest ih =>
    intro current h
    obtain ⟨k, pkt⟩ := x
    by_cases c : k = current
    · subst c
      simp only [deliverLoop, ne_eq, not_true_eq_false, if_false, Bool.false_eq_true,
        List.length_cons]
      rw [ih _ (Nat.mod_lt _ (by norm_num))]
      omega
    · simp only [deliverLoop, ne_eq, c, not_false_eq_true, if_true, List.length_nil,
        Nat.add_zero]
      omega

theorem storedPacket_append_miss (k : Nat) (pre list : List (Nat × Buffer))
    (h : ∀ e ∈ pre, e.1 ≠ k) : storedPacket k (pre ++ list) = storedPacket k list := by
  induction pre with
  | nil => rfl
  | cons x rest ih =>
    have hx : (x.1 == k) = false := by simpa using h x (List.mem_cons_self _ _)
    have := ih (fun e he => h e (List.mem_cons_of_mem _ he))
    simp only [storedPacket, List.cons_append, List.find?_cons, hx] at this ⊢
    exact this

theorem storedPacket_miss (k : Nat) (list : List (Nat × Buffer))
    (h : ∀ e ∈ list, e.1 ≠ k) : storedPacket k list = none := by
  have := storedPacket_append_miss k list [] h
  rw [List.append_nil] at this
  rw [this]
  rfl

theorem storedPacket_cons_self (k : Nat) (pkt : Buffer) (rest : List (Nat × Buffer)) :
    storedPacket k ((k, pkt) :: rest) = some pkt := by
  simp [storedPacket]

theorem storedPacket_cons_ne (k k1 : Nat) (pkt : Buffer) (rest : List (Nat × Buffer))
    (h : k1 ≠ k) : storedPacket k ((k1, pkt) :: rest) = storedPacket k rest := by
  have hx : (k1 == k) = false := by simpa using h
  simp [storedPacket, List.find?_cons, hx]

/-- Without a listener the payloads that the receive loop appends to the incoming
queue are those the reassembly map holds under `current`, `current + 1`, ...,
up to the first number missing. -/
theorem deliverLoop_contiguous (base : Nat) :
    ∀ (list pre : List (Nat × Buffer)) (d n : Nat),
      (∀ e ∈ pre, e.1 < 65536 ∧ seqOffset base e.1 < d) →
      (∀ e ∈ list, e.1 < 65536 ∧ d ≤ seqOffset base e.1 ∧ seqOffset base e.1 ≤ 32767) →
      list.Pairwise (fun a b => seqOffset base a.1 < seqOffset base b.1) →
      d ≤ 32768 → list.length ≤ n →
      (deliverLoop false ((base + d) % 65536) list).2.1
        = contiguousPayloads (pre ++ list) n ((base + d) % 65536) := by
  intro list
  induction list with
  | nil =>
    intro pre d n hpre _ _ hd _
    have hmiss : storedPacket ((base + d) % 65536) (pre ++ []) = none := by
      apply storedPacket_miss
      intro e he
      rw [List.append_nil] at he
      have := hpre e he
      simp only [seqOffset] at this
      omega
    cases n with
    | zero => rfl
    | succ n => simp only [deliverLoop, contiguousPayloads, hmiss]
  | cons x rest ih =>
    intro pre d n hpre hlist hpair hd hn
    obtain ⟨k, pkt⟩ := x
    have hx := hlist (k, pkt) (List.mem_cons_self _ _)
    rw [List.pairwise_cons] at hpair
    have hpremiss : ∀ e ∈ pre, e.1 ≠ (base + d) % 65536 := by
      intro e he
      have := hpre e he
      simp only [seqOffset] at this
      omega
    cases n with
    | zero => simp at hn
    | succ n =>
      simp only [List.length_cons, Nat.add_le_add_iff_right] at hn
      by_cases c : k = (base + d) % 65536
      · have hoff : seqOffset base k = d := by
          simp only [seqOffset] at hx ⊢
          omega
        have e1 : pre ++ (k, pkt) :: rest = (pre ++ [(k, pkt)]) ++ rest := by simp
        have hrec := ih (pre ++ [(k, pkt)]) (d + 1) n
          (by
            intro e he
            rcases List.mem_append.mp he with he | he
            · have := hpre e he
              exact ⟨this.1, by omega⟩
            · simp only [List.mem_singleton] at he
              rw [he]
              exact ⟨hx.1, by simp only; omega⟩)
          (by
            intro e he
            have a := hlist e (List.mem_cons_of_mem _ he)
            have b := hpair.1 e he
            simp only at b
            exact ⟨a.1, by omega, a.2.2⟩)
          hpair.2 (by omega) hn
        have hcur : ((base + d) % 65536 + 1) % 65536 = (base + (d + 1)) % 65536 := by omega
        have hfound : storedPacket ((base + d) % 65536) (pre ++ (k, pkt) :: rest) = some pkt := by
          rw [storedPacket_append_miss _ _ _ hpremiss, c]
          exact storedPacket_cons_self _ _ _
        rw [contiguousPayloads, hfound]
        simp only
        rw [hcur, e1, ← hrec]
        subst c
        simp only [deliverLoop, ne_eq, not_true_eq_false, if_false, Bool.false_eq_true]
        rw [hcur]
      · have hoff : d < seqOffset base k := by
          simp only [seqOffset] at hx ⊢
          omega
        have hnone : storedPacket ((base + d) % 65536) (pre ++ (k, pkt) :: rest) = none := by
          rw [storedPacket_append_miss _ _ _ hpremiss]
          apply storedPacket_miss
          intro e he
          rcases List.mem_cons.mp he with he | he
          · rw [he]; exact c
          · have a := hlist e (List.mem_cons_of_mem _ he)
            have b := hpair.1 e he
            simp only [seqOffset] at a b hoff
            simp only [seqOffset] at *
            omega
        rw [contiguousPayloads, hnone]
        simp [deliverLoop, c]

/-- What `emplace` does to the reassembly map, by lookup: the new packet is held
under its sequence number unless a packet was held there already, which stays;
every other number holds what it held. -/
theorem storedPacket_mapEmplace (low k : Nat) (pkt : Buffer) (hk : k < 65536)
    (hoff : seqOffset low k ≤ 32767) :
    ∀ (list : List (Nat × Buffer)), ReasmSorted low list → ∀ k2,
      storedPacket k2 (mapEmplace k pkt list)
        = if k2 = k then some ((storedPacket k list).getD pkt) else storedPacket k2 list := by
  intro list
  induction list with
  | nil =>
    intro _ k2
    by_cases e : k2 = k
    · subst e
      simp [mapEmplace, storedPacket]
    · rw [if_neg e]
      simp only [mapEmplace]
      exact storedPacket_cons_ne _ _ _ _ (Ne.symm e)
  | cons x rest ih =>
    intro h k2
    obtain ⟨k1, v1⟩ := x
    obtain ⟨h1, h2⟩ := h
    have hx := h1 (k1, v1) (List.mem_cons_self _ _)
    rw [List.pairwise_cons] at h2
    have hrest : ReasmSorted low rest :=
      ⟨fun e he => h1 e (List.mem_cons_of_mem _ he), h2.2⟩
    simp only [mapEmplace]
    split
    · rename_i hlt
      have hlt2 := (lt_iff_seqOffset low k k1 hk hx.1 hoff hx.2.2).mp hlt
      have hnone : storedPacket k ((k1, v1) :: rest) = none := by
        apply storedPacket_miss
        intro e he
        rcases List.mem_cons.mp he with he | he
        · rw [he]
          intro e2
          simp only at e2
          rw [e2] at hlt2
          omega
        · have := h2.1 e he
          intro e2
          rw [e2] at this
          simp only at this
          omega
      by_cases e : k2 = k
      · subst e
        rw [if_pos rfl, hnone, storedPacket_cons_self]
        rfl
      · rw [if_neg e]
        exact storedPacket_cons_ne _ _ _ _ (Ne.symm e)
    · rename_i hnlt
      split
      · rename_i hlt
        have hlt2 := (lt_iff_seqOffset low k1 k hx.1 hk hx.2.2 hoff).mp hlt
        have hne : k1 ≠ k := by
          intro e2
          rw [e2] at hlt2
          omega
        by_cases e : k2 = k1
        · subst e
          rw [storedPacket_cons_self, if_neg hne, storedPacket_cons_self]
        · rw [storedPacket_cons_ne _ _ _ _ (Ne.symm e), ih hrest k2,
            storedPacket_cons_ne _ _ _ _ hne, storedPacket_cons_ne _ _ _ _ (Ne.symm e)]
      · rename_i hnlt2
        have heq : k1 = k := by
          have a : ¬ seqOffset low k < seqOffset low k1 := fun hh =>
            hnlt ((lt_iff_seqOffset low k k1 hk hx.1 hoff hx.2.2).mpr hh)
          have b : ¬ seqOffset low k1 < seqOffset low k := fun hh =>
            hnlt2 ((lt_iff_seqOffset low k1 k hx.1 hk hx.2.2 hoff).mpr hh)
          exact (seqOffset_eq_iff low k1 k hx.1 hk).mp (by omega)
        subst heq
        by_cases e : k2 = k1
        · subst e
          rw [if_pos rfl, storedPacket_cons_self]
          rfl
        · rw [if_neg e]

/-- No packet is lost by the receive loop: a packet that the reassembly map
holds is still held after the loop, or its payload is among those appended to
the incoming queue. -/
theorem deliverLoop_kept :
    ∀ (list : List (Nat × Buffer)) (current k2 : Nat) (p : Buffer),
      storedPacket k2 list = some p →
      storedPacket k2 (deliverLoop false current list).2.2.1 = some p ∨
        payloadOf p ∈ (deliverLoop false current list).2.1 := by
  intro list
  induction list with
  | nil =>
    intro current k2 p h
    simp [storedPacket] at h
  | cons x rest ih =>
    intro current k2 p h
    obtain ⟨k, pkt⟩ := x
    by_cases c : k = current
    · subst c
      simp only [deliverLoop, ne_eq, not_true_eq_false, if_false, Bool.false_eq_true]
      by_cases e : k = k2
      · subst e
        rw [storedPacket_cons_self] at h
        rw [← Option.some.inj h]
        exact Or.inr (List.mem_cons_self _ _)
      · rw [storedPacket_cons_ne _ _ _ _ e] at h
        rcases ih ((k + 1) % 65536) k2 p h with h1 | h1
        · exact Or.inl h1
        · exact Or.inr (List.mem_cons_of_mem _ h1)
    · left
      simp only [deliverLoop, ne_eq, c, not_false_eq_true, if_true]
      exact h

/-- One reliable data packet on an established connection without a listener
(step form of C11): a packet below the lowest acceptable number changes nothing;
otherwise the packet is put in the reassembly map, the payloads held there under
the lowest acceptable number and the numbers that follow it are appended to the
incoming queue, in that order, these entries leave the map and the lowest
acceptable number advances by their count; nothing is given to a listener. -/
theorem state_estabed_enqueue (c : Connection) (env : Env) (raddr : Address) (packet : Buffer)
    (hlis : c.m_listener = false) (hinv : ReliableInv c)
    (hm : c.m_master = true → c.m_raddr = raddr)
    (hf : IsReliableData (Header.read packet)) (hl : (Header.read packet).length ≠ 0) :
    (ge (Header.read packet).seqnum c.m_reliable_lowest_acceptable_sequence = false →
      (state_estabed c env raddr packet).1 = c) ∧
    (ge (Header.read packet).seqnum c.m_reliable_lowest_acceptable_sequence = true →
      (state_estabed c env raddr packet).1.m_reliable_incoming_queue
        = c.m_reliable_incoming_queue
          ++ contiguousPayloads
              (mapEmplace (Header.read packet).seqnum packet c.m_reliable_reassembly_list)
              (mapEmplace (Header.read packet).seqnum packet c.m_reliable_reassembly_list).length
              c.m_reliable_lowest_acceptable_sequence ∧
      (state_estabed c env raddr packet).1.m_reliable_reassembly_list
        = (mapEmplace (Header.read packet).seqnum packet c.m_reliable_reassembly_list).drop
            (contiguousPayloads
              (mapEmplace (Header.read packet).seqnum packet c.m_reliable_reassembly_list)
              (mapEmplace (Header.read packet).seqnum packet c.m_reliable_reassembly_list).length
              c.m_reliable_lowest_acceptable_sequence).length ∧
      (state_estabed c env raddr packet).1.m_reliable_lowest_acceptable_sequence
        = (c.m_reliable_lowest_acceptable_sequence
            + (contiguousPayloads
              (mapEmplace (Header.read packet).seqnum packet c.m_reliable_reassembly_list)
              (mapEmplace (Header.read packet).seqnum packet c.m_reliable_reassembly_list).length
              c.m_reliable_lowest_acceptable_sequence).length) % 65536 ∧
      (∀ k2, storedPacket k2
          (mapEmplace (Header.read packet).seqnum packet c.m_reliable_reassembly_list)
        = if k2 = (Header.read packet).seqnum then
            some ((storedPacket (Header.read packet).seqnum c.m_reliable_reassembly_list).getD
              packet)
          else storedPacket k2 c.m_reliable_reassembly_list) ∧
      (∀ k2 p, storedPacket k2
          (mapEmplace (Header.read packet).seqnum packet c.m_reliable_reassembly_list) = some p →
        storedPacket k2 (state_estabed c env raddr packet).1.m_reliable_reassembly_list = some p ∨
          payloadOf p ∈ contiguousPayloads
            (mapEmplace (Header.read packet).seqnum packet c.m_reliable_reassembly_list)
            (mapEmplace (Header.read packet).seqnum packet c.m_reliable_reassembly_list).length
            c.m_reliable_lowest_acceptable_sequence)) ∧
    incomingData (state_estabed c env raddr packet).2 = [] := by
  have hstep := state_estabed_reliable_data c env raddr packet hm hf hl
  have hseq := header_seqnum_lt packet
  refine ⟨fun hge => ?_, fun hge => ?_, ?_⟩
  · rw [hstep, hge]
    rfl
  · have hoff : seqOffset c.m_reliable_lowest_acceptable_sequence (Header.read packet).seqnum
        ≤ 32767 := by
      have hlow := hinv.1
      simp only [ge, toInt16, decide_eq_true_eq, seqOffset] at hge ⊢
      omega
    have hsorted := mapEmplace_sorted c.m_reliable_lowest_acceptable_sequence
      (Header.read packet).seqnum packet c.m_reliable_reassembly_list hseq rfl hoff hinv.2.1
    have hcur : (c.m_reliable_lowest_acceptable_sequence + 0) % 65536
        = c.m_reliable_lowest_acceptable_sequence := by
      have := hinv.1
      omega
    have hcont := deliverLoop_contiguous c.m_reliable_lowest_acceptable_sequence
      (mapEmplace (Header.read packet).seqnum packet c.m_reliable_reassembly_list) [] 0
      (mapEmplace (Header.read packet).seqnum packet c.m_reliable_reassembly_list).length
      (by simp) (fun e he => ⟨(hsorted.1 e he).1, Nat.zero_le _, (hsorted.1 e he).2.2⟩)
      hsorted.2 (by omega) (Nat.le_refl _)
    rw [hcur, List.nil_append] at hcont
    rw [hstep, if_pos hge, hlis]
    refine ⟨?_, ?_, ?_, ?_, ?_⟩
    · show c.m_reliable_incoming_queue ++ (deliverLoop false _ _).2.1 = _
      rw [hcont]
    · show (deliverLoop false _ _).2.2.1 = _
      rw [← hcont]
      exact deliverLoop_rest _ _
    · show (deliverLoop false _ _).2.2.2 = _
      rw [← hcont]
      exact deliverLoop_current _ _ hinv.1
    · exact storedPacket_mapEmplace c.m_reliable_lowest_acceptable_sequence _ packet hseq hoff _
        hinv.2.1
    · intro k2 p hp
      show storedPacket k2 (deliverLoop false _ _).2.2.1 = some p ∨ _
      rw [← hcont]
      exact deliverLoop_kept _ _ k2 p hp
  · exact ((state_estabed_mailboxStep c env raddr packet).1 hlis).1

theorem ge_self (k : Nat) : ge k k = true := by
  simp [ge, toInt16]

/-- Reliable packets that arrive in order on an established connection without
a listener and with an empty reassembly map: every payload is appended to the
incoming queue, in the order of arrival. -/
theorem runEstabed_inOrder (env : Env) (raddr : Address) :
    ∀ (datas : List Buffer) (c : Connection),
      c.m_state = .STATE_ESTABED → c.m_listener = false →
      (c.m_master = true → c.m_raddr = raddr) →
      c.m_reliable_lowest_acceptable_sequence < 65536 → c.m_reliable_reassembly_list = [] →
      (∀ data ∈ datas, data ≠ [] ∧ data.length < 65536) →
      (runEstabed c
          (inOrderPackets env raddr c.m_reliable_lowest_acceptable_sequence datas)).1
        = { c with
            m_reliable_incoming_queue := c.m_reliable_incoming_queue ++ datas
            m_reliable_lowest_acceptable_sequence :=
              (c.m_reliable_lowest_acceptable_sequence + datas.length) % 65536 } := by
  intro datas
  induction datas with
  | nil =>
    intro c _ _ _ hlow _ _
    simp only [inOrderPackets, runEstabed, List.append_nil, List.length_nil, Nat.add_zero,
      Nat.mod_eq_of_lt hlow]
  | cons data rest ih =>
    intro c hs hlis hm hlow hre hd
    obtain ⟨hne, hlen⟩ := hd data (List.mem_cons_self _ _)
    have hread : Header.read
        (Header.bytes ⟨c.m_reliable_lowest_acceptable_sequence, 0, FLAG_RLB, data.length⟩ ++ data)
        = ⟨c.m_reliable_lowest_acceptable_sequence, 0, FLAG_RLB, data.length⟩ := by
      rw [Header.read_bytes_append]
      simp only [Nat.mod_eq_of_lt hlow, Nat.mod_eq_of_lt hlen, Header.mk.injEq, true_and]
      decide
    have hf : IsReliableData (Header.read
        (Header.bytes ⟨c.m_reliable_lowest_acceptable_sequence, 0, FLAG_RLB, data.length⟩
          ++ data)) := by
      rw [hread]
      unfold IsReliableData
      dsimp only
      decide
    have hl : (Header.read
        (Header.bytes ⟨c.m_reliable_lowest_acceptable_sequence, 0, FLAG_RLB, data.length⟩
          ++ data)).length ≠ 0 := by
      rw [hread]
      simp only
      intro h0
      exact hne (List.length_eq_zero.mp h0)
    have hpay : payloadOf
        (Header.bytes ⟨c.m_reliable_lowest_acceptable_sequence, 0, FLAG_RLB, data.length⟩ ++ data)
        = data := payloadOf_bytes_append _ _ (Nat.mod_eq_of_lt hlen)
    have hst : (state_estabed c env raddr
        (Header.bytes ⟨c.m_reliable_lowest_acceptable_sequence, 0, FLAG_RLB, data.length⟩
          ++ data)).1
        = { c with
            m_reliable_incoming_queue := c.m_reliable_incoming_queue ++ [data]
            m_reliable_lowest_acceptable_sequence :=
              (c.m_reliable_lowest_acceptable_sequence + 1) % 65536 } := by
      rw [state_estabed_reliable_data c env raddr _ hm hf hl, hread]
      simp only [ge_self, if_true]
      rw [hlis, hre]
      simp only [mapEmplace, deliverLoop, ne_eq, not_true_eq_false, if_false,
        Bool.false_eq_true, hpay]
    have e : (runEstabed c
        (inOrderPackets env raddr c.m_reliable_lowest_acceptable_sequence (data :: rest))).1
        = (runEstabed (state_estabed c env raddr
              (Header.bytes ⟨c.m_reliable_lowest_acceptable_sequence, 0, FLAG_RLB, data.length⟩
                ++ data)).1
            (inOrderPackets env raddr ((c.m_reliable_lowest_acceptable_sequence + 1) % 65536)
              rest)).1 := by
      simp [runEstabed, inOrderPackets, hs]
    rw [e, hst]
    have hrec := ih
      { c with
        m_reliable_incoming_queue := c.m_reliable_incoming_queue ++ [data]
        m_reliable_lowest_acceptable_sequence :=
          (c.m_reliable_lowest_acceptable_sequence + 1) % 65536 }
      hs hlis hm (Nat.mod_lt _ (by norm_num)) hre
      (fun d hd2 => hd d (List.mem_cons_of_mem _ hd2))
    simp only at hrec
    rw [hrec]
    have h3 : ((c.m_reliable_lowest_acceptable_sequence + 1) % 65536 + rest.length) % 65536
        = (c.m_reliable_lowest_acceptable_sequence + (data :: rest).length) % 65536 := by
      simp only [List.length_cons]
      omega
    rw [h3, List.append_assoc, List.singleton_append]

/-- Reliable packets that arrive in order on an established connection with a
listener and with an empty reassembly map: every payload is given to the
listener, in the order of arrival, and the incoming queue is not touched. -/
theorem runEstabed_inOrder_listener (env : Env) (raddr : Address) :
    ∀ (datas : List Buffer) (c : Connection),
      c.m_state = .STATE_ESTABED → c.m_listener = true →
      (c.m_master = true → c.m_raddr = raddr) →
      c.m_reliable_lowest_acceptable_sequence < 65536 → c.m_reliable_reassembly_list = [] →
      (∀ data ∈ datas, data ≠ [] ∧ data.length < 65536) →
      (runEstabed c
          (inOrderPackets env raddr c.m_reliable_lowest_acceptable_sequence datas)).1
        = { c with
            m_reliable_lowest_acceptable_sequence :=
              (c.m_reliable_lowest_acceptable_sequence + datas.length) % 65536 } ∧
      incomingData (runEstabed c
          (inOrderPackets env raddr c.m_reliable_lowest_acceptable_sequence datas)).2
        = datas := by
  intro datas
  induction datas with
  | nil =>
    intro c _ _ _ hlow _ _
    refine ⟨?_, rfl⟩
    simp only [inOrderPackets, runEstabed, List.length_nil, Nat.add_zero,
      Nat.mod_eq_of_lt hlow]
  | cons data rest ih =>
    intro c hs hlis hm hlow hre hd
    obtain ⟨hne, hlen⟩ := hd data (List.mem_cons_self _ _)
    have hread : Header.read
        (Header.bytes ⟨c.m_reliable_lowest_acceptable_sequence, 0, FLAG_RLB, data.length⟩ ++ data)
        = ⟨c.m_reliable_lowest_acceptable_sequence, 0, FLAG_RLB, data.length⟩ := by
      rw [Header.read_bytes_append]
      simp only [Nat.mod_eq_of_lt hlow, Nat.mod_eq_of_lt hlen, Header.mk.injEq, true_and]
      decide
    have hf : IsReliableData (Header.read
        (Header.bytes ⟨c.m_reliable_lowest_acceptable_sequence, 0, FLAG_RLB, data.length⟩
          ++ data)) := by
      rw [hread]
      unfold IsReliableData
      dsimp only
      decide
    have hl : (Header.read
        (Header.bytes ⟨c.m_reliable_lowest_acceptable_sequence, 0, FLAG_RLB, data.length⟩
          ++ data)).length ≠ 0 := by
      rw [hread]
      simp only
      intro h0
      exact hne (List.length_eq_zero.mp h0)
    have hpay : payloadOf
        (Header.bytes ⟨c.m_reliable_lowest_acceptable_sequence, 0, FLAG_RLB, data.length⟩ ++ data)
        = data := payloadOf_bytes_append _ _ (Nat.mod_eq_of_lt hlen)
    have hst : state_estabed c env raddr
        (Header.bytes ⟨c.m_reliable_lowest_acceptable_sequence, 0, FLAG_RLB, data.length⟩
          ++ data)
        = ({ c with
            m_reliable_lowest_acceptable_sequence :=
              (c.m_reliable_lowest_acceptable_sequence + 1) % 65536 },
          [Event.deliverable c.m_reliable_lowest_acceptable_sequence data,
            Event.OnIncomingData data]
            ++ send_ack raddr ((c.m_reliable_lowest_acceptable_sequence + 1) % 65536)) := by
      rw [state_estabed_reliable_data c env raddr _ hm hf hl, hread]
      simp only [ge_self, if_true]
      rw [hlis, hre]
      simp only [mapEmplace, deliverLoop, ne_eq, not_true_eq_false, if_false, if_true, hpay,
        hread, List.append_nil]
    have e : runEstabed c
        (inOrderPackets env raddr c.m_reliable_lowest_acceptable_sequence (data :: rest))
        = ((runEstabed (state_estabed c env raddr
              (Header.bytes ⟨c.m_reliable_lowest_acceptable_sequence, 0, FLAG_RLB, data.length⟩
                ++ data)).1
            (inOrderPackets env raddr ((c.m_reliable_lowest_acceptable_sequence + 1) % 65536)
              rest)).1,
          (state_estabed c env raddr
              (Header.bytes ⟨c.m_reliable_lowest_acceptable_sequence, 0, FLAG_RLB, data.length⟩
                ++ data)).2
            ++ (runEstabed (state_estabed c env raddr
              (Header.bytes ⟨c.m_reliable_lowest_acceptable_sequence, 0, FLAG_RLB, data.length⟩
                ++ data)).1
            (inOrderPackets env raddr ((c.m_reliable_lowest_acceptable_sequence + 1) % 65536)
              rest)).2) := by
      simp [runEstabed, inOrderPackets, hs]
    rw [e, hst]
    obtain ⟨hrec1, hrec2⟩ := ih
      { c with
        m_reliable_lowest_acceptable_sequence :=
          (c.m_reliable_lowest_acceptable_sequence + 1) % 65536 }
      hs hlis hm (Nat.mod_lt _ (by norm_num)) hre
      (fun d hd2 => hd d (List.mem_cons_of_mem _ hd2))
    simp only at hrec1 hrec2 ⊢
    rw [hrec1, incomingData_append, hrec2]
    have h3 : ((c.m_reliable_lowest_acceptable_sequence + 1) % 65536 + rest.length) % 65536
        = (c.m_reliable_lowest_acceptable_sequence + (data :: rest).length) % 65536 := by
      simp only [List.length_cons]
      omega
    rw [h3]
    exact ⟨rfl, by simp [incomingData, send_ack]⟩

/-- C11 (deferred listener mailbox).  A connection without a listener processes
the packets `inputs1`, then `Setup (listener)` is called, then it processes the
packets `inputs2`.  During the first phase nothing is given to a listener, and
while the connection stays established every reliable payload handed over is
appended to the incoming queue, in delivery order.  `Setup` gives the queued
payloads to the listener, first in first out, and leaves the queue empty with
the listener attached.  In the second phase, which comes after the calls of
`Setup`, every payload handed over goes to the listener at once and the queue
stays empty.

What is appended is fixed by the packets received, not by the loop that appends:
for one reliable data packet that is not below the lowest acceptable number, the
packet is put in the reassembly map under its number (a packet held there
already stays), and the queue grows by the payloads that the map holds under the
lowest acceptable number and the numbers that follow it, up to the first number
missing, in that order; these entries leave the map, the lowest acceptable
number advances by their count, and every packet of the map is either still held
afterwards or its payload is among those appended: none is lost.  A packet below
the lowest acceptable number changes nothing.  So reliable packets that arrive
in order with the payloads `datas1` leave the queue as it was followed by
`datas1`; `Setup` gives exactly these to the listener, in order; and packets
that then arrive in order with the payloads `datas2` give `datas2` to the
listener and leave the queue empty. -/
theorem C11_deferred_mailbox (c : Connection)
    (inputs1 inputs2 : List (Env × Address × Buffer)) (env : Env) (raddr : Address)
    (packet : Buffer) (datas1 datas2 : List Buffer) (hl : c.m_listener = false) :
    incomingData (runEstabed c inputs1).2 = [] ∧
    ((runEstabed c inputs1).1.m_state = .STATE_ESTABED →
      (runEstabed c inputs1).1.m_reliable_incoming_queue
        = c.m_reliable_incoming_queue ++ deliveredData (runEstabed c inputs1).2) ∧
    ((runEstabed c inputs1).1.Setup).2
      = (runEstabed c inputs1).1.m_reliable_incoming_queue.map Event.OnIncomingData ∧
    ((runEstabed c inputs1).1.Setup).1.m_reliable_incoming_queue = [] ∧
    ((runEstabed c inputs1).1.Setup).1.m_listener = true ∧
    deliveredAtOnce (runEstabed ((runEstabed c inputs1).1.Setup).1 inputs2).2 = true ∧
    ((runEstabed ((runEstabed c inputs1).1.Setup).1 inputs2).1.m_state = .STATE_ESTABED →
      (runEstabed ((runEstabed c inputs1).1.Setup).1 inputs2).1.m_reliable_incoming_queue = []) ∧
    (ReliableInv c → (c.m_master = true → c.m_raddr = raddr) →
      IsReliableData (Header.read packet) → (Header.read packet).length ≠ 0 →
      (ge (Header.read packet).seqnum c.m_reliable_lowest_acceptable_sequence = false →
        (state_estabed c env raddr packet).1 = c) ∧
      (ge (Header.read packet).seqnum c.m_reliable_lowest_acceptable_sequence = true →
        (state_estabed c env raddr packet).1.m_reliable_incoming_queue
          = c.m_reliable_incoming_queue
            ++ contiguousPayloads
                (mapEmplace (Header.read packet).seqnum packet c.m_reliable_reassembly_list)
                (mapEmplace (Header.read packet).seqnum packet
                  c.m_reliable_reassembly_list).length
                c.m_reliable_lowest_acceptable_sequence ∧
        (state_estabed c env raddr packet).1.m_reliable_reassembly_list
          = (mapEmplace (Header.read packet).seqnum packet c.m_reliable_reassembly_list).drop
              (contiguousPayloads
                (mapEmplace (Header.read packet).seqnum packet c.m_reliable_reassembly_list)
                (mapEmplace (Header.read packet).seqnum packet
                  c.m_reliable_reassembly_list).length
                c.m_reliable_lowest_acceptable_sequence).length ∧
        (state_estabed c env raddr packet).1.m_reliable_lowest_acceptable_sequence
          = (c.m_reliable_lowest_acceptable_sequence
              + (contiguousPayloads
                (mapEmplace (Header.read packet).seqnum packet c.m_reliable_reassembly_list)
                (mapEmplace (Header.read packet).seqnum packet
                  c.m_reliable_reassembly_list).length
                c.m_reliable_lowest_acceptable_sequence).length) % 65536 ∧
        (∀ k2, storedPacket k2
            (mapEmplace (Header.read packet).seqnum packet c.m_reliable_reassembly_list)
          = if k2 = (Header.read packet).seqnum then
              some ((storedPacket (Header.read packet).seqnum
                c.m_reliable_reassembly_list).getD packet)
            else storedPacket k2 c.m_reliable_reassembly_list) ∧
        (∀ k2 p, storedPacket k2
            (mapEmplace (Header.read packet).seqnum packet c.m_reliable_reassembly_list)
              = some p →
          storedPacket k2 (state_estabed c env raddr packet).1.m_reliable_reassembly_list
              = some p ∨
            payloadOf p ∈ contiguousPayloads
              (mapEmplace (Header.read packet).seqnum packet c.m_reliable_reassembly_list)
              (mapEmplace (Header.read packet).seqnum packet
                c.m_reliable_reassembly_list).length
              c.m_reliable_lowest_acceptable_sequence)) ∧
      incomingData (state_estabed c env raddr packet).2 = []) ∧
    (c.m_state = .STATE_ESTABED → (c.m_master = true → c.m_raddr = raddr) →
      c.m_reliable_lowest_acceptable_sequence < 65536 → c.m_reliable_reassembly_list = [] →
      (∀ data ∈ datas1, data ≠ [] ∧ data.length < 65536) →
      (∀ data ∈ datas2, data ≠ [] ∧ data.length < 65536) →
      (runEstabed c (inOrderPackets env raddr c.m_reliable_lowest_acceptable_sequence
          datas1)).1.m_reliable_incoming_queue
        = c.m_reliable_incoming_queue ++ datas1 ∧
      ((runEstabed c (inOrderPackets env raddr c.m_reliable_lowest_acceptable_sequence
          datas1)).1.Setup).2
        = (c.m_reliable_incoming_queue ++ datas1).map Event.OnIncomingData ∧
      incomingData (runEstabed
          ((runEstabed c (inOrderPackets env raddr c.m_reliable_lowest_acceptable_sequence
            datas1)).1.Setup).1
          (inOrderPackets env raddr
            ((c.m_reliable_lowest_acceptable_sequence + datas1.length) % 65536) datas2)).2
        = datas2 ∧
      (runEstabed
          ((runEstabed c (inOrderPackets env raddr c.m_reliable_lowest_acceptable_sequence
            datas1)).1.Setup).1
          (inOrderPackets env raddr
            ((c.m_reliable_lowest_acceptable_sequence + datas1.length) % 65536)
            datas2)).1.m_reliable_incoming_queue = []) := by
  have s1 := (runEstabed_mailbox inputs1 c).1 hl
  have s2 := (runEstabed_mailbox inputs2 ((runEstabed c inputs1).1.Setup).1).2 rfl
  refine ⟨s1.1, fun h => (s1.2 h).2, rfl, rfl, rfl, s2.1, fun h => (s2.2 h).2, ?_, ?_⟩
  · intro hinv hm hf hlen
    exact state_estabed_enqueue c env raddr packet hl hinv hm hf hlen
  · intro hs hm hlow hre hd1 hd2
    have h1 := runEstabed_inOrder env raddr datas1 c hs hl hm hlow hre hd1
    rw [h1]
    obtain ⟨h2, h3⟩ := runEstabed_inOrder_listener env raddr datas2
      (Connection.Setup { c with
        m_reliable_incoming_queue := c.m_reliable_incoming_queue ++ datas1
        m_reliable_lowest_acceptable_sequence :=
          (c.m_reliable_lowest_acceptable_sequence + datas1.length) % 65536 }).1
      hs rfl hm (Nat.mod_lt _ (by norm_num)) hre hd2
    refine ⟨rfl, rfl, h3, ?_⟩
    have h4 : (Connection.Setup { c with
        m_reliable_incoming_queue := c.m_reliable_incoming_queue ++ datas1
        m_reliable_lowest_acceptable_sequence :=
          (c.m_reliable_lowest_acceptable_sequence + datas1.length)
            % 65536 }).1.m_reliable_lowest_acceptable_sequence
        = (c.m_reliable_lowest_acceptable_sequence + datas1.length) % 65536 := rfl
    rw [h4] at h2
    rw [h2]
    rfl

/-- An instance of C11.  The connection `exampleHolding` has no listener and
holds the packet 1; when the packet 0 arrives the queue grows by the payloads of
the packets 0 and 1, in that order.  And on `exampleEstabed` the packets 0 and 1
in order leave `[10]`, `[11]` in the queue, `Setup` gives these to the listener,
and the packet 2 that follows gives `[12]` to the listener. -/
theorem C11_deferred_mailbox_witness :
    exampleHolding.m_listener = false ∧ ReliableInv exampleHolding ∧
    exampleHolding.m_reliable_incoming_queue = [] ∧
    storedPacket 1 exampleHolding.m_reliable_reassembly_list = some (reliablePacket 1 [11]).2.2 ∧
    IsReliableData (Header.read (reliablePacket 0 [10]).2.2) ∧
    (Header.read (reliablePacket 0 [10]).2.2).length ≠ 0 ∧
    ge (Header.read (reliablePacket 0 [10]).2.2).seqnum
      exampleHolding.m_reliable_lowest_acceptable_sequence = true ∧
    contiguousPayloads
        (mapEmplace (Header.read (reliablePacket 0 [10]).2.2).seqnum (reliablePacket 0 [10]).2.2
          exampleHolding.m_reliable_reassembly_list)
        (mapEmplace (Header.read (reliablePacket 0 [10]).2.2).seqnum (reliablePacket 0 [10]).2.2
          exampleHolding.m_reliable_reassembly_list).length
        exampleHolding.m_reliable_lowest_acceptable_sequence
      = [[10], [11]] ∧
    (state_estabed exampleHolding ⟨0, 0, 0, 0, 0⟩ "10.0.0.2:4000"
        (reliablePacket 0 [10]).2.2).1.m_reliable_incoming_queue
      = exampleHolding.m_reliable_incoming_queue
        ++ contiguousPayloads
            (mapEmplace (Header.read (reliablePacket 0 [10]).2.2).seqnum
              (reliablePacket 0 [10]).2.2 exampleHolding.m_reliable_reassembly_list)
            (mapEmplace (Header.read (reliablePacket 0 [10]).2.2).seqnum
              (reliablePacket 0 [10]).2.2 exampleHolding.m_reliable_reassembly_list).length
            exampleHolding.m_reliable_lowest_acceptable_sequence ∧
    (runEstabed exampleEstabed (inOrderPackets ⟨0, 0, 0, 0, 0⟩ "10.0.0.2:4000"
        exampleEstabed.m_reliable_lowest_acceptable_sequence
        [[10], [11]])).1.m_reliable_incoming_queue
      = exampleEstabed.m_reliable_incoming_queue ++ [[10], [11]] ∧
    incomingData (runEstabed
        ((runEstabed exampleEstabed (inOrderPackets ⟨0, 0, 0, 0, 0⟩ "10.0.0.2:4000"
          exampleEstabed.m_reliable_lowest_acceptable_sequence [[10], [11]])).1.Setup).1
        (inOrderPackets ⟨0, 0, 0, 0, 0⟩ "10.0.0.2:4000"
          ((exampleEstabed.m_reliable_lowest_acceptable_sequence + [[10], [11]].length) % 65536)
          [[12]])).2
      = [[12]] :=
  ⟨by decide, by decide, by decide, by decide, by decide, by decide, by decide, by decide,
    (((C11_deferred_mailbox exampleHolding [] [] ⟨0, 0, 0, 0, 0⟩ "10.0.0.2:4000"
      (reliablePacket 0 [10]).2.2 [] [] (by decide)).2.2.2.2.2.2.2.1
        (by decide) (fun h => by cases h) (by decide) (by decide)).2.1 (by decide)).1,
    ((C11_deferred_mailbox exampleEstabed [] [] ⟨0, 0, 0, 0, 0⟩ "10.0.0.2:4000"
      [] [[10], [11]] [[12]] (by decide)).2.2.2.2.2.2.2.2
        (by decide) (fun h => by cases h) (by decide) (by decide) (by decide) (by decide)).1,
    ((C11_deferred_mailbox exampleEstabed [] [] ⟨0, 0, 0, 0, 0⟩ "10.0.0.2:4000"
      [] [[10], [11]] [[12]] (by decide)).2.2.2.2.2.2.2.2
        (by decide) (fun h => by cases h) (by decide) (by decide) (by decide)
        (by decide)).2.2.1⟩

theorem counterStep_ite (c : Connection) (packet : Buffer) (p : Prop) [Decidable p]
    (a b : Connection × List Event) (ha : p → CounterStep c packet a)
    (hb : ¬ p → CounterStep c packet b) : CounterStep c packet (if p then a else b) := by
  split
  · exact ha ‹_›
  · exact hb ‹_›

theorem state_estabed_counterStep (c : Connection) (env : Env) (raddr : Address)
    (packet : Buffer) : CounterStep c packet (state_estabed c env raddr packet) := by
  unfold state_estabed
  dsimp only
  repeat' (apply counterStep_ite <;> intro _)
  all_goals first
    | exact Or.inr ⟨rfl, rfl, rfl, Or.inl rfl⟩
    | exact Or.inl rfl
    | skip
  · refine Or.inr ⟨rfl, rfl, rfl, Or.inr ⟨⟨?_, ?_, ?_, ?_, ?_, ?_, ?_, ?_⟩, rfl⟩⟩
    · exact not_not.mp ‹¬ (Header.read packet).pflags &&& FLAG_RST ≠ 0›
    · exact not_not.mp ‹¬ (Header.read packet).pflags &&& FLAG_PIN ≠ 0›
    · exact not_not.mp ‹¬ (Header.read packet).pflags &&& FLAG_PON ≠ 0›
    · exact not_not.mp ‹¬ (Header.read packet).pflags &&& FLAG_BWP ≠ 0›
    · exact not_not.mp ‹¬ (Header.read packet).pflags &&& FLAG_BWR ≠ 0›
    · exact not_not.mp ‹¬ (Header.read packet).pflags &&& FLAG_ACK ≠ 0›
    · exact not_not.mp ‹¬ (Header.read packet).pflags &&& FLAG_RLB ≠ 0›
    · exact ‹¬ (Header.read packet).length = 0›

/-- A run of packets of any kind on an established connection whose counter is
above the sequence number `s2`, none of the unreliable data packets among them
being below `s2`: the connection is reset, or it is still established with the
same addresses and its counter is above `s2`. -/
theorem runEstabed_counter (s2 : Nat) :
    ∀ (later : List (Env × Address × Buffer)) (c : Connection),
      c.m_state = .STATE_ESTABED →
      lt s2 c.m_unreliable_incoming_sequence = true →
      (∀ x ∈ later, IsUnreliableData (Header.read x.2.2) →
        lt (Header.read x.2.2).seqnum s2 = false) →
      (runEstabed c later).1 = Connection.new c.m_master ∨
        ((runEstabed c later).1.m_state = .STATE_ESTABED ∧
          (runEstabed c later).1.m_master = c.m_master ∧
          (runEstabed c later).1.m_raddr = c.m_raddr ∧
          lt s2 (runEstabed c later).1.m_unreliable_incoming_sequence = true) := by
  intro later
  induction later with
  | nil =>
    intro c hs h _
    exact Or.inr ⟨hs, rfl, rfl, h⟩
  | cons x rest ih =>
    intro c hs h hn
    have e : (runEstabed c (x :: rest)).1
        = (runEstabed (state_estabed c x.1 x.2.1 x.2.2).1 rest).1 := by
      simp [runEstabed, hs]
    rw [e]
    rcases state_estabed_counterStep c x.1 x.2.1 x.2.2 with hr | ⟨h1, h2, h3, h4⟩
    · left
      rw [runEstabed_not_estabed _ rest (by rw [hr]; simp [Connection.new]), hr]
    · have hlt : lt s2 (state_estabed c x.1 x.2.1 x.2.2).1.m_unreliable_incoming_sequence
          = true := by
        rcases h4 with h4 | ⟨hd, h4⟩
        · rw [h4]; exact h
        · rw [h4]
          exact lt_succ_of_not_lt _ _ (hn x (List.mem_cons_self _ _) hd)
      rcases ih (state_estabed c x.1 x.2.1 x.2.2).1 (by rw [h1]; exact hs) hlt
        (fun y hy => hn y (List.mem_cons_of_mem _ hy)) with hr | ⟨a1, a2, a3, a4⟩
      · left
        rw [hr, h2]
      · exact Or.inr ⟨a1, by rw [a2, h2], by rw [a3, h3], a4⟩

theorem incomingData_closed (master : Bool) (env : Env) (raddr : Address) (packet : Buffer) :
    incomingData ((Connection.new master).fsm env raddr packet).2 = [] := by
  simp only [Connection.fsm, Connection.new, state_closed]
  split <;> rfl

/-- C8, amended (unreliable receive path).  In `STATE_ESTABED`, for a data packet
of the peer without the `RLB` flag and with a payload: when its `seqnum` is below
`m_unreliable_incoming_sequence` in the wraparound order, nothing is delivered
and the connection is unchanged; otherwise the counter becomes `seqnum + 1`
modulo `2^16`, nothing else changes, and the payload is handed at once to the
attached listener.  Hence, right after a packet was accepted, a second copy of
it, and any packet below the new counter, is dropped.  And after any packets
`later` that the connection processes next, whatever their kind, a packet
`packet2` that the accepted packet is not below (a second copy of it, or an
older one) is not delivered, as long as none of the unreliable data packets among
`later` is below `packet2` in the wraparound order: if the connection is still
established, `packet2` is dropped and the connection is unchanged. -/
theorem C8_unreliable_receive (c : Connection) (env env2 : Env) (raddr : Address)
    (packet packet2 : Buffer) (later : List (Env × Address × Buffer))
    (hs : c.m_state = .STATE_ESTABED) (hm : c.m_master = true → c.m_raddr = raddr)
    (hd : IsUnreliableData (Header.read packet))
    (hd2 : IsUnreliableData (Header.read packet2)) :
    (lt (Header.read packet).seqnum c.m_unreliable_incoming_sequence = true →
      c.fsm env raddr packet = (c, [])) ∧
    (lt (Header.read packet).seqnum c.m_unreliable_incoming_sequence = false →
      c.fsm env raddr packet =
        ({ c with m_unreliable_incoming_sequence := ((Header.read packet).seqnum + 1) % 65536 },
          if c.m_listener then [Event.OnIncomingData (payloadOf packet)] else []) ∧
      ((c.fsm env raddr packet).1.fsm env2 raddr packet).2 = [] ∧
      (lt (Header.read packet2).seqnum (((Header.read packet).seqnum + 1) % 65536) = true →
        (c.fsm env raddr packet).1.fsm env2 raddr packet2 = ((c.fsm env raddr packet).1, [])) ∧
      (lt (Header.read packet).seqnum (Header.read packet2).seqnum = false →
        (∀ x ∈ later, IsUnreliableData (Header.read x.2.2) →
          lt (Header.read x.2.2).seqnum (Header.read packet2).seqnum = false) →
        incomingData
            ((runEstabed (c.fsm env raddr packet).1 later).1.fsm env2 raddr packet2).2 = [] ∧
        ((runEstabed (c.fsm env raddr packet).1 later).1.m_state = .STATE_ESTABED →
          (runEstabed (c.fsm env raddr packet).1 later).1.fsm env2 raddr packet2
            = ((runEstabed (c.fsm env raddr packet).1 later).1, [])))) := by
  have e := Connection.fsm_estabed c env raddr packet hs
  rw [e, state_estabed_unreliable c env raddr packet hm hd]
  refine ⟨fun hdrop => by rw [if_pos hdrop], fun h => ?_⟩
  rw [if_neg (by rw [h]; decide)]
  have key : ∀ p, IsUnreliableData (Header.read p) →
      lt (Header.read p).seqnum (((Header.read packet).seqnum + 1) % 65536) = true →
      Connection.fsm { c with m_unreliable_incoming_sequence :=
          ((Header.read packet).seqnum + 1) % 65536 } env2 raddr p
        = ({ c with m_unreliable_incoming_sequence :=
          ((Header.read packet).seqnum + 1) % 65536 }, []) := by
    intro p hp hlt
    exact unreliable_drop _ env2 raddr p hs hm hp hlt
  refine ⟨rfl, ?_, fun h2 => key packet2 hd2 h2, fun h3 h4 => ?_⟩
  · rw [key packet hd (lt_succ_self _)]
  · rcases runEstabed_counter (Header.read packet2).seqnum later
      { c with m_unreliable_incoming_sequence := ((Header.read packet).seqnum + 1) % 65536 }
      hs (lt_succ_of_not_lt _ _ h3) h4 with hr | ⟨r1, r2, r3, r4⟩
    · rw [hr]
      refine ⟨incomingData_closed _ _ _ _, fun hst => ?_⟩
      simp [Connection.new] at hst
    · have hm2 : (runEstabed { c with m_unreliable_incoming_sequence :=
          ((Header.read packet).seqnum + 1) % 65536 } later).1.m_master = true →
          (runEstabed { c with m_unreliable_incoming_sequence :=
            ((Header.read packet).seqnum + 1) % 65536 } later).1.m_raddr = raddr := by
        rw [r2, r3]; exact hm
      have hdrop := unreliable_drop _ env2 raddr packet2 r1 hm2 hd2 r4
      exact ⟨by rw [hdrop]; rfl, fun _ => hdrop⟩

/-- An instance of C8, amended: the connection with a listener accepts the
unreliable packet 5; then the unreliable packet 9, the reliable packet 0 and the
unreliable packet 6 arrive; an older packet 3 that comes afterwards is dropped. -/
theorem C8_unreliable_receive_witness :
    exampleEstabedListener.m_state = .STATE_ESTABED ∧
    exampleEstabedListener.m_listener = true ∧
    IsUnreliableData (Header.read (unreliablePacket 5 [104, 105]).2.2) ∧
    IsUnreliableData (Header.read (unreliablePacket 3 [7]).2.2) ∧
    lt (Header.read (unreliablePacket 5 [104, 105]).2.2).seqnum
      exampleEstabedListener.m_unreliable_incoming_sequence = false ∧
    lt (Header.read (unreliablePacket 5 [104, 105]).2.2).seqnum
      (Header.read (unreliablePacket 3 [7]).2.2).seqnum = false ∧
    (runEstabed (exampleEstabedListener.fsm ⟨0, 0, 0, 0, 0⟩ "10.0.0.2:4000"
        (unreliablePacket 5 [104, 105]).2.2).1
      [unreliablePacket 9 [1], reliablePacket 0 [10], unreliablePacket 6 [2]]).1.m_state
        = .STATE_ESTABED ∧
    exampleEstabedListener.fsm ⟨0, 0, 0, 0, 0⟩ "10.0.0.2:4000" (unreliablePacket 5 [104, 105]).2.2
      = ({ exampleEstabedListener with m_unreliable_incoming_sequence := 6 },
          [Event.OnIncomingData [104, 105]]) ∧
    (runEstabed (exampleEstabedListener.fsm ⟨0, 0, 0, 0, 0⟩ "10.0.0.2:4000"
        (unreliablePacket 5 [104, 105]).2.2).1
      [unreliablePacket 9 [1], reliablePacket 0 [10],
        unreliablePacket 6 [2]]).1.fsm ⟨0, 0, 0, 0, 0⟩ "10.0.0.2:4000"
        (unreliablePacket 3 [7]).2.2
      = ((runEstabed (exampleEstabedListener.fsm ⟨0, 0, 0, 0, 0⟩ "10.0.0.2:4000"
          (unreliablePacket 5 [104, 105]).2.2).1
        [unreliablePacket 9 [1], reliablePacket 0 [10], unreliablePacket 6 [2]]).1, []) :=
  ⟨rfl, rfl, by decide, by decide, by decide, by decide, by decide,
    ((C8_unreliable_receive exampleEstabedListener ⟨0, 0, 0, 0, 0⟩ ⟨0, 0, 0, 0, 0⟩
      "10.0.0.2:4000" (unreliablePacket 5 [104, 105]).2.2 (unreliablePacket 3 [7]).2.2
      [unreliablePacket 9 [1], reliablePacket 0 [10], unreliablePacket 6 [2]]
      rfl (fun h => by cases h) (by decide) (by decide)).2 (by decide)).1,
    ((((C8_unreliable_receive exampleEstabedListener ⟨0, 0, 0, 0, 0⟩ ⟨0, 0, 0, 0, 0⟩
      "10.0.0.2:4000" (unreliablePacket 5 [104, 105]).2.2 (unreliablePacket 3 [7]).2.2
      [unreliablePacket 9 [1], reliablePacket 0 [10], unreliablePacket 6 [2]]
      rfl (fun h => by cases h) (by decide) (by decide)).2 (by decide)).2.2.2
        (by decide) (by decide)).2 (by decide))⟩

end Demo
